import Mathlib

/-!
SUBAS two-pass assembler: shallow embedding and verified properties

The development embeds the translation pipeline of the assembler
(`lexer.c`, `tables.c`, `symtab.c` over `utils/hash.c`, `semantic.c`,
`codegen.c`, and the phase sequencing of `main.c`) as executable Lean
definitions, and proves properties of them.

Conventions of the embedding:

* a C string is a list of bytes read as memory followed by a NUL (`CStr`): the
  string functions stop at the first zero byte or at the end of the list, and
  a copy keeps the bytes before it; copies into the fixed buffers of the
  records (`mnemonic[32]`, `label[128]`, `name[128]`) are modelled for strings
  that fit;
* `u32` values are natural numbers; arithmetic that can exceed 32 bits is
  reduced modulo `2^32` explicitly;
* the process-wide error sink is the list of `(line, code)` reports in the
  order of the `error_report` calls; the formatted text is not modelled;
* a read of the token array at an index that is not below `token_count`, and a
  string operation on a NULL lexeme, are faults (`Fault`): the C program has no
  defined behaviour there;
* `util_malloc` is assumed to succeed.
-/

namespace Subas

/-! ## utils/string.c -/

/-- C string: bytes in memory, terminated by the first zero byte or by the end
of the list. -/
abbrev CStr := List Nat

/-- Bytes of a Lean string literal (used for ASCII literals only). -/
def cstr (s : String) : CStr := s.toList.map Char.toNat

/-- Length of a C string: the number of bytes before the terminator. -/
def util_strlen : CStr → Nat
  | [] => 0
  | c :: rest => if c = 0 then 0 else util_strlen rest + 1

/-- Result of `util_strcpy` and of `util_strdup`: the bytes before the
terminator. -/
def util_strcpy : CStr → CStr
  | [] => []
  | c :: rest => if c = 0 then [] else c :: util_strcpy rest

/-- Byte-wise comparison: advance while `*s1 != 0 && *s1 == *s2`, then return
the difference of the two current bytes (as `unsigned char`). -/
def util_strcmp : CStr → CStr → Int
  | [], [] => 0
  | [], b :: _ => 0 - (b : Int)
  | a :: _, [] => (a : Int)
  | a :: as, b :: bs =>
    if a ≠ 0 ∧ a = b then util_strcmp as bs else (a : Int) - (b : Int)

/-! ## error.h / error.c -/

def ERR_NONE : Nat := 0
def ERR_LEX_INVALID_CHAR : Nat := 1001
def ERR_LEX_UNCLOSED_STR : Nat := 1002
def ERR_LEX_INVALID_NUM : Nat := 1003
def ERR_PARSE_EXPECTED_OP : Nat := 2001
def ERR_PARSE_INVALID_REG : Nat := 2002
def ERR_PARSE_UNK_MNEMONIC : Nat := 2003
def ERR_PARSE_DUP_LABEL : Nat := 2004
def ERR_PARSE_UNDEFINED_LBL : Nat := 2005
def ERR_SYS_OUT_OF_MEM : Nat := 3001
def ERR_SYS_FILE_IO : Nat := 3002

/-- One call of `error_report(line_num, code, detail)`; the detail text is
diagnostic formatting and is not kept. -/
structure ErrorReport where
  line : Nat
  code : Nat
deriving DecidableEq, Repr

/-- The error sink: the reports made so far, oldest first. -/
abbrev ErrorSink := List ErrorReport

/-- Value of `error_get_count` for a sink. -/
def error_get_count (sink : ErrorSink) : Nat := sink.length

/-- Value of `error_has_failed` for a sink. -/
def error_has_failed (sink : ErrorSink) : Bool := decide (0 < sink.length)

/-! ## tables.h / tables.c -/

def INSTR_MOV : Nat := 0x01
def INSTR_ADD : Nat := 0x02
def INSTR_SUB : Nat := 0x03
def INSTR_MUL : Nat := 0x04
def INSTR_DIV : Nat := 0x05
def INSTR_CMP : Nat := 0x06
def INSTR_AND : Nat := 0x07
def INSTR_OR : Nat := 0x08
def INSTR_XOR : Nat := 0x09
def INSTR_SHL : Nat := 0x0A
def INSTR_SHR : Nat := 0x0B
def INSTR_JMP : Nat := 0x10
def INSTR_JZ : Nat := 0x11
def INSTR_JNZ : Nat := 0x12
def INSTR_JC : Nat := 0x13
def INSTR_JNC : Nat := 0x14
def INSTR_LOOP : Nat := 0x15
def INSTR_PUSH : Nat := 0x20
def INSTR_POP : Nat := 0x21
def INSTR_CALL : Nat := 0x22
def INSTR_RET : Nat := 0x23
def INSTR_CLC : Nat := 0x30
def INSTR_STC : Nat := 0x31
def INSTR_INT : Nat := 0x40
def INSTR_NOP : Nat := 0x41
def PSEUDO_SEGMENT : Nat := 0x80
def PSEUDO_ENDS : Nat := 0x81
def PSEUDO_ASSUME : Nat := 0x82
def PSEUDO_ORG : Nat := 0x83
def PSEUDO_DB : Nat := 0x84
def PSEUDO_PROC : Nat := 0x85
def PSEUDO_ENDP : Nat := 0x86
def PSEUDO_END : Nat := 0x87

/-- Descriptor of one mnemonic (`InstructionInfo`; the description text is
omitted). -/
structure InstructionInfo where
  mnemonic : CStr
  type : Nat
  opcode : Nat
  operand_count : Nat
  is_pseudo : Nat
deriving DecidableEq, Repr

/-- The constant table `g_instruction_table`, in source order. -/
def g_instruction_table : List InstructionInfo :=
  [ ⟨cstr "MOV", INSTR_MOV, 0x88, 2, 0⟩,
    ⟨cstr "ADD", INSTR_ADD, 0x04, 2, 0⟩,
    ⟨cstr "SUB", INSTR_SUB, 0x2C, 2, 0⟩,
    ⟨cstr "MUL", INSTR_MUL, 0xF6, 1, 0⟩,
    ⟨cstr "DIV", INSTR_DIV, 0xF6, 1, 0⟩,
    ⟨cstr "CMP", INSTR_CMP, 0x3C, 2, 0⟩,
    ⟨cstr "AND", INSTR_AND, 0x24, 2, 0⟩,
    ⟨cstr "OR", INSTR_OR, 0x0C, 2, 0⟩,
    ⟨cstr "XOR", INSTR_XOR, 0x34, 2, 0⟩,
    ⟨cstr "SHL", INSTR_SHL, 0xD0, 1, 0⟩,
    ⟨cstr "SHR", INSTR_SHR, 0xD0, 1, 0⟩,
    ⟨cstr "JMP", INSTR_JMP, 0xEB, 1, 0⟩,
    ⟨cstr "JZ", INSTR_JZ, 0x74, 1, 0⟩,
    ⟨cstr "JNZ", INSTR_JNZ, 0x75, 1, 0⟩,
    ⟨cstr "JC", INSTR_JC, 0x72, 1, 0⟩,
    ⟨cstr "JNC", INSTR_JNC, 0x73, 1, 0⟩,
    ⟨cstr "LOOP", INSTR_LOOP, 0xE2, 1, 0⟩,
    ⟨cstr "PUSH", INSTR_PUSH, 0x50, 1, 0⟩,
    ⟨cstr "POP", INSTR_POP, 0x58, 1, 0⟩,
    ⟨cstr "CALL", INSTR_CALL, 0xE8, 1, 0⟩,
    ⟨cstr "RET", INSTR_RET, 0xC3, 0, 0⟩,
    ⟨cstr "NOP", INSTR_NOP, 0x90, 0, 0⟩,
    ⟨cstr "CLC", INSTR_CLC, 0xF8, 0, 0⟩,
    ⟨cstr "STC", INSTR_STC, 0xF9, 0, 0⟩,
    ⟨cstr "INT", INSTR_INT, 0xCD, 1, 0⟩,
    ⟨cstr "SEGMENT", PSEUDO_SEGMENT, 0x00, 0, 1⟩,
    ⟨cstr "ENDS", PSEUDO_ENDS, 0x00, 0, 1⟩,
    ⟨cstr "ASSUME", PSEUDO_ASSUME, 0x00, 1, 1⟩,
    ⟨cstr "ORG", PSEUDO_ORG, 0x00, 1, 1⟩,
    ⟨cstr "DB", PSEUDO_DB, 0x00, 1, 1⟩,
    ⟨cstr "PROC", PSEUDO_PROC, 0x00, 0, 1⟩,
    ⟨cstr "ENDP", PSEUDO_ENDP, 0x00, 0, 1⟩,
    ⟨cstr "END", PSEUDO_END, 0x00, 0, 1⟩ ]

/-- Number of table entries (`g_instruction_count`). -/
def g_instruction_count : Nat := g_instruction_table.length

/-- ASCII upper-casing of one byte. -/
def to_upper (c : Nat) : Nat :=
  if 97 ≤ c ∧ c ≤ 122 then c - 97 + 65 else c

/-- Case-insensitive comparison: while both current bytes are non-zero,
compare them upper-cased; at the end return the difference of the upper-cased
current bytes. Only whether the result is `0` is used. -/
def strcasecmp_simple : CStr → CStr → Int
  | [], [] => 0
  | [], b :: _ => 0 - (to_upper b : Int)
  | a :: _, [] => (to_upper a : Int)
  | a :: as, b :: bs =>
    if a ≠ 0 ∧ b ≠ 0 then
      if to_upper a ≠ to_upper b then (to_upper a : Int) - (to_upper b : Int)
      else strcasecmp_simple as bs
    else (to_upper a : Int) - (to_upper b : Int)

/-- Linear scan of the table; a NULL argument (`none`) finds nothing. -/
def tables_lookup_instruction (mnemonic : Option CStr) : Option InstructionInfo :=
  match mnemonic with
  | none => none
  | some m => g_instruction_table.find? (fun e => decide (strcasecmp_simple e.mnemonic m = 0))

/-- Three-valued directive test: `-1` when the spelling is not in the table. -/
def tables_is_pseudo (mnemonic : Option CStr) : Int :=
  match tables_lookup_instruction mnemonic with
  | none => -1
  | some info => (info.is_pseudo : Int)

/-- Number of entries, directives included. -/
def tables_get_instruction_count : Nat := g_instruction_count

/-- Entry by index, `none` past the end of the table. -/
def tables_get_instruction_by_index (index : Nat) : Option InstructionInfo :=
  if index ≥ g_instruction_count then none else g_instruction_table[index]?

/-! ## utils/hash.c -/

/-- `(u32)c` for a `char` widened through `s32`: bytes from 128 up are
sign-extended. -/
def char_to_u32 (c : Nat) : Nat :=
  if c < 128 then c else (c + 4294967040) % 4294967296

/-- Loop of the DJB2 hash: `hash = ((hash << 5) + hash) + c` in 32 bits, up to
the terminator. -/
def hash_loop : Nat → CStr → Nat
  | hash, [] => hash
  | hash, c :: rest =>
    if c = 0 then hash
    else hash_loop
      (((((hash * 32) % 4294967296 + hash) % 4294967296) + char_to_u32 c) % 4294967296) rest

/-- DJB2 string hash with 32-bit wrap-around. -/
def hash_string_djb2 (str : CStr) : Nat := hash_loop 5381 str

/-- One chain node: key and value (the `next` pointer is the list tail). -/
structure UtilHashNode (β : Type) where
  key : CStr
  value : β
deriving Repr

/-- Separate-chaining hash table; `element_count` is a `u32`. -/
structure UtilHashTable (β : Type) where
  buckets : List (List (UtilHashNode β))
  bucket_count : Nat
  element_count : Nat
deriving Repr

/-- Table with `bucket_count` empty buckets (1031 when `0` is asked for). -/
def util_ht_create {β : Type} (bucket_count : Nat) : UtilHashTable β :=
  let n := if bucket_count = 0 then 1031 else bucket_count
  { buckets := List.replicate n [], bucket_count := n, element_count := 0 }

/-- Walk of one chain for a key: the value of the first node whose key
compares equal. -/
def chain_lookup {β : Type} (key : CStr) : List (UtilHashNode β) → Option β
  | [] => none
  | node :: rest => if util_strcmp node.key key = 0 then some node.value else chain_lookup key rest

/-- Walk of one chain that overwrites the value of the first node whose key
compares equal. -/
def chain_update {β : Type} (key : CStr) (value : β) : List (UtilHashNode β) → List (UtilHashNode β)
  | [] => []
  | node :: rest =>
    if util_strcmp node.key key = 0 then { node with value := value } :: rest
    else node :: chain_update key value rest

/-- Lookup of a key in its bucket. -/
def util_ht_lookup {β : Type} (table : UtilHashTable β) (key : CStr) : Option β :=
  chain_lookup key (table.buckets.getD (hash_string_djb2 key % table.bucket_count) [])

/-- Insert: an existing key gets its value replaced, a new key is linked at the
head of its chain and counted. -/
def util_ht_insert {β : Type} (table : UtilHashTable β) (key : CStr) (value : β) :
    UtilHashTable β :=
  let index := hash_string_djb2 key % table.bucket_count
  let chain := table.buckets.getD index []
  match chain_lookup key chain with
  | some _ => { table with buckets := table.buckets.set index (chain_update key value chain) }
  | none =>
    { table with
      buckets := table.buckets.set index ({ key := util_strcpy key, value := value } :: chain)
      element_count := (table.element_count + 1) % 4294967296 }

/-! ## symtab.h / symtab.c -/

inductive SymbolType
  | SYM_LABEL
  | SYM_VARIABLE
  | SYM_PROCEDURE
deriving DecidableEq, Repr

/-- Symbol record (`SymbolInfo`; `extra_info` is always NULL and omitted). -/
structure SymbolInfo where
  name : CStr
  type : SymbolType
  address : Nat
  line_defined : Nat
  is_defined : Nat
deriving DecidableEq, Repr

/-- Symbol table: hash table from name to record, with its `u32` counters. -/
structure SymbolTable where
  symbols : UtilHashTable SymbolInfo
  total_symbols : Nat
  next_address : Nat
deriving Repr

def symtab_create (initial_capacity : Nat) : SymbolTable :=
  let cap := if initial_capacity = 0 then 256 else initial_capacity
  { symbols := util_ht_create cap, total_symbols := 0, next_address := 0 }

/-- Lookup of a name: `none` is the NULL result. -/
def symtab_lookup (symtab : SymbolTable) (name : CStr) : Option SymbolInfo :=
  util_ht_lookup symtab.symbols name

/-- Insert of a new symbol: status `1` and no change when the name is present,
status `0` after inserting otherwise. -/
def symtab_insert (symtab : SymbolTable) (name : CStr) (type : SymbolType)
    (address line : Nat) : Int × SymbolTable :=
  match util_ht_lookup symtab.symbols name with
  | some _ => (1, symtab)
  | none =>
    let info : SymbolInfo :=
      { name := util_strcpy name, type := type, address := address, line_defined := line,
        is_defined := 1 }
    (0, { symtab with
          symbols := util_ht_insert symtab.symbols name info
          total_symbols := (symtab.total_symbols + 1) % 4294967296 })

def symtab_update_address (symtab : SymbolTable) (name : CStr) (new_address : Nat) :
    Int × SymbolTable :=
  match util_ht_lookup symtab.symbols name with
  | none => (-1, symtab)
  | some info =>
    (0, { symtab with
          symbols := util_ht_insert symtab.symbols name { info with address := new_address } })

def symtab_mark_defined (symtab : SymbolTable) (name : CStr) : Int × SymbolTable :=
  match util_ht_lookup symtab.symbols name with
  | none => (-1, symtab)
  | some info =>
    (0, { symtab with
          symbols := util_ht_insert symtab.symbols name { info with is_defined := 1 } })

def symtab_get_symbol_count (symtab : SymbolTable) : Nat := symtab.total_symbols

/-! ## lexer.h / lexer.c -/

inductive TokenType
  | TOK_EOF
  | TOK_NEWLINE
  | TOK_IDENTIFIER
  | TOK_NUMBER
  | TOK_STRING
  | TOK_COMMA
  | TOK_COLON
  | TOK_LBRACKET
  | TOK_RBRACKET
  | TOK_LPAREN
  | TOK_RPAREN
  | TOK_PLUS
  | TOK_MINUS
  | TOK_ASTERISK
  | TOK_SLASH
  | TOK_OTHER
deriving DecidableEq, Repr

open TokenType

/-- Token: `lexeme = none` is the NULL pointer; `int_value` holds the 32-bit
pattern of the `s32` field. -/
structure Token where
  type : TokenType
  lexeme : Option CStr
  line : Nat
  int_value : Nat
deriving DecidableEq, Repr

/-- Lexer state: `buffer` holds the `len` bytes of the source copy. -/
structure Lexer where
  buffer : List Nat
  pos : Nat
  len : Nat
  line : Nat
deriving DecidableEq, Repr

def is_alpha (c : Nat) : Bool :=
  (65 ≤ c && c ≤ 90) || (97 ≤ c && c ≤ 122) || c == 95 || c == 46 || c == 36

def is_digit (c : Nat) : Bool := 48 ≤ c && c ≤ 57

def is_alnum (c : Nat) : Bool := is_alpha c || is_digit c

/-- Test used by `lex_number` for the characters `0-9a-fA-F`. -/
def is_hex_char (c : Nat) : Bool :=
  (48 ≤ c && c ≤ 57) || (97 ≤ c && c ≤ 102) || (65 ≤ c && c ≤ 70)

/-- Digit value computed by `lex_number` for one character (`0` for a
character that is no hex digit). -/
def hex_digit_value (c : Nat) : Nat :=
  if 48 ≤ c ∧ c ≤ 57 then c - 48
  else if 97 ≤ c ∧ c ≤ 102 then c - 97 + 10
  else if 65 ≤ c ∧ c ≤ 70 then c - 65 + 10
  else 0

/-- Current character, NUL at the end of the buffer. -/
def peek_char (lx : Lexer) : Nat :=
  if lx.pos ≥ lx.len then 0 else lx.buffer.getD lx.pos 0

/-- Current character, and the lexer moved past it unless it is NUL. -/
def advance_char (lx : Lexer) : Nat × Lexer :=
  let c := peek_char lx
  if c = 0 then (0, lx) else (c, { lx with pos := lx.pos + 1 })

/-- Inner loop of the comment branch: skip to the newline or the end. -/
def skip_comment_loop : Nat → Lexer → Lexer
  | 0, lx => lx
  | fuel + 1, lx =>
    if peek_char lx ≠ 0 ∧ peek_char lx ≠ 10 then skip_comment_loop fuel (advance_char lx).2
    else lx

/-- Outer loop of `skip_whitespace_and_comments`. -/
def skip_whitespace_loop : Nat → Lexer → Lexer
  | 0, lx => lx
  | fuel + 1, lx =>
    let c := peek_char lx
    if c = 32 ∨ c = 9 ∨ c = 13 then skip_whitespace_loop fuel (advance_char lx).2
    else if c = 59 then skip_whitespace_loop fuel (skip_comment_loop (lx.len + 1) lx)
    else lx

/-- Skip of blanks, tabs, carriage returns and `;` comments; each round of
either loop moves the position, so `len + 1` rounds are never used up. -/
def skip_whitespace_and_comments (lx : Lexer) : Lexer :=
  skip_whitespace_loop (lx.len + 1) lx

/-- Lexer over a copy of the source up to its first NUL byte. -/
def lexer_create_from_string (src : List Nat) : Lexer :=
  let buffer := src.takeWhile (fun c => c ≠ 0)
  { buffer := buffer, pos := 0, len := buffer.length, line := 1 }

/-- Copy of the buffer bytes in `[start, stop)`. -/
def buffer_slice (lx : Lexer) (start stop : Nat) : CStr :=
  (lx.buffer.drop start).take (stop - start)

/-- Loop of `lex_identifier`: advance while the character is alphanumeric. -/
def identifier_loop : Nat → Lexer → Lexer
  | 0, lx => lx
  | fuel + 1, lx =>
    if is_alnum (peek_char lx) then identifier_loop fuel (advance_char lx).2 else lx

def lex_identifier (lx : Lexer) : Token × Lexer :=
  let start := lx.pos
  let lx1 := identifier_loop (lx.len + 1) lx
  ({ type := TOK_IDENTIFIER, lexeme := some (buffer_slice lx1 start lx1.pos),
     line := lx1.line, int_value := 0 }, lx1)

/-- Loop of the `0x` branch: accumulate hex digits into `val` (32-bit) and
count them. -/
def c_hex_loop : Nat → Lexer → Nat → Nat → Lexer × Nat × Nat
  | 0, lx, val, cnt => (lx, val, cnt)
  | fuel + 1, lx, val, cnt =>
    let c := peek_char lx
    if is_hex_char c then
      c_hex_loop fuel (advance_char lx).2 (((val <<< 4) % 4294967296) ||| hex_digit_value c)
        (cnt + 1)
    else (lx, val, cnt)

/-- Loop of the MASM/decimal branch: advance over `0-9a-fA-F`, counting. -/
def digit_run_loop : Nat → Lexer → Nat → Lexer × Nat
  | 0, lx, cnt => (lx, cnt)
  | fuel + 1, lx, cnt =>
    if is_hex_char (peek_char lx) then digit_run_loop fuel (advance_char lx).2 (cnt + 1)
    else (lx, cnt)

/-- Base-16 value of a run of characters, as the `...h` branch computes it. -/
def masm_hex_value (digits : List Nat) : Nat :=
  digits.foldl (fun val c => ((val <<< 4) % 4294967296) ||| hex_digit_value c) 0

/-- Base-10 value of a run of characters, as the decimal branch computes it:
characters that are not decimal digits are passed over. -/
def decimal_value (digits : List Nat) : Nat :=
  digits.foldl (fun val c => if 48 ≤ c ∧ c ≤ 57 then (val * 10 + (c - 48)) % 4294967296 else val) 0

/-- The test for a `0x` / `0X` prefix at the read position. -/
def is_c_hex (lx : Lexer) : Bool :=
  decide (peek_char lx = 48) && decide (lx.pos + 1 < lx.len) &&
    (lx.buffer.getD (lx.pos + 1) 0 == 120 || lx.buffer.getD (lx.pos + 1) 0 == 88)

/-- The `0x` branch of `lex_number`: a missing digit is reported, and the token
is produced all the same. -/
def lex_c_hex (lx : Lexer) : Token × Lexer × List ErrorReport :=
  let start := lx.pos
  let lx1 := (advance_char (advance_char lx).2).2
  let r := c_hex_loop (lx.len + 1) lx1 0 0
  let lx2 := r.1
  let errs := if r.2.2 = 0 then [{ line := lx2.line, code := ERR_LEX_INVALID_NUM }] else []
  ({ type := TOK_NUMBER, lexeme := some (buffer_slice lx2 start lx2.pos), line := lx2.line,
     int_value := r.2.1 }, lx2, errs)

/-- The MASM-hex and decimal branches of `lex_number`. -/
def lex_masm_or_decimal (lx : Lexer) : Token × Lexer × List ErrorReport :=
  let start := lx.pos
  let r := digit_run_loop (lx.len + 1) lx 0
  let lx1 := r.1
  let num_end := lx1.pos
  if r.2 = 0 then
    ({ type := TOK_EOF, lexeme := none, line := lx1.line, int_value := 0 }, lx1,
      [{ line := lx1.line, code := ERR_LEX_INVALID_NUM }])
  else if peek_char lx1 = 104 ∨ peek_char lx1 = 72 then
    let lx2 := (advance_char lx1).2
    ({ type := TOK_NUMBER, lexeme := some (buffer_slice lx2 start lx2.pos), line := lx2.line,
       int_value := masm_hex_value (buffer_slice lx2 start num_end) }, lx2, [])
  else
    ({ type := TOK_NUMBER, lexeme := some (buffer_slice lx1 start lx1.pos), line := lx1.line,
       int_value := decimal_value (buffer_slice lx1 start lx1.pos) }, lx1, [])

/-- Number token at the read position: `0x` hex, MASM hex with a trailing `h`,
or decimal, recognised in this order. -/
def lex_number (lx : Lexer) : Token × Lexer × List ErrorReport :=
  if is_c_hex lx then lex_c_hex lx else lex_masm_or_decimal lx

/-- Loop of `lex_string`: advance to the closing quote or the end, counting
the newlines passed. -/
def string_loop : Nat → Nat → Lexer → Lexer
  | 0, _, lx => lx
  | fuel + 1, quote, lx =>
    if peek_char lx ≠ 0 ∧ peek_char lx ≠ quote then
      let lx1 := if peek_char lx = 10 then { lx with line := lx.line + 1 } else lx
      string_loop fuel quote (advance_char lx1).2
    else lx

def lex_string (lx : Lexer) : Token × Lexer × List ErrorReport :=
  let q := advance_char lx
  let quote := q.1
  let start := q.2.pos
  let lx1 := string_loop (lx.len + 1) quote q.2
  let stop := lx1.pos
  if peek_char lx1 ≠ quote then
    ({ type := TOK_STRING, lexeme := some (buffer_slice lx1 start stop), line := lx1.line,
       int_value := 0 }, lx1, [{ line := lx1.line, code := ERR_LEX_UNCLOSED_STR }])
  else
    let lx2 := (advance_char lx1).2
    ({ type := TOK_STRING, lexeme := some (buffer_slice lx2 start stop), line := lx2.line,
       int_value := 0 }, lx2, [])

/-- Token type of a single-character symbol, if the character is one. -/
def punctuation_type (c : Nat) : Option TokenType :=
  if c = 44 then some TOK_COMMA
  else if c = 58 then some TOK_COLON
  else if c = 91 then some TOK_LBRACKET
  else if c = 93 then some TOK_RBRACKET
  else if c = 40 then some TOK_LPAREN
  else if c = 41 then some TOK_RPAREN
  else if c = 43 then some TOK_PLUS
  else if c = 45 then some TOK_MINUS
  else if c = 42 then some TOK_ASTERISK
  else if c = 47 then some TOK_SLASH
  else none

/-- The `for (;;)` loop of `lexer_next_token`; a round that does not return
has skipped one invalid character, so `len + 1` rounds are never used up (the
`0` case is there for the recursion only). -/
def next_token_loop : Nat → Lexer → List ErrorReport → Token × Lexer × List ErrorReport
  | 0, lx, errs => ({ type := TOK_EOF, lexeme := none, line := lx.line, int_value := 0 }, lx, errs)
  | fuel + 1, lx, errs =>
    if lx.pos ≥ lx.len then
      ({ type := TOK_EOF, lexeme := none, line := lx.line, int_value := 0 }, lx, errs)
    else
      let lx1 := skip_whitespace_and_comments lx
      if lx1.pos ≥ lx1.len then
        ({ type := TOK_EOF, lexeme := none, line := lx1.line, int_value := 0 }, lx1, errs)
      else
        let c := peek_char lx1
        if c = 10 then
          ({ type := TOK_NEWLINE, lexeme := some [10], line := lx1.line, int_value := 0 },
            { (advance_char lx1).2 with line := lx1.line + 1 }, errs)
        else
          match punctuation_type c with
          | some ty =>
            ({ type := ty, lexeme := some [c], line := lx1.line, int_value := 0 },
              (advance_char lx1).2, errs)
          | none =>
            if c = 34 ∨ c = 39 then
              let r := lex_string lx1
              (r.1, r.2.1, errs ++ r.2.2)
            else if is_digit c then
              let r := lex_number lx1
              (r.1, r.2.1, errs ++ r.2.2)
            else if is_alpha c then
              let r := lex_identifier lx1
              (r.1, r.2, errs)
            else
              next_token_loop fuel (advance_char lx1).2
                (errs ++ [{ line := lx1.line, code := ERR_LEX_INVALID_CHAR }])

/-- Next token, the lexer after it, and the errors reported on the way. -/
def lexer_next_token (lx : Lexer) : Token × Lexer × List ErrorReport :=
  next_token_loop (lx.len + 1) lx []

/-! ## semantic.h / semantic.c -/

def SEMANTIC_MAX_OPERANDS : Nat := 3
def SEMANTIC_MAX_INSTRUCTION_LEN : Nat := 15

inductive OperandType
  | OPERAND_NONE
  | OPERAND_REGISTER
  | OPERAND_IMMEDIATE
  | OPERAND_MEMORY
  | OPERAND_LABEL
  | OPERAND_INVALID
deriving DecidableEq, Repr

open OperandType

structure Operand where
  type : OperandType
  value : Nat
  name : CStr
deriving DecidableEq, Repr

/-- Instruction record. `operands` holds the first `operand_count` slots of the
C array, so `operand_count` is its length. -/
structure InstructionEntry where
  address : Nat
  length : Nat
  line : Nat
  mnemonic : CStr
  operands : List Operand
  has_label : Bool
  label : CStr
deriving DecidableEq, Repr

def InstructionEntry.operand_count (entry : InstructionEntry) : Nat := entry.operands.length

/-- Pass-one context. `instructions` holds the first `instruction_count`
records of the array (capacity `max_instructions = 512`). -/
structure PassOne where
  symtab : SymbolTable
  instructions : List InstructionEntry
  current_address : Nat
  current_line : Nat
  has_errors : Bool
deriving Repr

def PassOne.instruction_count (p : PassOne) : Nat := p.instructions.length

def PassOne.max_instructions : Nat := 512

/-- Where the C program leaves defined behaviour, and the guard of the
fuel-driven loops. -/
inductive Fault
  | out_of_bounds
  | null_lexeme
  | out_of_fuel
deriving DecidableEq, Repr

/-- Read of `tokens[i]`; the list is the array of `token_count` tokens. -/
def read_token (tokens : List Token) (i : Nat) : Except Fault Token :=
  match tokens[i]? with
  | some t => .ok t
  | none => .error Fault.out_of_bounds

/-- Copy of a token's lexeme as `util_strcpy` makes it; a NULL lexeme is a
fault. The program copies into a field of fixed size (`mnemonic[32]`,
`label[128]`, `name[128]`) without a test of the length; the result is the
content of the field when the lexeme and its terminator have room in it, and
the bytes a longer lexeme writes behind the field are not described. -/
def token_lexeme (t : Token) : Except Fault CStr :=
  match t.lexeme with
  | some s => .ok (util_strcpy s)
  | none => .error Fault.null_lexeme

/-- Register-name test: case-sensitive comparison with the sixteen names. -/
def is_register (name : CStr) : Bool :=
  [cstr "AX", cstr "BX", cstr "CX", cstr "DX", cstr "AH", cstr "AL", cstr "BH", cstr "BL",
   cstr "CH", cstr "CL", cstr "DH", cstr "DL", cstr "SI", cstr "DI", cstr "BP", cstr "SP"].any
    (fun r => decide (util_strcmp name r = 0))

/-- Length pass one assigns to a record. -/
def estimate_instruction_length (mnemonic : CStr) (_operand_count : Nat) : Nat :=
  if util_strcmp mnemonic (cstr "DB") = 0 then 1
  else if util_strcmp mnemonic (cstr "ORG") = 0 then 0
  else if util_strcmp mnemonic (cstr "SEGMENT") = 0 then 0
  else if util_strcmp mnemonic (cstr "ENDS") = 0 then 0
  else if util_strcmp mnemonic (cstr "PROC") = 0 then 0
  else if util_strcmp mnemonic (cstr "ENDP") = 0 then 0
  else if util_strcmp mnemonic (cstr "END") = 0 then 0
  else 3

/-- The public length query. -/
def semantic_get_instruction_length (mnemonic : CStr) (_operand_types : List OperandType)
    (_operand_count : Nat) : Nat :=
  if util_strcmp mnemonic (cstr "DB") = 0 then 1
  else if util_strcmp mnemonic (cstr "ORG") = 0 then 0
  else if util_strcmp mnemonic (cstr "SEGMENT") = 0 then 0
  else if util_strcmp mnemonic (cstr "ENDS") = 0 then 0
  else 3

def semantic_validate_operand (mnemonic : CStr) (position : Nat) (operand : Operand) : Int :=
  if util_strcmp mnemonic (cstr "MOV") = 0 ∧ position = 0 then
    if operand.type = OPERAND_IMMEDIATE then -1 else 0
  else 0

/-- Test `i < 65535 && tokens[i].type == ty` with its short-circuit order. -/
def token_type_is (tokens : List Token) (i : Nat) (ty : TokenType) : Except Fault Bool :=
  if i < 65535 then
    match read_token tokens i with
    | .ok t => .ok (decide (t.type = ty))
    | .error f => .error f
  else .ok false

/-- Tail of one round of the operand loop after a register, label or immediate
operand `op` was recognised at `tokens[i]`: count it, merge a `: IDENT`
suffix into its name, and look for a comma. Returns the new index, the new
consumed count, the operand list, and whether the loop goes on. The merged
name is built in `tmp[128]` and copied back into `name[128]`; it is the
content of the field when it has fewer than 128 bytes. -/
def operand_suffix (tokens : List Token) (i consumed : Nat) (ops : List Operand) (op : Operand) :
    Except Fault (Nat × Nat × List Operand × Bool) := do
  let i1 := i + 1
  let consumed1 := consumed + 1
  let colon ← token_type_is tokens i1 TOK_COLON
  let merge ← (if colon ∧ i1 + 1 < 65535 then do
                  let t ← read_token tokens (i1 + 1)
                  pure (decide (t.type = TOK_IDENTIFIER))
                else pure false)
  let r ← (if merge then do
              let t ← read_token tokens (i1 + 1)
              let lex ← token_lexeme t
              pure ({ op with name := op.name ++ [58] ++ lex }, i1 + 2, consumed1 + 2)
            else pure (op, i1, consumed1))
  let comma ← token_type_is tokens r.2.1 TOK_COMMA
  if comma then pure (r.2.1 + 1, r.2.2 + 1, ops ++ [r.1], true)
  else pure (r.2.1, r.2.2, ops ++ [r.1], false)

/-- One round of the operand loop for a `[` at `tokens[i]`: the memory operand,
with the unguarded reads of the two tokens that follow. The name is the
content of `name[128]` when the lexeme has fewer than 128 bytes. -/
def memory_operand (tokens : List Token) (i consumed : Nat) (ops : List Operand) :
    Except Fault (Nat × Nat × List Operand) := do
  let t1 ← read_token tokens (i + 1)
  let op ← (if t1.type = TOK_NUMBER then
              pure { type := OPERAND_MEMORY, value := t1.int_value, name := [] }
            else if t1.type = TOK_IDENTIFIER then do
              let lex ← token_lexeme t1
              pure { type := OPERAND_MEMORY, value := 0, name := lex }
            else pure { type := OPERAND_MEMORY, value := 0, name := [] })
  let t2 ← read_token tokens (i + 2)
  let i3 := if t2.type = TOK_RBRACKET then i + 3 else i + 2
  let consumed3 := if t2.type = TOK_RBRACKET then consumed + 3 else consumed + 2
  let comma ← token_type_is tokens i3 TOK_COMMA
  if comma then pure (i3 + 1, consumed3 + 1, ops ++ [op])
  else pure (i3, consumed3, ops ++ [op])

/-- Operand for an identifier token with lexeme copy `lex`: a register operand
for a register name, otherwise a label operand carrying the name, which is
the content of `name[128]` when the lexeme has fewer than 128 bytes. -/
def identifier_operand (lex : CStr) : Operand :=
  if is_register lex then { type := OPERAND_REGISTER, value := 0, name := [] }
  else { type := OPERAND_LABEL, value := 0, name := lex }

/-- The operand loop of `semantic_analyze_instruction`. Every round that goes
on has added an operand and the loop stops at three operands, so four rounds
are never used up; the `0` case is there for the recursion only. Returns the
consumed count and the operands. The number of operands is the field
`operand_count`, which lies behind the name of the third operand: the list
describes the record when every name has stayed inside its field. -/
def parse_operands : Nat → List Token → Nat → Nat → List Operand →
    Except Fault (Nat × List Operand)
  | 0, _, _, consumed, ops => .ok (consumed, ops)
  | fuel + 1, tokens, i, consumed, ops =>
    if i < 65535 then
      match read_token tokens i with
      | .error f => .error f
      | .ok t =>
        if t.type ≠ TOK_NEWLINE ∧ t.type ≠ TOK_EOF ∧ ops.length < SEMANTIC_MAX_OPERANDS then
          if t.type = TOK_IDENTIFIER then
            match token_lexeme t with
            | .error f => .error f
            | .ok lex =>
              match operand_suffix tokens i consumed ops (identifier_operand lex) with
              | .error f => .error f
              | .ok r =>
                if r.2.2.2 then parse_operands fuel tokens r.1 r.2.1 r.2.2.1
                else .ok (r.2.1, r.2.2.1)
          else if t.type = TOK_NUMBER then
            match operand_suffix tokens i consumed ops
                { type := OPERAND_IMMEDIATE, value := t.int_value, name := [] } with
            | .error f => .error f
            | .ok r =>
              if r.2.2.2 then parse_operands fuel tokens r.1 r.2.1 r.2.2.1
              else .ok (r.2.1, r.2.2.1)
          else if t.type = TOK_LBRACKET then
            match memory_operand tokens i consumed ops with
            | .error f => .error f
            | .ok r => parse_operands fuel tokens r.1 r.2.1 r.2.2
          else .ok (consumed, ops)
        else .ok (consumed, ops)
    else .ok (consumed, ops)

/-- Record as `semantic_analyze_instruction` fills it; `address`, `length` and
`line` are set by the caller afterwards. -/
def mk_entry (mnemonic : CStr) (operands : List Operand) (has_label : Bool) (label : CStr) :
    InstructionEntry :=
  { address := 0, length := 0, line := 0, mnemonic := mnemonic, operands := operands,
    has_label := has_label, label := label }

/-- The mnemonic and operand part of `semantic_analyze_instruction`, from
index `i` with `consumed` tokens and the label fields already decided. The
strings are the contents of `mnemonic[32]` and `label[128]` when the lexemes
have room in these fields. For a first identifier taken as a label operand
the program does not write the field `value`, which is never read for a label
operand; it is `0` here. -/
def analyze_mnemonic (tokens : List Token) (i consumed : Nat) (has_label : Bool) (label : CStr) :
    Except Fault (Option (InstructionEntry × Nat)) := do
  if ¬ (i < 65535) then return none
  let t ← read_token tokens i
  if t.type ≠ TOK_IDENTIFIER then return none
  let second ← token_type_is tokens (i + 1) TOK_IDENTIFIER
  if second then
    let t1 ← read_token tokens (i + 1)
    match tables_lookup_instruction t1.lexeme with
    | some info =>
      let lex ← token_lexeme t
      let lex1 ← token_lexeme t1
      if info.type = PSEUDO_PROC ∨ info.type = PSEUDO_DB then
        let r ← parse_operands 4 tokens (i + 2) (consumed + 2) []
        return some (mk_entry lex1 r.2 true lex, r.1)
      else
        let r ← parse_operands 4 tokens (i + 2) (consumed + 2)
          [{ type := OPERAND_LABEL, value := 0, name := lex }]
        return some (mk_entry lex1 r.2 has_label label, r.1)
    | none =>
      let lex ← token_lexeme t
      let r ← parse_operands 4 tokens (i + 1) (consumed + 1) []
      return some (mk_entry lex r.2 has_label label, r.1)
  else
    let lex ← token_lexeme t
    let r ← parse_operands 4 tokens (i + 1) (consumed + 1) []
    return some (mk_entry lex r.2 has_label label, r.1)

/-- Analysis of one statement starting at `tokens[token_index]`: `none` is the
result `-1`, otherwise the filled record and the number of tokens consumed.
The label is the content of `label[128]` when the lexeme has fewer than 128
bytes. -/
def semantic_analyze_instruction (tokens : List Token) (token_index : Nat) :
    Except Fault (Option (InstructionEntry × Nat)) := do
  let i := token_index
  let t ← read_token tokens i
  let colon ← (if t.type = TOK_IDENTIFIER then token_type_is tokens (i + 1) TOK_COLON
               else pure false)
  if colon then
    let label ← token_lexeme t
    let only_label ← (if i + 2 ≥ 65535 then pure true else do
                        let t2 ← read_token tokens (i + 2)
                        pure (decide (t2.type = TOK_NEWLINE ∨ t2.type = TOK_EOF)))
    if only_label then
      return some (mk_entry (cstr "NOP") [] true label, 2)
    else analyze_mnemonic tokens (i + 2) 2 true label
  else analyze_mnemonic tokens i 0 false []

/-- Fresh pass-one context. -/
def pass_one_init : PassOne :=
  { symtab := symtab_create 256, instructions := [], current_address := 0, current_line := 1,
    has_errors := false }

/-- The record of an analysed statement with the address, line and length
pass one assigns to it. -/
def pass_one_entry (p : PassOne) (parsed : InstructionEntry) : InstructionEntry :=
  { parsed with
    address := p.current_address
    line := p.current_line
    length := estimate_instruction_length parsed.mnemonic parsed.operand_count }

/-- The part of one round of the pass-one loop that follows a successful
analysis: the record gets its address, line and length, the location counter
advances, a label is entered into the symbol table (a duplicate is reported
and sets `has_errors`), and the record is counted. Returns the context and the
errors reported. -/
def pass_one_record (p : PassOne) (parsed : InstructionEntry) : PassOne × List ErrorReport :=
  let entry := pass_one_entry p parsed
  let p1 : PassOne :=
    { p with current_address := (p.current_address + entry.length) % 4294967296 }
  if entry.has_label then
    let r := symtab_insert p1.symtab entry.label SymbolType.SYM_LABEL entry.address entry.line
    if r.1 ≠ 0 then
      ({ p1 with symtab := r.2, has_errors := true, instructions := p1.instructions ++ [entry] },
        [{ line := entry.line, code := ERR_PARSE_DUP_LABEL }])
    else ({ p1 with symtab := r.2, instructions := p1.instructions ++ [entry] }, [])
  else ({ p1 with instructions := p1.instructions ++ [entry] }, [])

/-- The `while (i < token_count)` loop of `semantic_pass_one`. Every round
moves `i` forward, so `token_count` rounds are never used up; running out is
reported as a fault. -/
def pass_one_loop : Nat → List Token → Nat → PassOne → List ErrorReport →
    Except Fault (PassOne × List ErrorReport)
  | 0, tokens, i, p, errs =>
    if i < tokens.length then .error Fault.out_of_fuel else .ok (p, errs)
  | fuel + 1, tokens, i, p, errs =>
    if i < tokens.length then
      match read_token tokens i with
      | .error f => .error f
      | .ok t =>
        if t.type = TOK_NEWLINE ∨ t.type = TOK_EOF then
          pass_one_loop fuel tokens (i + 1) { p with current_line := p.current_line + 1 } errs
        else if p.instruction_count ≥ PassOne.max_instructions then
          .ok ({ p with has_errors := true },
               errs ++ [{ line := t.line, code := ERR_PARSE_EXPECTED_OP }])
        else
          match semantic_analyze_instruction tokens i with
          | .error f => .error f
          | .ok none =>
            pass_one_loop fuel tokens (i + 1) { p with has_errors := true }
              (errs ++ [{ line := if t.lexeme.isSome then t.line else p.current_line,
                          code := ERR_PARSE_EXPECTED_OP }])
          | .ok (some (parsed, tokens_consumed)) =>
            let r := pass_one_record p parsed
            pass_one_loop fuel tokens (i + tokens_consumed) r.1 (errs ++ r.2)
    else .ok (p, errs)

/-- Pass-one context when the token loop has ended, before the final test of
`has_errors`, with the errors reported. -/
def semantic_pass_one_run (tokens : List Token) : Except Fault (PassOne × List ErrorReport) :=
  pass_one_loop tokens.length tokens 0 pass_one_init []

/-- Pass one: the context (`none` is the NULL result, returned when
`has_errors` is set) and the errors reported. -/
def semantic_pass_one (tokens : List Token) :
    Except Fault (Option PassOne × List ErrorReport) :=
  match semantic_pass_one_run tokens with
  | .error f => .error f
  | .ok (p, errs) => if p.has_errors then .ok (none, errs) else .ok (some p, errs)

/-! ## codegen.h / codegen.c -/

def CODEGEN_OUTPUT_BUFFER_SIZE : Nat := 0x10000
def CODEGEN_MAX_RELOCATIONS : Nat := 1000

structure Relocation where
  offset : Nat
  instruction_index : Nat
  operand_index : Nat
  symbol_name : CStr
deriving DecidableEq, Repr

/-- Pass-two context. `code_buffer` holds the first `code_size` bytes of the
output buffer, `relocations` the first `relocation_count` records; `pass_one`
is passed alongside. -/
structure CodeGen where
  code_buffer : List Nat
  relocations : List Relocation
  has_errors : Bool
deriving DecidableEq, Repr

def CodeGen.code_size (cg : CodeGen) : Nat := cg.code_buffer.length

def CodeGen.relocation_count (cg : CodeGen) : Nat := cg.relocations.length

/-- Append of one relocation record; `none` is the result `-1` (table full),
which also reports an error. The name is copied into `symbol_name[128]`
without a test of the length; it is the content of the field when it has
fewer than 128 bytes. -/
def record_relocation (relocations : List Relocation) (offset instruction_index operand_index : Nat)
    (symbol_name : CStr) : Option (List Relocation) :=
  if relocations.length ≥ CODEGEN_MAX_RELOCATIONS then none
  else some (relocations ++ [{ offset := offset, instruction_index := instruction_index,
                               operand_index := operand_index,
                               symbol_name := util_strcpy symbol_name }])

/-- The operand loop of `codegen_emit_instruction` for an ordinary instruction:
`i` is the operand index, `code` the bytes written for this record so far
(`emitted` is its length). The first component is `none` on the early
`return -1`; the relocations recorded up to then stay in the table. -/
def emit_operands (code_size instruction_index : Nat) :
    List Operand → Nat → List Nat → List Relocation → Option (List Nat) × List Relocation
  | [], _, code, relocs => (some code, relocs)
  | operand :: rest, i, code, relocs =>
    if operand.type = OPERAND_IMMEDIATE then
      if operand.value ≤ 0xFF then
        emit_operands code_size instruction_index rest (i + 1) (code ++ [operand.value % 256])
          relocs
      else
        emit_operands code_size instruction_index rest (i + 1)
          (code ++ [operand.value % 256, (operand.value / 256) % 256]) relocs
    else if operand.type = OPERAND_REGISTER then
      emit_operands code_size instruction_index rest (i + 1) (code ++ [0xC0 ||| (i % 64)]) relocs
    else if operand.type = OPERAND_LABEL ∨ operand.type = OPERAND_MEMORY then
      if operand.type = OPERAND_LABEL ∧ util_strlen operand.name > 0 then
        match record_relocation relocs (code_size + code.length) instruction_index i
            operand.name with
        | none => (none, relocs)
        | some relocs1 =>
          emit_operands code_size instruction_index rest (i + 1) (code ++ [0x00, 0x00]) relocs1
      else
        emit_operands code_size instruction_index rest (i + 1) (code ++ [0x00, 0x00]) relocs
    else emit_operands code_size instruction_index rest (i + 1) code relocs

/-- Code generation for one record, `instruction_index` being its position in
the pass-one array. Returns the status, the context, and the errors
reported. The bytes of a record are counted into `code_size` only when the
record is complete. -/
def codegen_emit_instruction (codegen : CodeGen) (instruction_index : Nat)
    (entry : InstructionEntry) : Int × CodeGen × List ErrorReport :=
  if codegen.code_size + SEMANTIC_MAX_INSTRUCTION_LEN ≥ CODEGEN_OUTPUT_BUFFER_SIZE then
    (-1, codegen, [{ line := 0, code := ERR_SYS_OUT_OF_MEM }])
  else
    match tables_lookup_instruction (some entry.mnemonic) with
    | none => (-1, codegen, [{ line := entry.line, code := ERR_PARSE_UNK_MNEMONIC }])
    | some instr_info =>
      if instr_info.is_pseudo ≠ 0 then
        if util_strcmp entry.mnemonic (cstr "DB") = 0 then
          match entry.operands with
          | op :: _ =>
            if op.type = OPERAND_IMMEDIATE then
              (0, { codegen with code_buffer := codegen.code_buffer ++ [op.value % 256] }, [])
            else (0, codegen, [])
          | [] => (0, codegen, [])
        else (0, codegen, [])
      else
        match emit_operands codegen.code_size instruction_index entry.operands 0
            [instr_info.opcode] codegen.relocations with
        | (none, relocs) =>
          (-1, { codegen with relocations := relocs }, [{ line := 0, code := ERR_SYS_OUT_OF_MEM }])
        | (some code, relocs) =>
          (0, { codegen with code_buffer := codegen.code_buffer ++ code, relocations := relocs },
            [])

/-- The emission loop of `codegen_pass_two` over the records from index
`index` on. -/
def emit_all : List InstructionEntry → Nat → CodeGen → List ErrorReport →
    CodeGen × List ErrorReport
  | [], _, codegen, errs => (codegen, errs)
  | entry :: rest, index, codegen, errs =>
    let r := codegen_emit_instruction codegen index entry
    if r.1 < 0 then
      emit_all rest (index + 1) { r.2.1 with has_errors := true }
        (errs ++ r.2.2 ++ [{ line := entry.line, code := ERR_PARSE_UNK_MNEMONIC }])
    else emit_all rest (index + 1) r.2.1 (errs ++ r.2.2)

/-- Patch loop over the relocations still to resolve: status, patched buffer,
errors reported. It stops at the first symbol that is missing or not
defined. -/
def resolve_loop (symtab : SymbolTable) : List Relocation → List Nat →
    Int × List Nat × List ErrorReport
  | [], buffer => (0, buffer, [])
  | rel :: rest, buffer =>
    match symtab_lookup symtab rel.symbol_name with
    | none => (-1, buffer, [{ line := 0, code := ERR_PARSE_UNDEFINED_LBL }])
    | some symbol =>
      if symbol.is_defined = 0 then
        (-1, buffer, [{ line := 0, code := ERR_PARSE_UNDEFINED_LBL }])
      else
        resolve_loop symtab rest
          ((buffer.set rel.offset (symbol.address % 256)).set (rel.offset + 1)
            ((symbol.address / 256) % 256))

/-- Resolution of all queued relocations against the pass-one symbol table. -/
def codegen_resolve_reference (pass_one : PassOne) (codegen : CodeGen) :
    Int × CodeGen × List ErrorReport :=
  let r := resolve_loop pass_one.symtab codegen.relocations codegen.code_buffer
  (r.1, { codegen with code_buffer := r.2.1 }, r.2.2)

/-- Context after the emission loop of pass two, with the errors reported. -/
def codegen_emit_records (pass_one : PassOne) : CodeGen × List ErrorReport :=
  emit_all pass_one.instructions 0 { code_buffer := [], relocations := [], has_errors := false } []

/-- Pass two: the context (`none` is the NULL result, returned when
`has_errors` is set) and the errors reported. -/
def codegen_pass_two (pass_one : PassOne) : Option CodeGen × List ErrorReport :=
  let e := codegen_emit_records pass_one
  let r := codegen_resolve_reference pass_one e.1
  let codegen : CodeGen := if r.1 < 0 then { r.2.1 with has_errors := true } else r.2.1
  if codegen.has_errors then (none, e.2 ++ r.2.2) else (some codegen, e.2 ++ r.2.2)

/-- Code buffer and size as `codegen_get_code_buffer` hands them out. -/
def codegen_get_code_buffer (codegen : Option CodeGen) : List Nat × Nat :=
  match codegen with
  | none => ([], 0)
  | some cg => (cg.code_buffer, cg.code_size)

/-- Relocation records and count as `codegen_get_relocation_info` hands them
out. -/
def codegen_get_relocation_info (codegen : Option CodeGen) : List Relocation × Nat :=
  match codegen with
  | none => ([], 0)
  | some cg => (cg.relocations, cg.relocation_count)

/-! ## main.c: the phase sequence -/

def MAX_TOKENS : Nat := 4096

/-- Token collection loop of `main`: `room` is the capacity left in the token
array. `none` is the exit with `Too many tokens`; the errors in the sink at
that exit are given by `overflow_errors`. -/
def collect_tokens : Nat → Lexer → List Token → List ErrorReport →
    Option (List Token × List ErrorReport)
  | 0, _, _, _ => none
  | room + 1, lx, tokens, errs =>
    let r := lexer_next_token lx
    if r.1.type = TOK_EOF then some (tokens ++ [r.1], errs ++ r.2.2)
    else collect_tokens room r.2.1 (tokens ++ [r.1]) (errs ++ r.2.2)

/-- The errors in the sink when the token collection loop of `main` ends: the
loop takes a token from the lexer before it tests the capacity, so with no
room left one more token is lexed, and its errors are reported, before the
exit with `Too many tokens`. -/
def overflow_errors : Nat → Lexer → List ErrorReport → List ErrorReport
  | 0, lx, errs => errs ++ (lexer_next_token lx).2.2
  | room + 1, lx, errs =>
    let r := lexer_next_token lx
    if r.1.type = TOK_EOF then errs ++ r.2.2
    else overflow_errors room r.2.1 (errs ++ r.2.2)

/-- Lexing phase of `main` on a source text: the token array and the lexical
errors. -/
def tokenize (source : List Nat) : Option (List Token × List ErrorReport) :=
  collect_tokens MAX_TOKENS (lexer_create_from_string source) [] []

/-- Size test of `write_output_file`; file opening and writing are assumed
to succeed. Returns the status and the errors reported. -/
def write_output_file (_code : List Nat) (size : Nat) : Int × List ErrorReport :=
  if size = 0 then (-1, [{ line := 0, code := ERR_SYS_FILE_IO }]) else (0, [])

/-- Outcome of one translation: the exit code of `main`, every error reported,
and the bytes written to the output file if one was written. -/
structure Translation where
  exit_code : Nat
  errors : List ErrorReport
  output : Option (List Nat)
deriving DecidableEq, Repr

/-- Steps 3 to 5 of `main` on the collected tokens, `lex_errs` being the (empty)
error sink after lexing. -/
def translate_tokens (tokens : List Token) (lex_errs : List ErrorReport) :
    Except Fault Translation :=
  match semantic_pass_one tokens with
  | .error f => .error f
  | .ok (none, errs1) => .ok { exit_code := 1, errors := lex_errs ++ errs1, output := none }
  | .ok (some pass_one, errs1) =>
    if error_get_count (lex_errs ++ errs1) > 0 then
      .ok { exit_code := 1, errors := lex_errs ++ errs1, output := none }
    else
      match codegen_pass_two pass_one with
      | (none, errs2) =>
        .ok { exit_code := 1, errors := lex_errs ++ errs1 ++ errs2, output := none }
      | (some codegen, errs2) =>
        if error_get_count (lex_errs ++ errs1 ++ errs2) > 0 then
          .ok { exit_code := 1, errors := lex_errs ++ errs1 ++ errs2, output := none }
        else
          let w := write_output_file (codegen_get_code_buffer (some codegen)).1
            (codegen_get_code_buffer (some codegen)).2
          if w.1 ≠ 0 then
            .ok { exit_code := 1, errors := lex_errs ++ errs1 ++ errs2 ++ w.2, output := none }
          else
            .ok { exit_code := 0, errors := lex_errs ++ errs1 ++ errs2 ++ w.2,
                  output := some (codegen_get_code_buffer (some codegen)).1 }

/-- Steps 2 to 5 of `main` on the source text read from the input file. -/
def assemble (source : List Nat) : Except Fault Translation :=
  match tokenize source with
  | none =>
    .ok { exit_code := 1
          errors := overflow_errors MAX_TOKENS (lexer_create_from_string source) []
          output := none }
  | some (tokens, lex_errs) =>
    if error_get_count lex_errs > 0 then
      .ok { exit_code := 1, errors := lex_errs, output := none }
    else translate_tokens tokens lex_errs

/-! ## Vocabulary of the properties -/

/-- Sum of the `length` fields of a list of records. -/
def total_length (l : List InstructionEntry) : Nat := (l.map (fun e => e.length)).sum

/-- The records of the list lie back to back from address `a`: each address is
`a` plus the lengths of the records before it. -/
def addresses_from : Nat → List InstructionEntry → Prop
  | _, [] => True
  | a, e :: rest => e.address = a ∧ addresses_from (a + e.length) rest

/-- Symbol record pass one enters for a labelled record. -/
def label_symbol (e : InstructionEntry) : SymbolInfo :=
  { name := util_strcpy e.label, type := SymbolType.SYM_LABEL, address := e.address,
    line_defined := e.line, is_defined := 1 }

/-- The two-byte slots of the queued relocations lie in order, do not overlap,
and end within the first `n` bytes of the buffer. -/
def slots_ok (relocs : List Relocation) (n : Nat) : Prop :=
  relocs.Pairwise (fun a b => a.offset + 2 ≤ b.offset) ∧ ∀ r ∈ relocs, r.offset + 2 ≤ n

/-- Number of symbolic operands of a record: label operands and memory
operands that carry a name. -/
def symbolic_operands (ops : List Operand) : Nat :=
  (ops.filter (fun o =>
    decide ((o.type = OPERAND_LABEL ∨ o.type = OPERAND_MEMORY) ∧ util_strlen o.name > 0))).length

/-- Number of symbolic operands of a list of records. -/
def symbolic_operand_count (l : List InstructionEntry) : Nat :=
  (l.map (fun e => symbolic_operands e.operands)).sum

/-- A relocation names a symbol that is absent from the table or not marked
defined. -/
def undefined_reference (symtab : SymbolTable) (r : Relocation) : Prop :=
  symtab_lookup symtab r.symbol_name = none ∨
    ∃ sym, symtab_lookup symtab r.symbol_name = some sym ∧ sym.is_defined = 0

/-- Number of bytes the emitter writes for one operand of an ordinary
instruction: one or two for an immediate, one for a register, two for a label
or memory operand. -/
def operand_size (o : Operand) : Nat :=
  if o.type = OPERAND_IMMEDIATE then (if o.value ≤ 0xFF then 1 else 2)
  else if o.type = OPERAND_REGISTER then 1
  else if o.type = OPERAND_LABEL ∨ o.type = OPERAND_MEMORY then 2
  else 0

/-- Size of the encoding of a record whose mnemonic is in the table: nothing
for a directive other than `DB`, one byte for a `DB` whose first operand is an
immediate, and for an ordinary instruction the opcode byte plus the bytes of
its operands. -/
def encoded_size (e : InstructionEntry) : Nat :=
  match tables_lookup_instruction (some e.mnemonic) with
  | none => 0
  | some info =>
    if info.is_pseudo ≠ 0 then
      if util_strcmp e.mnemonic (cstr "DB") = 0 ∧
          (e.operands.head?.map (fun o => o.type)) = some OPERAND_IMMEDIATE then 1
      else 0
    else 1 + (e.operands.map operand_size).sum

/-- Shape of a well-formed table: as many buckets as `bucket_count`, at least
one. -/
def UtilHashTable.WF {β : Type} (t : UtilHashTable β) : Prop :=
  t.buckets.length = t.bucket_count ∧ 0 < t.bucket_count

/-- Tokens of the one-statement program `RET`. -/
def ret_tokens : List Token :=
  [ { type := TOK_IDENTIFIER, lexeme := some (cstr "RET"), line := 1, int_value := 0 },
    { type := TOK_EOF, lexeme := none, line := 1, int_value := 0 } ]

/-- Tokens of the program `JMP FOO` / `FOO: RET`. -/
def forward_jump_tokens : List Token :=
  [ { type := TOK_IDENTIFIER, lexeme := some (cstr "JMP"), line := 1, int_value := 0 },
    { type := TOK_IDENTIFIER, lexeme := some (cstr "FOO"), line := 1, int_value := 0 },
    { type := TOK_NEWLINE, lexeme := some [10], line := 1, int_value := 0 },
    { type := TOK_IDENTIFIER, lexeme := some (cstr "FOO"), line := 2, int_value := 0 },
    { type := TOK_COLON, lexeme := some [58], line := 2, int_value := 0 },
    { type := TOK_IDENTIFIER, lexeme := some (cstr "RET"), line := 2, int_value := 0 },
    { type := TOK_EOF, lexeme := none, line := 2, int_value := 0 } ]

/-- Pass-one context of the program `RET`. -/
def ret_pass_one : PassOne :=
  { symtab := symtab_create 256
    instructions :=
      [ { address := 0, length := 3, line := 1, mnemonic := cstr "RET", operands := [],
          has_label := false, label := [] } ]
    current_address := 3, current_line := 2, has_errors := false }

/-- Pass-one context of the program `JMP FOO` / `FOO: RET`. -/
def forward_jump_pass_one : PassOne :=
  { symtab := (symtab_insert (symtab_create 256) (cstr "FOO") SymbolType.SYM_LABEL 3 2).2
    instructions :=
      [ { address := 0, length := 3, line := 1, mnemonic := cstr "JMP",
          operands := [{ type := OPERAND_LABEL, value := 0, name := cstr "FOO" }],
          has_label := false, label := [] },
        { address := 3, length := 3, line := 2, mnemonic := cstr "RET", operands := [],
          has_label := true, label := cstr "FOO" } ]
    current_address := 6, current_line := 3, has_errors := false }

/-- Pass-two context of the program `JMP FOO` / `FOO: RET`. -/
def forward_jump_codegen : CodeGen :=
  { code_buffer := [0xEB, 0x03, 0x00, 0xC3]
    relocations :=
      [ { offset := 1, instruction_index := 0, operand_index := 0, symbol_name := cstr "FOO" } ]
    has_errors := false }

/-- Tokens of the program `START: MOV` / `JMP START`. -/
def start_loop_tokens : List Token :=
  [ { type := TOK_IDENTIFIER, lexeme := some (cstr "START"), line := 1, int_value := 0 },
    { type := TOK_COLON, lexeme := some [58], line := 1, int_value := 0 },
    { type := TOK_IDENTIFIER, lexeme := some (cstr "MOV"), line := 1, int_value := 0 },
    { type := TOK_NEWLINE, lexeme := some [10], line := 1, int_value := 0 },
    { type := TOK_IDENTIFIER, lexeme := some (cstr "JMP"), line := 2, int_value := 0 },
    { type := TOK_IDENTIFIER, lexeme := some (cstr "START"), line := 2, int_value := 0 },
    { type := TOK_EOF, lexeme := none, line := 2, int_value := 0 } ]

/-- Pass-one context of the program `START: MOV` / `JMP START`. -/
def start_loop_pass_one : PassOne :=
  { symtab := (symtab_insert (symtab_create 256) (cstr "START") SymbolType.SYM_LABEL 0 1).2
    instructions :=
      [ { address := 0, length := 3, line := 1, mnemonic := cstr "MOV", operands := [],
          has_label := true, label := cstr "START" },
        { address := 3, length := 3, line := 2, mnemonic := cstr "JMP",
          operands := [{ type := OPERAND_LABEL, value := 0, name := cstr "START" }],
          has_label := false, label := [] } ]
    current_address := 6, current_line := 3, has_errors := false }

/-- Pass-two context of the program `START: MOV` / `JMP START`. -/
def start_loop_codegen : CodeGen :=
  { code_buffer := [0x88, 0xEB, 0x00, 0x00]
    relocations :=
      [ { offset := 2, instruction_index := 1, operand_index := 0, symbol_name := cstr "START" } ]
    has_errors := false }

/-- Tokens of the program `JMP NOWHERE`. -/
def nowhere_tokens : List Token :=
  [ { type := TOK_IDENTIFIER, lexeme := some (cstr "JMP"), line := 1, int_value := 0 },
    { type := TOK_IDENTIFIER, lexeme := some (cstr "NOWHERE"), line := 1, int_value := 0 },
    { type := TOK_EOF, lexeme := none, line := 1, int_value := 0 } ]

/-- Pass-one context of the program `JMP NOWHERE`. -/
def nowhere_pass_one : PassOne :=
  { symtab := symtab_create 256
    instructions :=
      [ { address := 0, length := 3, line := 1, mnemonic := cstr "JMP",
          operands := [{ type := OPERAND_LABEL, value := 0, name := cstr "NOWHERE" }],
          has_label := false, label := [] } ]
    current_address := 3, current_line := 2, has_errors := false }

/-- The lexer stands in a NUL-free buffer of `len` bytes with `pre` read and
`rest` still to read. -/
def Lexer.At (lx : Lexer) (pre rest : List Nat) : Prop :=
  lx.buffer = pre ++ rest ∧ lx.pos = pre.length ∧ lx.len = lx.buffer.length ∧
    ∀ c ∈ lx.buffer, c ≠ 0

/-- Source text of the program whose lines are `DB v` for the spellings of the
list, the lines separated by newlines. -/
def db_source : List CStr → List Nat
  | [] => []
  | s :: rest => cstr "DB " ++ s ++ (if rest = [] then [] else 10 :: db_source rest)

/-! ## Vocabulary of the symbol-table properties -/

/-- Arguments of one `symtab_insert` call. -/
structure InsertCall where
  name : CStr
  type : SymbolType
  address : Nat
  line : Nat
deriving DecidableEq, Repr

/-- The table after a sequence of `symtab_insert` calls, whatever their
statuses. -/
def symtab_insert_all (st : SymbolTable) : List InsertCall → SymbolTable
  | [] => st
  | c :: rest => symtab_insert_all (symtab_insert st c.name c.type c.address c.line).2 rest

/-- The record `symtab_insert` stores for a call. -/
def InsertCall.record (c : InsertCall) : SymbolInfo :=
  { name := util_strcpy c.name, type := c.type, address := c.address, line_defined := c.line,
    is_defined := 1 }

/-- The names of a sequence of calls, as C strings (the bytes before the
terminator). -/
def inserted_names (calls : List InsertCall) : List CStr :=
  calls.map (fun c => util_strcpy c.name)

/-! ## Vocabulary of the pass-one properties -/

/-- Tokens of the one-line program `L:`. -/
def label_only_tokens : List Token :=
  [ { type := TOK_IDENTIFIER, lexeme := some (cstr "L"), line := 1, int_value := 0 },
    { type := TOK_COLON, lexeme := some (cstr ":"), line := 1, int_value := 0 },
    { type := TOK_EOF, lexeme := none, line := 1, int_value := 0 } ]

/-- Tokens of the program `ORG 256` / `START: RET`. -/
def org_tokens : List Token :=
  [ { type := TOK_IDENTIFIER, lexeme := some (cstr "ORG"), line := 1, int_value := 0 },
    { type := TOK_NUMBER, lexeme := some (cstr "256"), line := 1, int_value := 256 },
    { type := TOK_NEWLINE, lexeme := some [10], line := 1, int_value := 0 },
    { type := TOK_IDENTIFIER, lexeme := some (cstr "START"), line := 2, int_value := 0 },
    { type := TOK_COLON, lexeme := some (cstr ":"), line := 2, int_value := 0 },
    { type := TOK_IDENTIFIER, lexeme := some (cstr "RET"), line := 2, int_value := 0 },
    { type := TOK_EOF, lexeme := none, line := 2, int_value := 0 } ]

/-- Pass-one context of the program `ORG 256` / `START: RET`. -/
def org_pass_one : PassOne :=
  { symtab := (symtab_insert (symtab_create 256) (cstr "START") SymbolType.SYM_LABEL 0 2).2
    instructions :=
      [ { address := 0, length := 0, line := 1, mnemonic := cstr "ORG",
          operands := [{ type := OPERAND_IMMEDIATE, value := 256, name := [] }],
          has_label := false, label := [] },
        { address := 0, length := 3, line := 2, mnemonic := cstr "RET", operands := [],
          has_label := true, label := cstr "START" } ]
    current_address := 3, current_line := 3, has_errors := false }

/-! ## The lexer as a function of the unread text

`scan_token` reads one token from the text that is still unread. It is the
reference against which `lexer_next_token` is proved (`lexer_next_token_scan`):
the loops of the lexer become recursion over the text, and the read position
becomes the text that is left. -/

/-- Result of reading one token: the token, the text left unread, the line
counter afterwards, and the errors reported so far. -/
structure Scan where
  token : Token
  rest : List Nat
  line : Nat
  errors : List ErrorReport
deriving DecidableEq, Repr

/-- The text after the blanks, tabs, carriage returns and `;` comments at its
start; `in_comment` tells whether the text starts inside a comment. -/
def drop_blank : Bool → List Nat → List Nat
  | _, [] => []
  | true, c :: r => if c = 10 then c :: r else drop_blank true r
  | false, c :: r =>
    if c = 32 ∨ c = 9 ∨ c = 13 then drop_blank false r
    else if c = 59 then drop_blank true r
    else c :: r

/-- String token for the text `r` that follows an opening `quote`. -/
def scan_string (quote line : Nat) (errs : List ErrorReport) (r : List Nat) : Scan :=
  let content := r.takeWhile (fun x => x != quote)
  let line1 := line + content.count 10
  match r.dropWhile (fun x => x != quote) with
  | [] =>
    { token := { type := TOK_STRING, lexeme := some content, line := line1, int_value := 0 },
      rest := [], line := line1,
      errors := errs ++ [{ line := line1, code := ERR_LEX_UNCLOSED_STR }] }
  | _ :: rest =>
    { token := { type := TOK_STRING, lexeme := some content, line := line1, int_value := 0 },
      rest := rest, line := line1, errors := errs }

/-- Number token for the text `c :: r`, `c` being a decimal digit. -/
def scan_number (line : Nat) (errs : List ErrorReport) (c : Nat) (r : List Nat) : Scan :=
  if c = 48 ∧ (r.headD 0 = 120 ∨ r.headD 0 = 88) then
    let digits := r.tail.takeWhile is_hex_char
    { token := { type := TOK_NUMBER, lexeme := some (c :: r.headD 0 :: digits), line := line,
                 int_value := masm_hex_value digits },
      rest := r.tail.dropWhile is_hex_char, line := line,
      errors := errs ++ (if digits = [] then [{ line := line, code := ERR_LEX_INVALID_NUM }]
                         else []) }
  else
    let run := c :: r.takeWhile is_hex_char
    let after := r.dropWhile is_hex_char
    if after.headD 0 = 104 ∨ after.headD 0 = 72 then
      { token := { type := TOK_NUMBER, lexeme := some (run ++ [after.headD 0]), line := line,
                   int_value := masm_hex_value run },
        rest := after.tail, line := line, errors := errs }
    else
      { token := { type := TOK_NUMBER, lexeme := some run, line := line,
                   int_value := decimal_value run },
        rest := after, line := line, errors := errs }

/-- Identifier token for the text `c :: r`, `c` being a letter, `_`, `.` or
`$`. -/
def scan_identifier (line : Nat) (errs : List ErrorReport) (c : Nat) (r : List Nat) : Scan :=
  { token := { type := TOK_IDENTIFIER, lexeme := some (c :: r.takeWhile is_alnum), line := line,
               int_value := 0 },
    rest := r.dropWhile is_alnum, line := line, errors := errs }

/-- End-of-line token for a newline followed by the text `r`. -/
def scan_newline (line : Nat) (errs : List ErrorReport) (r : List Nat) : Scan :=
  { token := { type := TOK_NEWLINE, lexeme := some [10], line := line, int_value := 0 },
    rest := r, line := line + 1, errors := errs }

/-- One token read from the unread text; `in_comment` tells whether the text
starts inside a comment (`false` at a call of the lexer). -/
def scan_token : Bool → Nat → List ErrorReport → List Nat → Scan
  | _, line, errs, [] =>
    { token := { type := TOK_EOF, lexeme := none, line := line, int_value := 0 },
      rest := [], line := line, errors := errs }
  | true, line, errs, c :: r =>
    if c = 10 then scan_newline line errs r else scan_token true line errs r
  | false, line, errs, c :: r =>
    if c = 32 ∨ c = 9 ∨ c = 13 then scan_token false line errs r
    else if c = 59 then scan_token true line errs r
    else if c = 10 then scan_newline line errs r
    else
      match punctuation_type c with
      | some ty =>
        { token := { type := ty, lexeme := some [c], line := line, int_value := 0 },
          rest := r, line := line, errors := errs }
      | none =>
        if c = 34 ∨ c = 39 then scan_string c line errs r
        else if is_digit c then scan_number line errs c r
        else if is_alpha c then scan_identifier line errs c r
        else scan_token false line (errs ++ [{ line := line, code := ERR_LEX_INVALID_CHAR }]) r

/-- What one reading of a token does to the text: `body` is the text of the token, `ln` the
line counter before. -/
def ScanParts (ln : Nat) (s : Scan) (body : List Nat) : Prop :=
  s.line = ln + body.count 10 ∧
  (s.token.type = TOK_EOF → body = [] ∧ s.rest = [] ∧ s.token.line = ln ∧
    s.token.lexeme = none) ∧
  (s.token.type = TOK_STRING → ∃ q content closing, body = q :: content ++ closing ∧
    (q = 34 ∨ q = 39) ∧ (closing = [q] ∨ (closing = [] ∧ s.rest = [])) ∧ q ∉ content ∧
    s.token.lexeme = some content ∧ s.token.line = ln + content.count 10) ∧
  (s.token.type ≠ TOK_EOF → s.token.type ≠ TOK_STRING →
    s.token.lexeme = some body ∧ body ≠ [] ∧ s.token.line = ln)

/-! ## Vocabulary of the lexer properties -/

/-- The lexer after `k` calls of `lexer_next_token`. -/
def lexer_after : Nat → Lexer → Lexer
  | 0, lx => lx
  | k + 1, lx => lexer_after k (lexer_next_token lx).2.1

/-- The token returned by call number `k + 1`. -/
def lexer_token (k : Nat) (lx : Lexer) : Token := (lexer_next_token (lexer_after k lx)).1

/-- The tokens returned by at most `fuel` calls, up to and including the first
end-of-input token. -/
def lexer_tokens : Nat → Lexer → List Token
  | 0, _ => []
  | fuel + 1, lx =>
    if (lexer_next_token lx).1.type = TOK_EOF then [(lexer_next_token lx).1]
    else (lexer_next_token lx).1 :: lexer_tokens fuel (lexer_next_token lx).2.1

/-- The errors reported by the calls that `lexer_tokens` makes. -/
def lexer_errors : Nat → Lexer → List ErrorReport
  | 0, _ => []
  | fuel + 1, lx =>
    if (lexer_next_token lx).1.type = TOK_EOF then (lexer_next_token lx).2.2
    else (lexer_next_token lx).2.2 ++ lexer_errors fuel (lexer_next_token lx).2.1

/-- Number of newline characters among the first `k` bytes of the buffer. -/
def newlines_before (buffer : List Nat) (k : Nat) : Nat := (buffer.take k).count 10

/-- The source text `"a` / `b"`: one string that spans two lines. -/
def two_line_string : List Nat := [34, 97, 10, 98, 34]

/-- Base-16 value of a string of hex-digit characters. -/
def hex_number (digits : List Nat) : Nat :=
  digits.foldl (fun v c => 16 * v + hex_digit_value c) 0

/-- Base-10 value of a string of decimal-digit characters. -/
def decimal_number (digits : List Nat) : Nat :=
  digits.foldl (fun v c => 10 * v + (c - 48)) 0

/-- Where a character of the source stands: in code, in a `;` comment, or in a
string opened by `quote`. -/
inductive TextMode
  | code
  | comment
  | string (quote : Nat)
deriving DecidableEq, Repr

/-- A character that starts no token and is no blank, newline, `;` or quote. -/
def is_invalid_char (c : Nat) : Bool :=
  !(c == 32 || c == 9 || c == 13 || c == 10 || c == 59 || c == 34 || c == 39 ||
    is_digit c || is_alpha c || (punctuation_type c).isSome)

/-- The mode after the character `c` read in mode `m`. -/
def next_mode : TextMode → Nat → TextMode
  | .comment, c => if c = 10 then .code else .comment
  | .string q, c => if c = q then .code else .string q
  | .code, c => if c = 59 then .comment else if c = 34 ∨ c = 39 then .string c else .code

/-- The source text in which every invalid character outside comments and
strings is replaced by a space; the text ends at its first NUL byte. -/
def sanitize : TextMode → List Nat → List Nat
  | _, [] => []
  | m, c :: r =>
    if c = 0 then c :: r
    else if m = .code ∧ is_invalid_char c = true then 32 :: sanitize .code r
    else c :: sanitize (next_mode m c) r

/-- Number of invalid characters outside comments and strings. -/
def invalid_count : TextMode → List Nat → Nat
  | _, [] => 0
  | m, c :: r =>
    if c = 0 then 0
    else if m = .code ∧ is_invalid_char c = true then invalid_count .code r + 1
    else invalid_count (next_mode m c) r

/-- A character class whose members are ordinary token characters. -/
def PlainClass (P : Nat → Bool) : Prop :=
  P 32 = false ∧ ∀ c, P c = true →
    c ≠ 0 ∧ c ≠ 59 ∧ c ≠ 34 ∧ c ≠ 39 ∧ is_invalid_char c = false

/-- Relation between the reading `s` of a text and the reading `s1` of the
sanitized text: same token and line, the text left is the sanitized text left,
and the errors of `s` are those of `s1` with `k` invalid-character reports of
line `ln` put before them. -/
def ScanSame (k : Nat) (errs errs1 : List ErrorReport) (ln : Nat) (s s1 : Scan) : Prop :=
  s1.token = s.token ∧ s1.line = s.line ∧ s1.rest = sanitize .code s.rest ∧
  ∃ t, s.errors = errs ++ List.replicate k { line := ln, code := ERR_LEX_INVALID_CHAR } ++ t ∧
    s1.errors = errs1 ++ t ∧ ∀ e ∈ t, e.code ≠ ERR_LEX_INVALID_CHAR

/-! ## Vocabulary of the blank-source property -/

/-- A text of blanks, tabs, carriage returns, newlines and `;` comments only;
`in_comment` tells whether the text starts inside a comment, and the text
ends at its first NUL byte. -/
def blank_text : Bool → List Nat → Bool
  | _, [] => true
  | true, c :: r => if c = 0 then true else blank_text (decide (c ≠ 10)) r
  | false, c :: r =>
    if c = 0 then true
    else if c = 32 ∨ c = 9 ∨ c = 13 ∨ c = 10 then blank_text false r
    else if c = 59 then blank_text true r
    else false

/-- Number of newline characters of a source text (before its first NUL
byte). -/
def source_newlines (src : List Nat) : Nat := (src.takeWhile (fun c => c ≠ 0)).count 10

/-- The tokens of a blank text with `k` newlines that starts on line `ln`: one
end-of-line token per newline, then the end-of-input token. -/
def newline_tokens : Nat → Nat → List Token
  | ln, 0 => [{ type := TOK_EOF, lexeme := none, line := ln, int_value := 0 }]
  | ln, k + 1 =>
    { type := TOK_NEWLINE, lexeme := some [10], line := ln, int_value := 0 } ::
      newline_tokens (ln + 1) k

/-! ## Vocabulary of the mnemonic-table properties -/

/-- Two spellings are equal up to ASCII letter case: their bytes before the
terminator agree once upper-cased. -/
def same_spelling (a b : CStr) : Bool :=
  decide ((util_strcpy a).map to_upper = (util_strcpy b).map to_upper)

/-- The directive mnemonics. -/
def directive_mnemonics : List CStr :=
  [cstr "SEGMENT", cstr "ENDS", cstr "ASSUME", cstr "ORG", cstr "DB", cstr "PROC", cstr "ENDP",
   cstr "END"]

/-- The mnemonics of the ordinary instructions. -/
def ordinary_mnemonics : List CStr :=
  [cstr "MOV", cstr "ADD", cstr "SUB", cstr "MUL", cstr "DIV", cstr "CMP", cstr "AND", cstr "OR",
   cstr "XOR", cstr "SHL", cstr "SHR", cstr "JMP", cstr "JZ", cstr "JNZ", cstr "JC", cstr "JNC",
   cstr "LOOP", cstr "PUSH", cstr "POP", cstr "CALL", cstr "RET", cstr "NOP", cstr "CLC",
   cstr "STC", cstr "INT"]

/-! ## Vocabulary of the pass-one properties (statement forms) -/

/-- Tokens of the one-line program `MAIN PROC`. -/
def proc_tokens : List Token :=
  [ { type := TOK_IDENTIFIER, lexeme := some (cstr "MAIN"), line := 1, int_value := 0 },
    { type := TOK_IDENTIFIER, lexeme := some (cstr "PROC"), line := 1, int_value := 0 },
    { type := TOK_EOF, lexeme := none, line := 1, int_value := 0 } ]

/-- Tokens of the one-line program `BUF DB 65`. -/
def named_db_tokens : List Token :=
  [ { type := TOK_IDENTIFIER, lexeme := some (cstr "BUF"), line := 1, int_value := 0 },
    { type := TOK_IDENTIFIER, lexeme := some (cstr "DB"), line := 1, int_value := 0 },
    { type := TOK_NUMBER, lexeme := some (cstr "65"), line := 1, int_value := 65 },
    { type := TOK_EOF, lexeme := none, line := 1, int_value := 0 } ]

/-- Tokens of the one-line program `5 5`. -/
def two_number_tokens : List Token :=
  [ { type := TOK_NUMBER, lexeme := some (cstr "5"), line := 1, int_value := 5 },
    { type := TOK_NUMBER, lexeme := some (cstr "5"), line := 1, int_value := 5 },
    { type := TOK_EOF, lexeme := none, line := 1, int_value := 0 } ]

/-- Tokens of the one-line program `5 RET`. -/
def number_ret_tokens : List Token :=
  [ { type := TOK_NUMBER, lexeme := some (cstr "5"), line := 1, int_value := 5 },
    { type := TOK_IDENTIFIER, lexeme := some (cstr "RET"), line := 1, int_value := 0 },
    { type := TOK_EOF, lexeme := none, line := 1, int_value := 0 } ]

/-! ## Vocabulary of the emitter properties -/

/-- The bytes of one operand of an ordinary instruction, `k` being the index
of the operand: one or two bytes for an immediate, one byte for a register,
`00 00` for a label or memory operand. -/
def operand_bytes (k : Nat) (o : Operand) : List Nat :=
  if o.type = OPERAND_IMMEDIATE then
    (if o.value ≤ 0xFF then [o.value % 256] else [o.value % 256, (o.value / 256) % 256])
  else if o.type = OPERAND_REGISTER then [0xC0 ||| (k % 64)]
  else if o.type = OPERAND_LABEL ∨ o.type = OPERAND_MEMORY then [0x00, 0x00]
  else []

/-- The bytes of the operands of a record, the first of which has index `k`. -/
def encode_operands : List Operand → Nat → List Nat
  | [], _ => []
  | o :: rest, k => operand_bytes k o ++ encode_operands rest (k + 1)

/-- Offset of the bytes of operand `k` within the encoding of an ordinary
instruction: the opcode byte and the bytes of the operands before it. -/
def operand_offset (ops : List Operand) (k : Nat) : Nat :=
  1 + ((ops.take k).map operand_size).sum

/-- The relocations for the operands of record `idx`: one for each label
operand with a non-empty name; `k` is the index of the first operand of the
list and `pos` the buffer position of its bytes. -/
def label_relocations (idx : Nat) : List Operand → Nat → Nat → List Relocation
  | [], _, _ => []
  | o :: rest, k, pos =>
    (if o.type = OPERAND_LABEL ∧ util_strlen o.name > 0 then
       [{ offset := pos, instruction_index := idx, operand_index := k,
          symbol_name := util_strcpy o.name }]
     else []) ++ label_relocations idx rest (k + 1) (pos + operand_size o)

/-- The pass-two context when the emission loop reaches record `j`. -/
def emit_state (p : PassOne) (j : Nat) : CodeGen :=
  (emit_all (p.instructions.take j) 0
    { code_buffer := [], relocations := [], has_errors := false } []).1

/-- Tokens of the program `JMP [FOO]` / `FOO: RET`. -/
def memory_jump_tokens : List Token :=
  [ { type := TOK_IDENTIFIER, lexeme := some (cstr "JMP"), line := 1, int_value := 0 },
    { type := TOK_LBRACKET, lexeme := some (cstr "["), line := 1, int_value := 0 },
    { type := TOK_IDENTIFIER, lexeme := some (cstr "FOO"), line := 1, int_value := 0 },
    { type := TOK_RBRACKET, lexeme := some (cstr "]"), line := 1, int_value := 0 },
    { type := TOK_NEWLINE, lexeme := some [10], line := 1, int_value := 0 },
    { type := TOK_IDENTIFIER, lexeme := some (cstr "FOO"), line := 2, int_value := 0 },
    { type := TOK_COLON, lexeme := some (cstr ":"), line := 2, int_value := 0 },
    { type := TOK_IDENTIFIER, lexeme := some (cstr "RET"), line := 2, int_value := 0 },
    { type := TOK_EOF, lexeme := none, line := 2, int_value := 0 } ]

/-- Pass-one context of the program `JMP [FOO]` / `FOO: RET`. -/
def memory_jump_pass_one : PassOne :=
  { symtab := (symtab_insert (symtab_create 256) (cstr "FOO") SymbolType.SYM_LABEL 3 2).2
    instructions :=
      [ { address := 0, length := 3, line := 1, mnemonic := cstr "JMP",
          operands := [{ type := OPERAND_MEMORY, value := 0, name := cstr "FOO" }],
          has_label := false, label := [] },
        { address := 3, length := 3, line := 2, mnemonic := cstr "RET", operands := [],
          has_label := true, label := cstr "FOO" } ]
    current_address := 6, current_line := 3, has_errors := false }

/-! ## Vocabulary of the directive-neutrality property -/

/-- An end-of-line or end-of-input token. -/
def Token.ends_line (t : Token) : Bool := decide (t.type = TOK_NEWLINE ∨ t.type = TOK_EOF)

/-- A token without its line number. -/
def Token.unline (t : Token) : Token := { t with line := 0 }

/-- A record without its line number. -/
def InstructionEntry.unline (e : InstructionEntry) : InstructionEntry := { e with line := 0 }

/-- Two token arrays agree, up to line numbers, on a window: `ok k` says that
offset `k` from the index `i` of the first array and from the index `j` of the
second lies in the window. The window holds the token after each of its
tokens that does not end a line, and the two tokens after each `[`; all its
indices are small. -/
structure Window (T1 T2 : List Token) (i j : Nat) (ok : Nat → Prop) : Prop where
  agree : ∀ k, ok k → (T1[i + k]?).map Token.unline = (T2[j + k]?).map Token.unline
  bound : ∀ k, ok k → i + k + 2 < 65535 ∧ j + k + 2 < 65535
  next : ∀ k t, ok k → T1[i + k]? = some t → t.ends_line = false → ok (k + 1)
  bracket : ∀ k t, ok k → T1[i + k]? = some t → t.type = TOK_LBRACKET → ok (k + 2)

/-- The part of a symbol record that pass two reads: address and defined
flag. -/
def SymbolInfo.place (s : SymbolInfo) : Nat × Nat := (s.address, s.is_defined)

/-- Two pass-one contexts that differ by the one record `d` after the records
`X`, and in the line numbers taken after it: same location counter and error
flag, symbol tables with the same names, addresses and defined flags, and
after `X` (and `d`) the same records up to their lines. -/
structure SameLayout (X : List InstructionEntry) (d : InstructionEntry) (p1 p2 : PassOne) :
    Prop where
  address : p1.current_address = p2.current_address
  flag : p1.has_errors = p2.has_errors
  wf1 : p1.symtab.symbols.WF
  wf2 : p2.symtab.symbols.WF
  symbols : ∀ name, (symtab_lookup p1.symtab name).map SymbolInfo.place =
    (symtab_lookup p2.symtab name).map SymbolInfo.place
  records : ∃ Y1 Y2, p1.instructions = X ++ d :: Y1 ∧ p2.instructions = X ++ Y2 ∧
    Y1.map InstructionEntry.unline = Y2.map InstructionEntry.unline

/-- The part of a relocation that the patch step reads: offset and symbol
name. -/
def Relocation.target (r : Relocation) : Nat × CStr := (r.offset, r.symbol_name)

/-- What the output depends on in a pass-two context: the code buffer, the
error flag, and the offsets and names of the relocations. -/
def CodeGen.image (cg : CodeGen) : List Nat × Bool × List (Nat × CStr) :=
  (cg.code_buffer, cg.has_errors, cg.relocations.map Relocation.target)

/-! ## Vocabulary of directive neutrality -/

/-- The scan `for (i = len; i > 0; i--)` of `generate_output_filename` for a
`.`: the first `i`, counting down from the start value, with
`output[i - 1] == '.'`, if there is one. -/
def find_last_dot (output : List Nat) : Nat → Option Nat
  | 0 => none
  | i + 1 => if output[i]? = some 46 then some (i + 1) else find_last_dot output i

/-- The default output file name for an input path (`none` is the NULL
pointer): the copy of the path is cut after its last `.` and `com` written
there, or `.com` is appended when the path holds no `.`. Allocation is
assumed to succeed. -/
def generate_output_filename (input_file : Option CStr) : CStr :=
  match input_file with
  | none => cstr "output.com"
  | some path =>
    let len := util_strlen path
    let output := util_strcpy path
    match find_last_dot output len with
    | some i => output.take i ++ cstr "com"
    | none => output ++ cstr ".com"

/-! ## Vocabulary of the length table -/

/-- The length table of the specification: `1` for `DB`, `0` for `ORG`,
`SEGMENT`, `ENDS`, `PROC`, `ENDP` and `END`, and `3` for anything else; the
mnemonic is read as a C string. -/
def spec_instruction_length (mnemonic : CStr) : Nat :=
  if util_strcpy mnemonic = cstr "DB" then 1
  else if util_strcpy mnemonic ∈ [cstr "ORG", cstr "SEGMENT", cstr "ENDS", cstr "PROC",
      cstr "ENDP", cstr "END"] then 0
  else 3

/-! ## Vocabulary of the encoding of operands -/

/-- The bytes of one operand as the specification gives them, `i` being the
position of the operand: for a register one byte `0xC0 | (i mod 8)`, for an
immediate `v` the byte `v` if `v ≤ 0xFF` and otherwise the two bytes
`v mod 256`, `(v / 256) mod 256`, for a label or memory operand `00 00`. -/
def spec_operand_bytes (i : Nat) (o : Operand) : List Nat :=
  if o.type = OPERAND_REGISTER then [0xC0 ||| (i % 8)]
  else if o.type = OPERAND_IMMEDIATE then
    (if o.value ≤ 0xFF then [o.value] else [o.value % 256, (o.value / 256) % 256])
  else if o.type = OPERAND_LABEL ∨ o.type = OPERAND_MEMORY then [0x00, 0x00]
  else []

/-- The bytes of the operands of a record in order, as the specification gives
them; `i` is the position of the first operand of the list. -/
def spec_encode_operands : List Operand → Nat → List Nat
  | [], _ => []
  | o :: rest, i => spec_operand_bytes i o ++ spec_encode_operands rest (i + 1)

/-- Tokens of the one-line program `MOV AX, 300`. -/
def mov_ax_300_tokens : List Token :=
  [ { type := TOK_IDENTIFIER, lexeme := some (cstr "MOV"), line := 1, int_value := 0 },
    { type := TOK_IDENTIFIER, lexeme := some (cstr "AX"), line := 1, int_value := 0 },
    { type := TOK_COMMA, lexeme := some (cstr ","), line := 1, int_value := 0 },
    { type := TOK_NUMBER, lexeme := some (cstr "300"), line := 1, int_value := 300 },
    { type := TOK_EOF, lexeme := none, line := 1, int_value := 0 } ]

/-- The record of `MOV AX, 300` as pass one stores it. -/
def mov_ax_300_record : InstructionEntry :=
  { address := 0, length := 3, line := 1, mnemonic := cstr "MOV",
    operands := [{ type := OPERAND_REGISTER, value := 0, name := [] },
                 { type := OPERAND_IMMEDIATE, value := 300, name := [] }],
    has_label := false, label := [] }

/-- Pass-one context of the program `MOV AX, 300`. -/
def mov_ax_300_pass_one : PassOne :=
  { symtab := symtab_create 256, instructions := [mov_ax_300_record], current_address := 3,
    current_line := 2, has_errors := false }

/-- The empty pass-two context. -/
def codegen_init : CodeGen := { code_buffer := [], relocations := [], has_errors := false }

/-- Tokens of the one-line program `JMP loop`. -/
def jmp_loop_tokens : List Token :=
  [ { type := TOK_IDENTIFIER, lexeme := some (cstr "JMP"), line := 1, int_value := 0 },
    { type := TOK_IDENTIFIER, lexeme := some (cstr "loop"), line := 1, int_value := 0 },
    { type := TOK_EOF, lexeme := none, line := 1, int_value := 0 } ]

/-- Tokens of the one-line program `JMP target`. -/
def jmp_target_tokens : List Token :=
  [ { type := TOK_IDENTIFIER, lexeme := some (cstr "JMP"), line := 1, int_value := 0 },
    { type := TOK_IDENTIFIER, lexeme := some (cstr "target"), line := 1, int_value := 0 },
    { type := TOK_EOF, lexeme := none, line := 1, int_value := 0 } ]

/-- Tokens of the one-line program `MOV [`: three tokens, the last of which is
the end of the input. -/
def open_bracket_tokens : List Token :=
  [ { type := TOK_IDENTIFIER, lexeme := some (cstr "MOV"), line := 1, int_value := 0 },
    { type := TOK_LBRACKET, lexeme := some (cstr "["), line := 1, int_value := 0 },
    { type := TOK_EOF, lexeme := none, line := 1, int_value := 0 } ]

/-- The record of `ADD 0x100, 0x200` as pass one stores it. -/
def add_wide_record : InstructionEntry :=
  { address := 0, length := 3, line := 1, mnemonic := cstr "ADD",
    operands := [{ type := OPERAND_IMMEDIATE, value := 0x100, name := [] },
                 { type := OPERAND_IMMEDIATE, value := 0x200, name := [] }],
    has_label := false, label := [] }

/-! ## Vocabulary of the reads of pass one -/

/-- A token array in which the reads of pass one stay inside the array: every
token other than an end-of-input token has a token after it (the array ends
with an end-of-input token), every identifier token has a lexeme, and every
`[` has two tokens after it. -/
structure Readable (tokens : List Token) : Prop where
  next : ∀ (i : Nat) (t : Token), tokens[i]? = some t → t.type ≠ TOK_EOF →
    i + 1 < tokens.length
  lexeme : ∀ (i : Nat) (t : Token), tokens[i]? = some t → t.type = TOK_IDENTIFIER →
    t.lexeme ≠ none
  bracket : ∀ (i : Nat) (t : Token), tokens[i]? = some t → t.type = TOK_LBRACKET →
    i + 2 < tokens.length

/-! ## Vocabulary of the line counter -/

/-- Number of end-of-line tokens (`NEWLINE` or `EOF`) in a list of tokens. -/
def line_ends (ts : List Token) : Nat := (ts.filter Token.ends_line).length

/-- No `[` is immediately followed by an end-of-line token, so that no memory
operand takes in the end of its line. -/
def brackets_keep_line (tokens : List Token) : Prop :=
  ∀ (i : Nat) (t t1 : Token), tokens[i]? = some t → t.type = TOK_LBRACKET →
    tokens[i + 1]? = some t1 → t1.ends_line = false

/-- The line fields of the tokens count the end-of-line tokens: every token
carries one plus the number of end-of-line tokens before it. -/
def lines_counted (tokens : List Token) : Prop :=
  ∀ (j : Nat) (t : Token), tokens[j]? = some t → t.line = 1 + line_ends (tokens.take j)

/-- Tokens of the one-line program `L: RET` with the line field `7` in every
token. -/
def line_seven_tokens : List Token :=
  [ { type := TOK_IDENTIFIER, lexeme := some (cstr "L"), line := 7, int_value := 0 },
    { type := TOK_COLON, lexeme := some (cstr ":"), line := 7, int_value := 0 },
    { type := TOK_IDENTIFIER, lexeme := some (cstr "RET"), line := 7, int_value := 0 },
    { type := TOK_EOF, lexeme := none, line := 7, int_value := 0 } ]

/-! ## Vocabulary of the full relocation table -/

/-- The operands of `MOV A, B, C`: three label operands. -/
def three_label_operands : List Operand :=
  [ { type := OPERAND_LABEL, value := 0, name := cstr "A" },
    { type := OPERAND_LABEL, value := 0, name := cstr "B" },
    { type := OPERAND_LABEL, value := 0, name := cstr "C" } ]

/-- The operands of `MOV A, B`: two label operands. -/
def two_label_operands : List Operand :=
  [ { type := OPERAND_LABEL, value := 0, name := cstr "A" },
    { type := OPERAND_LABEL, value := 0, name := cstr "B" } ]

/-- Tokens of the line `MOV A, B, C` with the end of the line. -/
def three_label_line (ln : Nat) : List Token :=
  [ { type := TOK_IDENTIFIER, lexeme := some (cstr "MOV"), line := ln, int_value := 0 },
    { type := TOK_IDENTIFIER, lexeme := some (cstr "A"), line := ln, int_value := 0 },
    { type := TOK_COMMA, lexeme := some (cstr ","), line := ln, int_value := 0 },
    { type := TOK_IDENTIFIER, lexeme := some (cstr "B"), line := ln, int_value := 0 },
    { type := TOK_COMMA, lexeme := some (cstr ","), line := ln, int_value := 0 },
    { type := TOK_IDENTIFIER, lexeme := some (cstr "C"), line := ln, int_value := 0 },
    { type := TOK_NEWLINE, lexeme := some [10], line := ln, int_value := 0 } ]

/-- Tokens of the last line `MOV A, B` with the end of the input. -/
def two_label_end (ln : Nat) : List Token :=
  [ { type := TOK_IDENTIFIER, lexeme := some (cstr "MOV"), line := ln, int_value := 0 },
    { type := TOK_IDENTIFIER, lexeme := some (cstr "A"), line := ln, int_value := 0 },
    { type := TOK_COMMA, lexeme := some (cstr ","), line := ln, int_value := 0 },
    { type := TOK_IDENTIFIER, lexeme := some (cstr "B"), line := ln, int_value := 0 },
    { type := TOK_EOF, lexeme := none, line := ln, int_value := 0 } ]

/-- Tokens of the program of `n` lines `MOV A, B, C`, from line `ln` on,
followed by the line `MOV A, B`. -/
def three_label_program : Nat → Nat → List Token
  | 0, ln => two_label_end ln
  | n + 1, ln => three_label_line ln ++ three_label_program n (ln + 1)

/-- The records of that program, from address `address` and line `line` on. -/
def three_label_records : Nat → Nat → Nat → List InstructionEntry
  | 0, address, line =>
    [ { address := address, length := 3, line := line, mnemonic := cstr "MOV",
        operands := two_label_operands, has_label := false, label := [] } ]
  | n + 1, address, line =>
    { address := address, length := 3, line := line, mnemonic := cstr "MOV",
      operands := three_label_operands, has_label := false, label := [] } ::
      three_label_records n (address + 3) (line + 1)

/-- Pass-one context of the program of 333 lines `MOV A, B, C` and the line
`MOV A, B`: 334 records with 1001 label operands. -/
def three_label_pass_one : PassOne :=
  { pass_one_init with
    instructions := three_label_records 333 0 1
    current_address := 1002
    current_line := 335 }

/-! ## Vocabulary of the field sizes -/

/-- Size of the field `mnemonic` of a record (`s8 mnemonic[32]`). -/
def MNEMONIC_SIZE : Nat := 32

/-- Size of the fields `label` of a record, `name` of an operand and
`symbol_name` of a relocation, and of the buffer `tmp` in which a name is
merged with a `:` suffix (all declared `[128]`). -/
def NAME_SIZE : Nat := 128

/-- The string `s` fits a field of `size` bytes: `util_strcpy` writes the
bytes before the terminator and the terminator, so the copy stays inside the
field when the length is smaller than `size`. The copies of the program are
made without a test of the length; the embedding describes them when the
string fits. -/
def fits (size : Nat) (s : CStr) : Prop := util_strlen s < size

instance fits_decidable (size : Nat) (s : CStr) : Decidable (fits size s) := by
  unfold fits
  infer_instance

/-- Every identifier of the token sequence is shorter than the smallest field
an identifier may be copied into, `mnemonic[32]`. Then no copy of a lexeme
leaves its field: a label and an operand name have 128 bytes, and a name
merged with `:` and a second identifier has at most 63 bytes. -/
def identifiers_fit (tokens : List Token) : Prop :=
  ∀ t ∈ tokens, t.type = TOK_IDENTIFIER → fits MNEMONIC_SIZE (t.lexeme.getD [])

instance identifiers_fit_decidable (tokens : List Token) : Decidable (identifiers_fit tokens) := by
  unfold identifiers_fit
  infer_instance

/-- The record is a value of the structure `InstructionEntry`: its strings
end inside their fields and it has at most `SEMANTIC_MAX_OPERANDS`
operands. -/
def InstructionEntry.fits_fields (e : InstructionEntry) : Prop :=
  fits MNEMONIC_SIZE e.mnemonic ∧ fits NAME_SIZE e.label ∧
  e.operands.length ≤ SEMANTIC_MAX_OPERANDS ∧ ∀ o ∈ e.operands, fits NAME_SIZE o.name

instance fits_fields_decidable (e : InstructionEntry) : Decidable e.fits_fields := by
  unfold InstructionEntry.fits_fields
  infer_instance

/-! ## Vocabulary of the label that is replaced -/

/-- A name of `n` letters `L`. -/
def long_name (n : Nat) : CStr := List.replicate n 76

/-- Tokens of the program `N: NOP` / `JMP N` / `JMP N`, where `N` is a name of
128 letters. -/
def long_label_tokens : List Token :=
  [ { type := TOK_IDENTIFIER, lexeme := some (long_name 128), line := 1, int_value := 0 },
    { type := TOK_COLON, lexeme := some [58], line := 1, int_value := 0 },
    { type := TOK_IDENTIFIER, lexeme := some (cstr "NOP"), line := 1, int_value := 0 },
    { type := TOK_NEWLINE, lexeme := some [10], line := 1, int_value := 0 },
    { type := TOK_IDENTIFIER, lexeme := some (cstr "JMP"), line := 2, int_value := 0 },
    { type := TOK_IDENTIFIER, lexeme := some (long_name 128), line := 2, int_value := 0 },
    { type := TOK_NEWLINE, lexeme := some [10], line := 2, int_value := 0 },
    { type := TOK_IDENTIFIER, lexeme := some (cstr "JMP"), line := 3, int_value := 0 },
    { type := TOK_IDENTIFIER, lexeme := some (long_name 128), line := 3, int_value := 0 },
    { type := TOK_EOF, lexeme := none, line := 3, int_value := 0 } ]

/-- Tokens of the line `MOV A, B, N`, where `N` is a name of 129 letters. -/
def long_operand_tokens : List Token :=
  [ { type := TOK_IDENTIFIER, lexeme := some (cstr "MOV"), line := 1, int_value := 0 },
    { type := TOK_IDENTIFIER, lexeme := some (cstr "A"), line := 1, int_value := 0 },
    { type := TOK_COMMA, lexeme := some (cstr ","), line := 1, int_value := 0 },
    { type := TOK_IDENTIFIER, lexeme := some (cstr "B"), line := 1, int_value := 0 },
    { type := TOK_COMMA, lexeme := some (cstr ","), line := 1, int_value := 0 },
    { type := TOK_IDENTIFIER, lexeme := some (long_name 129), line := 1, int_value := 0 },
    { type := TOK_EOF, lexeme := none, line := 1, int_value := 0 } ]

/-- A record `MOV` with four memory operands without a name: more operands
than a record has places for. -/
def four_memory_record : InstructionEntry :=
  { address := 0, length := 3, line := 1, mnemonic := cstr "MOV",
    operands := List.replicate 4 { type := OPERAND_MEMORY, value := 0, name := [] },
    has_label := false, label := [] }

/-! ## Lemmas -/

theorem util_strcmp_eq_zero_iff (a b : CStr) :
    util_strcmp a b = 0 ↔ util_strcpy a = util_strcpy b := by
  induction a generalizing b with
  | nil =>
    cases b with
    | nil => simp [util_strcmp, util_strcpy]
    | cons b bs =>
      by_cases hb : b = 0
      · simp [util_strcmp, util_strcpy, hb]
      · simp [util_strcmp, util_strcpy, hb]
  | cons a as ih =>
    cases b with
    | nil =>
      by_cases ha : a = 0
      · simp [util_strcmp, util_strcpy, ha]
      · simp [util_strcmp, util_strcpy, ha]
    | cons b bs =>
      by_cases ha : a = 0
      · subst ha
        by_cases hb : b = 0
        · simp [util_strcmp, util_strcpy, hb]
        · simp [util_strcmp, util_strcpy, hb]
      · by_cases hab : a = b
        · subst hab
          simp [util_strcmp, util_strcpy, ha, ih]
        · have hne : (a : Int) - (b : Int) ≠ 0 := by omega
          by_cases hb : b = 0
          · simp [util_strcmp, util_strcpy, ha, hab, hb]
          · simp [util_strcmp, util_strcpy, ha, hab, hb, hne]

theorem hash_loop_strcpy (h : Nat) (a : CStr) : hash_loop h (util_strcpy a) = hash_loop h a := by
  induction a generalizing h with
  | nil => rfl
  | cons c cs ih =>
    by_cases hc : c = 0
    · simp [hash_loop, util_strcpy, hc]
    · simp [hash_loop, util_strcpy, hc, ih]

theorem hash_congr {a b : CStr} (h : util_strcmp a b = 0) :
    hash_string_djb2 a = hash_string_djb2 b := by
  unfold hash_string_djb2
  rw [← hash_loop_strcpy 5381 a, ← hash_loop_strcpy 5381 b, (util_strcmp_eq_zero_iff a b).1 h]

theorem util_strcmp_comm {a b : CStr} (h : util_strcmp a b = 0) : util_strcmp b a = 0 :=
  (util_strcmp_eq_zero_iff b a).2 ((util_strcmp_eq_zero_iff a b).1 h).symm

theorem util_strcmp_trans {a b c : CStr} (h1 : util_strcmp a b = 0) (h2 : util_strcmp b c = 0) :
    util_strcmp a c = 0 :=
  (util_strcmp_eq_zero_iff a c).2
    (((util_strcmp_eq_zero_iff a b).1 h1).trans ((util_strcmp_eq_zero_iff b c).1 h2))

theorem util_strcpy_idem (a : CStr) : util_strcpy (util_strcpy a) = util_strcpy a := by
  induction a with
  | nil => rfl
  | cons c cs ih =>
    by_cases hc : c = 0
    · simp [util_strcpy, hc]
    · simp [util_strcpy, hc, ih]

theorem util_strcmp_strcpy_left (a : CStr) : util_strcmp (util_strcpy a) a = 0 :=
  (util_strcmp_eq_zero_iff _ _).2 (util_strcpy_idem a)

theorem util_ht_create_WF {β : Type} (n : Nat) : (util_ht_create n : UtilHashTable β).WF := by
  unfold util_ht_create UtilHashTable.WF
  dsimp only
  refine ⟨List.length_replicate _ _, ?_⟩
  split <;> omega

theorem util_ht_lookup_create {β : Type} (n : Nat) (k : CStr) :
    util_ht_lookup (util_ht_create n : UtilHashTable β) k = none := by
  unfold util_ht_lookup util_ht_create
  dsimp only
  rw [List.getD_eq_getElem?_getD, List.getElem?_replicate]
  split <;> split <;> rfl

theorem chain_lookup_congr {β : Type} {k k1 : CStr} (h : util_strcmp k k1 = 0)
    (chain : List (UtilHashNode β)) : chain_lookup k chain = chain_lookup k1 chain := by
  induction chain with
  | nil => rfl
  | cons node rest ih =>
    unfold chain_lookup
    by_cases hn : util_strcmp node.key k = 0
    · have : util_strcmp node.key k1 = 0 := util_strcmp_trans hn h
      simp [hn, this]
    · have : util_strcmp node.key k1 ≠ 0 := fun h1 =>
        hn (util_strcmp_trans h1 (util_strcmp_comm h))
      simp [hn, this, ih]

theorem util_ht_lookup_congr {β : Type} {k k1 : CStr} (h : util_strcmp k k1 = 0)
    (t : UtilHashTable β) : util_ht_lookup t k = util_ht_lookup t k1 := by
  unfold util_ht_lookup
  rw [hash_congr h, chain_lookup_congr h]

theorem chain_lookup_update_same {β : Type} (k : CStr) (v : β) (chain : List (UtilHashNode β))
    (h : chain_lookup k chain ≠ none) : chain_lookup k (chain_update k v chain) = some v := by
  induction chain with
  | nil => simp [chain_lookup] at h
  | cons node rest ih =>
    unfold chain_update
    by_cases hn : util_strcmp node.key k = 0
    · simp [hn, chain_lookup]
    · simp only [hn, if_false, chain_lookup]
      apply ih
      simpa [chain_lookup, hn] using h

theorem chain_lookup_update_other {β : Type} (k k1 : CStr) (v : β) (chain : List (UtilHashNode β))
    (h : util_strcmp k k1 ≠ 0) : chain_lookup k1 (chain_update k v chain) = chain_lookup k1 chain := by
  induction chain with
  | nil => rfl
  | cons node rest ih =>
    unfold chain_update
    by_cases hn : util_strcmp node.key k = 0
    · have h1 : util_strcmp node.key k1 ≠ 0 := fun h1 =>
        h (util_strcmp_trans (util_strcmp_comm hn) h1)
      simp [hn, chain_lookup, h1]
    · simp [hn, chain_lookup, ih]

theorem util_ht_insert_WF {β : Type} (t : UtilHashTable β) (k : CStr) (v : β) (h : t.WF) :
    (util_ht_insert t k v).WF := by
  unfold util_ht_insert UtilHashTable.WF at *
  dsimp only
  split <;> simpa using h

theorem util_ht_lookup_insert_same {β : Type} (t : UtilHashTable β) (k : CStr) (v : β)
    (h : t.WF) : util_ht_lookup (util_ht_insert t k v) k = some v := by
  have hi : hash_string_djb2 k % t.bucket_count < t.buckets.length := by
    rw [h.1]; exact Nat.mod_lt _ h.2
  unfold util_ht_lookup util_ht_insert
  dsimp only
  split
  · next x hx =>
    simp only [List.getD_eq_getElem?_getD, List.getElem?_set_self hi, Option.getD_some]
    apply chain_lookup_update_same
    simp [List.getD_eq_getElem?_getD] at hx
    simp [hx]
  · simp only [List.getD_eq_getElem?_getD, List.getElem?_set_self hi, Option.getD_some]
    simp [chain_lookup, util_strcmp_strcpy_left]

theorem util_ht_lookup_insert_other {β : Type} (t : UtilHashTable β) (k k1 : CStr) (v : β)
    (h : t.WF) (hk : util_strcmp k k1 ≠ 0) :
    util_ht_lookup (util_ht_insert t k v) k1 = util_ht_lookup t k1 := by
  have hi : hash_string_djb2 k % t.bucket_count < t.buckets.length := by
    rw [h.1]; exact Nat.mod_lt _ h.2
  unfold util_ht_lookup util_ht_insert
  dsimp only
  by_cases hb : hash_string_djb2 k % t.bucket_count = hash_string_djb2 k1 % t.bucket_count
  · split
    · dsimp only
      rw [← hb]
      simp only [List.getD_eq_getElem?_getD, List.getElem?_set_self hi, Option.getD_some]
      exact chain_lookup_update_other k k1 v _ hk
    · dsimp only
      rw [← hb]
      simp only [List.getD_eq_getElem?_getD, List.getElem?_set_self hi, Option.getD_some]
      have hk1 : util_strcmp (util_strcpy k) k1 ≠ 0 := fun h1 =>
        hk (util_strcmp_trans (util_strcmp_comm (util_strcmp_strcpy_left k)) h1)
      simp [chain_lookup, hk1]
  · split <;> simp [List.getD_eq_getElem?_getD, List.getElem?_set_ne hb]

/-- Invariant rule for the pass-one token loop: a property of the context and
the error sink that is kept by a line advance, by an error report for an
unparsable token or a full table, and by the recording of an analysed
statement, holds when the loop ends. -/
theorem pass_one_loop_invariant (I : PassOne → List ErrorReport → Prop)
    (h_line : ∀ p errs, I p errs → I { p with current_line := p.current_line + 1 } errs)
    (h_err : ∀ p errs ln, I p errs →
      I { p with has_errors := true } (errs ++ [{ line := ln, code := ERR_PARSE_EXPECTED_OP }]))
    (h_rec : ∀ p errs tokens i parsed consumed, I p errs →
      p.instruction_count < PassOne.max_instructions →
      semantic_analyze_instruction tokens i = .ok (some (parsed, consumed)) →
      I (pass_one_record p parsed).1 (errs ++ (pass_one_record p parsed).2)) :
    ∀ fuel tokens i p errs r, pass_one_loop fuel tokens i p errs = .ok r → I p errs →
      I r.1 r.2 := by
  intro fuel
  induction fuel with
  | zero =>
    intro tokens i p errs r h hI
    unfold pass_one_loop at h
    split at h
    · cases h
    · cases h; exact hI
  | succ fuel ih =>
    intro tokens i p errs r h hI
    unfold pass_one_loop at h
    split at h
    · split at h
      · cases h
      · next t ht =>
        split at h
        · exact ih _ _ _ _ _ h (h_line _ _ hI)
        · split at h
          · cases h; exact h_err _ _ _ hI
          · next hfull =>
            split at h
            · cases h
            · exact ih _ _ _ _ _ h (h_err _ _ _ hI)
            · next parsed consumed ha =>
              exact ih _ _ _ _ _ h (h_rec _ _ _ _ _ _ hI (by omega) ha)
    · cases h; exact hI

theorem estimate_instruction_length_le (m : CStr) (n : Nat) :
    estimate_instruction_length m n ≤ 3 := by
  unfold estimate_instruction_length
  repeat' split
  all_goals omega

theorem pass_one_record_instructions (p : PassOne) (parsed : InstructionEntry) :
    (pass_one_record p parsed).1.instructions = p.instructions ++ [pass_one_entry p parsed] := by
  unfold pass_one_record
  dsimp only
  split
  · split <;> rfl
  · rfl

theorem pass_one_record_address (p : PassOne) (parsed : InstructionEntry) :
    (pass_one_record p parsed).1.current_address =
      (p.current_address + (pass_one_entry p parsed).length) % 4294967296 := by
  unfold pass_one_record
  dsimp only
  split
  · split <;> rfl
  · rfl

theorem total_length_append (l : List InstructionEntry) (e : InstructionEntry) :
    total_length (l ++ [e]) = total_length l + e.length := by
  simp [total_length]

theorem addresses_from_append (a : Nat) (l : List InstructionEntry) (e : InstructionEntry) :
    addresses_from a (l ++ [e]) ↔ addresses_from a l ∧ e.address = a + total_length l := by
  induction l generalizing a with
  | nil => simp [addresses_from, total_length]
  | cons x xs ih =>
    have hx : total_length (x :: xs) = x.length + total_length xs := by simp [total_length]
    rw [List.cons_append]
    show (x.address = a ∧ addresses_from (a + x.length) (xs ++ [e])) ↔
      (x.address = a ∧ addresses_from (a + x.length) xs) ∧ e.address = a + total_length (x :: xs)
    rw [ih, hx]
    constructor
    · rintro ⟨h1, h2, h3⟩
      exact ⟨⟨h1, h2⟩, by omega⟩
    · rintro ⟨⟨h1, h2⟩, h3⟩
      exact ⟨h1, h2, by omega⟩

theorem addresses_from_consecutive (a : Nat) (l : List InstructionEntry) (h : addresses_from a l)
    (i : Nat) (x y : InstructionEntry) (hx : l[i]? = some x) (hy : l[i + 1]? = some y) :
    y.address = x.address + x.length := by
  induction l generalizing a i with
  | nil => simp at hx
  | cons e rest ih =>
    cases i with
    | zero =>
      simp at hx
      subst hx
      cases rest with
      | nil => simp at hy
      | cons e1 rest1 =>
        simp at hy
        subst hy
        simp only [addresses_from] at h
        rw [h.2.1, h.1]
    | succ i =>
      simp only [List.getElem?_cons_succ] at hx hy
      exact ih _ h.2 i hx hy

/-- What the pass-one loop keeps true about addresses: the records lie back to
back from address 0, the location counter is the sum of their lengths, and
there are at most 512 of them, each of length at most 3. -/
theorem pass_one_run_layout (tokens : List Token) (p : PassOne) (errs : List ErrorReport)
    (h : semantic_pass_one_run tokens = .ok (p, errs)) :
    addresses_from 0 p.instructions ∧ p.current_address = total_length p.instructions ∧
      p.current_address ≤ 3 * p.instructions.length ∧
      p.instructions.length ≤ PassOne.max_instructions := by
  refine pass_one_loop_invariant
    (fun p _ => addresses_from 0 p.instructions ∧ p.current_address = total_length p.instructions ∧
      p.current_address ≤ 3 * p.instructions.length ∧
      p.instructions.length ≤ PassOne.max_instructions)
    (fun p errs hI => hI) (fun p errs ln hI => hI) ?_ _ _ _ _ _ _ h ?_
  · intro p errs tokens i parsed consumed hI hlt _
    obtain ⟨h1, h2, h3, h4⟩ := hI
    have hlen : (pass_one_entry p parsed).length ≤ 3 :=
      estimate_instruction_length_le parsed.mnemonic parsed.operand_count
    have hmax : PassOne.max_instructions = 512 := rfl
    have hcnt : p.instructions.length < 512 := hlt
    rw [pass_one_record_instructions, pass_one_record_address]
    have hmod : (p.current_address + (pass_one_entry p parsed).length) % 4294967296 =
        p.current_address + (pass_one_entry p parsed).length := by
      apply Nat.mod_eq_of_lt; omega
    rw [hmod, addresses_from_append, total_length_append, List.length_append]
    have hadd : (pass_one_entry p parsed).address = 0 + total_length p.instructions := by
      show p.current_address = 0 + total_length p.instructions
      omega
    refine ⟨⟨h1, hadd⟩, by omega, by simp; omega, by simp; omega⟩
  · exact ⟨trivial, rfl, by decide, by decide⟩

theorem semantic_pass_one_success {tokens : List Token} {p : PassOne} {errs : List ErrorReport}
    (h : semantic_pass_one tokens = .ok (some p, errs)) :
    semantic_pass_one_run tokens = .ok (p, errs) ∧ p.has_errors = false := by
  unfold semantic_pass_one at h
  split at h
  · cases h
  · next q e hq =>
    split at h
    · cases h
    · next hne =>
      cases h
      exact ⟨hq, by simpa using hne⟩

/-- Symbol record that `symtab_insert` stores for the label of a record. -/
theorem symtab_lookup_insert_same (st : SymbolTable) (name : CStr) (ty : SymbolType)
    (address line : Nat) (hwf : st.symbols.WF) (hnone : symtab_lookup st name = none) :
    (symtab_insert st name ty address line).1 = 0 ∧
    (symtab_insert st name ty address line).2.symbols.WF ∧
    symtab_lookup (symtab_insert st name ty address line).2 name =
      some { name := util_strcpy name, type := ty, address := address, line_defined := line,
             is_defined := 1 } ∧
    ∀ other, util_strcmp name other ≠ 0 →
      symtab_lookup (symtab_insert st name ty address line).2 other = symtab_lookup st other := by
  unfold symtab_lookup at hnone
  unfold symtab_insert symtab_lookup
  rw [hnone]
  dsimp only
  exact ⟨rfl, util_ht_insert_WF _ _ _ hwf, util_ht_lookup_insert_same _ _ _ hwf,
    fun other ho => util_ht_lookup_insert_other _ _ _ _ hwf ho⟩

theorem symtab_insert_present (st : SymbolTable) (name : CStr) (ty : SymbolType)
    (address line : Nat) (sym : SymbolInfo) (h : symtab_lookup st name = some sym) :
    symtab_insert st name ty address line = (1, st) := by
  unfold symtab_lookup at h
  unfold symtab_insert
  rw [h]

/-- What the pass-one loop keeps true about the symbol table: while no error
has been flagged, every labelled record finds the symbol entered for it. -/
theorem pass_one_run_symbols (tokens : List Token) (p : PassOne) (errs : List ErrorReport)
    (h : semantic_pass_one_run tokens = .ok (p, errs)) :
    p.symtab.symbols.WF ∧ (p.has_errors = false → ∀ e ∈ p.instructions, e.has_label = true →
      symtab_lookup p.symtab e.label = some (label_symbol e)) := by
  refine pass_one_loop_invariant
    (fun p _ => p.symtab.symbols.WF ∧ (p.has_errors = false → ∀ e ∈ p.instructions,
      e.has_label = true → symtab_lookup p.symtab e.label = some (label_symbol e)))
    (fun p errs hI => hI) (fun p errs ln hI => ⟨hI.1, fun hf => by simp at hf⟩) ?_
    _ _ _ _ _ _ h ?_
  · intro p errs tokens i parsed consumed hI _ _
    obtain ⟨hwf, hsym⟩ := hI
    unfold pass_one_record
    dsimp only
    by_cases hl : (pass_one_entry p parsed).has_label = true
    · rw [if_pos hl]
      cases hlook : symtab_lookup p.symtab (pass_one_entry p parsed).label with
      | some sym =>
        rw [symtab_insert_present _ _ _ _ _ sym hlook]
        simp only [ne_eq, one_ne_zero, not_false_eq_true, if_true]
        exact ⟨hwf, fun hf => by simp at hf⟩
      | none =>
        obtain ⟨h0, hwf1, hsame, hother⟩ := symtab_lookup_insert_same p.symtab
          (pass_one_entry p parsed).label SymbolType.SYM_LABEL (pass_one_entry p parsed).address
          (pass_one_entry p parsed).line hwf hlook
        rw [if_neg (by rw [h0]; simp)]
        refine ⟨hwf1, fun hf e he hel => ?_⟩
        have hf0 : p.has_errors = false := hf
        rcases List.mem_append.1 he with hold | hnew
        · have hfound := hsym hf0 e hold hel
          have hne : util_strcmp (pass_one_entry p parsed).label e.label ≠ 0 := by
            intro heq
            have := util_ht_lookup_congr heq p.symtab.symbols
            unfold symtab_lookup at hlook hfound
            rw [hlook, hfound] at this
            cases this
          show symtab_lookup _ e.label = _
          rw [hother e.label hne]
          exact hfound
        · have : e = pass_one_entry p parsed := by simpa using hnew
          subst this
          exact hsame
    · rw [if_neg hl]
      refine ⟨hwf, fun hf e he hel => ?_⟩
      rcases List.mem_append.1 he with hold | hnew
      · exact hsym hf e hold hel
      · have : e = pass_one_entry p parsed := by simpa using hnew
        subst this
        exact absurd hel hl
  · exact ⟨util_ht_create_WF _, fun _ e he => by cases he⟩

theorem slots_ok_mono {relocs : List Relocation} {n m : Nat} (h : slots_ok relocs n)
    (hnm : n ≤ m) : slots_ok relocs m :=
  ⟨h.1, fun r hr => Nat.le_trans (h.2 r hr) hnm⟩

theorem slots_ok_append {relocs : List Relocation} {n : Nat} (h : slots_ok relocs n)
    (r : Relocation) (hr : n ≤ r.offset) : slots_ok (relocs ++ [r]) (r.offset + 2) := by
  refine ⟨?_, ?_⟩
  · rw [List.pairwise_append]
    refine ⟨h.1, List.pairwise_singleton _ _, fun a ha b hb => ?_⟩
    have := h.2 a ha
    have hb1 : b = r := by simpa using hb
    subst hb1
    omega
  · intro x hx
    rcases List.mem_append.1 hx with h1 | h1
    · have := h.2 x h1; omega
    · have hb1 : x = r := by simpa using h1
      subst hb1
      omega

/-- The operand loop of the emitter, when it completes, has kept the
relocation slots in order inside the bytes written. -/
theorem emit_operands_slots (cs idx : Nat) (ops : List Operand) :
    ∀ (i : Nat) (code : List Nat) (relocs : List Relocation) (code1 : List Nat)
      (relocs1 : List Relocation),
      emit_operands cs idx ops i code relocs = (some code1, relocs1) →
      slots_ok relocs (cs + code.length) →
      slots_ok relocs1 (cs + code1.length) ∧ code.length ≤ code1.length := by
  induction ops with
  | nil =>
    intro i code relocs code1 relocs1 h hs
    simp only [emit_operands, Prod.mk.injEq, Option.some.injEq] at h
    obtain ⟨rfl, rfl⟩ := h
    exact ⟨hs, Nat.le_refl _⟩
  | cons op rest ih =>
    intro i code relocs code1 relocs1 h hs
    unfold emit_operands at h
    split at h
    · split at h
      · obtain ⟨h1, h2⟩ := ih _ _ _ _ _ h (slots_ok_mono hs (by simp))
        exact ⟨h1, by simp at h2; omega⟩
      · obtain ⟨h1, h2⟩ := ih _ _ _ _ _ h (slots_ok_mono hs (by simp))
        exact ⟨h1, by simp at h2; omega⟩
    · split at h
      · obtain ⟨h1, h2⟩ := ih _ _ _ _ _ h (slots_ok_mono hs (by simp))
        exact ⟨h1, by simp at h2; omega⟩
      · split at h
        · split at h
          · split at h
            · cases h
            · next relocs2 hrec =>
              unfold record_relocation at hrec
              split at hrec
              · cases hrec
              · simp only [Option.some.injEq] at hrec
                subst hrec
                have hs2 := slots_ok_append hs
                  { offset := cs + code.length, instruction_index := idx, operand_index := i,
                    symbol_name := util_strcpy op.name } (Nat.le_refl _)
                obtain ⟨h1, h2⟩ := ih _ _ _ _ _ h (by
                  simp only [List.length_append, List.length_cons, List.length_nil]
                  exact slots_ok_mono hs2 (by simp; omega))
                exact ⟨h1, by simp at h2; omega⟩
          · obtain ⟨h1, h2⟩ := ih _ _ _ _ _ h (slots_ok_mono hs (by simp))
            exact ⟨h1, by simp at h2; omega⟩
        · exact ih _ _ _ _ _ h hs

/-- The patch loop, when it returns `0`: the buffer keeps its length, bytes
outside the relocation slots are unchanged, and every slot holds the
little-endian address of its symbol, which is present and defined. -/
theorem resolve_loop_sound (symtab : SymbolTable) (relocs : List Relocation) :
    ∀ (buffer : List Nat), slots_ok relocs buffer.length →
      (resolve_loop symtab relocs buffer).1 = 0 →
      (resolve_loop symtab relocs buffer).2.1.length = buffer.length ∧
      (∀ k, (∀ r ∈ relocs, k < r.offset ∨ r.offset + 2 ≤ k) →
        (resolve_loop symtab relocs buffer).2.1[k]? = buffer[k]?) ∧
      ∀ r ∈ relocs, ∃ sym, symtab_lookup symtab r.symbol_name = some sym ∧
        sym.is_defined ≠ 0 ∧
        (resolve_loop symtab relocs buffer).2.1[r.offset]? = some (sym.address % 256) ∧
        (resolve_loop symtab relocs buffer).2.1[r.offset + 1]? =
          some ((sym.address / 256) % 256) := by
  induction relocs with
  | nil =>
    intro buffer _ _
    exact ⟨rfl, fun _ _ => rfl, fun r hr => by cases hr⟩
  | cons rel rest ih =>
    intro buffer hs h0
    unfold resolve_loop at h0 ⊢
    cases hlook : symtab_lookup symtab rel.symbol_name with
    | none => rw [hlook] at h0; simp at h0
    | some sym =>
      rw [hlook] at h0
      simp only at h0 ⊢
      by_cases hdef : sym.is_defined = 0
      · rw [if_pos hdef] at h0; simp at h0
      · rw [if_neg hdef] at h0 ⊢
        have hrel : rel.offset + 2 ≤ buffer.length := hs.2 rel (List.mem_cons_self _ _)
        have hpair := List.pairwise_cons.1 hs.1
        have hs1 : slots_ok rest
            ((buffer.set rel.offset (sym.address % 256)).set (rel.offset + 1)
              ((sym.address / 256) % 256)).length := by
          simp only [List.length_set]
          exact ⟨hpair.2, fun r hr => hs.2 r (List.mem_cons_of_mem _ hr)⟩
        obtain ⟨hlen, hframe, hslots⟩ := ih _ hs1 h0
        refine ⟨?_, ?_, ?_⟩
        · rw [hlen]; simp
        · intro k hk
          rw [hframe k (fun r hr => hk r (List.mem_cons_of_mem _ hr))]
          have hk0 := hk rel (List.mem_cons_self _ _)
          rw [List.getElem?_set_ne (by omega), List.getElem?_set_ne (by omega)]
        · intro r hr
          rcases List.mem_cons.1 hr with hr1 | hr1
          · subst hr1
            refine ⟨sym, hlook, hdef, ?_, ?_⟩
            · rw [hframe r.offset (fun x hx => Or.inl (by have := hpair.1 x hx; omega))]
              rw [List.getElem?_set_ne (by omega), List.getElem?_set_self (by omega)]
            · rw [hframe (r.offset + 1) (fun x hx => Or.inl (by have := hpair.1 x hx; omega))]
              rw [List.getElem?_set_self (by simp; omega)]
          · exact hslots r hr1

theorem resolve_loop_status (symtab : SymbolTable) (relocs : List Relocation) :
    ∀ (buffer : List Nat),
      ((resolve_loop symtab relocs buffer).1 = 0 ∧ (resolve_loop symtab relocs buffer).2.2 = []) ∨
      ((resolve_loop symtab relocs buffer).1 = -1 ∧
        (resolve_loop symtab relocs buffer).2.2 = [{ line := 0, code := ERR_PARSE_UNDEFINED_LBL }])
      := by
  induction relocs with
  | nil => intro buffer; exact Or.inl ⟨rfl, rfl⟩
  | cons rel rest ih =>
    intro buffer
    unfold resolve_loop
    split
    · exact Or.inr ⟨rfl, rfl⟩
    · split
      · exact Or.inr ⟨rfl, rfl⟩
      · exact ih _

/-- Shape of a successful pass two: the context is the one after emission with
the patched buffer, and the patch loop returned `0`. -/
theorem codegen_pass_two_success {p : PassOne} {cg : CodeGen} {errs : List ErrorReport}
    (h : codegen_pass_two p = (some cg, errs)) :
    (resolve_loop p.symtab (codegen_emit_records p).1.relocations
        (codegen_emit_records p).1.code_buffer).1 = 0 ∧
    cg.relocations = (codegen_emit_records p).1.relocations ∧
    cg.code_buffer = (resolve_loop p.symtab (codegen_emit_records p).1.relocations
        (codegen_emit_records p).1.code_buffer).2.1 ∧
    (codegen_emit_records p).1.has_errors = false ∧
    errs = (codegen_emit_records p).2 := by
  unfold codegen_pass_two codegen_resolve_reference at h
  dsimp only at h
  rcases resolve_loop_status p.symtab (codegen_emit_records p).1.relocations
    (codegen_emit_records p).1.code_buffer with ⟨h0, he⟩ | ⟨h1, he⟩
  · rw [h0, he] at h
    simp only [lt_self_iff_false, if_false, List.append_nil] at h
    split at h
    · cases h
    · next hne =>
      simp only [Prod.mk.injEq, Option.some.injEq] at h
      obtain ⟨rfl, rfl⟩ := h
      exact ⟨h0, rfl, rfl, by simpa using hne, rfl⟩
  · rw [h1] at h
    simp at h

theorem operand_suffix_operands {tokens : List Token} {i consumed : Nat} {ops : List Operand}
    {op : Operand} {r : Nat × Nat × List Operand × Bool}
    (h : operand_suffix tokens i consumed ops op = .ok r) :
    r.2.2.1.length = ops.length + 1 := by
  unfold operand_suffix at h
  simp only [bind, Except.bind, pure, Except.pure] at h
  repeat' split at h
  all_goals (cases h <;> simp)

theorem memory_operand_operands {tokens : List Token} {i consumed : Nat} {ops : List Operand}
    {r : Nat × Nat × List Operand}
    (h : memory_operand tokens i consumed ops = .ok r) :
    r.2.2.length = ops.length + 1 := by
  unfold memory_operand at h
  simp only [bind, Except.bind, pure, Except.pure] at h
  repeat' split at h
  all_goals (cases h <;> simp)

theorem parse_operands_length (fuel : Nat) (tokens : List Token) :
    ∀ (i consumed : Nat) (ops : List Operand) (r : Nat × List Operand),
      parse_operands fuel tokens i consumed ops = .ok r → ops.length ≤ 3 → r.2.length ≤ 3 := by
  induction fuel with
  | zero =>
    intro i consumed ops r h hl
    simp only [parse_operands, Except.ok.injEq] at h
    subst h; exact hl
  | succ fuel ih =>
    intro i consumed ops r h hl
    unfold parse_operands at h
    split at h
    · split at h
      · cases h
      · next t ht =>
        split at h
        · next hguard =>
          have hlt : ops.length < 3 := hguard.2.2
          split at h
          · split at h
            · cases h
            · next lex hlex =>
              split at h
              · cases h
              · next r1 hr1 =>
                have := operand_suffix_operands hr1
                split at h
                · exact ih _ _ _ _ h (by omega)
                · cases h; simp only; omega
          · split at h
            · split at h
              · cases h
              · next r1 hr1 =>
                have := operand_suffix_operands hr1
                split at h
                · exact ih _ _ _ _ h (by omega)
                · cases h; simp only; omega
            · split at h
              · split at h
                · cases h
                · next r1 hr1 =>
                  have := memory_operand_operands hr1
                  exact ih _ _ _ _ h (by omega)
              · cases h; exact hl
        · cases h; exact hl
    · cases h; exact hl

theorem analyze_mnemonic_operands {tokens : List Token} {i consumed : Nat} {has_label : Bool}
    {label : CStr} {parsed : InstructionEntry} {n : Nat}
    (h : analyze_mnemonic tokens i consumed has_label label = .ok (some (parsed, n))) :
    parsed.operands.length ≤ 3 := by
  unfold analyze_mnemonic at h
  simp only [bind, Except.bind, pure, Except.pure] at h
  repeat' split at h
  all_goals first
    | (cases h; done)
    | (next hp =>
        cases h
        exact parse_operands_length _ _ _ _ _ _ hp (by simp))

theorem symbolic_operands_cons (op : Operand) (rest : List Operand) :
    symbolic_operands (op :: rest) =
      (if (op.type = OPERAND_LABEL ∨ op.type = OPERAND_MEMORY) ∧ util_strlen op.name > 0
       then 1 else 0) + symbolic_operands rest := by
  unfold symbolic_operands
  rw [List.filter_cons]
  split
  · next hc => rw [if_pos (by simpa using hc)]; simp; omega
  · next hc => rw [if_neg (by simpa using hc)]; simp

/-- With room in the relocation table the operand loop of the emitter does not
fail; it writes at most two bytes and queues at most one relocation per
operand. -/
theorem emit_operands_ok (cs idx : Nat) (ops : List Operand) :
    ∀ (i : Nat) (code : List Nat) (relocs : List Relocation),
      relocs.length + symbolic_operands ops ≤ 1000 →
      ∃ code1 relocs1, emit_operands cs idx ops i code relocs = (some code1, relocs1) ∧
        code1.length ≤ code.length + 2 * ops.length ∧
        relocs1.length ≤ relocs.length + symbolic_operands ops := by
  induction ops with
  | nil =>
    intro i code relocs _
    exact ⟨code, relocs, rfl, by simp, by simp⟩
  | cons op rest ih =>
    intro i code relocs hroom
    rw [symbolic_operands_cons] at hroom
    unfold emit_operands
    split
    · split
      · obtain ⟨c1, r1, h1, h2, h3⟩ := ih (i + 1) (code ++ [op.value % 256]) relocs (by omega)
        exact ⟨c1, r1, h1, by simp at h2 ⊢; omega, by rw [symbolic_operands_cons]; omega⟩
      · obtain ⟨c1, r1, h1, h2, h3⟩ := ih (i + 1)
          (code ++ [op.value % 256, (op.value / 256) % 256]) relocs (by omega)
        exact ⟨c1, r1, h1, by simp at h2 ⊢; omega, by rw [symbolic_operands_cons]; omega⟩
    · split
      · obtain ⟨c1, r1, h1, h2, h3⟩ := ih (i + 1) (code ++ [0xC0 ||| (i % 64)]) relocs (by omega)
        exact ⟨c1, r1, h1, by simp at h2 ⊢; omega, by rw [symbolic_operands_cons]; omega⟩
      · split
        · next hty =>
          split
          · next hlab =>
            have hcount : ((if (op.type = OPERAND_LABEL ∨ op.type = OPERAND_MEMORY) ∧
                util_strlen op.name > 0 then 1 else 0) : Nat) = 1 :=
              if_pos ⟨Or.inl hlab.1, hlab.2⟩
            rw [hcount] at hroom
            have hrec : record_relocation relocs (cs + code.length) idx i op.name =
                some (relocs ++ [{ offset := cs + code.length, instruction_index := idx,
                                   operand_index := i, symbol_name := util_strcpy op.name }]) := by
              unfold record_relocation
              rw [if_neg (by unfold CODEGEN_MAX_RELOCATIONS; omega)]
            rw [hrec]
            dsimp only
            obtain ⟨c1, r1, h1, h2, h3⟩ := ih (i + 1) (code ++ [0x00, 0x00])
              (relocs ++ [{ offset := cs + code.length, instruction_index := idx,
                            operand_index := i, symbol_name := util_strcpy op.name }])
              (by simp; omega)
            exact ⟨c1, r1, h1, by simp at h2 ⊢; omega,
              by rw [symbolic_operands_cons, hcount]; simp at h3; omega⟩
          · obtain ⟨c1, r1, h1, h2, h3⟩ := ih (i + 1) (code ++ [0x00, 0x00]) relocs (by omega)
            exact ⟨c1, r1, h1, by simp at h2 ⊢; omega, by rw [symbolic_operands_cons]; omega⟩
        · obtain ⟨c1, r1, h1, h2, h3⟩ := ih (i + 1) code relocs (by omega)
          exact ⟨c1, r1, h1, by simp at h2 ⊢; omega, by rw [symbolic_operands_cons]; omega⟩

/-- With room in the buffer and in the relocation table, the emitter returns
`0` for a record whose mnemonic is in the table and reports nothing. -/
theorem codegen_emit_instruction_ok (cg : CodeGen) (idx : Nat) (entry : InstructionEntry)
    (hbuf : cg.code_buffer.length + 15 < 65536)
    (hm : tables_lookup_instruction (some entry.mnemonic) ≠ none)
    (hroom : cg.relocations.length + symbolic_operands entry.operands ≤ 1000) :
    (codegen_emit_instruction cg idx entry).1 = 0 ∧
    (codegen_emit_instruction cg idx entry).2.2 = [] ∧
    (codegen_emit_instruction cg idx entry).2.1.has_errors = cg.has_errors ∧
    (codegen_emit_instruction cg idx entry).2.1.code_buffer.length ≤
      cg.code_buffer.length + 1 + 2 * entry.operands.length ∧
    (codegen_emit_instruction cg idx entry).2.1.relocations.length ≤
      cg.relocations.length + symbolic_operands entry.operands := by
  unfold codegen_emit_instruction
  rw [if_neg (by
    unfold CodeGen.code_size SEMANTIC_MAX_INSTRUCTION_LEN CODEGEN_OUTPUT_BUFFER_SIZE; omega)]
  split
  · next hnone => exact absurd hnone hm
  · next info hinfo =>
    split
    · split
      · split
        · split
          · refine ⟨rfl, rfl, rfl, ?_, ?_⟩
            · simp only [List.length_append, List.length_singleton]; omega
            · simp only; omega
          · exact ⟨rfl, rfl, rfl, by simp only; omega, by simp only; omega⟩
        · exact ⟨rfl, rfl, rfl, by simp only; omega, by simp only; omega⟩
      · exact ⟨rfl, rfl, rfl, by simp only; omega, by simp only; omega⟩
    · obtain ⟨c1, r1, h1, h2, h3⟩ := emit_operands_ok cg.code_size idx entry.operands 0
        [info.opcode] cg.relocations hroom
      rw [h1]
      refine ⟨rfl, rfl, rfl, ?_, h3⟩
      simp at h2 ⊢
      omega

theorem symbolic_operand_count_cons (e : InstructionEntry) (rest : List InstructionEntry) :
    symbolic_operand_count (e :: rest) = symbolic_operands e.operands + symbolic_operand_count rest
    := by
  simp [symbolic_operand_count]

/-- The emission loop reports nothing and flags no error when every mnemonic is
in the table, the records have at most three operands, and the buffer and the
relocation table have room for them. -/
theorem emit_all_ok (entries : List InstructionEntry) :
    ∀ (idx : Nat) (cg : CodeGen) (errs : List ErrorReport),
      (∀ e ∈ entries, tables_lookup_instruction (some e.mnemonic) ≠ none) →
      (∀ e ∈ entries, e.operands.length ≤ 3) →
      cg.code_buffer.length + 7 * entries.length ≤ 65520 →
      cg.relocations.length + symbolic_operand_count entries ≤ 1000 →
      (emit_all entries idx cg errs).2 = errs ∧
      (emit_all entries idx cg errs).1.has_errors = cg.has_errors := by
  induction entries with
  | nil => intro idx cg errs _ _ _ _; exact ⟨rfl, rfl⟩
  | cons e rest ih =>
    intro idx cg errs hm hops hbuf hroom
    rw [symbolic_operand_count_cons] at hroom
    simp only [List.length_cons] at hbuf
    obtain ⟨h0, he, hf, hlen, hrel⟩ := codegen_emit_instruction_ok cg idx e (by omega)
      (hm e (List.mem_cons_self _ _)) (by omega)
    have hops3 := hops e (List.mem_cons_self _ _)
    unfold emit_all
    dsimp only
    rw [if_neg (by rw [h0]; simp)]
    obtain ⟨h1, h2⟩ := ih (idx + 1) (codegen_emit_instruction cg idx e).2.1
      (errs ++ (codegen_emit_instruction cg idx e).2.2)
      (fun x hx => hm x (List.mem_cons_of_mem _ hx))
      (fun x hx => hops x (List.mem_cons_of_mem _ hx)) (by omega) (by omega)
    rw [h1, h2, he, hf]
    simp

theorem resolve_loop_zero_iff (symtab : SymbolTable) (relocs : List Relocation) :
    ∀ (buffer : List Nat),
      (resolve_loop symtab relocs buffer).1 = 0 ↔ ∀ r ∈ relocs, ¬ undefined_reference symtab r := by
  induction relocs with
  | nil => intro buffer; simp [resolve_loop]
  | cons rel rest ih =>
    intro buffer
    unfold resolve_loop
    cases hlook : symtab_lookup symtab rel.symbol_name with
    | none =>
      simp only
      constructor
      · intro h; simp at h
      · intro h; exact absurd (Or.inl hlook) (h rel (List.mem_cons_self _ _))
    | some sym =>
      simp only
      by_cases hdef : sym.is_defined = 0
      · rw [if_pos hdef]
        constructor
        · intro h; simp at h
        · intro h
          exact absurd (Or.inr ⟨sym, hlook, hdef⟩) (h rel (List.mem_cons_self _ _))
      · rw [if_neg hdef, ih]
        constructor
        · intro h r hr
          rcases List.mem_cons.1 hr with h1 | h1
          · subst h1
            intro hu
            rcases hu with hu | ⟨s, hs, hs0⟩
            · rw [hlook] at hu; cases hu
            · rw [hlook] at hs; cases hs; exact hdef hs0
          · exact h r h1
        · intro h r hr
          exact h r (List.mem_cons_of_mem _ hr)

theorem emit_operands_size (cs idx : Nat) (ops : List Operand) :
    ∀ (i : Nat) (code : List Nat) (relocs : List Relocation) (code1 : List Nat)
      (relocs1 : List Relocation),
      emit_operands cs idx ops i code relocs = (some code1, relocs1) →
      ∃ suffix, code1 = code ++ suffix ∧ suffix.length = (ops.map operand_size).sum := by
  induction ops with
  | nil =>
    intro i code relocs code1 relocs1 h
    simp only [emit_operands, Prod.mk.injEq, Option.some.injEq] at h
    exact ⟨[], by simp [h.1], rfl⟩
  | cons op rest ih =>
    intro i code relocs code1 relocs1 h
    unfold emit_operands at h
    simp only [List.map_cons, List.sum_cons]
    split at h
    · next h1 =>
      split at h
      · next h2 =>
        have hsz : operand_size op = 1 := by simp [operand_size, h1, h2]
        obtain ⟨s, hs1, hs2⟩ := ih _ _ _ _ _ h
        exact ⟨[op.value % 256] ++ s, by rw [hs1]; simp, by simp [hs2, hsz]; omega⟩
      · next h2 =>
        have hsz : operand_size op = 2 := by simp [operand_size, h1, h2]
        obtain ⟨s, hs1, hs2⟩ := ih _ _ _ _ _ h
        exact ⟨[op.value % 256, (op.value / 256) % 256] ++ s, by rw [hs1]; simp,
          by simp [hs2, hsz]; omega⟩
    · next h1 =>
      split at h
      · next h2 =>
        have hsz : operand_size op = 1 := by simp [operand_size, h1, h2]
        obtain ⟨s, hs1, hs2⟩ := ih _ _ _ _ _ h
        exact ⟨[0xC0 ||| (i % 64)] ++ s, by rw [hs1]; simp, by simp [hs2, hsz]; omega⟩
      · next h2 =>
        split at h
        · next h3 =>
          have hsz : operand_size op = 2 := by
            unfold operand_size
            rw [if_neg h1, if_neg h2, if_pos h3]
          split at h
          · split at h
            · cases h
            · obtain ⟨s, hs1, hs2⟩ := ih _ _ _ _ _ h
              exact ⟨[0x00, 0x00] ++ s, by rw [hs1]; simp, by simp [hs2, hsz]; omega⟩
          · obtain ⟨s, hs1, hs2⟩ := ih _ _ _ _ _ h
            exact ⟨[0x00, 0x00] ++ s, by rw [hs1]; simp, by simp [hs2, hsz]; omega⟩
        · next h3 =>
          have hsz : operand_size op = 0 := by
            unfold operand_size
            rw [if_neg h1, if_neg h2, if_neg h3]
          obtain ⟨s, hs1, hs2⟩ := ih _ _ _ _ _ h
          exact ⟨s, hs1, by rw [hsz]; omega⟩

/-- One call of the emitter either returns `-1`, or returns `0` after
appending exactly the encoding of the record, with the relocation slots still
in order inside the buffer. -/
theorem codegen_emit_instruction_size (cg : CodeGen) (idx : Nat) (entry : InstructionEntry) :
    (codegen_emit_instruction cg idx entry).1 = -1 ∨
    ((codegen_emit_instruction cg idx entry).1 = 0 ∧
      (codegen_emit_instruction cg idx entry).2.1.has_errors = cg.has_errors ∧
      (∃ code, (codegen_emit_instruction cg idx entry).2.1.code_buffer = cg.code_buffer ++ code ∧
        code.length = encoded_size entry) ∧
      (slots_ok cg.relocations cg.code_buffer.length →
        slots_ok (codegen_emit_instruction cg idx entry).2.1.relocations
          (codegen_emit_instruction cg idx entry).2.1.code_buffer.length)) := by
  unfold codegen_emit_instruction encoded_size
  by_cases hg : cg.code_size + SEMANTIC_MAX_INSTRUCTION_LEN ≥ CODEGEN_OUTPUT_BUFFER_SIZE
  · rw [if_pos hg]; exact Or.inl rfl
  rw [if_neg hg]
  cases hlook : tables_lookup_instruction (some entry.mnemonic) with
  | none => exact Or.inl rfl
  | some info =>
    dsimp only
    by_cases hps : info.is_pseudo ≠ 0
    · rw [if_pos hps, if_pos hps]
      by_cases hdb : util_strcmp entry.mnemonic (cstr "DB") = 0
      · rw [if_pos hdb]
        cases hops : entry.operands with
        | nil => exact Or.inr ⟨rfl, rfl, ⟨[], by simp, by simp⟩, fun hs => hs⟩
        | cons op rest =>
          dsimp only
          by_cases himm : op.type = OPERAND_IMMEDIATE
          · rw [if_pos himm]
            exact Or.inr ⟨rfl, rfl, ⟨[op.value % 256], rfl, by simp [hdb, himm]⟩,
              fun hs => slots_ok_mono hs (by simp)⟩
          · rw [if_neg himm]
            exact Or.inr ⟨rfl, rfl, ⟨[], by simp, by simp [himm]⟩, fun hs => hs⟩
      · rw [if_neg hdb]
        exact Or.inr ⟨rfl, rfl, ⟨[], by simp, by simp [hdb]⟩, fun hs => hs⟩
    · rw [if_neg hps, if_neg hps]
      cases he : emit_operands cg.code_size idx entry.operands 0 [info.opcode] cg.relocations with
      | mk code relocs =>
        cases code with
        | none => exact Or.inl rfl
        | some code =>
          obtain ⟨s, hs1, hs2⟩ := emit_operands_size _ _ _ _ _ _ _ _ he
          refine Or.inr ⟨rfl, rfl, ⟨code, rfl, by rw [hs1]; simp [hs2]; omega⟩, fun hs => ?_⟩
          have := emit_operands_slots _ _ _ _ _ _ _ _ he
            (slots_ok_mono hs (by simp [CodeGen.code_size]))
          simp only [List.length_append]
          exact this.1

/-- When the emission loop ends without a flagged error, none was flagged
before it, the buffer has grown by the encodings of the records, and the
relocation slots are still in order inside the buffer. -/
theorem emit_all_size (entries : List InstructionEntry) :
    ∀ (idx : Nat) (cg : CodeGen) (errs : List ErrorReport),
      (emit_all entries idx cg errs).1.has_errors = false →
      cg.has_errors = false ∧
      (emit_all entries idx cg errs).1.code_buffer.length =
        cg.code_buffer.length + (entries.map encoded_size).sum ∧
      (slots_ok cg.relocations cg.code_buffer.length →
        slots_ok (emit_all entries idx cg errs).1.relocations
          (emit_all entries idx cg errs).1.code_buffer.length) := by
  induction entries with
  | nil => intro idx cg errs h; exact ⟨h, by simp [emit_all], fun hs => hs⟩
  | cons e rest ih =>
    intro idx cg errs h
    unfold emit_all at h ⊢
    dsimp only at h ⊢
    rcases codegen_emit_instruction_size cg idx e with h1 | ⟨h0, hf, ⟨code, hc1, hc2⟩, hsl⟩
    · rw [if_pos (by rw [h1]; decide)] at h
      have := (ih _ _ _ h).1
      simp at this
    · rw [if_neg (by rw [h0]; decide)] at h ⊢
      obtain ⟨h2, h3, h4⟩ := ih _ _ _ h
      refine ⟨by rw [← hf]; exact h2, ?_, fun hs => h4 (hsl hs)⟩
      rw [h3, hc1]
      simp [hc2]
      omega

theorem resolve_loop_length (symtab : SymbolTable) (relocs : List Relocation) :
    ∀ (buffer : List Nat), (resolve_loop symtab relocs buffer).2.1.length = buffer.length := by
  induction relocs with
  | nil => intro buffer; rfl
  | cons rel rest ih =>
    intro buffer
    unfold resolve_loop
    split
    · rfl
    · split
      · rfl
      · rw [ih]; simp

theorem pass_one_loop_done (fuel : Nat) (tokens : List Token) (i : Nat) (p : PassOne)
    (errs : List ErrorReport) (h : tokens.length ≤ i) :
    pass_one_loop fuel tokens i p errs = .ok (p, errs) := by
  cases fuel <;> simp [pass_one_loop, Nat.not_lt.2 h]

theorem peek_char_at {lx : Lexer} {pre rest : List Nat} (h : lx.At pre rest) :
    peek_char lx = rest.headD 0 := by
  obtain ⟨hb, hp, hl, _⟩ := h
  unfold peek_char
  rw [hl, hb, hp]
  cases rest with
  | nil => simp
  | cons c r =>
    have hlt : ¬ (pre.length ≥ (pre ++ c :: r).length) := by simp
    rw [if_neg hlt, List.getD_eq_getElem?_getD, List.getElem?_append_right (Nat.le_refl _)]
    simp

theorem advance_char_at {lx : Lexer} {pre r : List Nat} {c : Nat} (h : lx.At pre (c :: r)) :
    advance_char lx = (c, { lx with pos := lx.pos + 1 }) ∧
    Lexer.At { lx with pos := lx.pos + 1 } (pre ++ [c]) r := by
  have hpeek := peek_char_at h
  obtain ⟨hb, hp, hl, hz⟩ := h
  have hc : c ≠ 0 := hz c (by rw [hb]; simp)
  refine ⟨?_, ?_, ?_, hl, hz⟩
  · unfold advance_char
    rw [hpeek]
    simp [hc]
  · simp [hb]
  · simp [hp]

theorem advance_char_end {lx : Lexer} {pre : List Nat} (h : lx.At pre []) :
    advance_char lx = (0, lx) := by
  unfold advance_char
  rw [peek_char_at h]
  simp

theorem buffer_slice_at {lx : Lexer} {pre w r : List Nat} (hb : lx.buffer = pre ++ (w ++ r)) :
    buffer_slice lx pre.length (pre.length + w.length) = w := by
  unfold buffer_slice
  rw [hb]
  simp

theorem identifier_loop_at (w : List Nat) :
    ∀ (fuel : Nat) (lx : Lexer) (pre r : List Nat), lx.At pre (w ++ r) →
      (∀ c ∈ w, is_alnum c = true) → is_alnum (r.headD 0) = false → w.length < fuel →
      identifier_loop fuel lx = { lx with pos := lx.pos + w.length } := by
  induction w with
  | nil =>
    intro fuel lx pre r h _ hr hf
    obtain ⟨f, rfl⟩ : ∃ f, fuel = f + 1 := ⟨fuel - 1, by simp at hf; omega⟩
    unfold identifier_loop
    rw [peek_char_at h, List.nil_append, hr]
    simp
  | cons c w ih =>
    intro fuel lx pre r h hw hr hf
    obtain ⟨f, rfl⟩ : ∃ f, fuel = f + 1 := ⟨fuel - 1, by simp at hf; omega⟩
    have h1 : lx.At pre (c :: (w ++ r)) := h
    unfold identifier_loop
    rw [peek_char_at h1]
    simp only [List.headD_cons, hw c (List.mem_cons_self _ _), if_true]
    rw [(advance_char_at h1).1]
    rw [ih f _ (pre ++ [c]) r (advance_char_at h1).2
      (fun x hx => hw x (List.mem_cons_of_mem _ hx)) hr (by simp at hf; omega)]
    have e1 : lx.pos + 1 + w.length = lx.pos + (w.length + 1) := by omega
    simp only [List.length_cons, e1]

theorem digit_run_loop_at (w : List Nat) :
    ∀ (fuel : Nat) (lx : Lexer) (pre r : List Nat) (cnt : Nat), lx.At pre (w ++ r) →
      (∀ c ∈ w, is_hex_char c = true) → is_hex_char (r.headD 0) = false → w.length < fuel →
      digit_run_loop fuel lx cnt = ({ lx with pos := lx.pos + w.length }, cnt + w.length) := by
  induction w with
  | nil =>
    intro fuel lx pre r cnt h _ hr hf
    obtain ⟨f, rfl⟩ : ∃ f, fuel = f + 1 := ⟨fuel - 1, by simp at hf; omega⟩
    unfold digit_run_loop
    rw [peek_char_at h, List.nil_append, hr]
    simp
  | cons c w ih =>
    intro fuel lx pre r cnt h hw hr hf
    obtain ⟨f, rfl⟩ : ∃ f, fuel = f + 1 := ⟨fuel - 1, by simp at hf; omega⟩
    have h1 : lx.At pre (c :: (w ++ r)) := h
    unfold digit_run_loop
    rw [peek_char_at h1]
    simp only [List.headD_cons, hw c (List.mem_cons_self _ _), if_true]
    rw [(advance_char_at h1).1]
    rw [ih f _ (pre ++ [c]) r (cnt + 1) (advance_char_at h1).2
      (fun x hx => hw x (List.mem_cons_of_mem _ hx)) hr (by simp at hf; omega)]
    have e1 : lx.pos + 1 + w.length = lx.pos + (w.length + 1) := by omega
    have e2 : cnt + 1 + w.length = cnt + (w.length + 1) := by omega
    simp only [List.length_cons, e1, e2]

theorem c_hex_loop_at (w : List Nat) :
    ∀ (fuel : Nat) (lx : Lexer) (pre r : List Nat) (val cnt : Nat), lx.At pre (w ++ r) →
      (∀ c ∈ w, is_hex_char c = true) → is_hex_char (r.headD 0) = false → w.length < fuel →
      c_hex_loop fuel lx val cnt =
        ({ lx with pos := lx.pos + w.length },
          w.foldl (fun val c => ((val <<< 4) % 4294967296) ||| hex_digit_value c) val,
          cnt + w.length) := by
  induction w with
  | nil =>
    intro fuel lx pre r val cnt h _ hr hf
    obtain ⟨f, rfl⟩ : ∃ f, fuel = f + 1 := ⟨fuel - 1, by simp at hf; omega⟩
    unfold c_hex_loop
    rw [peek_char_at h, List.nil_append]
    simp only [hr]
    simp
  | cons c w ih =>
    intro fuel lx pre r val cnt h hw hr hf
    obtain ⟨f, rfl⟩ : ∃ f, fuel = f + 1 := ⟨fuel - 1, by simp at hf; omega⟩
    have h1 : lx.At pre (c :: (w ++ r)) := h
    unfold c_hex_loop
    rw [peek_char_at h1]
    simp only [List.headD_cons, hw c (List.mem_cons_self _ _)]
    simp only [if_true]
    rw [(advance_char_at h1).1]
    rw [ih f _ (pre ++ [c]) r _ (cnt + 1) (advance_char_at h1).2
      (fun x hx => hw x (List.mem_cons_of_mem _ hx)) hr (by simp at hf; omega)]
    have e1 : lx.pos + 1 + w.length = lx.pos + (w.length + 1) := by omega
    have e2 : cnt + 1 + w.length = cnt + (w.length + 1) := by omega
    simp only [List.length_cons, List.foldl_cons, e1, e2]

theorem is_alpha_first {c : Nat} (h : is_alpha c = true) :
    c ≠ 0 ∧ c ≠ 32 ∧ c ≠ 9 ∧ c ≠ 13 ∧ c ≠ 59 ∧ c ≠ 10 ∧ punctuation_type c = none ∧
      c ≠ 34 ∧ c ≠ 39 ∧ is_digit c = false := by
  have hr : (65 ≤ c ∧ c ≤ 90) ∨ (97 ≤ c ∧ c ≤ 122) ∨ c = 95 ∨ c = 46 ∨ c = 36 := by
    simpa [is_alpha, or_assoc] using h
  refine ⟨by omega, by omega, by omega, by omega, by omega, by omega, ?_, by omega, by omega, ?_⟩
  · unfold punctuation_type
    repeat' rw [if_neg (by omega)]
  · simp only [is_digit, Bool.and_eq_false_iff, decide_eq_false_iff_not]
    omega

theorem is_digit_first {c : Nat} (h : is_digit c = true) :
    c ≠ 0 ∧ c ≠ 32 ∧ c ≠ 9 ∧ c ≠ 13 ∧ c ≠ 59 ∧ c ≠ 10 ∧ punctuation_type c = none ∧
      c ≠ 34 ∧ c ≠ 39 ∧ 48 ≤ c ∧ c ≤ 57 ∧ is_hex_char c = true := by
  have hr : 48 ≤ c ∧ c ≤ 57 := by simpa [is_digit] using h
  refine ⟨by omega, by omega, by omega, by omega, by omega, by omega, ?_, by omega, by omega,
    hr.1, hr.2, ?_⟩
  · unfold punctuation_type
    repeat' rw [if_neg (by omega)]
  · simp [is_hex_char, hr.1, hr.2]

theorem lexer_pos_lt_len {lx : Lexer} {pre r : List Nat} {c : Nat} (h : lx.At pre (c :: r)) :
    ¬ (lx.pos ≥ lx.len) := by
  obtain ⟨hb, hp, hl, _⟩ := h
  rw [hl, hb, hp]
  simp

theorem is_hex_char_not_mark {c : Nat} (h : is_hex_char c = true) :
    c ≠ 120 ∧ c ≠ 88 ∧ c ≠ 104 ∧ c ≠ 72 ∧ c ≠ 0 := by
  have hr : (48 ≤ c ∧ c ≤ 57) ∨ (97 ≤ c ∧ c ≤ 102) ∨ (65 ≤ c ∧ c ≤ 70) := by
    simpa [is_hex_char, or_assoc] using h
  omega

theorem is_c_hex_at {lx : Lexer} {pre rest : List Nat} (h : lx.At pre rest) :
    is_c_hex lx = (decide (rest.headD 0 = 48) &&
      (rest.tail.headD 0 == 120 || rest.tail.headD 0 == 88)) := by
  have hpeek := peek_char_at h
  obtain ⟨hb, hp, hl, _⟩ := h
  unfold is_c_hex
  rw [hpeek, hl, hb, hp]
  cases rest with
  | nil => simp
  | cons a r =>
    cases r with
    | nil => simp
    | cons b r2 =>
      have hlt : pre.length + 1 < (pre ++ a :: b :: r2).length := by simp
      have hget : (pre ++ a :: b :: r2).getD (pre.length + 1) 0 = b := by
        rw [List.getD_eq_getElem?_getD, List.getElem?_append_right (by omega)]
        simp
      rw [hget]
      simp [hlt]

theorem lexer_next_token_end {lx : Lexer} {pre : List Nat} (h : lx.At pre []) :
    lexer_next_token lx =
      ({ type := TOK_EOF, lexeme := none, line := lx.line, int_value := 0 }, lx, []) := by
  have hge : lx.pos ≥ lx.len := by
    obtain ⟨hb, hp, hl, _⟩ := h
    rw [hl, hb, hp]; simp
  unfold lexer_next_token next_token_loop
  rw [if_pos hge]

theorem db_source_head (lits : List (CStr × Nat)) :
    (db_source (lits.map Prod.fst)).headD 0 = 0 ∨
      (db_source (lits.map Prod.fst)).headD 0 = 68 := by
  cases lits with
  | nil => left; rfl
  | cons l rest => right; simp [db_source, cstr]

theorem symtab_create_WF (cap : Nat) : (symtab_create cap).symbols.WF := by
  unfold symtab_create
  exact util_ht_create_WF _

theorem symtab_lookup_create (cap : Nat) (name : CStr) :
    symtab_lookup (symtab_create cap) name = none := by
  unfold symtab_lookup symtab_create
  exact util_ht_lookup_create _ _

theorem symtab_lookup_congr (st : SymbolTable) {a b : CStr}
    (h : util_strcpy a = util_strcpy b) : symtab_lookup st a = symtab_lookup st b :=
  util_ht_lookup_congr ((util_strcmp_eq_zero_iff a b).2 h) st.symbols

/-- One `symtab_insert` call on a well-formed table: the table stays
well-formed, a lookup that found a record finds the same record, and a lookup
that found none finds the record of the call exactly when the names agree. -/
theorem symtab_insert_lookup (st : SymbolTable) (c : InsertCall) (hwf : st.symbols.WF)
    (name : CStr) :
    (symtab_insert st c.name c.type c.address c.line).2.symbols.WF ∧
    symtab_lookup (symtab_insert st c.name c.type c.address c.line).2 name =
      match symtab_lookup st name with
      | some s => some s
      | none => if util_strcpy c.name = util_strcpy name then some c.record else none := by
  cases hl : symtab_lookup st c.name with
  | some sym =>
    rw [symtab_insert_present st c.name c.type c.address c.line sym hl]
    refine ⟨hwf, ?_⟩
    cases hn : symtab_lookup st name with
    | some s => rfl
    | none =>
      have hne : util_strcpy c.name ≠ util_strcpy name := by
        intro heq
        rw [symtab_lookup_congr st heq, hn] at hl
        cases hl
      simp [hne]
  | none =>
    obtain ⟨_, hwf1, hsame, hother⟩ :=
      symtab_lookup_insert_same st c.name c.type c.address c.line hwf hl
    refine ⟨hwf1, ?_⟩
    by_cases heq : util_strcpy c.name = util_strcpy name
    · rw [← symtab_lookup_congr _ heq, hsame, ← symtab_lookup_congr st heq, hl]
      simp [heq, InsertCall.record]
    · rw [hother name (fun h0 => heq ((util_strcmp_eq_zero_iff _ _).1 h0))]
      cases hn : symtab_lookup st name with
      | some s => rfl
      | none => simp [heq]

theorem symtab_insert_all_lookup (calls : List InsertCall) :
    ∀ (st : SymbolTable), st.symbols.WF → ∀ name,
      (symtab_insert_all st calls).symbols.WF ∧
      symtab_lookup (symtab_insert_all st calls) name =
        match symtab_lookup st name with
        | some s => some s
        | none => (calls.find? (fun c => decide (util_strcpy c.name = util_strcpy name))).map
            InsertCall.record := by
  induction calls with
  | nil =>
    intro st hwf name
    refine ⟨hwf, ?_⟩
    show symtab_lookup st name = _
    cases symtab_lookup st name <;> rfl
  | cons c rest ih =>
    intro st hwf name
    obtain ⟨hwf1, hl1⟩ := symtab_insert_lookup st c hwf name
    obtain ⟨hwf2, hl2⟩ := ih _ hwf1 name
    refine ⟨hwf2, ?_⟩
    show symtab_lookup (symtab_insert_all _ rest) name = _
    rw [hl2, hl1]
    cases symtab_lookup st name with
    | some s => rfl
    | none =>
      by_cases heq : util_strcpy c.name = util_strcpy name
      · simp [heq, List.find?]
      · simp [heq, List.find?]

theorem symtab_insert_all_count (calls : List InsertCall) :
    ∀ (st : SymbolTable) (seen : Finset CStr), st.symbols.WF →
      (∀ name, (symtab_lookup st name).isSome ↔ util_strcpy name ∈ seen) →
      symtab_get_symbol_count st = seen.card % 4294967296 →
      symtab_get_symbol_count (symtab_insert_all st calls) =
        (seen ∪ (inserted_names calls).toFinset).card % 4294967296 := by
  induction calls with
  | nil =>
    intro st seen _ _ hc
    simpa [symtab_insert_all, inserted_names] using hc
  | cons c rest ih =>
    intro st seen hwf hseen hc
    have hstep : seen ∪ (inserted_names (c :: rest)).toFinset =
        insert (util_strcpy c.name) seen ∪ (inserted_names rest).toFinset := by
      ext x
      simp [inserted_names]
    rw [hstep]
    show symtab_get_symbol_count (symtab_insert_all _ rest) = _
    cases hl : symtab_lookup st c.name with
    | some sym =>
      have hmem : util_strcpy c.name ∈ seen := (hseen c.name).1 (by rw [hl]; rfl)
      rw [symtab_insert_present st c.name c.type c.address c.line sym hl,
        Finset.insert_eq_of_mem hmem]
      exact ih st seen hwf hseen hc
    | none =>
      have hnot : util_strcpy c.name ∉ seen := fun hm => by
        have := (hseen c.name).2 hm
        rw [hl] at this
        cases this
      refine ih _ _ (symtab_insert_lookup st c hwf c.name).1 ?_ ?_
      · intro name
        rw [(symtab_insert_lookup st c hwf name).2, Finset.mem_insert, ← hseen name]
        cases symtab_lookup st name with
        | some s => simp
        | none =>
          by_cases heq : util_strcpy c.name = util_strcpy name
          · simp [heq]
          · simp [heq, Ne.symm heq]
      · rw [Finset.card_insert_of_not_mem hnot]
        have hc1 : st.total_symbols = seen.card % 4294967296 := hc
        have hun : util_ht_lookup st.symbols c.name = none := hl
        simp only [symtab_get_symbol_count, symtab_insert, hun, hc1]
        omega

/-! ## Lemmas on pass one -/

theorem addresses_from_getElem (l : List InstructionEntry) :
    ∀ (a : Nat), addresses_from a l → ∀ (k : Nat) (e : InstructionEntry), l[k]? = some e →
      e.address = a + total_length (l.take k) := by
  induction l with
  | nil => intro a _ k e hk; simp at hk
  | cons x rest ih =>
    intro a h k e hk
    cases k with
    | zero =>
      simp at hk
      subst hk
      simpa [total_length] using h.1
    | succ k =>
      have := ih (a + x.length) h.2 k e (by simpa using hk)
      rw [this]
      simp [total_length, List.take]
      omega

/-- The pass-one loop only appends records. -/
theorem pass_one_loop_prefix (fuel : Nat) (tokens : List Token) (i : Nat) (p : PassOne)
    (errs : List ErrorReport) (r : PassOne × List ErrorReport)
    (h : pass_one_loop fuel tokens i p errs = .ok r) :
    ∃ more, r.1.instructions = p.instructions ++ more := by
  refine pass_one_loop_invariant (fun q _ => ∃ more, q.instructions = p.instructions ++ more)
    (fun q errs hI => hI) (fun q errs ln hI => hI) ?_ _ _ _ _ _ _ h ⟨[], by simp⟩
  intro q errs tokens i parsed consumed hI _ _
  obtain ⟨more, hm⟩ := hI
  refine ⟨more ++ [pass_one_entry q parsed], ?_⟩
  rw [pass_one_record_instructions, hm, List.append_assoc]

/-- Analysis of a statement `ORG n` followed by the end of the line. -/
theorem analyze_org_statement (tokens : List Token) (i ln ln1 n : Nat) (s : CStr) (t2 : Token)
    (hi : i + 2 < 65535)
    (h0 : tokens[i]? = some { type := TOK_IDENTIFIER, lexeme := some (cstr "ORG"), line := ln,
                              int_value := 0 })
    (h1 : tokens[i + 1]? = some { type := TOK_NUMBER, lexeme := some s, line := ln1,
                                  int_value := n })
    (h2 : tokens[i + 2]? = some t2) (ht2 : t2.type = TOK_NEWLINE ∨ t2.type = TOK_EOF) :
    semantic_analyze_instruction tokens i =
      .ok (some (mk_entry (cstr "ORG") [{ type := OPERAND_IMMEDIATE, value := n, name := [] }]
        false [], 2)) := by
  have hc : util_strcpy (cstr "ORG") = cstr "ORG" := by decide
  have hi0 : i < 65535 := by omega
  have hi1 : i + 1 < 65535 := by omega
  have h3 : tokens[i + 1 + 1]? = some t2 := h2
  rcases ht2 with h | h <;>
    simp [semantic_analyze_instruction, analyze_mnemonic, parse_operands, operand_suffix,
      token_type_is, read_token, token_lexeme, bind, Except.bind, pure, Except.pure, h0, h1, h3,
      hi0, hi1, hi, hc, h, SEMANTIC_MAX_OPERANDS]

/-! ## The lexer and the reading of the unread text -/

theorem Lexer.At.pos_eq {lx : Lexer} {pre text : List Nat} (h : lx.At pre text) :
    lx.pos = lx.len - text.length ∧ text.length ≤ lx.len := by
  obtain ⟨hb, hp, hl, _⟩ := h
  rw [hl, hb, hp, List.length_append]
  omega

/-- Moving the read position to the start of a suffix of the unread text. -/
theorem Lexer.At.seek {lx : Lexer} {pre text rest : List Nat} (h : lx.At pre text)
    (hs : rest <:+ text) (ln : Nat) :
    ∃ pre1, Lexer.At { lx with pos := lx.len - rest.length, line := ln } pre1 rest := by
  obtain ⟨w, rfl⟩ := hs
  obtain ⟨hb, hp, hl, hz⟩ := h
  refine ⟨pre ++ w, ?_, ?_, hl, hz⟩
  · simp [hb]
  · show lx.len - rest.length = (pre ++ w).length
    rw [hl, hb]
    simp only [List.length_append]
    omega

theorem takeWhile_head_dropWhile (P : Nat → Bool) (h0 : P 0 = false) (text : List Nat) :
    P ((text.dropWhile P).headD 0) = false := by
  induction text with
  | nil => simpa using h0
  | cons c r ih =>
    by_cases hc : P c = true
    · simpa [List.dropWhile, hc] using ih
    · simp [List.dropWhile, hc]

theorem length_takeWhile_add (P : Nat → Bool) (text : List Nat) :
    (text.takeWhile P).length + (text.dropWhile P).length = text.length := by
  rw [← List.length_append, List.takeWhile_append_dropWhile]

/-- The identifier loop, in terms of the unread text. -/
theorem identifier_loop_text {lx : Lexer} {pre text : List Nat} (h : lx.At pre text)
    (fuel : Nat) (hf : text.length < fuel) :
    identifier_loop fuel lx = { lx with pos := lx.len - (text.dropWhile is_alnum).length } := by
  have hat : lx.At pre (text.takeWhile is_alnum ++ text.dropWhile is_alnum) := by
    rw [List.takeWhile_append_dropWhile]; exact h
  have hlen := length_takeWhile_add is_alnum text
  rw [identifier_loop_at _ fuel lx pre _ hat (fun c hc => List.mem_takeWhile_imp hc)
    (takeWhile_head_dropWhile is_alnum (by decide) text) (by omega)]
  have hp := h.pos_eq
  congr 1
  omega

/-- The digit loop of the MASM/decimal branch, in terms of the unread text. -/
theorem digit_run_loop_text {lx : Lexer} {pre text : List Nat} (h : lx.At pre text)
    (fuel cnt : Nat) (hf : text.length < fuel) :
    digit_run_loop fuel lx cnt =
      ({ lx with pos := lx.len - (text.dropWhile is_hex_char).length },
        cnt + (text.takeWhile is_hex_char).length) := by
  have hat : lx.At pre (text.takeWhile is_hex_char ++ text.dropWhile is_hex_char) := by
    rw [List.takeWhile_append_dropWhile]; exact h
  have hlen := length_takeWhile_add is_hex_char text
  rw [digit_run_loop_at _ fuel lx pre _ cnt hat (fun c hc => List.mem_takeWhile_imp hc)
    (takeWhile_head_dropWhile is_hex_char (by decide) text) (by omega)]
  have hp := h.pos_eq
  congr 2
  omega

/-- The digit loop of the `0x` branch, in terms of the unread text. -/
theorem c_hex_loop_text {lx : Lexer} {pre text : List Nat} (h : lx.At pre text)
    (fuel val cnt : Nat) (hf : text.length < fuel) :
    c_hex_loop fuel lx val cnt =
      ({ lx with pos := lx.len - (text.dropWhile is_hex_char).length },
        (text.takeWhile is_hex_char).foldl
          (fun val c => ((val <<< 4) % 4294967296) ||| hex_digit_value c) val,
        cnt + (text.takeWhile is_hex_char).length) := by
  have hat : lx.At pre (text.takeWhile is_hex_char ++ text.dropWhile is_hex_char) := by
    rw [List.takeWhile_append_dropWhile]; exact h
  have hlen := length_takeWhile_add is_hex_char text
  rw [c_hex_loop_at _ fuel lx pre _ val cnt hat (fun c hc => List.mem_takeWhile_imp hc)
    (takeWhile_head_dropWhile is_hex_char (by decide) text) (by omega)]
  have hp := h.pos_eq
  congr 2
  omega

theorem buffer_slice_text {lx lx1 : Lexer} {pre text w rest : List Nat} (h : lx.At pre text)
    (hw : text = w ++ rest) (hb : lx1.buffer = lx.buffer) :
    buffer_slice lx1 (lx.len - text.length) (lx.len - rest.length) = w := by
  obtain ⟨hbuf, hp, hl, _⟩ := h
  have h1 : lx.len - text.length = pre.length := by
    rw [hl, hbuf, List.length_append]; omega
  have h2 : lx.len - rest.length = pre.length + w.length := by
    rw [hl, hbuf, hw]; simp only [List.length_append]; omega
  rw [h1, h2]
  exact @buffer_slice_at lx1 pre w rest (by rw [hb, hbuf, hw])

theorem drop_blank_suffix (text : List Nat) : ∀ b, drop_blank b text <:+ text := by
  induction text with
  | nil => intro b; cases b <;> exact List.suffix_refl _
  | cons c r ih =>
    intro b
    cases b with
    | true =>
      unfold drop_blank
      split
      · exact List.suffix_refl _
      · exact (ih true).trans (List.suffix_cons c r)
    | false =>
      unfold drop_blank
      split
      · exact (ih false).trans (List.suffix_cons c r)
      · split
        · exact (ih true).trans (List.suffix_cons c r)
        · exact List.suffix_refl _

theorem drop_blank_true_head (r : List Nat) :
    (drop_blank true r).headD 0 = 0 ∨ (drop_blank true r).headD 0 = 10 := by
  induction r with
  | nil => left; rfl
  | cons x xs ihx =>
    unfold drop_blank
    split
    · right; simp [*]
    · exact ihx

/-- The comment loop, in terms of the unread text. -/
theorem skip_comment_loop_text (text : List Nat) :
    ∀ (lx : Lexer) (pre : List Nat) (fuel : Nat), lx.At pre text → text.length < fuel →
      skip_comment_loop fuel lx = { lx with pos := lx.len - (drop_blank true text).length } := by
  induction text with
  | nil =>
    intro lx pre fuel h _
    have hp := h.pos_eq
    have hpeek := peek_char_at h
    have hres : skip_comment_loop fuel lx = lx := by
      cases fuel with
      | zero => rfl
      | succ f => simp [skip_comment_loop, hpeek]
    rw [hres]
    simp only [drop_blank, List.length_nil, Nat.sub_zero] at hp ⊢
    cases lx
    simp_all
  | cons c r ih =>
    intro lx pre fuel h hf
    obtain ⟨f, rfl⟩ : ∃ f, fuel = f + 1 := ⟨fuel - 1, by simp at hf; omega⟩
    have hp := h.pos_eq
    have hpeek : peek_char lx = c := by rw [peek_char_at h]; rfl
    have hc0 : c ≠ 0 := h.2.2.2 c (by rw [h.1]; simp)
    obtain ⟨hadv, hat1⟩ := advance_char_at h
    by_cases hc : c = 10
    · subst hc
      simp only [skip_comment_loop, hpeek, drop_blank]
      simp only [ne_eq, not_true_eq_false, and_false, if_false, if_true]
      cases lx
      simp_all
    · have hlen : r.length < f := by simp at hf; omega
      simp only [skip_comment_loop, hpeek, ne_eq, hc0, not_false_eq_true, hc, and_self, if_true,
        hadv, drop_blank, if_false]
      rw [ih _ _ f hat1 hlen]

/-- The blank-skipping loop, in terms of the unread text. -/
theorem skip_whitespace_loop_text (text : List Nat) :
    ∀ (lx : Lexer) (pre : List Nat) (fuel : Nat), lx.At pre text → text.length < fuel →
      skip_whitespace_loop fuel lx =
        { lx with pos := lx.len - (drop_blank false text).length } := by
  induction text with
  | nil =>
    intro lx pre fuel h _
    have hp := h.pos_eq
    have hpeek := peek_char_at h
    have hres : skip_whitespace_loop fuel lx = lx := by
      cases fuel with
      | zero => rfl
      | succ f => simp [skip_whitespace_loop, hpeek]
    rw [hres]
    simp only [drop_blank, List.length_nil, Nat.sub_zero] at hp ⊢
    cases lx
    simp_all
  | cons c r ih =>
    intro lx pre fuel h hf
    obtain ⟨f, rfl⟩ : ∃ f, fuel = f + 1 := ⟨fuel - 1, by simp at hf; omega⟩
    have hp := h.pos_eq
    have hpeek : peek_char lx = c := by rw [peek_char_at h]; rfl
    obtain ⟨hadv, hat1⟩ := advance_char_at h
    have hlen : r.length < f := by simp at hf; omega
    by_cases hb : c = 32 ∨ c = 9 ∨ c = 13
    · simp only [skip_whitespace_loop, hpeek, hb, if_true, hadv, drop_blank]
      rw [ih _ _ f hat1 hlen]
    · by_cases hs : c = 59
      · subst hs
        have hcom := skip_comment_loop_text (59 :: r) lx pre (lx.len + 1) h (by omega)
        have hd : drop_blank true (59 :: r) = drop_blank true r := by simp [drop_blank]
        rw [hd] at hcom
        obtain ⟨pre2, hat2⟩ := h.seek ((drop_blank_suffix r true).trans (List.suffix_cons 59 r))
          lx.line
        have hlx2 : ({ lx with pos := lx.len - (drop_blank true r).length, line := lx.line } :
            Lexer) = { lx with pos := lx.len - (drop_blank true r).length } := rfl
        rw [hlx2] at hat2
        have hpeek2 := peek_char_at hat2
        have hstop : skip_whitespace_loop f
            { lx with pos := lx.len - (drop_blank true r).length } =
            { lx with pos := lx.len - (drop_blank true r).length } := by
          obtain ⟨g, rfl⟩ : ∃ g, f = g + 1 := ⟨f - 1, by omega⟩
          rcases drop_blank_true_head r with h0 | h0
          · simp only [skip_whitespace_loop, hpeek2, h0]
            simp
          · simp only [skip_whitespace_loop, hpeek2, h0]
            simp
        simp only [skip_whitespace_loop, hpeek, hb, if_false, if_true, hcom, drop_blank]
        simp only [hstop]
      · simp only [skip_whitespace_loop, hpeek, hb, hs, if_false, drop_blank]
        cases lx
        simp_all

theorem skip_whitespace_text {lx : Lexer} {pre text : List Nat} (h : lx.At pre text) :
    skip_whitespace_and_comments lx =
      { lx with pos := lx.len - (drop_blank false text).length } :=
  skip_whitespace_loop_text text lx pre (lx.len + 1) h (by have := h.pos_eq; omega)

theorem is_alpha_alnum {c : Nat} (h : is_alpha c = true) : is_alnum c = true := by
  simp [is_alnum, h]

/-- `lex_identifier` at a letter, in terms of the unread text. -/
theorem lex_identifier_text {lx : Lexer} {pre r : List Nat} {c : Nat}
    (h : lx.At pre (c :: r)) (hc : is_alpha c = true) (errs : List ErrorReport) :
    lex_identifier lx =
      ((scan_identifier lx.line errs c r).token,
        { lx with pos := lx.len - (scan_identifier lx.line errs c r).rest.length }) := by
  have hloop := identifier_loop_text h (lx.len + 1) (by have := h.pos_eq; omega)
  have hd : (c :: r).dropWhile is_alnum = r.dropWhile is_alnum := by
    simp [List.dropWhile, is_alpha_alnum hc]
  have hsplit : c :: r = (c :: r.takeWhile is_alnum) ++ r.dropWhile is_alnum := by
    simp [List.takeWhile_append_dropWhile]
  have hslice := @buffer_slice_text _ { lx with pos := lx.len - (r.dropWhile is_alnum).length }
    _ _ _ _ h hsplit rfl
  rw [← h.pos_eq.1] at hslice
  rw [hd] at hloop
  simp only [lex_identifier, hloop, scan_identifier, hslice]

/-- The string loop, in terms of the unread text. -/
theorem string_loop_text (q : Nat) (text : List Nat) :
    ∀ (lx : Lexer) (pre : List Nat) (fuel : Nat), lx.At pre text → text.length < fuel →
      string_loop fuel q lx =
        { lx with pos := lx.len - (text.dropWhile (fun x => x != q)).length,
                  line := lx.line + (text.takeWhile (fun x => x != q)).count 10 } := by
  induction text with
  | nil =>
    intro lx pre fuel h _
    have hp := h.pos_eq
    have hpeek := peek_char_at h
    have hres : string_loop fuel q lx = lx := by
      cases fuel with
      | zero => rfl
      | succ f => simp [string_loop, hpeek]
    rw [hres]
    simp only [List.dropWhile, List.takeWhile, List.length_nil, Nat.sub_zero, List.count_nil,
      Nat.add_zero] at hp ⊢
    cases lx
    simp_all
  | cons c r ih =>
    intro lx pre fuel h hf
    obtain ⟨f, rfl⟩ : ∃ f, fuel = f + 1 := ⟨fuel - 1, by simp at hf; omega⟩
    have hp := h.pos_eq
    have hpeek : peek_char lx = c := by rw [peek_char_at h]; rfl
    have hc0 : c ≠ 0 := h.2.2.2 c (by rw [h.1]; simp)
    have hlen : r.length < f := by simp at hf; omega
    by_cases hq : c = q
    · subst hq
      simp only [string_loop, hpeek, ne_eq, not_true_eq_false, and_false, if_false]
      simp only [List.dropWhile, List.takeWhile, bne_self_eq_false, List.count_nil, Nat.add_zero]
      cases lx
      simp_all
    · have hbne : (c != q) = true := by simpa using hq
      by_cases hn : c = 10
      · subst hn
        have h1 : Lexer.At { lx with line := lx.line + 1 } pre (10 :: r) := h
        obtain ⟨hadv, hat1⟩ := advance_char_at h1
        simp only [string_loop, hpeek, ne_eq, hc0, not_false_eq_true, hq, and_self, if_true, hadv]
        rw [ih _ _ f hat1 hlen]
        simp only [List.dropWhile, List.takeWhile, hbne, List.count_cons_self]
        congr 1
        omega
      · obtain ⟨hadv, hat1⟩ := advance_char_at h
        simp only [string_loop, hpeek, ne_eq, hc0, not_false_eq_true, hq, and_self, if_true, hn,
          if_false, hadv]
        rw [ih _ _ f hat1 hlen]
        simp only [List.dropWhile, List.takeWhile, hbne]
        rw [List.count_cons_of_ne (Ne.symm hn)]

theorem dropWhile_bne_head (q : Nat) (text : List Nat) (x : Nat) (rest : List Nat)
    (h : text.dropWhile (fun y => y != q) = x :: rest) : x = q := by
  have := List.head_dropWhile_not (fun y => y != q) text (by rw [h]; simp)
  simp only [h, List.head_cons] at this
  simpa using this

/-- `lex_string` at a quote, in terms of the unread text. -/
theorem lex_string_text {lx : Lexer} {pre r : List Nat} {c : Nat}
    (h : lx.At pre (c :: r)) :
    lex_string lx =
      ((scan_string c lx.line [] r).token,
        { lx with pos := lx.len - (scan_string c lx.line [] r).rest.length,
                  line := (scan_string c lx.line [] r).line },
        (scan_string c lx.line [] r).errors) := by
  obtain ⟨hadv, hat1⟩ := advance_char_at h
  have hp := h.pos_eq
  have hloop := string_loop_text c r _ _ (lx.len + 1) hat1 (by simp at hp; omega)
  have hsplit : r = r.takeWhile (fun x => x != c) ++ r.dropWhile (fun x => x != c) :=
    (List.takeWhile_append_dropWhile _ _).symm
  have hsuf : r.dropWhile (fun x => x != c) <:+ r := List.dropWhile_suffix _
  obtain ⟨pre2, hat2⟩ := hat1.seek hsuf (lx.line + (r.takeWhile (fun x => x != c)).count 10)
  have hpeek2 := peek_char_at hat2
  have hp1 := hat1.pos_eq
  have hslice := @buffer_slice_text _ lx _ _ _ _ hat1 hsplit rfl
  simp only [] at hslice hp1 hat2 hpeek2 hloop
  rw [← hp1.1] at hslice
  simp only [buffer_slice] at hslice
  cases hd : r.dropWhile (fun x => x != c) with
  | nil =>
    rw [hd] at hpeek2 hat2 hloop hslice
    have hc0 : c ≠ 0 := h.2.2.2 c (by rw [h.1]; simp)
    simp only [List.length_nil, Nat.sub_zero, List.headD_nil] at hpeek2 hloop hslice
    simp only [lex_string, hadv, hloop, hpeek2, ne_eq, Ne.symm hc0,
      not_false_eq_true, if_true, scan_string, hd, List.length_nil, Nat.sub_zero,
      List.nil_append, buffer_slice]
    rw [hslice]
  | cons x rest =>
    have hx : x = c := dropWhile_bne_head c r x rest hd
    subst hx
    rw [hd] at hpeek2 hat2 hloop hslice
    obtain ⟨hadv2, _⟩ := advance_char_at hat2
    have hle : rest.length + 1 ≤ lx.len := by
      have := hat2.pos_eq.2
      simpa using this
    simp only [List.length_cons, List.headD_cons] at hpeek2 hloop hslice hadv2
    simp only [lex_string, hadv, hloop, hpeek2, ne_eq, not_true_eq_false,
      if_false, hadv2, scan_string, hd, buffer_slice]
    rw [hslice]
    congr 2
    congr 1
    omega

theorem is_digit_hex {c : Nat} (h : is_digit c = true) : is_hex_char c = true :=
  (is_digit_first h).2.2.2.2.2.2.2.2.2.2.2

/-- `lex_number` at a decimal digit, in terms of the unread text. -/
theorem lex_number_text {lx : Lexer} {pre r : List Nat} {c : Nat}
    (h : lx.At pre (c :: r)) (hc : is_digit c = true) :
    lex_number lx =
      ((scan_number lx.line [] c r).token,
        { lx with pos := lx.len - (scan_number lx.line [] c r).rest.length },
        (scan_number lx.line [] c r).errors) := by
  have hp := h.pos_eq
  have hhex := is_digit_hex hc
  have hic := is_c_hex_at h
  simp only [List.headD_cons, List.tail_cons] at hic
  by_cases hA : c = 48 ∧ (r.headD 0 = 120 ∨ r.headD 0 = 88)
  · -- the `0x` form
    obtain ⟨hc48, hx⟩ := hA
    have hic1 : is_c_hex lx = true := by
      rw [hic, hc48]; rcases hx with hx | hx <;> rw [hx] <;> rfl
    cases r with
    | nil => simp at hx
    | cons x r1 =>
      simp only [List.headD_cons] at hx
      obtain ⟨hadv1, hat1⟩ := advance_char_at h
      obtain ⟨hadv2, hat2⟩ := advance_char_at hat1
      simp only [] at hadv2 hat2
      have hlen : r1.length < lx.len + 1 := by simp at hp; omega
      have hloop := c_hex_loop_text hat2 (lx.len + 1) 0 0 hlen
      simp only [Nat.zero_add] at hloop
      have hsplit : c :: x :: r1 =
          (c :: x :: r1.takeWhile is_hex_char) ++ r1.dropWhile is_hex_char := by
        simp [List.takeWhile_append_dropWhile]
      have hslice := @buffer_slice_text _ lx _ _ _ _ h hsplit rfl
      rw [← hp.1] at hslice
      simp only [buffer_slice] at hslice
      have hcnt : ((r1.takeWhile is_hex_char).length = 0) ↔ r1.takeWhile is_hex_char = [] :=
        List.length_eq_zero
      simp only [lex_number, hic1, if_true, lex_c_hex, hadv1, hadv2, hloop, buffer_slice, hslice,
        scan_number, hc48, List.headD_cons, hx, and_self, List.tail_cons, masm_hex_value, hcnt,
        List.nil_append]
  · -- MASM hex or decimal
    have hic0 : is_c_hex lx = false := by
      rw [hic, Bool.eq_false_iff]
      intro ht
      simp only [Bool.and_eq_true, decide_eq_true_eq, Bool.or_eq_true, beq_iff_eq] at ht
      exact hA ht
    have hlen : (c :: r).length < lx.len + 1 := by omega
    have hloop := digit_run_loop_text h (lx.len + 1) 0 hlen
    have hdrop : (c :: r).dropWhile is_hex_char = r.dropWhile is_hex_char := by
      simp [List.dropWhile, hhex]
    have htake : (c :: r).takeWhile is_hex_char = c :: r.takeWhile is_hex_char := by
      simp [List.takeWhile, hhex]
    rw [hdrop, htake] at hloop
    simp only [Nat.zero_add, List.length_cons] at hloop
    have hsuf : r.dropWhile is_hex_char <:+ c :: r :=
      (List.dropWhile_suffix _).trans (List.suffix_cons c r)
    obtain ⟨pre1, hat1⟩ := h.seek hsuf lx.line
    have hlx1 : ({ lx with pos := lx.len - (r.dropWhile is_hex_char).length, line := lx.line } :
        Lexer) = { lx with pos := lx.len - (r.dropWhile is_hex_char).length } := rfl
    rw [hlx1] at hat1
    have hpeek1 := peek_char_at hat1
    have hsplit : c :: r = (c :: r.takeWhile is_hex_char) ++ r.dropWhile is_hex_char := by
      simp [List.takeWhile_append_dropWhile]
    have hslice := @buffer_slice_text _ lx _ _ _ _ h hsplit rfl
    rw [← hp.1] at hslice
    simp only [buffer_slice] at hslice
    have hne : ¬ ((r.takeWhile is_hex_char).length + 1 = 0) := by omega
    by_cases hh : (r.dropWhile is_hex_char).headD 0 = 104 ∨
        (r.dropWhile is_hex_char).headD 0 = 72
    · cases hd : r.dropWhile is_hex_char with
      | nil => rw [hd] at hh; simp at hh
      | cons y rest =>
        rw [hd] at hh hat1 hpeek1 hslice
        simp only [List.headD_cons] at hh hpeek1
        obtain ⟨hadv, _⟩ := advance_char_at hat1
        have hsplit2 : c :: r = (c :: r.takeWhile is_hex_char ++ [y]) ++ rest := by
          have hs := List.takeWhile_append_dropWhile is_hex_char r
          rw [hd] at hs
          conv_lhs => rw [← hs]
          simp
        have hslice2 := @buffer_slice_text _ lx _ _ _ _ h hsplit2 rfl
        rw [← hp.1] at hslice2
        simp only [buffer_slice] at hslice2
        have hle : rest.length + 1 ≤ lx.len := by
          have := hat1.pos_eq.2
          simpa using this
        have hpos : lx.len - (rest.length + 1) + 1 = lx.len - rest.length := by omega
        simp only [List.length_cons] at hadv hslice hpeek1
        simp only [lex_number, hic0, Bool.false_eq_true, if_false, lex_masm_or_decimal, hloop, hd,
          List.length_cons, hne, hpeek1, hh, if_true, hadv, hpos, buffer_slice, hslice, hslice2,
          scan_number, hA, List.headD_cons, List.tail_cons, List.cons_append]
    · have hh1 : ¬ (peek_char { lx with pos := lx.len - (r.dropWhile is_hex_char).length } = 104 ∨
          peek_char { lx with pos := lx.len - (r.dropWhile is_hex_char).length } = 72) := by
        rw [hpeek1]; exact hh
      simp only [lex_number, hic0, Bool.false_eq_true, if_false, lex_masm_or_decimal, hloop, hne,
        hh1, buffer_slice, hslice, scan_number, hA, hh]

theorem scan_token_drop_blank (text : List Nat) :
    ∀ (b : Bool) (ln : Nat) (errs : List ErrorReport),
      scan_token b ln errs text = scan_token false ln errs (drop_blank b text) := by
  induction text with
  | nil => intro b ln errs; cases b <;> rfl
  | cons c r ih =>
    intro b ln errs
    cases b with
    | true =>
      by_cases hc : c = 10
      · subst hc
        simp [scan_token, drop_blank]
      · simp only [scan_token, drop_blank, hc, if_false]
        exact ih true ln errs
    | false =>
      by_cases hb : c = 32 ∨ c = 9 ∨ c = 13
      · simp only [scan_token, drop_blank, hb, if_true]
        exact ih false ln errs
      · by_cases hs : c = 59
        · simp only [scan_token, drop_blank, hb, hs, if_false, if_true]
          exact ih true ln errs
        · simp only [drop_blank, hb, hs, if_false]

theorem drop_blank_false_head {text r : List Nat} {d : Nat}
    (h : drop_blank false text = d :: r) : ¬ (d = 32 ∨ d = 9 ∨ d = 13) ∧ d ≠ 59 := by
  induction text with
  | nil => simp [drop_blank] at h
  | cons c t ih =>
    by_cases hb : c = 32 ∨ c = 9 ∨ c = 13
    · simp only [drop_blank, hb, if_true] at h
      exact ih h
    · by_cases hs : c = 59
      · subst hs
        have h : drop_blank true t = d :: r := by simpa [drop_blank] using h
        rcases drop_blank_true_head t with h0 | h0
        · rw [h] at h0
          simp only [List.headD_cons] at h0
          subst h0
          decide
        · rw [h] at h0
          simp only [List.headD_cons] at h0
          subst h0
          decide
      · simp only [drop_blank, hb, hs, if_false] at h
        cases h
        exact ⟨hb, hs⟩

theorem scan_string_errors (q ln : Nat) (errs : List ErrorReport) (r : List Nat) :
    scan_string q ln errs r =
      { scan_string q ln [] r with errors := errs ++ (scan_string q ln [] r).errors } := by
  unfold scan_string
  cases r.dropWhile (fun x => x != q) <;> simp

theorem scan_number_errors (ln : Nat) (errs : List ErrorReport) (c : Nat) (r : List Nat) :
    scan_number ln errs c r =
      { scan_number ln [] c r with errors := errs ++ (scan_number ln [] c r).errors } := by
  unfold scan_number
  by_cases hA : c = 48 ∧ (r.headD 0 = 120 ∨ r.headD 0 = 88)
  · simp only [hA, and_self, if_true, List.nil_append]
  · by_cases hh : (r.dropWhile is_hex_char).headD 0 = 104 ∨
        (r.dropWhile is_hex_char).headD 0 = 72
    · simp only [hA, if_false, hh, if_true, List.append_nil]
    · simp only [hA, if_false, hh, List.append_nil]

theorem scan_number_line (ln : Nat) (errs : List ErrorReport) (c : Nat) (r : List Nat) :
    (scan_number ln errs c r).line = ln ∧ (scan_number ln errs c r).token.line = ln ∧
      (scan_number ln errs c r).token.type = TOK_NUMBER := by
  unfold scan_number
  by_cases hA : c = 48 ∧ (r.headD 0 = 120 ∨ r.headD 0 = 88)
  · simp only [hA, and_self, if_true]
  · by_cases hh : (r.dropWhile is_hex_char).headD 0 = 104 ∨
        (r.dropWhile is_hex_char).headD 0 = 72
    · simp only [hA, if_false, hh, if_true, and_self]
    · simp only [hA, if_false, hh, and_self]

/-- The token loop of `lexer_next_token` reads the token `scan_token` reads
from the unread text, and leaves the read position at the text that is left. -/
theorem next_token_loop_scan :
    ∀ (n : Nat) (text : List Nat), text.length ≤ n →
      ∀ (lx : Lexer) (pre : List Nat) (fuel : Nat) (errs : List ErrorReport),
        lx.At pre text → text.length < fuel →
        next_token_loop fuel lx errs =
          ((scan_token false lx.line errs text).token,
            { lx with pos := lx.len - (scan_token false lx.line errs text).rest.length,
                      line := (scan_token false lx.line errs text).line },
            (scan_token false lx.line errs text).errors) := by
  intro n
  induction n with
  | zero =>
    intro text hn lx pre fuel errs h hf
    have ht : text = [] := List.length_eq_zero.1 (Nat.le_zero.1 hn)
    subst ht
    obtain ⟨f, rfl⟩ : ∃ f, fuel = f + 1 := ⟨fuel - 1, by simp at hf; omega⟩
    have hp := h.pos_eq
    simp only [List.length_nil, Nat.sub_zero] at hp
    have hge : lx.pos ≥ lx.len := by omega
    simp only [next_token_loop, hge, if_true, scan_token, List.length_nil, Nat.sub_zero]
    cases lx
    simp_all
  | succ n ih =>
    intro text hn lx pre fuel errs h hf
    obtain ⟨f, rfl⟩ : ∃ f, fuel = f + 1 := ⟨fuel - 1, by omega⟩
    have hp := h.pos_eq
    cases text with
    | nil =>
      simp only [List.length_nil, Nat.sub_zero] at hp
      have hge : lx.pos ≥ lx.len := by omega
      simp only [next_token_loop, hge, if_true, scan_token, List.length_nil, Nat.sub_zero]
      cases lx
      simp_all
    | cons c r =>
      have hlt : ¬ (lx.pos ≥ lx.len) := lexer_pos_lt_len h
      have hskip := skip_whitespace_text h
      have hsuf := drop_blank_suffix (c :: r) false
      obtain ⟨pre1, hat1⟩ := h.seek hsuf lx.line
      have hat1 : Lexer.At { lx with pos := lx.len - (drop_blank false (c :: r)).length } pre1
          (drop_blank false (c :: r)) := hat1
      rw [scan_token_drop_blank (c :: r) false lx.line errs]
      have hsl := hsuf.length_le
      cases ht : drop_blank false (c :: r) with
      | nil =>
        rw [ht] at hat1 hskip
        have hp1 := hat1.pos_eq
        simp only [List.length_nil, Nat.sub_zero] at hp1 hskip
        simp only [next_token_loop, hlt, if_false, hskip, ge_iff_le, Nat.le_refl, if_true,
          scan_token, List.length_nil, Nat.sub_zero]
      | cons d r2 =>
        rw [ht] at hat1 hskip hsl
        have hp1 := hat1.pos_eq
        have hlt1 : ¬ ((lx.len - (d :: r2).length) ≥ lx.len) := by
          have := lexer_pos_lt_len hat1
          simpa using this
        have hpeek1 : peek_char { lx with pos := lx.len - (d :: r2).length } = d := by
          rw [peek_char_at hat1]; rfl
        obtain ⟨hadv1, hat2⟩ := advance_char_at hat1
        obtain ⟨hnb, hns⟩ := drop_blank_false_head ht
        have hpos2 : lx.len - (d :: r2).length + 1 = lx.len - r2.length := by
          simp only [List.length_cons] at hp1 ⊢
          omega
        simp only [hpos2] at hadv1 hat2
        simp only [next_token_loop, hlt, if_false, hskip, hlt1, hpeek1, hadv1]
        by_cases hnl : d = 10
        · subst hnl
          simp only [if_true, scan_token, hnb, hns, if_false, scan_newline]
        · cases hpt : punctuation_type d with
          | some ty =>
            simp only [hnl, if_false, scan_token, hnb, hns, hpt]
          | none =>
            by_cases hq : d = 34 ∨ d = 39
            · have hstr := lex_string_text hat1
              simp only [] at hstr
              simp only [hnl, if_false, scan_token, hnb, hns, hpt, hq, if_true, hstr]
              rw [scan_string_errors d lx.line errs r2]
            · by_cases hdig : is_digit d = true
              · have hnum := lex_number_text hat1 hdig
                simp only [] at hnum
                simp only [hnl, if_false, scan_token, hnb, hns, hpt, hq, hdig, if_true, hnum]
                rw [scan_number_errors lx.line errs d r2]
                simp only [(scan_number_line lx.line [] d r2).1]
              · by_cases halpha : is_alpha d = true
                · have hid := lex_identifier_text hat1 halpha errs
                  simp only [] at hid
                  simp only [hnl, if_false, scan_token, hnb, hns, hpt, hq, hdig, halpha, if_true,
                    hid]
                  rfl
                · have hr2 : r2.length ≤ n := by
                    simp only [List.length_cons] at hsl hn
                    omega
                  have hf2 : r2.length < f := by
                    simp only [List.length_cons] at hsl hf
                    omega
                  have hih := ih r2 hr2 _ _ f
                    (errs ++ [{ line := lx.line, code := ERR_LEX_INVALID_CHAR }]) hat2 hf2
                  simp only [] at hih
                  simp only [hnl, if_false, scan_token, hnb, hns, hpt, hq, hdig, halpha, hih,
                    Bool.false_eq_true]

/-- One call of `lexer_next_token`, in terms of the unread text. -/
theorem lexer_next_token_scan {lx : Lexer} {pre text : List Nat} (h : lx.At pre text) :
    lexer_next_token lx =
      ((scan_token false lx.line [] text).token,
        { lx with pos := lx.len - (scan_token false lx.line [] text).rest.length,
                  line := (scan_token false lx.line [] text).line },
        (scan_token false lx.line [] text).errors) :=
  next_token_loop_scan text.length text (Nat.le_refl _) lx pre (lx.len + 1) [] h
    (by have := h.pos_eq; omega)

theorem count_newline_of_forall {l : List Nat} (h : ∀ c ∈ l, c ≠ 10) : l.count 10 = 0 :=
  List.count_eq_zero.2 (fun hm => h 10 hm rfl)

theorem is_hex_char_ne_newline {c : Nat} (h : is_hex_char c = true) : c ≠ 10 := by
  intro h10; subst h10; simp [is_hex_char] at h

theorem is_alnum_ne_newline {c : Nat} (h : is_alnum c = true) : c ≠ 10 := by
  intro h10; subst h10; simp [is_alnum, is_alpha, is_digit] at h

theorem scan_identifier_parts (ln : Nat) (errs : List ErrorReport) (c : Nat) (r : List Nat)
    (hc : is_alpha c = true) :
    ∃ body, c :: r = body ++ (scan_identifier ln errs c r).rest ∧
      ScanParts ln (scan_identifier ln errs c r) body := by
  refine ⟨c :: r.takeWhile is_alnum, by simp [scan_identifier, List.takeWhile_append_dropWhile],
    ?_, ?_, ?_, ?_⟩
  · have : (c :: r.takeWhile is_alnum).count 10 = 0 := by
      apply count_newline_of_forall
      intro x hx
      rcases List.mem_cons.1 hx with rfl | hx
      · exact is_alnum_ne_newline (is_alpha_alnum hc)
      · exact is_alnum_ne_newline (List.mem_takeWhile_imp hx)
    simp [scan_identifier, this]
  · intro h; simp [scan_identifier] at h
  · intro h; simp [scan_identifier] at h
  · intro _ _; simp [scan_identifier]

theorem scan_number_hex (ln : Nat) (errs : List ErrorReport) (c x : Nat) (r1 : List Nat)
    (hA : c = 48 ∧ (x = 120 ∨ x = 88)) :
    scan_number ln errs c (x :: r1) =
      { token := { type := TOK_NUMBER, lexeme := some (c :: x :: r1.takeWhile is_hex_char),
                   line := ln, int_value := masm_hex_value (r1.takeWhile is_hex_char) },
        rest := r1.dropWhile is_hex_char, line := ln,
        errors := errs ++ (if r1.takeWhile is_hex_char = [] then
          [{ line := ln, code := ERR_LEX_INVALID_NUM }] else []) } := by
  have hA1 : c = 48 ∧ ((x :: r1).headD 0 = 120 ∨ (x :: r1).headD 0 = 88) := hA
  unfold scan_number
  rw [if_pos hA1]
  rfl

theorem scan_number_masm (ln : Nat) (errs : List ErrorReport) (c y : Nat) (r rest : List Nat)
    (hA : ¬ (c = 48 ∧ (r.headD 0 = 120 ∨ r.headD 0 = 88)))
    (hd : r.dropWhile is_hex_char = y :: rest) (hy : y = 104 ∨ y = 72) :
    scan_number ln errs c r =
      { token := { type := TOK_NUMBER, lexeme := some (c :: r.takeWhile is_hex_char ++ [y]),
                   line := ln, int_value := masm_hex_value (c :: r.takeWhile is_hex_char) },
        rest := rest, line := ln, errors := errs } := by
  have hh : (r.dropWhile is_hex_char).headD 0 = 104 ∨ (r.dropWhile is_hex_char).headD 0 = 72 := by
    rw [hd]; exact hy
  unfold scan_number
  rw [if_neg hA]
  simp only []
  rw [if_pos hh, hd]
  rfl

theorem scan_number_decimal (ln : Nat) (errs : List ErrorReport) (c : Nat) (r : List Nat)
    (hA : ¬ (c = 48 ∧ (r.headD 0 = 120 ∨ r.headD 0 = 88)))
    (hh : ¬ ((r.dropWhile is_hex_char).headD 0 = 104 ∨ (r.dropWhile is_hex_char).headD 0 = 72)) :
    scan_number ln errs c r =
      { token := { type := TOK_NUMBER, lexeme := some (c :: r.takeWhile is_hex_char),
                   line := ln, int_value := decimal_value (c :: r.takeWhile is_hex_char) },
        rest := r.dropWhile is_hex_char, line := ln, errors := errs } := by
  unfold scan_number
  rw [if_neg hA]
  simp only []
  rw [if_neg hh]

theorem scan_number_parts (ln : Nat) (errs : List ErrorReport) (c : Nat) (r : List Nat)
    (hc : is_digit c = true) :
    ∃ body, c :: r = body ++ (scan_number ln errs c r).rest ∧
      ScanParts ln (scan_number ln errs c r) body := by
  have hc10 : c ≠ 10 := is_hex_char_ne_newline (is_digit_hex hc)
  have hrun : ∀ x ∈ r.takeWhile is_hex_char, x ≠ 10 :=
    fun x hx => is_hex_char_ne_newline (List.mem_takeWhile_imp hx)
  have hkind := scan_number_line ln errs c r
  have hparts : ∀ body : List Nat, body ≠ [] → (∀ z ∈ body, z ≠ 10) →
      (scan_number ln errs c r).token.lexeme = some body →
      ScanParts ln (scan_number ln errs c r) body := by
    intro body hne h10 hlex
    refine ⟨?_, ?_, ?_, ?_⟩
    · rw [count_newline_of_forall h10]; exact hkind.1
    · intro h; rw [hkind.2.2] at h; cases h
    · intro h; rw [hkind.2.2] at h; cases h
    · intro _ _; exact ⟨hlex, hne, hkind.2.1⟩
  by_cases hA : c = 48 ∧ (r.headD 0 = 120 ∨ r.headD 0 = 88)
  · cases r with
    | nil => simp at hA
    | cons x r1 =>
      have hx : x = 120 ∨ x = 88 := hA.2
      have hx10 : x ≠ 10 := by rcases hx with h | h <;> omega
      have hrun1 : ∀ y ∈ r1.takeWhile is_hex_char, y ≠ 10 :=
        fun y hy => is_hex_char_ne_newline (List.mem_takeWhile_imp hy)
      have heq := scan_number_hex ln errs c x r1 ⟨hA.1, hx⟩
      refine ⟨c :: x :: r1.takeWhile is_hex_char, ?_, hparts _ (by simp) ?_ (by rw [heq])⟩
      · rw [heq]
        simp [List.takeWhile_append_dropWhile]
      · intro y hy
        rcases List.mem_cons.1 hy with rfl | hy
        · exact hc10
        · rcases List.mem_cons.1 hy with rfl | hy
          · exact hx10
          · exact hrun1 y hy
  · by_cases hh : (r.dropWhile is_hex_char).headD 0 = 104 ∨
        (r.dropWhile is_hex_char).headD 0 = 72
    · cases hd : r.dropWhile is_hex_char with
      | nil => rw [hd] at hh; simp at hh
      | cons y rest =>
        have hy : y = 104 ∨ y = 72 := by rw [hd] at hh; exact hh
        have hy10 : y ≠ 10 := by rcases hy with h | h <;> omega
        have hs := List.takeWhile_append_dropWhile is_hex_char r
        rw [hd] at hs
        have heq := scan_number_masm ln errs c y r rest hA hd hy
        refine ⟨c :: r.takeWhile is_hex_char ++ [y], ?_, hparts _ (by simp) ?_ (by rw [heq])⟩
        · rw [heq]
          conv_lhs => rw [← hs]
          simp
        · intro z hz
          simp only [List.cons_append, List.mem_cons, List.mem_append, List.mem_singleton,
            List.not_mem_nil, or_false] at hz
          rcases hz with rfl | hz | rfl
          · exact hc10
          · exact hrun z hz
          · exact hy10
    · have heq := scan_number_decimal ln errs c r hA hh
      refine ⟨c :: r.takeWhile is_hex_char, ?_, hparts _ (by simp) ?_ (by rw [heq])⟩
      · rw [heq]
        simp [List.takeWhile_append_dropWhile]
      · intro z hz
        rcases List.mem_cons.1 hz with rfl | hz
        · exact hc10
        · exact hrun z hz

theorem scan_string_open (ln : Nat) (errs : List ErrorReport) (q : Nat) (r : List Nat)
    (hd : r.dropWhile (fun x => x != q) = []) :
    scan_string q ln errs r =
      { token := { type := TOK_STRING, lexeme := some r, line := ln + r.count 10,
                   int_value := 0 },
        rest := [], line := ln + r.count 10,
        errors := errs ++ [{ line := ln + r.count 10, code := ERR_LEX_UNCLOSED_STR }] } := by
  have hs := List.takeWhile_append_dropWhile (fun x => x != q) r
  rw [hd, List.append_nil] at hs
  unfold scan_string
  rw [hd, hs]

theorem scan_string_closed (ln : Nat) (errs : List ErrorReport) (q x : Nat)
    (r rest : List Nat) (hd : r.dropWhile (fun x => x != q) = x :: rest) :
    scan_string q ln errs r =
      { token := { type := TOK_STRING, lexeme := some (r.takeWhile (fun x => x != q)),
                   line := ln + (r.takeWhile (fun x => x != q)).count 10, int_value := 0 },
        rest := rest, line := ln + (r.takeWhile (fun x => x != q)).count 10,
        errors := errs } := by
  unfold scan_string
  rw [hd]

theorem scan_string_parts (ln : Nat) (errs : List ErrorReport) (q : Nat) (r : List Nat)
    (hq : q = 34 ∨ q = 39) :
    ∃ body, q :: r = body ++ (scan_string q ln errs r).rest ∧
      ScanParts ln (scan_string q ln errs r) body := by
  have hq10 : q ≠ 10 := by rcases hq with h | h <;> omega
  have hs := List.takeWhile_append_dropWhile (fun x => x != q) r
  have hnot : q ∉ r.takeWhile (fun x => x != q) := by
    intro hm
    have := List.mem_takeWhile_imp hm
    simp at this
  cases hd : r.dropWhile (fun x => x != q) with
  | nil =>
    have heq := scan_string_open ln errs q r hd
    rw [hd, List.append_nil] at hs
    rw [hs] at hnot
    refine ⟨q :: r, by rw [heq]; simp, ?_, ?_, ?_, ?_⟩
    · rw [heq, List.count_cons_of_ne (Ne.symm hq10)]
    · intro h; rw [heq] at h; cases h
    · intro _
      refine ⟨q, r, [], by simp, hq, Or.inr ⟨rfl, by rw [heq]⟩, hnot, by rw [heq], by rw [heq]⟩
    · intro _ h; rw [heq] at h; exact absurd rfl h
  | cons x rest =>
    have hx : x = q := dropWhile_bne_head q r x rest hd
    subst hx
    have heq := scan_string_closed ln errs x x r rest hd
    rw [hd] at hs
    refine ⟨x :: r.takeWhile (fun y => y != x) ++ [x], ?_, ?_, ?_, ?_, ?_⟩
    · rw [heq]
      conv_lhs => rw [← hs]
      simp
    · rw [heq]
      rw [List.cons_append, List.count_cons_of_ne (Ne.symm hq10), List.count_append,
        List.count_cons_of_ne (Ne.symm hq10)]
      simp
    · intro h; rw [heq] at h; cases h
    · intro _
      refine ⟨x, r.takeWhile (fun y => y != x), [x], by simp, hq, Or.inl rfl, hnot,
        by rw [heq], by rw [heq]⟩
    · intro _ h; rw [heq] at h; exact absurd rfl h

theorem punctuation_type_kind {c : Nat} {ty : TokenType} (h : punctuation_type c = some ty) :
    ty ≠ TOK_EOF ∧ ty ≠ TOK_STRING ∧ ty ≠ TOK_NEWLINE ∧ ty ≠ TOK_IDENTIFIER ∧
      ty ≠ TOK_NUMBER := by
  unfold punctuation_type at h
  repeat' split at h
  all_goals first
    | (cases h; decide)
    | cases h

/-- The text read by one `scan_token`: blanks, comments and invalid characters
without a newline, then the text of the token, then the text left. -/
theorem scan_token_parts (text : List Nat) :
    ∀ (b : Bool) (ln : Nat) (errs : List ErrorReport),
      ∃ skipped body, text = skipped ++ body ++ (scan_token b ln errs text).rest ∧
        (∀ c ∈ skipped, c ≠ 10) ∧ ScanParts ln (scan_token b ln errs text) body := by
  induction text with
  | nil =>
    intro b ln errs
    refine ⟨[], [], ?_, by simp, ?_⟩
    · cases b <;> simp [scan_token]
    · cases b <;> simp [scan_token, ScanParts]
  | cons c r ih =>
    intro b ln errs
    have hnewline : ∃ skipped body, 10 :: r = skipped ++ body ++ (scan_newline ln errs r).rest ∧
        (∀ c ∈ skipped, c ≠ 10) ∧ ScanParts ln (scan_newline ln errs r) body :=
      ⟨[], [10], by simp [scan_newline], by simp, by simp [ScanParts, scan_newline]⟩
    have hskip : ∀ (b1 : Bool) (errs1 : List ErrorReport), c ≠ 10 →
        ∃ skipped body, c :: r = skipped ++ body ++ (scan_token b1 ln errs1 r).rest ∧
          (∀ c ∈ skipped, c ≠ 10) ∧ ScanParts ln (scan_token b1 ln errs1 r) body := by
      intro b1 errs1 hc
      obtain ⟨sk, body, h1, h2, h3⟩ := ih b1 ln errs1
      refine ⟨c :: sk, body, by simp only [List.cons_append]; rw [← h1], ?_, h3⟩
      intro x hx
      rcases List.mem_cons.1 hx with rfl | hx
      · exact hc
      · exact h2 x hx
    have hbody : ∀ (s : Scan) (body : List Nat), c :: r = body ++ s.rest → ScanParts ln s body →
        ∃ skipped body, c :: r = skipped ++ body ++ s.rest ∧
          (∀ c ∈ skipped, c ≠ 10) ∧ ScanParts ln s body :=
      fun s body h1 h2 => ⟨[], body, by simpa using h1, by simp, h2⟩
    cases b with
    | true =>
      by_cases hc : c = 10
      · subst hc
        simp only [scan_token, if_true]
        exact hnewline
      · simp only [scan_token, hc, if_false]
        exact hskip true errs hc
    | false =>
      by_cases hb : c = 32 ∨ c = 9 ∨ c = 13
      · simp only [scan_token, hb, if_true]
        exact hskip false errs (by rcases hb with h | h | h <;> omega)
      · by_cases hs : c = 59
        · have hc10 : c ≠ 10 := by omega
          subst hs
          simp only [scan_token, hb, if_false, if_true]
          exact hskip true errs hc10
        · by_cases hnl : c = 10
          · subst hnl
            simp only [scan_token, hb, hs, if_false, if_true]
            exact hnewline
          · cases hpt : punctuation_type c with
            | some ty =>
              obtain ⟨k1, k2, _⟩ := punctuation_type_kind hpt
              simp only [scan_token, hb, hs, hnl, if_false, hpt]
              refine ⟨[], [c], rfl, by simp, ?_, ?_, ?_, ?_⟩
              · simp [List.count_cons_of_ne (Ne.symm hnl)]
              · intro h; exact absurd h k1
              · intro h; exact absurd h k2
              · intro _ _; exact ⟨rfl, by simp, rfl⟩
            | none =>
              by_cases hq : c = 34 ∨ c = 39
              · simp only [scan_token, hb, hs, hnl, if_false, hpt, hq, if_true]
                obtain ⟨body, h1, h2⟩ := scan_string_parts ln errs c r hq
                exact hbody _ body h1 h2
              · by_cases hdig : is_digit c = true
                · simp only [scan_token, hb, hs, hnl, if_false, hpt, hq, hdig, if_true]
                  obtain ⟨body, h1, h2⟩ := scan_number_parts ln errs c r hdig
                  exact hbody _ body h1 h2
                · by_cases halpha : is_alpha c = true
                  · simp only [scan_token, hb, hs, hnl, if_false, hpt, hq, hdig, halpha, if_true]
                    obtain ⟨body, h1, h2⟩ := scan_identifier_parts ln errs c r halpha
                    exact hbody _ body h1 h2
                  · simp only [scan_token, hb, hs, hnl, if_false, hpt, hq, hdig, halpha,
                      Bool.false_eq_true]
                    exact hskip false _ hnl

/-! ## Repeated calls of the lexer -/

theorem lexer_create_at (src : List Nat) :
    (lexer_create_from_string src).At [] (src.takeWhile (fun c => c ≠ 0)) ∧
    (lexer_create_from_string src).line = 1 ∧
    (lexer_create_from_string src).len ≤ src.length := by
  refine ⟨⟨rfl, rfl, rfl, ?_⟩, rfl, (List.takeWhile_prefix _).length_le⟩
  intro c hc
  have := List.mem_takeWhile_imp hc
  simpa using this

/-- One call of `lexer_next_token` on a lexer whose unread text is `text` and
whose line counter counts the newlines read so far. -/
theorem lexer_step {lx : Lexer} {pre text : List Nat} (h : lx.At pre text)
    (hline : lx.line = 1 + pre.count 10) :
    ∃ skipped body rest, text = skipped ++ body ++ rest ∧
      (lexer_next_token lx).2.1.At (pre ++ skipped ++ body) rest ∧
      (lexer_next_token lx).2.1.line = 1 + (pre ++ skipped ++ body).count 10 ∧
      (lexer_next_token lx).2.1.buffer = lx.buffer ∧
      (lexer_next_token lx).2.1.len = lx.len ∧
      (lexer_next_token lx).2.1.pos = lx.pos + skipped.length + body.length ∧
      (∀ c ∈ skipped, c ≠ 10) ∧
      ScanParts lx.line (scan_token false lx.line [] text) body ∧
      (scan_token false lx.line [] text).rest = rest ∧
      (lexer_next_token lx).1 = (scan_token false lx.line [] text).token ∧
      (lexer_next_token lx).2.2 = (scan_token false lx.line [] text).errors := by
  obtain ⟨skipped, body, htext, hsk, hparts⟩ := scan_token_parts text false lx.line []
  have hscan := lexer_next_token_scan h
  have hsk0 : skipped.count 10 = 0 := count_newline_of_forall hsk
  obtain ⟨hb, hp, hl, hz⟩ := h
  have hlen : lx.len = pre.length + skipped.length + body.length +
      (scan_token false lx.line [] text).rest.length := by
    rw [hl, hb]
    conv_lhs => rw [htext]
    simp only [List.length_append]
    omega
  refine ⟨skipped, body, _, htext, ?_, ?_, ?_, ?_, ?_, hsk, hparts, rfl, ?_, ?_⟩
  · rw [hscan]
    refine ⟨?_, ?_, hl, hz⟩
    · show lx.buffer = _
      rw [hb]
      conv_lhs => rw [htext]
      simp only [List.append_assoc]
    · show lx.len - _ = _
      simp only [List.length_append]
      omega
  · rw [hscan]
    show (scan_token false lx.line [] text).line = _
    rw [hparts.1, hline]
    simp only [List.count_append, hsk0]
    omega
  · rw [hscan]
  · rw [hscan]
  · rw [hscan]
    show lx.len - _ = _
    omega
  · rw [hscan]
  · rw [hscan]

theorem lexer_after_succ (k : Nat) : ∀ (lx : Lexer),
    lexer_after (k + 1) lx = (lexer_next_token (lexer_after k lx)).2.1 := by
  induction k with
  | zero => intro lx; rfl
  | succ k ih =>
    intro lx
    show lexer_after (k + 1) (lexer_next_token lx).2.1 = _
    rw [ih]
    rfl

/-- The state of the lexer of a source text after any number of calls. -/
theorem lexer_after_inv (src : List Nat) (k : Nat) :
    ∃ pre text, (lexer_after k (lexer_create_from_string src)).At pre text ∧
      (lexer_after k (lexer_create_from_string src)).line = 1 + pre.count 10 ∧
      (lexer_after k (lexer_create_from_string src)).buffer =
        (lexer_create_from_string src).buffer ∧
      (lexer_after k (lexer_create_from_string src)).len =
        (lexer_create_from_string src).len := by
  induction k with
  | zero =>
    obtain ⟨hat, hl, _⟩ := lexer_create_at src
    exact ⟨[], _, hat, by simpa using hl, rfl, rfl⟩
  | succ k ih =>
    obtain ⟨pre, text, hat, hline, hbuf, hlen⟩ := ih
    obtain ⟨skipped, body, rest, _, hat1, hline1, hbuf1, hlen1, _⟩ := lexer_step hat hline
    rw [lexer_after_succ]
    exact ⟨_, _, hat1, hline1, hbuf1.trans hbuf, hlen1.trans hlen⟩

theorem ScanParts.body_ne_nil {ln : Nat} {s : Scan} {body : List Nat} (h : ScanParts ln s body)
    (hne : s.token.type ≠ TOK_EOF) : body ≠ [] := by
  by_cases hs : s.token.type = TOK_STRING
  · obtain ⟨q, content, closing, hb, _⟩ := h.2.2.1 hs
    rw [hb]; simp
  · exact (h.2.2.2 hne hs).2.1

/-- Progress of one call: the read position does not go back, it moves forward
with every token other than end-of-input, and at end-of-input nothing is left
unread. -/
theorem lexer_step_progress {lx : Lexer} {pre text : List Nat} (h : lx.At pre text)
    (hline : lx.line = 1 + pre.count 10) :
    lx.pos ≤ (lexer_next_token lx).2.1.pos ∧
    ((lexer_next_token lx).1.type ≠ TOK_EOF → lx.pos < (lexer_next_token lx).2.1.pos) ∧
    ((lexer_next_token lx).1.type = TOK_EOF → ∃ pre1, (lexer_next_token lx).2.1.At pre1 []) ∧
    ((lexer_next_token lx).1.type ≠ TOK_EOF → ∃ pre1 rest,
      (lexer_next_token lx).2.1.At pre1 rest ∧ rest.length < text.length) := by
  obtain ⟨skipped, body, rest, htext, hat1, _, _, _, hpos, _, hparts, hrest, htok, _⟩ :=
    lexer_step h hline
  refine ⟨by omega, ?_, ?_, ?_⟩
  · intro hne
    rw [htok] at hne
    have := List.length_pos.2 (hparts.body_ne_nil hne)
    omega
  · intro he
    rw [htok] at he
    have hr := (hparts.2.1 he).2.1
    rw [hrest] at hr
    subst hr
    exact ⟨_, hat1⟩
  · intro hne
    rw [htok] at hne
    have := List.length_pos.2 (hparts.body_ne_nil hne)
    refine ⟨_, rest, hat1, ?_⟩
    rw [htext]
    simp only [List.length_append]
    omega

theorem lexer_after_add (a : Nat) : ∀ (b : Nat) (lx : Lexer),
    lexer_after (a + b) lx = lexer_after b (lexer_after a lx) := by
  induction a with
  | zero => intro b lx; simp [lexer_after]
  | succ a ih =>
    intro b lx
    have : a + 1 + b = (a + b) + 1 := by omega
    rw [this]
    show lexer_after (a + b) (lexer_next_token lx).2.1 = _
    rw [ih]
    rfl

/-- At the end of the text every call returns end-of-input and changes
nothing. -/
theorem lexer_after_end {lx : Lexer} {pre : List Nat} (h : lx.At pre []) :
    ∀ j, lexer_after j lx = lx ∧ (lexer_token j lx).type = TOK_EOF := by
  have hend := lexer_next_token_end h
  intro j
  induction j with
  | zero => exact ⟨rfl, by simp [lexer_token, lexer_after, hend]⟩
  | succ j ih =>
    have h1 : lexer_after (j + 1) lx = lx := by
      rw [lexer_after_succ, ih.1, hend]
    exact ⟨h1, by simp [lexer_token, h1, hend]⟩

/-- The token list of a lexer ends with its only end-of-input token, given
more calls than there are characters left. -/
theorem lexer_tokens_shape :
    ∀ (fuel : Nat) (lx : Lexer) (pre text : List Nat), lx.At pre text →
      lx.line = 1 + pre.count 10 → text.length < fuel →
      ∃ ts eof, lexer_tokens fuel lx = ts ++ [eof] ∧ eof.type = TOK_EOF ∧
        ∀ t ∈ ts, t.type ≠ TOK_EOF := by
  intro fuel
  induction fuel with
  | zero => intro lx pre text _ _ hf; omega
  | succ f ih =>
    intro lx pre text h hline hf
    by_cases he : (lexer_next_token lx).1.type = TOK_EOF
    · exact ⟨[], (lexer_next_token lx).1, by simp [lexer_tokens, he], he, by simp⟩
    · obtain ⟨skipped, body, rest, htext, hat1, hline1, _, _, _, _, hparts, _, htok, _⟩ :=
        lexer_step h hline
      have hne : (scan_token false lx.line [] text).token.type ≠ TOK_EOF := by
        rw [← htok]; exact he
      have hb := List.length_pos.2 (hparts.body_ne_nil hne)
      have hlen : rest.length < f := by
        rw [htext] at hf
        simp only [List.length_append] at hf
        omega
      obtain ⟨ts, eof, h1, h2, h3⟩ := ih _ _ _ hat1 hline1 hlen
      refine ⟨(lexer_next_token lx).1 :: ts, eof, by simp [lexer_tokens, he, h1], h2, ?_⟩
      intro t ht
      rcases List.mem_cons.1 ht with rfl | ht
      · exact he
      · exact h3 t ht

/-! ## Number literals -/

theorem hex_digit_value_lt (c : Nat) : hex_digit_value c < 16 := by
  unfold hex_digit_value
  split
  · omega
  · split
    · omega
    · split <;> omega

theorem shift_or_digit (v x : Nat) (hx : x < 16) :
    ((v <<< 4) % 4294967296) ||| x = (16 * v + x) % 4294967296 := by
  have h1 : (v <<< 4) % 4294967296 = 2 ^ 4 * (v % 268435456) := by
    rw [Nat.shiftLeft_eq]
    omega
  rw [h1, ← Nat.mul_add_lt_is_or (by omega) _]
  omega

theorem masm_hex_fold (digits : List Nat) : ∀ (a b : Nat), a = b % 4294967296 →
    digits.foldl (fun val c => ((val <<< 4) % 4294967296) ||| hex_digit_value c) a =
      (digits.foldl (fun v c => 16 * v + hex_digit_value c) b) % 4294967296 := by
  induction digits with
  | nil => intro a b h; simpa using h
  | cons c r ih =>
    intro a b h
    simp only [List.foldl_cons]
    apply ih
    rw [shift_or_digit _ _ (hex_digit_value_lt c), h]
    omega

/-- The value the lexer computes for a hex literal is the base-16 value of
its digits modulo `2^32`. -/
theorem masm_hex_value_eq (digits : List Nat) :
    masm_hex_value digits = hex_number digits % 4294967296 :=
  masm_hex_fold digits 0 0 rfl

theorem decimal_fold (digits : List Nat) : ∀ (a b : Nat), a = b % 4294967296 →
    digits.foldl (fun val c => if 48 ≤ c ∧ c ≤ 57 then (val * 10 + (c - 48)) % 4294967296
      else val) a =
      ((digits.filter is_digit).foldl (fun v c => 10 * v + (c - 48)) b) % 4294967296 := by
  induction digits with
  | nil => intro a b h; simpa using h
  | cons c r ih =>
    intro a b h
    by_cases hc : 48 ≤ c ∧ c ≤ 57
    · have hd : is_digit c = true := by simp [is_digit, hc]
      simp only [List.foldl_cons, hc, and_self, if_true, List.filter_cons, hd]
      apply ih
      rw [h]
      omega
    · have hd : is_digit c = false := by
        simp only [is_digit, Bool.and_eq_false_iff, decide_eq_false_iff_not]
        omega
      simp only [List.foldl_cons, hc, if_false, List.filter_cons, hd]
      exact ih a b h

/-- The value the lexer computes in the decimal branch is the base-10 value of
the decimal digits of the run modulo `2^32`; other characters are passed
over. -/
theorem decimal_value_eq (run : List Nat) :
    decimal_value run = decimal_number (run.filter is_digit) % 4294967296 :=
  decimal_fold run 0 0 rfl

theorem filter_is_digit_of_forall {d : List Nat} (h : ∀ c ∈ d, is_digit c = true) :
    d.filter is_digit = d :=
  List.filter_eq_self.2 h

theorem takeWhile_append_stop (P : Nat → Bool) (w tail : List Nat) (hw : ∀ c ∈ w, P c = true)
    (ht : P (tail.headD 0) = false) :
    (w ++ tail).takeWhile P = w ∧ (w ++ tail).dropWhile P = tail := by
  induction w with
  | nil =>
    cases tail with
    | nil => exact ⟨rfl, rfl⟩
    | cons t r =>
      have : P t = false := ht
      simp [List.takeWhile, List.dropWhile, this]
  | cons c w ih =>
    have hc : P c = true := hw c (List.mem_cons_self _ _)
    obtain ⟨h1, h2⟩ := ih (fun x hx => hw x (List.mem_cons_of_mem _ hx))
    simp [List.takeWhile, List.dropWhile, hc, h1, h2]

theorem scan_token_digit (ln : Nat) (errs : List ErrorReport) (c : Nat) (r : List Nat)
    (hc : is_digit c = true) :
    scan_token false ln errs (c :: r) = scan_number ln errs c r := by
  obtain ⟨_, h32, h9, h13, h59, h10, hpt, h34, h39, _⟩ := is_digit_first hc
  have hb : ¬ (c = 32 ∨ c = 9 ∨ c = 13) := by omega
  have hq : ¬ (c = 34 ∨ c = 39) := by omega
  simp only [scan_token, hb, h59, h10, if_false, hpt, hq, hc, if_true]

theorem headD_append_cons (ds : List Nat) (t : Nat) (tail : List Nat) :
    (ds ++ t :: tail).headD 0 = (ds ++ [t]).headD 0 := by
  cases ds <;> rfl

/-- Reading a MASM hex literal: hex digits, the first one decimal, then `h` or
`H`. -/
theorem scan_masm_literal (ln : Nat) (errs : List ErrorReport) (c h : Nat) (ds tail : List Nat)
    (hc : is_digit c = true) (hds : ∀ x ∈ ds, is_hex_char x = true) (hh : h = 104 ∨ h = 72) :
    scan_token false ln errs (c :: ds ++ h :: tail) =
      { token := { type := TOK_NUMBER, lexeme := some (c :: ds ++ [h]), line := ln,
                   int_value := masm_hex_value (c :: ds) },
        rest := tail, line := ln, errors := errs } := by
  have hhn : is_hex_char h = false := by rcases hh with rfl | rfl <;> decide
  obtain ⟨htake, hdrop⟩ := takeWhile_append_stop is_hex_char ds (h :: tail) hds hhn
  have hA : ¬ (c = 48 ∧ ((ds ++ h :: tail).headD 0 = 120 ∨ (ds ++ h :: tail).headD 0 = 88)) := by
    rintro ⟨_, hx⟩
    cases ds with
    | nil =>
      simp only [List.nil_append, List.headD_cons] at hx
      rcases hh with rfl | rfl <;> omega
    | cons d ds1 =>
      simp only [List.cons_append, List.headD_cons] at hx
      have := is_hex_char_not_mark (hds d (List.mem_cons_self _ _))
      rcases hx with hx | hx
      · exact this.1 hx
      · exact this.2.1 hx
  rw [List.cons_append, scan_token_digit ln errs c _ hc,
    scan_number_masm ln errs c h (ds ++ h :: tail) tail hA hdrop hh, htake]

/-- Reading a `0x` literal with at least one digit. -/
theorem scan_hex_literal (ln : Nat) (errs : List ErrorReport) (x : Nat) (d tail : List Nat)
    (hx : x = 120 ∨ x = 88) (hd : d ≠ []) (hds : ∀ y ∈ d, is_hex_char y = true)
    (ht : is_hex_char (tail.headD 0) = false) :
    scan_token false ln errs (48 :: x :: d ++ tail) =
      { token := { type := TOK_NUMBER, lexeme := some (48 :: x :: d), line := ln,
                   int_value := masm_hex_value d },
        rest := tail, line := ln, errors := errs } := by
  obtain ⟨htake, hdrop⟩ := takeWhile_append_stop is_hex_char d tail hds ht
  rw [List.cons_append, List.cons_append, scan_token_digit ln errs 48 _ (by decide),
    scan_number_hex ln errs 48 x (d ++ tail) ⟨rfl, hx⟩, htake, hdrop]
  simp [hd]

/-- Reading a run of hex-digit characters that starts with a decimal digit and
is followed neither by `h` or `H` nor by a further hex-digit character (nor,
when the run is the single digit `0`, by `x` or `X`): the decimal branch. -/
theorem scan_decimal_run (ln : Nat) (errs : List ErrorReport) (c : Nat) (ds tail : List Nat)
    (hc : is_digit c = true) (hds : ∀ x ∈ ds, is_hex_char x = true)
    (ht : is_hex_char (tail.headD 0) = false) (ht1 : tail.headD 0 ≠ 104)
    (ht2 : tail.headD 0 ≠ 72)
    (ht3 : ds = [] → c = 48 → tail.headD 0 ≠ 120 ∧ tail.headD 0 ≠ 88) :
    scan_token false ln errs (c :: ds ++ tail) =
      { token := { type := TOK_NUMBER, lexeme := some (c :: ds), line := ln,
                   int_value := decimal_value (c :: ds) },
        rest := tail, line := ln, errors := errs } := by
  obtain ⟨htake, hdrop⟩ := takeWhile_append_stop is_hex_char ds tail hds ht
  have hA : ¬ (c = 48 ∧ ((ds ++ tail).headD 0 = 120 ∨ (ds ++ tail).headD 0 = 88)) := by
    rintro ⟨h48, hx⟩
    cases ds with
    | nil =>
      simp only [List.nil_append] at hx
      have := ht3 rfl h48
      rcases hx with hx | hx
      · exact this.1 hx
      · exact this.2 hx
    | cons d ds1 =>
      simp only [List.cons_append, List.headD_cons] at hx
      have := is_hex_char_not_mark (hds d (List.mem_cons_self _ _))
      rcases hx with hx | hx
      · exact this.1 hx
      · exact this.2.1 hx
  have hh : ¬ (((ds ++ tail).dropWhile is_hex_char).headD 0 = 104 ∨
      ((ds ++ tail).dropWhile is_hex_char).headD 0 = 72) := by
    rw [hdrop]
    rintro (h | h)
    · exact ht1 h
    · exact ht2 h
  rw [List.cons_append, scan_token_digit ln errs c _ hc,
    scan_number_decimal ln errs c (ds ++ tail) hA hh, htake, hdrop]

/-- A call of `lexer_next_token` whose reading is a token with text `lit`
directly at the read position. -/
theorem lexer_next_token_at {lx : Lexer} {pre lit tail : List Nat} {tok : Token}
    {errs : List ErrorReport} (h : lx.At pre (lit ++ tail))
    (hscan : scan_token false lx.line [] (lit ++ tail) =
      { token := tok, rest := tail, line := lx.line, errors := errs }) :
    lexer_next_token lx = (tok, { lx with pos := lx.pos + lit.length }, errs) := by
  rw [lexer_next_token_scan h, hscan]
  have hp := h.pos_eq
  simp only [List.length_append] at hp
  simp only []
  congr 2
  cases lx
  simp only [Lexer.mk.injEq, true_and, and_true] at hp ⊢
  omega

/-- The tokens and errors of a source text that is one token with text
`lit`. -/
theorem lexer_tokens_single (lit : List Nat) (tok : Token) (errs : List ErrorReport)
    (hne : lit ≠ []) (hz : ∀ c ∈ lit, c ≠ 0) (hty : tok.type ≠ TOK_EOF)
    (hscan : scan_token false 1 [] lit = { token := tok, rest := [], line := 1, errors := errs }) :
    lexer_tokens (lit.length + 1) (lexer_create_from_string lit) =
      [tok, { type := TOK_EOF, lexeme := none, line := 1, int_value := 0 }] ∧
    lexer_errors (lit.length + 1) (lexer_create_from_string lit) = errs := by
  obtain ⟨hat, hline, _⟩ := lexer_create_at lit
  have hbuf : lit.takeWhile (fun c => decide (c ≠ 0)) = lit := by
    rw [List.takeWhile_eq_self_iff]
    intro c hc
    simpa using hz c hc
  rw [hbuf] at hat
  have hat0 : (lexer_create_from_string lit).At [] (lit ++ []) := by simpa using hat
  have hfirst := @lexer_next_token_at _ _ _ _ tok errs hat0
    (by rw [hline, List.append_nil]; exact hscan)
  have hat1 : Lexer.At { lexer_create_from_string lit with
      pos := (lexer_create_from_string lit).pos + lit.length } lit [] := by
    obtain ⟨hb, hp, hl, hz1⟩ := hat
    refine ⟨by simpa using hb, ?_, hl, hz1⟩
    show (lexer_create_from_string lit).pos + lit.length = lit.length
    rw [hp]; simp
  have hsecond := lexer_next_token_end hat1
  obtain ⟨f, hf⟩ : ∃ f, lit.length = f + 1 :=
    ⟨lit.length - 1, by have := List.length_pos.2 hne; omega⟩
  have hline1 : (lexer_create_from_string lit).line = 1 := hline
  simp only [hline1] at hsecond hfirst
  constructor
  · rw [hf]
    simp only [lexer_tokens, hfirst, hty, if_false, hsecond, if_true, hline1]
  · rw [hf]
    simp only [lexer_errors, hfirst, hty, if_false, hsecond, if_true, List.append_nil]

/-! ## Invalid characters -/

theorem sanitize_cons_plain (m : TextMode) (c : Nat) (r : List Nat) (h0 : c ≠ 0)
    (hp : ¬ (m = .code ∧ is_invalid_char c = true)) :
    sanitize m (c :: r) = c :: sanitize (next_mode m c) r ∧
    invalid_count m (c :: r) = invalid_count (next_mode m c) r := by
  simp only [sanitize, invalid_count, h0, if_false, hp]
  exact ⟨trivial, trivial⟩

theorem sanitize_cons_invalid (c : Nat) (r : List Nat) (h0 : c ≠ 0)
    (hp : is_invalid_char c = true) :
    sanitize .code (c :: r) = 32 :: sanitize .code r ∧
    invalid_count .code (c :: r) = invalid_count .code r + 1 := by
  simp only [sanitize, invalid_count, h0, if_false, hp, and_self, if_true]

theorem sanitize_length (text : List Nat) : ∀ m, (sanitize m text).length = text.length := by
  induction text with
  | nil => intro m; rfl
  | cons c r ih =>
    intro m
    unfold sanitize
    split
    · rfl
    · split
      · simp [ih]
      · simp [ih]

theorem sanitize_nonzero (text : List Nat) (hz : ∀ c ∈ text, c ≠ 0) :
    ∀ m, ∀ c ∈ sanitize m text, c ≠ 0 := by
  induction text with
  | nil => intro m c hc; simp [sanitize] at hc
  | cons x r ih =>
    intro m c hc
    have hx : x ≠ 0 := hz x (List.mem_cons_self _ _)
    have hr : ∀ c ∈ r, c ≠ 0 := fun c hc => hz c (List.mem_cons_of_mem _ hc)
    unfold sanitize at hc
    rw [if_neg hx] at hc
    split at hc
    · rcases List.mem_cons.1 hc with rfl | hc
      · decide
      · exact ih hr _ c hc
    · rcases List.mem_cons.1 hc with rfl | hc
      · exact hx
      · exact ih hr _ c hc

/-- The source copy of the sanitized text is the sanitized source copy. -/
theorem sanitize_takeWhile (text : List Nat) : ∀ m,
    (sanitize m text).takeWhile (fun c => decide (c ≠ 0)) =
      sanitize m (text.takeWhile (fun c => decide (c ≠ 0))) ∧
    invalid_count m (text.takeWhile (fun c => decide (c ≠ 0))) = invalid_count m text := by
  induction text with
  | nil => intro m; exact ⟨rfl, rfl⟩
  | cons x r ih =>
    intro m
    by_cases hx : x = 0
    · subst hx
      simp [sanitize, invalid_count, List.takeWhile]
    · have htw : (x :: r).takeWhile (fun c => decide (c ≠ 0)) =
          x :: r.takeWhile (fun c => decide (c ≠ 0)) := by
        simp [List.takeWhile, hx]
      rw [htw]
      by_cases hp : m = .code ∧ is_invalid_char x = true
      · obtain ⟨rfl, hinv⟩ := hp
        rw [(sanitize_cons_invalid x r hx hinv).1, (sanitize_cons_invalid x r hx hinv).2,
          (sanitize_cons_invalid x _ hx hinv).1, (sanitize_cons_invalid x _ hx hinv).2,
          ← (ih .code).1, (ih .code).2]
        simp [List.takeWhile]
      · rw [(sanitize_cons_plain m x r hx hp).1, (sanitize_cons_plain m x r hx hp).2,
          (sanitize_cons_plain m x _ hx hp).1, (sanitize_cons_plain m x _ hx hp).2,
          ← (ih _).1, (ih _).2]
        simp [List.takeWhile, hx]

theorem is_invalid_char_alpha {c : Nat} (h : is_alpha c = true) : is_invalid_char c = false := by
  simp [is_invalid_char, h]

theorem is_invalid_char_digit {c : Nat} (h : is_digit c = true) : is_invalid_char c = false := by
  simp [is_invalid_char, h]

theorem is_hex_char_cases {c : Nat} (h : is_hex_char c = true) :
    is_digit c = true ∨ is_alpha c = true := by
  simp only [is_hex_char, is_digit, is_alpha, Bool.or_eq_true, Bool.and_eq_true,
    decide_eq_true_eq, beq_iff_eq] at h ⊢
  omega

theorem plain_is_alnum : PlainClass is_alnum := by
  refine ⟨by decide, fun c hc => ?_⟩
  have h : is_alpha c = true ∨ is_digit c = true := by
    simpa [is_alnum] using hc
  rcases h with h | h
  · obtain ⟨h0, _, _, _, h59, _, _, h34, h39, _⟩ := is_alpha_first h
    exact ⟨h0, h59, h34, h39, is_invalid_char_alpha h⟩
  · obtain ⟨h0, _, _, _, h59, _, _, h34, h39, _⟩ := is_digit_first h
    exact ⟨h0, h59, h34, h39, is_invalid_char_digit h⟩

theorem plain_is_hex_char : PlainClass is_hex_char := by
  refine ⟨by decide, fun c hc => ?_⟩
  rcases is_hex_char_cases hc with h | h
  · obtain ⟨h0, _, _, _, h59, _, _, h34, h39, _⟩ := is_digit_first h
    exact ⟨h0, h59, h34, h39, is_invalid_char_digit h⟩
  · obtain ⟨h0, _, _, _, h59, _, _, h34, h39, _⟩ := is_alpha_first h
    exact ⟨h0, h59, h34, h39, is_invalid_char_alpha h⟩

theorem next_mode_code_plain {c : Nat} (h59 : c ≠ 59) (h34 : c ≠ 34) (h39 : c ≠ 39) :
    next_mode .code c = .code := by
  have hq : ¬ (c = 34 ∨ c = 39) := by omega
  simp [next_mode, h59, hq]

/-- A run of ordinary token characters is the same in the sanitized text. -/
theorem sanitize_span (P : Nat → Bool) (hP : PlainClass P) (r : List Nat) :
    (sanitize .code r).takeWhile P = r.takeWhile P ∧
    (sanitize .code r).dropWhile P = sanitize .code (r.dropWhile P) ∧
    invalid_count .code (r.dropWhile P) = invalid_count .code r := by
  induction r with
  | nil => exact ⟨rfl, rfl, rfl⟩
  | cons c r ih =>
    by_cases hc : P c = true
    · obtain ⟨h0, h59, h34, h39, hinv⟩ := hP.2 c hc
      have hp : ¬ (TextMode.code = TextMode.code ∧ is_invalid_char c = true) := by simp [hinv]
      rw [(sanitize_cons_plain .code c r h0 hp).1, (sanitize_cons_plain .code c r h0 hp).2,
        next_mode_code_plain h59 h34 h39]
      simp only [List.takeWhile, List.dropWhile, hc]
      exact ⟨by rw [ih.1], ih.2.1, ih.2.2⟩
    · have hc1 : P c = false := by simpa using hc
      have hd : (c :: r).dropWhile P = c :: r := by simp [List.dropWhile, hc1]
      have ht : (c :: r).takeWhile P = [] := by simp [List.takeWhile, hc1]
      rw [hd, ht]
      refine ⟨?_, ?_, rfl⟩
      · by_cases h0 : c = 0
        · subst h0; simp [sanitize, List.takeWhile, hc1]
        · by_cases hp : TextMode.code = TextMode.code ∧ is_invalid_char c = true
          · rw [(sanitize_cons_invalid c r h0 hp.2).1]
            simp [List.takeWhile, hP.1]
          · rw [(sanitize_cons_plain .code c r h0 hp).1]
            simp [List.takeWhile, hc1]
      · by_cases h0 : c = 0
        · subst h0; simp [sanitize, List.dropWhile, hc1]
        · by_cases hp : TextMode.code = TextMode.code ∧ is_invalid_char c = true
          · rw [(sanitize_cons_invalid c r h0 hp.2).1]
            simp [List.dropWhile, hP.1]
          · rw [(sanitize_cons_plain .code c r h0 hp).1]
            simp [List.dropWhile, hc1]

/-- The first character of the sanitized text is a given letter exactly when
that of the text is. -/
theorem sanitize_head (r : List Nat) (y : Nat) (hy : is_alpha y = true) :
    ((sanitize .code r).headD 0 = y ↔ r.headD 0 = y) ∧
    (r.headD 0 = y → sanitize .code r = y :: sanitize .code r.tail ∧
      invalid_count .code r = invalid_count .code r.tail) := by
  obtain ⟨hy0, hy32, _, _, hy59, _, _, hy34, hy39, _⟩ := is_alpha_first hy
  cases r with
  | nil => exact ⟨Iff.rfl, fun h => absurd h.symm hy0⟩
  | cons c r =>
    by_cases h0 : c = 0
    · subst h0
      refine ⟨by simp [sanitize], fun h => ?_⟩
      simp only [List.headD_cons] at h
      exact absurd h.symm hy0
    · by_cases hp : TextMode.code = TextMode.code ∧ is_invalid_char c = true
      · rw [(sanitize_cons_invalid c r h0 hp.2).1]
        have hcy : c ≠ y := by
          intro h; subst h
          rw [is_invalid_char_alpha hy] at hp
          exact absurd hp.2 (by decide)
        simp only [List.headD_cons]
        exact ⟨⟨fun h => absurd h.symm hy32, fun h => absurd h hcy⟩, fun h => absurd h hcy⟩
      · rw [(sanitize_cons_plain .code c r h0 hp).1, (sanitize_cons_plain .code c r h0 hp).2]
        simp only [List.headD_cons, List.tail_cons]
        refine ⟨trivial, fun h => ?_⟩
        subst h
        rw [next_mode_code_plain hy59 hy34 hy39]
        exact ⟨rfl, rfl⟩

/-- The body of a string is the same in the sanitized text. -/
theorem sanitize_string (q : Nat) (r : List Nat) (hz : ∀ c ∈ r, c ≠ 0) :
    (sanitize (.string q) r).takeWhile (fun x => x != q) = r.takeWhile (fun x => x != q) ∧
    (sanitize (.string q) r).dropWhile (fun x => x != q) =
      (match r.dropWhile (fun x => x != q) with
       | [] => []
       | x :: rest => x :: sanitize .code rest) ∧
    invalid_count (.string q) r =
      (match r.dropWhile (fun x => x != q) with
       | [] => 0
       | _ :: rest => invalid_count .code rest) := by
  induction r with
  | nil => exact ⟨rfl, rfl, rfl⟩
  | cons c r ih =>
    have h0 : c ≠ 0 := hz c (List.mem_cons_self _ _)
    have hr : ∀ c ∈ r, c ≠ 0 := fun c hc => hz c (List.mem_cons_of_mem _ hc)
    have hp : ¬ (TextMode.string q = TextMode.code ∧ is_invalid_char c = true) := by simp
    rw [(sanitize_cons_plain (.string q) c r h0 hp).1,
      (sanitize_cons_plain (.string q) c r h0 hp).2]
    by_cases hq : c = q
    · subst hq
      simp [List.takeWhile, List.dropWhile, next_mode]
    · have hbne : (c != q) = true := by simpa using hq
      obtain ⟨h1, h2, h3⟩ := ih hr
      simp only [next_mode, hq, if_false, List.takeWhile, List.dropWhile, hbne]
      exact ⟨by rw [h1], h2, h3⟩

theorem ScanSame.of_eq (errs errs1 : List ErrorReport) (ln : Nat) (tok : Token)
    (rest rest1 : List Nat) (line : Nat) (t : List ErrorReport)
    (hrest : rest1 = sanitize .code rest) (ht : ∀ e ∈ t, e.code ≠ ERR_LEX_INVALID_CHAR) :
    ScanSame 0 errs errs1 ln
      { token := tok, rest := rest, line := line, errors := errs ++ t }
      { token := tok, rest := rest1, line := line, errors := errs1 ++ t } :=
  ⟨rfl, rfl, hrest, t, by simp, rfl, ht⟩

theorem scan_identifier_sanitize (ln : Nat) (errs errs1 : List ErrorReport) (c : Nat)
    (r : List Nat) :
    ScanSame 0 errs errs1 ln (scan_identifier ln errs c r)
      (scan_identifier ln errs1 c (sanitize .code r)) ∧
    invalid_count .code r = invalid_count .code (scan_identifier ln errs c r).rest := by
  obtain ⟨h1, h2, h3⟩ := sanitize_span is_alnum plain_is_alnum r
  refine ⟨?_, h3.symm⟩
  unfold scan_identifier
  rw [h1]
  have := ScanSame.of_eq errs errs1 ln
    { type := TOK_IDENTIFIER, lexeme := some (c :: r.takeWhile is_alnum), line := ln,
      int_value := 0 }
    _ _ ln [] h2 (by simp)
  simpa using this

theorem scan_string_sanitize (ln : Nat) (errs errs1 : List ErrorReport) (q : Nat)
    (r : List Nat) (hz : ∀ c ∈ r, c ≠ 0) :
    ScanSame 0 errs errs1 ln (scan_string q ln errs r)
      (scan_string q ln errs1 (sanitize (.string q) r)) ∧
    invalid_count (.string q) r = invalid_count .code (scan_string q ln errs r).rest := by
  obtain ⟨h1, h2, h3⟩ := sanitize_string q r hz
  cases hd : r.dropWhile (fun x => x != q) with
  | nil =>
    rw [hd] at h2 h3
    have hs := List.takeWhile_append_dropWhile (fun x => x != q) r
    rw [hd, List.append_nil] at hs
    have hs1 := List.takeWhile_append_dropWhile (fun x => x != q) (sanitize (.string q) r)
    rw [h2, List.append_nil, h1, hs] at hs1
    rw [scan_string_open ln errs q r hd, scan_string_open ln errs1 q _ h2, ← hs1]
    refine ⟨ScanSame.of_eq _ _ _ _ _ _ _ _ rfl ?_, h3⟩
    intro e he
    simp only [List.mem_singleton] at he
    subst he
    show ERR_LEX_UNCLOSED_STR ≠ ERR_LEX_INVALID_CHAR
    decide
  | cons x rest =>
    rw [hd] at h2 h3
    rw [scan_string_closed ln errs q x r rest hd, scan_string_closed ln errs1 q x _ _ h2, h1]
    have := ScanSame.of_eq errs errs1 ln
      { type := TOK_STRING, lexeme := some (r.takeWhile (fun x => x != q)),
        line := ln + (r.takeWhile (fun x => x != q)).count 10, int_value := 0 }
      rest (sanitize .code rest) (ln + (r.takeWhile (fun x => x != q)).count 10) [] rfl
      (by simp)
    exact ⟨by simpa using this, h3⟩

theorem is_alpha_marks : is_alpha 120 = true ∧ is_alpha 88 = true ∧ is_alpha 104 = true ∧
    is_alpha 72 = true := by decide

theorem scan_number_sanitize (ln : Nat) (errs errs1 : List ErrorReport) (c : Nat)
    (r : List Nat) :
    ScanSame 0 errs errs1 ln (scan_number ln errs c r)
      (scan_number ln errs1 c (sanitize .code r)) ∧
    invalid_count .code r = invalid_count .code (scan_number ln errs c r).rest := by
  obtain ⟨hx120, hx88, hh104, hh72⟩ := is_alpha_marks
  have hnum : ∀ e ∈ [({ line := ln, code := ERR_LEX_INVALID_NUM } : ErrorReport)],
      e.code ≠ ERR_LEX_INVALID_CHAR := by
    intro e he
    simp only [List.mem_singleton] at he
    subst he
    show ERR_LEX_INVALID_NUM ≠ ERR_LEX_INVALID_CHAR
    decide
  by_cases hA : c = 48 ∧ (r.headD 0 = 120 ∨ r.headD 0 = 88)
  · cases r with
    | nil => simp at hA
    | cons x r1 =>
      have hx : x = 120 ∨ x = 88 := hA.2
      have hxa : is_alpha x = true := by rcases hx with rfl | rfl <;> decide
      obtain ⟨hs, hcnt⟩ := (sanitize_head (x :: r1) x hxa).2 rfl
      simp only [List.tail_cons] at hs hcnt
      obtain ⟨h1, h2, h3⟩ := sanitize_span is_hex_char plain_is_hex_char r1
      rw [hs, scan_number_hex ln errs c x r1 ⟨hA.1, hx⟩,
        scan_number_hex ln errs1 c x _ ⟨hA.1, hx⟩, h1]
      refine ⟨ScanSame.of_eq _ _ _ _ _ _ _ _ h2 ?_, by rw [hcnt, h3]⟩
      split
      · exact hnum
      · simp
  · have hA1 : ¬ (c = 48 ∧ ((sanitize .code r).headD 0 = 120 ∨
        (sanitize .code r).headD 0 = 88)) := by
      rintro ⟨h48, hx⟩
      rcases hx with hx | hx
      · exact hA ⟨h48, Or.inl ((sanitize_head r 120 hx120).1.1 hx)⟩
      · exact hA ⟨h48, Or.inr ((sanitize_head r 88 hx88).1.1 hx)⟩
    obtain ⟨h1, h2, h3⟩ := sanitize_span is_hex_char plain_is_hex_char r
    by_cases hh : (r.dropWhile is_hex_char).headD 0 = 104 ∨
        (r.dropWhile is_hex_char).headD 0 = 72
    · cases hd : r.dropWhile is_hex_char with
      | nil => rw [hd] at hh; simp at hh
      | cons y rest =>
        have hy : y = 104 ∨ y = 72 := by rw [hd] at hh; exact hh
        have hya : is_alpha y = true := by rcases hy with rfl | rfl <;> decide
        obtain ⟨hs, hcnt⟩ := (sanitize_head (y :: rest) y hya).2 rfl
        simp only [List.tail_cons] at hs hcnt
        rw [hd] at h2 h3
        rw [hs] at h2
        rw [scan_number_masm ln errs c y r rest hA hd hy,
          scan_number_masm ln errs1 c y _ _ hA1 h2 hy, h1]
        have := ScanSame.of_eq errs errs1 ln
          { type := TOK_NUMBER, lexeme := some (c :: r.takeWhile is_hex_char ++ [y]), line := ln,
            int_value := masm_hex_value (c :: r.takeWhile is_hex_char) }
          rest (sanitize .code rest) ln [] rfl (by simp)
        exact ⟨by simpa using this, by rw [← h3, hcnt]⟩
    · have hh1 : ¬ (((sanitize .code r).dropWhile is_hex_char).headD 0 = 104 ∨
          ((sanitize .code r).dropWhile is_hex_char).headD 0 = 72) := by
        rw [h2]
        rintro (hx | hx)
        · exact hh (Or.inl ((sanitize_head _ 104 hh104).1.1 hx))
        · exact hh (Or.inr ((sanitize_head _ 72 hh72).1.1 hx))
      rw [scan_number_decimal ln errs c r hA hh, scan_number_decimal ln errs1 c _ hA1 hh1, h1]
      have := ScanSame.of_eq errs errs1 ln
        { type := TOK_NUMBER, lexeme := some (c :: r.takeWhile is_hex_char), line := ln,
          int_value := decimal_value (c :: r.takeWhile is_hex_char) }
        (r.dropWhile is_hex_char) ((sanitize .code r).dropWhile is_hex_char) ln [] h2 (by simp)
      exact ⟨by simpa using this, h3.symm⟩

theorem is_invalid_char_iff (c : Nat) :
    is_invalid_char c = true ↔
      ¬ (c = 32 ∨ c = 9 ∨ c = 13) ∧ c ≠ 59 ∧ c ≠ 10 ∧ punctuation_type c = none ∧
      ¬ (c = 34 ∨ c = 39) ∧ is_digit c = false ∧ is_alpha c = false := by
  unfold is_invalid_char
  cases hp : punctuation_type c <;> cases hd : is_digit c <;> cases ha : is_alpha c <;>
    first
      | (simp; done)
      | (simp; omega)

theorem ScanSame.skip_invalid {k : Nat} {errs errs1 : List ErrorReport} {ln : Nat} {s s1 : Scan}
    (h : ScanSame k (errs ++ [{ line := ln, code := ERR_LEX_INVALID_CHAR }]) errs1 ln s s1) :
    ScanSame (k + 1) errs errs1 ln s s1 := by
  obtain ⟨h1, h2, h3, t, h4, h5, h6⟩ := h
  refine ⟨h1, h2, h3, t, ?_, h5, h6⟩
  rw [h4, List.replicate_succ]
  simp

/-- Reading a token of the sanitized text: the same token, the sanitized
rest, and the invalid-character reports gone. -/
theorem scan_token_sanitize (text : List Nat) :
    (∀ c ∈ text, c ≠ 0) → ∀ (b : Bool) (ln : Nat) (errs errs1 : List ErrorReport),
      ∃ k, ScanSame k errs errs1 ln (scan_token b ln errs text)
          (scan_token b ln errs1 (sanitize (if b then .comment else .code) text)) ∧
        invalid_count (if b then .comment else .code) text =
          k + invalid_count .code (scan_token b ln errs text).rest := by
  induction text with
  | nil =>
    intro _ b ln errs errs1
    refine ⟨0, ?_, ?_⟩
    · have := ScanSame.of_eq errs errs1 ln
        { type := TOK_EOF, lexeme := none, line := ln, int_value := 0 } [] [] ln [] rfl (by simp)
      cases b <;> simpa [scan_token, sanitize] using this
    · cases b <;> simp [scan_token, invalid_count]
  | cons c r ih =>
    intro hz b ln errs errs1
    have h0 : c ≠ 0 := hz c (List.mem_cons_self _ _)
    have hr : ∀ c ∈ r, c ≠ 0 := fun c hc => hz c (List.mem_cons_of_mem _ hc)
    have hnewline : ScanSame 0 errs errs1 ln (scan_newline ln errs r)
        (scan_newline ln errs1 (sanitize .code r)) := by
      have := ScanSame.of_eq errs errs1 ln
        { type := TOK_NEWLINE, lexeme := some [10], line := ln, int_value := 0 }
        r (sanitize .code r) (ln + 1) [] rfl (by simp)
      simpa [scan_newline] using this
    cases b with
    | true =>
      have hp : ¬ (TextMode.comment = TextMode.code ∧ is_invalid_char c = true) := by simp
      simp only [Bool.true_eq_false, if_true, (sanitize_cons_plain .comment c r h0 hp).1,
        (sanitize_cons_plain .comment c r h0 hp).2]
      by_cases hc : c = 10
      · subst hc
        simp only [scan_token, next_mode, if_true]
        exact ⟨0, hnewline, by simp [scan_newline]⟩
      · simp only [scan_token, next_mode, hc, if_false]
        exact ih hr true ln errs errs1
    | false =>
      simp only [Bool.false_eq_true, if_false]
      by_cases hinv : is_invalid_char c = true
      · obtain ⟨hb, hs, hnl, hpt, hq, hdig, halpha⟩ := (is_invalid_char_iff c).1 hinv
        rw [(sanitize_cons_invalid c r h0 hinv).1, (sanitize_cons_invalid c r h0 hinv).2]
        have h32 : (32 : Nat) = 32 ∨ (32 : Nat) = 9 ∨ (32 : Nat) = 13 := Or.inl rfl
        simp only [scan_token, hb, hs, hnl, if_false, hpt, hq, hdig, halpha, Bool.false_eq_true,
          h32, if_true]
        obtain ⟨k, hk, hcount⟩ := ih hr false ln
          (errs ++ [{ line := ln, code := ERR_LEX_INVALID_CHAR }]) errs1
        simp only [Bool.false_eq_true, if_false] at hk hcount
        exact ⟨k + 1, hk.skip_invalid, by omega⟩
      · have hp : ¬ (TextMode.code = TextMode.code ∧ is_invalid_char c = true) := by simp [hinv]
        rw [(sanitize_cons_plain .code c r h0 hp).1, (sanitize_cons_plain .code c r h0 hp).2]
        by_cases hb : c = 32 ∨ c = 9 ∨ c = 13
        · have hm : next_mode .code c = .code :=
            next_mode_code_plain (by omega) (by omega) (by omega)
          simp only [scan_token, hb, if_true, hm]
          have := ih hr false ln errs errs1
          simpa using this
        · by_cases hs : c = 59
          · subst hs
            have hm : next_mode .code 59 = .comment := by simp [next_mode]
            simp only [scan_token, hb, if_false, if_true, hm]
            have := ih hr true ln errs errs1
            simpa using this
          · by_cases hnl : c = 10
            · subst hnl
              have hm : next_mode .code 10 = .code := by simp [next_mode]
              simp only [scan_token, hb, hs, if_false, if_true, hm]
              exact ⟨0, hnewline, by simp [scan_newline]⟩
            · by_cases hq : c = 34 ∨ c = 39
              · have hm : next_mode .code c = .string c := by simp [next_mode, hs, hq]
                have hpt : punctuation_type c = none := by
                  rcases hq with rfl | rfl <;> decide
                simp only [scan_token, hb, hs, hnl, if_false, hpt, hq, if_true, hm]
                obtain ⟨h1, h2⟩ := scan_string_sanitize ln errs errs1 c r hr
                exact ⟨0, h1, by simpa using h2⟩
              · have hm : next_mode .code c = .code :=
                  next_mode_code_plain hs (by omega) (by omega)
                rw [hm]
                cases hpt : punctuation_type c with
                | some ty =>
                  simp only [scan_token, hb, hs, hnl, if_false, hpt]
                  have := ScanSame.of_eq errs errs1 ln
                    { type := ty, lexeme := some [c], line := ln, int_value := 0 }
                    r (sanitize .code r) ln [] rfl (by simp)
                  exact ⟨0, by simpa using this, by simp⟩
                | none =>
                  by_cases hdig : is_digit c = true
                  · simp only [scan_token, hb, hs, hnl, if_false, hpt, hq, hdig, if_true]
                    obtain ⟨h1, h2⟩ := scan_number_sanitize ln errs errs1 c r
                    exact ⟨0, h1, by simpa using h2⟩
                  · by_cases halpha : is_alpha c = true
                    · simp only [scan_token, hb, hs, hnl, if_false, hpt, hq, hdig, halpha,
                        if_true, Bool.false_eq_true]
                      obtain ⟨h1, h2⟩ := scan_identifier_sanitize ln errs errs1 c r
                      exact ⟨0, h1, by simpa using h2⟩
                    · exfalso
                      apply hinv
                      rw [is_invalid_char_iff]
                      exact ⟨hb, hs, hnl, hpt, hq, by simpa using hdig, by simpa using halpha⟩

theorem filter_invalid_errors (k : Nat) (ln : Nat) (t : List ErrorReport)
    (ht : ∀ e ∈ t, e.code ≠ ERR_LEX_INVALID_CHAR) :
    ([] ++ List.replicate k ({ line := ln, code := ERR_LEX_INVALID_CHAR } : ErrorReport) ++ t).filter
        (fun (e : ErrorReport) => decide (e.code ≠ ERR_LEX_INVALID_CHAR)) = t ∧
    (([] ++ List.replicate k ({ line := ln, code := ERR_LEX_INVALID_CHAR } : ErrorReport) ++
        t).filter (fun (e : ErrorReport) => decide (e.code = ERR_LEX_INVALID_CHAR))).length = k := by
  have h1 : (List.replicate k ({ line := ln, code := ERR_LEX_INVALID_CHAR } : ErrorReport)).filter
      (fun (e : ErrorReport) => decide (e.code ≠ ERR_LEX_INVALID_CHAR)) = [] := by
    rw [List.filter_eq_nil_iff]
    intro e he
    rw [(List.mem_replicate.1 he).2]
    simp
  have h2 : (List.replicate k ({ line := ln, code := ERR_LEX_INVALID_CHAR } : ErrorReport)).filter
      (fun (e : ErrorReport) => decide (e.code = ERR_LEX_INVALID_CHAR)) =
      List.replicate k { line := ln, code := ERR_LEX_INVALID_CHAR } := by
    rw [List.filter_eq_self]
    intro e he
    rw [(List.mem_replicate.1 he).2]
    simp
  have h3 : t.filter (fun (e : ErrorReport) => decide (e.code ≠ ERR_LEX_INVALID_CHAR)) = t := by
    rw [List.filter_eq_self]
    intro e he
    simpa using ht e he
  have h4 : t.filter (fun (e : ErrorReport) => decide (e.code = ERR_LEX_INVALID_CHAR)) = [] := by
    rw [List.filter_eq_nil_iff]
    intro e he
    simpa using ht e he
  simp only [List.nil_append, List.filter_append, h1, h2, h3, h4, List.append_nil,
    List.length_replicate, and_self]

/-- The tokens of a text and of the sanitized text are the same; the errors
differ by one invalid-character report for each replaced character. -/
theorem lexer_tokens_sanitize :
    ∀ (fuel : Nat) (lx lx1 : Lexer) (pre pre1 text : List Nat), lx.At pre text →
      lx1.At pre1 (sanitize .code text) → lx1.line = lx.line → text.length < fuel →
      lexer_tokens fuel lx = lexer_tokens fuel lx1 ∧
      (lexer_errors fuel lx).filter (fun (e : ErrorReport) => decide (e.code ≠ ERR_LEX_INVALID_CHAR)) =
        lexer_errors fuel lx1 ∧
      ((lexer_errors fuel lx).filter
        (fun (e : ErrorReport) => decide (e.code = ERR_LEX_INVALID_CHAR))).length = invalid_count .code text := by
  intro fuel
  induction fuel with
  | zero => intro lx lx1 pre pre1 text _ _ _ hf; omega
  | succ f ih =>
    intro lx lx1 pre pre1 text h h1 hline hf
    have hz : ∀ c ∈ text, c ≠ 0 := fun c hc => h.2.2.2 c (by rw [h.1]; simp [hc])
    have hscan := lexer_next_token_scan h
    have hscan1 := lexer_next_token_scan h1
    rw [hline] at hscan1
    obtain ⟨k, ⟨htok, hln, hrest, t, he, he1, ht⟩, hcount⟩ :=
      scan_token_sanitize text hz false lx.line [] []
    simp only [Bool.false_eq_true, if_false] at htok hln hrest he he1 hcount
    rw [hrest] at hscan1
    obtain ⟨skipped, body, htext, _, hparts⟩ := scan_token_parts text false lx.line []
    obtain ⟨hf1, hf2⟩ := filter_invalid_errors k lx.line t ht
    by_cases heof : (scan_token false lx.line [] text).token.type = TOK_EOF
    · have hr := (hparts.2.1 heof).2.1
      rw [hr] at hcount
      simp only [lexer_tokens, lexer_errors, hscan, hscan1, htok, heof, if_true, he, he1,
        List.nil_append]
      simp only [List.nil_append] at hf1 hf2
      refine ⟨trivial, hf1, ?_⟩
      rw [hf2, hcount]
      simp [invalid_count]
    · have hb := List.length_pos.2 (hparts.body_ne_nil heof)
      have hlen : (scan_token false lx.line [] text).rest.length < f := by
        have : text.length = skipped.length + body.length +
            (scan_token false lx.line [] text).rest.length := by
          conv_lhs => rw [htext]
          simp only [List.length_append]
        omega
      have hsuf : (scan_token false lx.line [] text).rest <:+ text :=
        ⟨skipped ++ body, htext.symm⟩
      obtain ⟨p2, hat2⟩ := h.seek hsuf (scan_token false lx.line [] text).line
      obtain ⟨q1, b1, htext1, _, _⟩ := scan_token_parts (sanitize .code text) false lx.line []
      have hsuf1 : (scan_token false lx.line [] (sanitize .code text)).rest <:+
          sanitize .code text := ⟨q1 ++ b1, htext1.symm⟩
      obtain ⟨p3, hat3⟩ := h1.seek hsuf1 (scan_token false lx.line [] (sanitize .code text)).line
      rw [hrest] at hat3
      obtain ⟨i1, i2, i3⟩ := ih _ _ _ _ _ hat2 hat3 hln hlen
      simp only [lexer_tokens, lexer_errors, hscan, hscan1, htok, heof, if_false]
      refine ⟨by rw [i1], ?_, ?_⟩
      · rw [List.filter_append, i2, he, hf1, he1, List.nil_append]
      · rw [List.filter_append, List.length_append, i3, he, hf2, hcount]

/-! ## Blank source texts -/

theorem blank_text_takeWhile (src : List Nat) : ∀ b, blank_text b src = true →
    blank_text b (src.takeWhile (fun c => decide (c ≠ 0))) = true := by
  induction src with
  | nil => intro b _; cases b <;> rfl
  | cons c r ih =>
    intro b h
    by_cases h0 : c = 0
    · subst h0
      cases b <;> simp [List.takeWhile, blank_text]
    · have htw : (c :: r).takeWhile (fun c => decide (c ≠ 0)) =
          c :: r.takeWhile (fun c => decide (c ≠ 0)) := by
        simp [List.takeWhile, h0]
      rw [htw]
      cases b with
      | true =>
        simp only [blank_text, h0, if_false] at h ⊢
        exact ih _ h
      | false =>
        simp only [blank_text, h0, if_false] at h ⊢
        split at h
        · rw [if_pos (by assumption)]; exact ih _ h
        · split at h
          · rw [if_neg (by assumption), if_pos (by assumption)]; exact ih _ h
          · cases h

/-- Reading a token from a blank text: end-of-input when the text has no
newline, otherwise the end-of-line token of its first newline, with a blank
text left. -/
theorem scan_token_blank (text : List Nat) :
    (∀ c ∈ text, c ≠ 0) → ∀ (b : Bool) (ln : Nat) (errs : List ErrorReport),
      blank_text b text = true →
      (text.count 10 = 0 ∧
        scan_token b ln errs text =
          { token := { type := TOK_EOF, lexeme := none, line := ln, int_value := 0 },
            rest := [], line := ln, errors := errs }) ∨
      (∃ r, r <:+ text ∧ r.length < text.length ∧ text.count 10 = r.count 10 + 1 ∧
        blank_text false r = true ∧ scan_token b ln errs text = scan_newline ln errs r) := by
  induction text with
  | nil => intro _ b ln errs _; left; cases b <;> exact ⟨rfl, rfl⟩
  | cons c r ih =>
    intro hz b ln errs hblank
    have h0 : c ≠ 0 := hz c (List.mem_cons_self _ _)
    have hr : ∀ c ∈ r, c ≠ 0 := fun c hc => hz c (List.mem_cons_of_mem _ hc)
    have hnewline : ∀ b1, c = 10 → blank_text false r = true →
        scan_token b1 ln errs (c :: r) = scan_newline ln errs r →
        (∃ r1, r1 <:+ c :: r ∧ r1.length < (c :: r).length ∧
          (c :: r).count 10 = r1.count 10 + 1 ∧ blank_text false r1 = true ∧
          scan_token b1 ln errs (c :: r) = scan_newline ln errs r1) := by
      intro b1 hc hb hs
      subst hc
      exact ⟨r, List.suffix_cons _ _, by simp, by simp, hb, hs⟩
    have hskip : ∀ b1 b2, c ≠ 10 → blank_text b2 r = true →
        scan_token b1 ln errs (c :: r) = scan_token b2 ln errs r →
        ((c :: r).count 10 = 0 ∧
          scan_token b1 ln errs (c :: r) =
            { token := { type := TOK_EOF, lexeme := none, line := ln, int_value := 0 },
              rest := [], line := ln, errors := errs }) ∨
        (∃ r1, r1 <:+ c :: r ∧ r1.length < (c :: r).length ∧
          (c :: r).count 10 = r1.count 10 + 1 ∧ blank_text false r1 = true ∧
          scan_token b1 ln errs (c :: r) = scan_newline ln errs r1) := by
      intro b1 b2 hc hb hs
      rw [hs, List.count_cons_of_ne (Ne.symm hc)]
      rcases ih hr b2 ln errs hb with h | ⟨r1, h1, h2, h3, h4, h5⟩
      · exact Or.inl h
      · exact Or.inr ⟨r1, h1.trans (List.suffix_cons _ _), by simp; omega, h3, h4, h5⟩
    cases b with
    | true =>
      by_cases hc : c = 10
      · right
        have hb : blank_text false r = true := by
          simpa [blank_text, h0, hc] using hblank
        exact hnewline true hc hb (by simp [scan_token, hc])
      · have hb : blank_text true r = true := by
          simpa [blank_text, h0, hc] using hblank
        exact hskip true true hc hb (by simp [scan_token, hc])
    | false =>
      by_cases hb : c = 32 ∨ c = 9 ∨ c = 13
      · have hb4 : c = 32 ∨ c = 9 ∨ c = 13 ∨ c = 10 := by omega
        have hbl : blank_text false r = true := by
          simpa [blank_text, h0, hb4] using hblank
        exact hskip false false (by omega) hbl (by simp [scan_token, hb])
      · by_cases hc : c = 10
        · right
          have hbl : blank_text false r = true := by
            simpa [blank_text, h0, hc] using hblank
          exact hnewline false hc hbl (by subst hc; simp [scan_token])
        · by_cases hs : c = 59
          · have hbl : blank_text true r = true := by
              subst hs
              simpa [blank_text] using hblank
            exact hskip false true hc hbl (by subst hs; simp [scan_token])
          · have hb4 : ¬ (c = 32 ∨ c = 9 ∨ c = 13 ∨ c = 10) := by omega
            simp [blank_text, h0, hb4, hs] at hblank

theorem newline_tokens_length (k : Nat) : ∀ ln, (newline_tokens ln k).length = k + 1 := by
  induction k with
  | zero => intro ln; rfl
  | succ k ih => intro ln; simp [newline_tokens, ih]

theorem newline_tokens_type (k : Nat) : ∀ ln, ∀ t ∈ newline_tokens ln k,
    t.type = TOK_NEWLINE ∨ t.type = TOK_EOF := by
  induction k with
  | zero =>
    intro ln t ht
    simp only [newline_tokens, List.mem_singleton] at ht
    subst ht; right; rfl
  | succ k ih =>
    intro ln t ht
    simp only [newline_tokens, List.mem_cons] at ht
    rcases ht with rfl | ht
    · left; rfl
    · exact ih _ t ht

/-- The token collection of the driver over a blank text. -/
theorem collect_tokens_blank :
    ∀ (n : Nat) (text : List Nat), text.length ≤ n →
      ∀ (lx : Lexer) (pre : List Nat) (room : Nat) (toks : List Token),
        lx.At pre text → blank_text false text = true → text.count 10 < room →
        collect_tokens room lx toks [] =
          some (toks ++ newline_tokens lx.line (text.count 10), []) := by
  intro n
  induction n using Nat.strong_induction_on with
  | _ n ih =>
    intro text hn lx pre room toks h hblank hroom
    have hz : ∀ c ∈ text, c ≠ 0 := fun c hc => h.2.2.2 c (by rw [h.1]; simp [hc])
    obtain ⟨rm, rfl⟩ : ∃ rm, room = rm + 1 := ⟨room - 1, by omega⟩
    have hscan := lexer_next_token_scan h
    rcases scan_token_blank text hz false lx.line [] hblank with ⟨hc, hs⟩ | ⟨r, h1, h2, h3, h4, h5⟩
    · rw [hs] at hscan
      simp only [collect_tokens, hscan, if_true, hc, newline_tokens, List.append_nil]
    · rw [h5] at hscan
      obtain ⟨p2, hat2⟩ := h.seek h1 (lx.line + 1)
      have hdec : ¬ (TOK_NEWLINE = TOK_EOF) := by decide
      simp only [collect_tokens, hscan, scan_newline, hdec, if_false, List.append_nil]
      rw [ih r.length (by omega) r (Nat.le_refl _) _ p2 rm _ hat2 h4 (by omega), h3]
      simp [newline_tokens]

/-- Pass one over end-of-line and end-of-input tokens only: nothing is
recorded. -/
theorem pass_one_loop_blank (tokens : List Token)
    (hty : ∀ t ∈ tokens, t.type = TOK_NEWLINE ∨ t.type = TOK_EOF) :
    ∀ (fuel i : Nat) (p : PassOne) (errs : List ErrorReport), tokens.length ≤ i + fuel →
      ∃ p1, pass_one_loop fuel tokens i p errs = .ok (p1, errs) ∧
        p1.instructions = p.instructions ∧ p1.current_address = p.current_address ∧
        p1.has_errors = p.has_errors ∧ p1.symtab.total_symbols = p.symtab.total_symbols := by
  intro fuel
  induction fuel with
  | zero =>
    intro i p errs hlen
    have : ¬ (i < tokens.length) := by omega
    exact ⟨p, by simp [pass_one_loop, this], rfl, rfl, rfl, rfl⟩
  | succ f ih =>
    intro i p errs hlen
    by_cases hi : i < tokens.length
    · have hget : tokens[i]? = some tokens[i] := List.getElem?_eq_getElem hi
      have ht := hty tokens[i] (List.getElem_mem hi)
      obtain ⟨p1, h1, h2, h3, h4, h5⟩ := ih (i + 1)
        { p with current_line := p.current_line + 1 } errs (by omega)
      refine ⟨p1, ?_, h2, h3, h4, h5⟩
      simp only [pass_one_loop, hi, if_true, read_token, hget, ht, h1]
    · exact ⟨p, by simp [pass_one_loop, hi], rfl, rfl, rfl, rfl⟩

/-! ## Lemmas on the mnemonic table -/

theorem to_upper_eq_zero (c : Nat) : to_upper c = 0 ↔ c = 0 := by
  unfold to_upper
  split <;> omega

theorem strcasecmp_simple_eq_zero_iff (a : CStr) :
    ∀ b : CStr, strcasecmp_simple a b = 0 ↔
      (util_strcpy a).map to_upper = (util_strcpy b).map to_upper := by
  induction a with
  | nil =>
    intro b
    cases b with
    | nil => simp [strcasecmp_simple, util_strcpy]
    | cons y ys =>
      have hz := to_upper_eq_zero y
      by_cases hy : y = 0
      · simp [strcasecmp_simple, util_strcpy, hy, to_upper]
      · have hu : to_upper y ≠ 0 := fun h => hy (hz.1 h)
        simp only [strcasecmp_simple, util_strcpy, hy, if_false, List.map_nil, List.map_cons]
        constructor
        · intro h
          exact absurd (by omega : to_upper y = 0) hu
        · intro h
          exact absurd h (by simp)
  | cons x xs ih =>
    intro b
    cases b with
    | nil =>
      have hz := to_upper_eq_zero x
      by_cases hx : x = 0
      · simp [strcasecmp_simple, util_strcpy, hx, to_upper]
      · have hu : to_upper x ≠ 0 := fun h => hx (hz.1 h)
        simp only [strcasecmp_simple, util_strcpy, hx, if_false, List.map_nil, List.map_cons]
        constructor
        · intro h
          exact absurd (by omega : to_upper x = 0) hu
        · intro h
          exact absurd h (by simp)
    | cons y ys =>
      have hzx := to_upper_eq_zero x
      have hzy := to_upper_eq_zero y
      by_cases hx : x = 0
      · subst hx
        by_cases hy : y = 0
        · subst hy
          simp [strcasecmp_simple, util_strcpy]
        · have hu : to_upper y ≠ 0 := fun h => hy (hzy.1 h)
          have h0 : to_upper 0 = 0 := hzx.2 rfl
          simp only [strcasecmp_simple, util_strcpy, hy, if_false, if_true, List.map_nil,
            List.map_cons, ne_eq, not_true_eq_false, false_and, h0]
          constructor
          · intro h
            exact absurd (by omega : to_upper y = 0) hu
          · intro h
            exact absurd h (by simp)
      · by_cases hy : y = 0
        · subst hy
          have hu : to_upper x ≠ 0 := fun h => hx (hzx.1 h)
          have h0 : to_upper 0 = 0 := hzy.2 rfl
          simp only [strcasecmp_simple, util_strcpy, hx, if_false, if_true, List.map_nil,
            List.map_cons, ne_eq, not_true_eq_false, and_false, h0]
          constructor
          · intro h
            exact absurd (by omega : to_upper x = 0) hu
          · intro h
            exact absurd h (by simp)
        · by_cases hxy : to_upper x = to_upper y
          · simp only [strcasecmp_simple, util_strcpy, hx, hy, if_false, ne_eq,
              not_false_eq_true, and_self, if_true, hxy, not_true_eq_false, List.map_cons,
              List.cons.injEq, true_and]
            exact ih ys
          · simp only [strcasecmp_simple, util_strcpy, hx, hy, if_false, ne_eq,
              not_false_eq_true, and_self, if_true, hxy, List.map_cons, List.cons.injEq,
              false_and, iff_false]
            omega

theorem strcasecmp_simple_same_spelling (m s : CStr) :
    decide (strcasecmp_simple m s = 0) = same_spelling s m := by
  unfold same_spelling
  rw [decide_eq_decide, strcasecmp_simple_eq_zero_iff]
  exact eq_comm

theorem same_spelling_symm (a b : CStr) : same_spelling a b = same_spelling b a := by
  unfold same_spelling
  rw [decide_eq_decide]
  exact eq_comm

theorem same_spelling_trans {a b c : CStr} (h1 : same_spelling a b = true)
    (h2 : same_spelling b c = true) : same_spelling a c = true := by
  unfold same_spelling at *
  simp only [decide_eq_true_eq] at *
  exact h1.trans h2

theorem same_spelling_refl (a : CStr) : same_spelling a a = true := by
  simp [same_spelling]

theorem find_unique {α : Type} (p : α → Bool) (e : α) :
    ∀ l : List α, e ∈ l → p e = true → (∀ x ∈ l, p x = true → x = e) → l.find? p = some e := by
  intro l
  induction l with
  | nil => intro he; simp at he
  | cons x xs ih =>
    intro he hp hu
    by_cases hx : p x = true
    · have := hu x (List.mem_cons_self _ _) hx
      subst this
      simp [List.find?, hx]
    · have hne : e ≠ x := fun h => hx (h ▸ hp)
      have he1 : e ∈ xs := by
        rcases List.mem_cons.1 he with h | h
        · exact absurd h hne
        · exact h
      have hx1 : p x = false := by simpa using hx
      simp only [List.find?, hx1]
      exact ih he1 hp (fun y hy => hu y (List.mem_cons_of_mem _ hy))

set_option maxRecDepth 100000 in
theorem table_spellings_distinct :
    ∀ e1 ∈ g_instruction_table, ∀ e2 ∈ g_instruction_table,
      same_spelling e1.mnemonic e2.mnemonic = true → e1 = e2 := by
  decide

theorem tables_lookup_some_iff (s : CStr) (e : InstructionInfo) :
    tables_lookup_instruction (some s) = some e ↔
      e ∈ g_instruction_table ∧ same_spelling s e.mnemonic = true := by
  constructor
  · intro h
    simp only [tables_lookup_instruction] at h
    have hm := List.mem_of_find?_eq_some h
    have hp := List.find?_some h
    rw [strcasecmp_simple_same_spelling] at hp
    exact ⟨hm, hp⟩
  · intro h
    simp only [tables_lookup_instruction]
    refine find_unique _ e _ h.1 ?_ ?_
    · rw [strcasecmp_simple_same_spelling]; exact h.2
    · intro x hx hpx
      rw [strcasecmp_simple_same_spelling] at hpx
      refine table_spellings_distinct x hx e h.1 ?_
      rw [same_spelling_symm] at hpx
      exact same_spelling_trans hpx h.2

theorem tables_lookup_none_iff (s : CStr) :
    tables_lookup_instruction (some s) = none ↔
      ∀ e ∈ g_instruction_table, same_spelling s e.mnemonic = false := by
  simp only [tables_lookup_instruction, List.find?_eq_none]
  constructor
  · intro h e he
    have := h e he
    rw [strcasecmp_simple_same_spelling] at this
    simpa using this
  · intro h e he
    rw [strcasecmp_simple_same_spelling, h e he]
    simp

theorem table_entry_kinds :
    ∀ e ∈ g_instruction_table,
      (e.is_pseudo = 1 ∧ e.mnemonic ∈ directive_mnemonics) ∨
      (e.is_pseudo = 0 ∧ e.mnemonic ∈ ordinary_mnemonics) := by
  decide

theorem directive_mnemonics_in_table :
    ∀ d ∈ directive_mnemonics, ∃ e ∈ g_instruction_table, e.mnemonic = d ∧ e.is_pseudo = 1 := by
  decide

theorem ordinary_mnemonics_in_table :
    ∀ m ∈ ordinary_mnemonics, ∃ e ∈ g_instruction_table, e.mnemonic = m ∧ e.is_pseudo = 0 := by
  decide

/-! ## Lemmas on statements -/

/-- Analysis takes an identifier in mnemonic position as the mnemonic without
looking it up: whenever the token after it is no colon and no identifier that
the table knows, a finished analysis gives a record with that mnemonic. -/
theorem analyze_unchecked_mnemonic (tokens : List Token) (i : Nat) (t : Token) (m : CStr)
    (hi : i + 1 < 65535) (h0 : tokens[i]? = some t) (hty : t.type = TOK_IDENTIFIER)
    (hm : t.lexeme = some m)
    (h1 : ∀ t1, tokens[i + 1]? = some t1 → t1.type ≠ TOK_COLON ∧
      (t1.type = TOK_IDENTIFIER → tables_lookup_instruction t1.lexeme = none))
    (r : Option (InstructionEntry × Nat))
    (h : semantic_analyze_instruction tokens i = .ok r) :
    ∃ e c, r = some (e, c) ∧ e.mnemonic = util_strcpy m ∧ e.has_label = false := by
  have hi0 : i < 65535 := by omega
  cases h1t : tokens[i + 1]? with
  | none =>
    simp [semantic_analyze_instruction, token_type_is, read_token, bind, Except.bind, pure,
      Except.pure, h0, h1t, hty, hi] at h
  | some t1 =>
    obtain ⟨hnc, hid⟩ := h1 t1 h1t
    cases hp : parse_operands 4 tokens (i + 1) 1 [] with
    | error f =>
      by_cases hident : t1.type = TOK_IDENTIFIER
      · have hl := hid hident
        simp [semantic_analyze_instruction, analyze_mnemonic, token_type_is, read_token, bind,
          Except.bind, pure, Except.pure, h0, h1t, hty, hi, hi0, hnc, hident, hl, hm,
          token_lexeme, hp] at h
      · simp [semantic_analyze_instruction, analyze_mnemonic, token_type_is, read_token, bind,
          Except.bind, pure, Except.pure, h0, h1t, hty, hi, hi0, hnc, hident, hm,
          token_lexeme, hp] at h
    | ok v =>
      by_cases hident : t1.type = TOK_IDENTIFIER
      · have hl := hid hident
        simp [semantic_analyze_instruction, analyze_mnemonic, token_type_is, read_token, bind,
          Except.bind, pure, Except.pure, h0, h1t, hty, hi, hi0, hnc, hident, hl, hm,
          token_lexeme, hp] at h
        exact ⟨_, _, h.symm, rfl, rfl⟩
      · simp [semantic_analyze_instruction, analyze_mnemonic, token_type_is, read_token, bind,
          Except.bind, pure, Except.pure, h0, h1t, hty, hi, hi0, hnc, hident, hm,
          token_lexeme, hp] at h
        exact ⟨_, _, h.symm, rfl, rfl⟩

/-- A record whose mnemonic the table does not know makes
`codegen_emit_instruction` return `-1`. -/
theorem codegen_emit_instruction_unknown (cg : CodeGen) (idx : Nat) (entry : InstructionEntry)
    (h : tables_lookup_instruction (some entry.mnemonic) = none) :
    (codegen_emit_instruction cg idx entry).1 = -1 := by
  unfold codegen_emit_instruction
  split
  · rfl
  · simp [h]

/-- The emission loop keeps the error flag once set and only appends error
reports. -/
theorem emit_all_keeps_errors (entries : List InstructionEntry) :
    ∀ (idx : Nat) (cg : CodeGen) (errs : List ErrorReport),
      (cg.has_errors = true → (emit_all entries idx cg errs).1.has_errors = true) ∧
      ∃ more, (emit_all entries idx cg errs).2 = errs ++ more := by
  induction entries with
  | nil => intro idx cg errs; exact ⟨fun h => h, [], by simp [emit_all]⟩
  | cons e rest ih =>
    intro idx cg errs
    unfold emit_all
    simp only
    split
    · obtain ⟨h1, more, h2⟩ := ih (idx + 1)
        { (codegen_emit_instruction cg idx e).2.1 with has_errors := true }
        (errs ++ (codegen_emit_instruction cg idx e).2.2 ++
          [{ line := e.line, code := ERR_PARSE_UNK_MNEMONIC }])
      refine ⟨fun _ => h1 rfl,
        (codegen_emit_instruction cg idx e).2.2 ++
          [{ line := e.line, code := ERR_PARSE_UNK_MNEMONIC }] ++ more, ?_⟩
      rw [h2]
      simp only [List.append_assoc]
    · next hge =>
      obtain ⟨h1, more, h2⟩ := ih (idx + 1) (codegen_emit_instruction cg idx e).2.1
        (errs ++ (codegen_emit_instruction cg idx e).2.2)
      refine ⟨fun hcg => h1 ?_, (codegen_emit_instruction cg idx e).2.2 ++ more, ?_⟩
      · rcases codegen_emit_instruction_size cg idx e with hs | hs
        · rw [hs] at hge; exact absurd (by decide) hge
        · rw [hs.2.1]; exact hcg
      · rw [h2, List.append_assoc]

/-- Analysis fails at a token that is no identifier, reading no other token. -/
theorem analyze_non_identifier (tokens : List Token) (i : Nat) (t : Token)
    (h0 : tokens[i]? = some t) (hty : t.type ≠ TOK_IDENTIFIER) :
    semantic_analyze_instruction tokens i = .ok none := by
  by_cases hi : i < 65535 <;>
    simp [semantic_analyze_instruction, analyze_mnemonic, read_token, bind, Except.bind, pure,
      Except.pure, h0, hty, hi]

/-- One round of the pass-one loop at an end-of-line or end-of-input token. -/
theorem pass_one_loop_line_step (fuel : Nat) (tokens : List Token) (i : Nat) (p : PassOne)
    (errs : List ErrorReport) (t : Token) (h0 : tokens[i]? = some t)
    (hty : t.type = TOK_NEWLINE ∨ t.type = TOK_EOF) :
    pass_one_loop (fuel + 1) tokens i p errs =
      pass_one_loop fuel tokens (i + 1) { p with current_line := p.current_line + 1 } errs := by
  have hlen : i < tokens.length := by
    rcases Nat.lt_or_ge i tokens.length with h | h
    · exact h
    · rw [List.getElem?_eq_none h] at h0; cases h0
  rw [pass_one_loop, if_pos hlen]
  simp only [read_token, h0, hty, if_true]

/-- One round of the pass-one loop at a token where analysis fails: one error
for that token, and the loop goes on with the next token. -/
theorem pass_one_loop_fail_step (fuel : Nat) (tokens : List Token) (i : Nat) (p : PassOne)
    (errs : List ErrorReport) (t : Token) (h0 : tokens[i]? = some t)
    (h1 : t.type ≠ TOK_NEWLINE) (h2 : t.type ≠ TOK_EOF)
    (hcount : p.instruction_count < PassOne.max_instructions)
    (ha : semantic_analyze_instruction tokens i = .ok none) :
    pass_one_loop (fuel + 1) tokens i p errs =
      pass_one_loop fuel tokens (i + 1) { p with has_errors := true }
        (errs ++ [{ line := if t.lexeme.isSome then t.line else p.current_line,
                    code := ERR_PARSE_EXPECTED_OP }]) := by
  have hlen : i < tokens.length := by
    rcases Nat.lt_or_ge i tokens.length with h | h
    · exact h
    · rw [List.getElem?_eq_none h] at h0; cases h0
  have hnot : ¬ (p.instruction_count ≥ PassOne.max_instructions) := by omega
  rw [pass_one_loop, if_pos hlen]
  simp only [read_token, h0, h1, h2, or_self, if_false, hnot, ha]

/-- One round of the pass-one loop at a token where analysis gives a record. -/
theorem pass_one_loop_record_step (fuel : Nat) (tokens : List Token) (i : Nat) (p : PassOne)
    (errs : List ErrorReport) (t : Token) (parsed : InstructionEntry) (consumed : Nat)
    (h0 : tokens[i]? = some t) (h1 : t.type ≠ TOK_NEWLINE) (h2 : t.type ≠ TOK_EOF)
    (hcount : p.instruction_count < PassOne.max_instructions)
    (ha : semantic_analyze_instruction tokens i = .ok (some (parsed, consumed))) :
    pass_one_loop (fuel + 1) tokens i p errs =
      pass_one_loop fuel tokens (i + consumed) (pass_one_record p parsed).1
        (errs ++ (pass_one_record p parsed).2) := by
  have hlen : i < tokens.length := by
    rcases Nat.lt_or_ge i tokens.length with h | h
    · exact h
    · rw [List.getElem?_eq_none h] at h0; cases h0
  have hnot : ¬ (p.instruction_count ≥ PassOne.max_instructions) := by omega
  rw [pass_one_loop, if_pos hlen]
  simp only [read_token, h0, h1, h2, or_self, if_false, hnot, ha]

theorem getElem?_append_cons_length {α : Type} (pre : List α) (t : α) (rest : List α) :
    (pre ++ t :: rest)[pre.length]? = some t := by
  rw [List.getElem?_append_right (le_refl _)]
  simp

/-- The pass-one loop over a run of tokens that are no identifiers and no ends
of line, followed by the end of the input: one error per token, no record. -/
theorem pass_one_loop_no_statement (eof : Token) (heof : eof.type = TOK_EOF) (l : List Token) :
    ∀ (pre : List Token) (p : PassOne) (errs : List ErrorReport) (fuel : Nat),
      (∀ t ∈ l, t.type ≠ TOK_IDENTIFIER ∧ t.type ≠ TOK_NEWLINE ∧ t.type ≠ TOK_EOF) →
      l.length + 1 ≤ fuel → p.instruction_count < PassOne.max_instructions →
      pass_one_loop fuel (pre ++ (l ++ [eof])) pre.length p errs =
        .ok ({ p with has_errors := p.has_errors || decide (l ≠ [])
                      current_line := p.current_line + 1 },
             errs ++ l.map (fun t => { line := if t.lexeme.isSome then t.line else p.current_line,
                                       code := ERR_PARSE_EXPECTED_OP })) := by
  induction l with
  | nil =>
    intro pre p errs fuel _ hf _
    obtain ⟨f1, rfl⟩ : ∃ f1, fuel = f1 + 1 := ⟨fuel - 1, by simp at hf; omega⟩
    show pass_one_loop (f1 + 1) (pre ++ [eof]) pre.length p errs = _
    rw [pass_one_loop_line_step f1 _ _ _ _ eof (getElem?_append_cons_length pre eof [])
      (Or.inr heof), pass_one_loop_done _ _ _ _ _ (by simp)]
    simp
  | cons t rest ih =>
    intro pre p errs fuel hl hf hcount
    obtain ⟨f1, rfl⟩ : ∃ f1, fuel = f1 + 1 := ⟨fuel - 1, by simp at hf; omega⟩
    obtain ⟨h1, h2, h3⟩ := hl t (List.mem_cons_self _ _)
    have h0 : (pre ++ (t :: rest ++ [eof]))[pre.length]? = some t :=
      getElem?_append_cons_length pre t (rest ++ [eof])
    rw [pass_one_loop_fail_step f1 _ _ _ _ t h0 h2 h3 hcount
      (analyze_non_identifier _ _ t h0 h1)]
    have hpre : pre ++ (t :: rest ++ [eof]) = (pre ++ [t]) ++ (rest ++ [eof]) := by simp
    have hidx : pre.length + 1 = (pre ++ [t]).length := by simp
    have hcount1 : ({ p with has_errors := true } : PassOne).instruction_count <
        PassOne.max_instructions := hcount
    rw [hpre, hidx, ih (pre ++ [t]) _ _ f1 (fun x hx => hl x (List.mem_cons_of_mem _ hx))
      (by simp at hf; omega) hcount1]
    simp

/-! ## Lemmas on the emitter -/

theorem operand_bytes_length (k : Nat) (o : Operand) :
    (operand_bytes k o).length = operand_size o := by
  unfold operand_bytes operand_size
  repeat' split
  all_goals rfl

/-- What the operand loop of the emitter appends when it ends without a full
relocation table: the bytes of the operands, and one relocation for each label
operand with a non-empty name. -/
theorem emit_operands_spec (cs idx : Nat) (ops : List Operand) :
    ∀ (i : Nat) (code : List Nat) (relocs : List Relocation) (code1 : List Nat)
      (relocs1 : List Relocation),
      emit_operands cs idx ops i code relocs = (some code1, relocs1) →
      code1 = code ++ encode_operands ops i ∧
      relocs1 = relocs ++ label_relocations idx ops i (cs + code.length) := by
  induction ops with
  | nil =>
    intro i code relocs code1 relocs1 h
    simp only [emit_operands, Prod.mk.injEq, Option.some.injEq] at h
    simp [encode_operands, label_relocations, h.1, h.2]
  | cons o rest ih =>
    intro i code relocs code1 relocs1 h
    unfold emit_operands at h
    by_cases himm : o.type = OPERAND_IMMEDIATE
    · have hnl : ¬ (o.type = OPERAND_LABEL ∧ util_strlen o.name > 0) := by
        rw [himm]; simp
      simp only [himm, if_true] at h
      by_cases hv : o.value ≤ 0xFF
      · simp only [hv, if_true] at h
        obtain ⟨h1, h2⟩ := ih _ _ _ _ _ h
        refine ⟨?_, ?_⟩
        · rw [h1]; simp [encode_operands, operand_bytes, himm, hv]
        · rw [h2]
          simp [label_relocations, operand_size, himm, hv, Nat.add_assoc]
      · simp only [hv, if_false] at h
        obtain ⟨h1, h2⟩ := ih _ _ _ _ _ h
        refine ⟨?_, ?_⟩
        · rw [h1]; simp [encode_operands, operand_bytes, himm, hv]
        · rw [h2]
          simp [label_relocations, operand_size, himm, hv, Nat.add_assoc]
    · simp only [himm, if_false] at h
      by_cases hreg : o.type = OPERAND_REGISTER
      · simp only [hreg, if_true] at h
        obtain ⟨h1, h2⟩ := ih _ _ _ _ _ h
        refine ⟨?_, ?_⟩
        · rw [h1]; simp [encode_operands, operand_bytes, hreg]
        · rw [h2]
          simp [label_relocations, operand_size, hreg, Nat.add_assoc]
      · simp only [hreg, if_false] at h
        by_cases hlm : o.type = OPERAND_LABEL ∨ o.type = OPERAND_MEMORY
        · simp only [hlm, if_true] at h
          by_cases hl : o.type = OPERAND_LABEL ∧ util_strlen o.name > 0
          · simp only [hl, and_self, if_true] at h
            by_cases hfull : relocs.length ≥ CODEGEN_MAX_RELOCATIONS
            · simp [record_relocation, hfull] at h
            · simp only [record_relocation, hfull, if_false] at h
              obtain ⟨h1, h2⟩ := ih _ _ _ _ _ h
              refine ⟨?_, ?_⟩
              · rw [h1]; simp [encode_operands, operand_bytes, himm, hreg, hlm]
              · rw [h2]
                simp [label_relocations, operand_size, himm, hreg, hlm, hl, Nat.add_assoc]
          · simp only [hl, if_false] at h
            obtain ⟨h1, h2⟩ := ih _ _ _ _ _ h
            refine ⟨?_, ?_⟩
            · rw [h1]; simp [encode_operands, operand_bytes, himm, hreg, hlm]
            · rw [h2]
              simp [label_relocations, operand_size, himm, hreg, hlm, hl, Nat.add_assoc]
        · simp only [hlm, if_false] at h
          have hl : ¬ (o.type = OPERAND_LABEL ∧ util_strlen o.name > 0) :=
            fun hh => hlm (Or.inl hh.1)
          obtain ⟨h1, h2⟩ := ih _ _ _ _ _ h
          refine ⟨?_, ?_⟩
          · rw [h1]; simp [encode_operands, operand_bytes, himm, hreg, hlm]
          · rw [h2]
            simp [label_relocations, operand_size, himm, hreg, hlm, hl]

theorem label_relocations_index_ge (idx : Nat) (ops : List Operand) :
    ∀ (k0 pos : Nat), ∀ r ∈ label_relocations idx ops k0 pos, k0 ≤ r.operand_index := by
  induction ops with
  | nil => intro k0 pos r hr; simp [label_relocations] at hr
  | cons o rest ih =>
    intro k0 pos r hr
    simp only [label_relocations, List.mem_append] at hr
    rcases hr with h | h
    · split at h
      · simp only [List.mem_singleton] at h
        rw [h]
      · simp at h
    · have := ih (k0 + 1) _ r h
      omega

/-- The relocations of operand `k` among those of a record: one, at the
position of the bytes of the operand, when the operand is a label with a
non-empty name, and none otherwise. -/
theorem label_relocations_filter (idx : Nat) (ops : List Operand) :
    ∀ (k0 pos k : Nat),
      (label_relocations idx ops k0 pos).filter (fun r => decide (r.operand_index = k0 + k)) =
        match ops[k]? with
        | some o =>
          if o.type = OPERAND_LABEL ∧ util_strlen o.name > 0 then
            [{ offset := pos + ((ops.take k).map operand_size).sum, instruction_index := idx,
               operand_index := k0 + k, symbol_name := util_strcpy o.name }]
          else []
        | none => [] := by
  induction ops with
  | nil => intro k0 pos k; simp [label_relocations]
  | cons o rest ih =>
    intro k0 pos k
    cases k with
    | zero =>
      have htail : (label_relocations idx rest (k0 + 1) (pos + operand_size o)).filter
          (fun r => decide (r.operand_index = k0)) = [] := by
        rw [List.filter_eq_nil_iff]
        intro r hr
        have := label_relocations_index_ge idx rest (k0 + 1) _ r hr
        simp only [decide_eq_true_eq]
        omega
      simp only [label_relocations, List.filter_append, Nat.add_zero, htail, List.append_nil,
        List.getElem?_cons_zero, List.take_zero, List.map_nil, List.sum_nil]
      split <;> simp
    | succ k =>
      have hhead : (if o.type = OPERAND_LABEL ∧ util_strlen o.name > 0 then
            [({ offset := pos, instruction_index := idx, operand_index := k0,
                symbol_name := util_strcpy o.name } : Relocation)]
          else []).filter (fun r => decide (r.operand_index = k0 + (k + 1))) = [] := by
        split
        · simp
        · simp
      have hk : k0 + (k + 1) = k0 + 1 + k := by omega
      simp only [label_relocations, List.filter_append, hhead, List.nil_append,
        List.getElem?_cons_succ, List.take_succ_cons, List.map_cons, List.sum_cons]
      rw [hk, ih (k0 + 1) (pos + operand_size o) k]
      cases rest[k]? with
      | none => rfl
      | some o1 =>
        simp only [Nat.add_assoc]

/-- The bytes of a label or memory operand within the bytes of the operands
are `00 00`. -/
theorem encode_operands_slot (ops : List Operand) :
    ∀ (k0 k : Nat) (o : Operand), ops[k]? = some o →
      o.type = OPERAND_LABEL ∨ o.type = OPERAND_MEMORY →
      (encode_operands ops k0)[((ops.take k).map operand_size).sum]? = some 0 ∧
      (encode_operands ops k0)[((ops.take k).map operand_size).sum + 1]? = some 0 := by
  induction ops with
  | nil => intro k0 k o h; simp at h
  | cons x rest ih =>
    intro k0 k o h hty
    cases k with
    | zero =>
      simp only [List.getElem?_cons_zero, Option.some.injEq] at h
      subst h
      have hb : operand_bytes k0 x = [0, 0] := by
        unfold operand_bytes
        rcases hty with h1 | h1 <;> simp [h1]
      simp [encode_operands, hb]
    | succ k =>
      have h1 : rest[k]? = some o := by simpa using h
      obtain ⟨ha, hb⟩ := ih (k0 + 1) k o h1 hty
      have hlen := operand_bytes_length k0 x
      simp only [encode_operands, List.take_succ_cons, List.map_cons, List.sum_cons]
      constructor
      · rw [List.getElem?_append_right (by omega)]
        rw [show operand_size x + ((rest.take k).map operand_size).sum -
          (operand_bytes k0 x).length = ((rest.take k).map operand_size).sum by omega]
        exact ha
      · rw [List.getElem?_append_right (by omega)]
        rw [show operand_size x + ((rest.take k).map operand_size).sum + 1 -
          (operand_bytes k0 x).length = ((rest.take k).map operand_size).sum + 1 by omega]
        exact hb

/-- What `codegen_emit_instruction` does for an ordinary instruction when it
returns `0`. -/
theorem codegen_emit_instruction_ordinary (cg : CodeGen) (idx : Nat) (entry : InstructionEntry)
    (info : InstructionInfo) (hinfo : tables_lookup_instruction (some entry.mnemonic) = some info)
    (hord : info.is_pseudo = 0) (h0 : (codegen_emit_instruction cg idx entry).1 = 0) :
    (codegen_emit_instruction cg idx entry).2.1.code_buffer =
      cg.code_buffer ++ info.opcode :: encode_operands entry.operands 0 ∧
    (codegen_emit_instruction cg idx entry).2.1.relocations =
      cg.relocations ++ label_relocations idx entry.operands 0 (cg.code_size + 1) ∧
    (codegen_emit_instruction cg idx entry).2.2 = [] := by
  unfold codegen_emit_instruction at h0 ⊢
  split at h0
  · simp at h0
  · next hroom =>
    simp only [hroom, if_false, hinfo, hord, ne_eq, not_true_eq_false] at h0 ⊢
    cases hem : emit_operands cg.code_size idx entry.operands 0 [info.opcode] cg.relocations with
    | mk code relocs =>
      cases code with
      | none => rw [hem] at h0; simp at h0
      | some code =>
        obtain ⟨h1, h2⟩ := emit_operands_spec _ _ _ _ _ _ _ _ hem
        simp only [h1, h2, List.singleton_append, List.length_singleton, and_self, and_true]

theorem emit_all_append (l1 : List InstructionEntry) :
    ∀ (l2 : List InstructionEntry) (idx : Nat) (cg : CodeGen) (errs : List ErrorReport),
      emit_all (l1 ++ l2) idx cg errs =
        emit_all l2 (idx + l1.length) (emit_all l1 idx cg errs).1 (emit_all l1 idx cg errs).2 := by
  induction l1 with
  | nil => intro l2 idx cg errs; simp [emit_all]
  | cons e rest ih =>
    intro l2 idx cg errs
    have hidx : idx + (e :: rest).length = idx + 1 + rest.length := by
      simp only [List.length_cons]; omega
    rw [List.cons_append, emit_all, emit_all, hidx]
    simp only
    split
    · rw [ih]
    · rw [ih]

theorem codegen_emit_instruction_status (cg : CodeGen) (idx : Nat) (entry : InstructionEntry)
    (h : ¬ (codegen_emit_instruction cg idx entry).1 < 0) :
    (codegen_emit_instruction cg idx entry).1 = 0 := by
  rcases codegen_emit_instruction_size cg idx entry with hs | hs
  · rw [hs] at h; exact absurd (by decide) h
  · exact hs.1

/-- A call of `codegen_emit_instruction` that returns `0` only appends to the
relocation table. -/
theorem codegen_emit_instruction_relocations (cg : CodeGen) (idx : Nat)
    (entry : InstructionEntry) (h0 : (codegen_emit_instruction cg idx entry).1 = 0) :
    ∃ more, (codegen_emit_instruction cg idx entry).2.1.relocations = cg.relocations ++ more := by
  cases hinfo : tables_lookup_instruction (some entry.mnemonic) with
  | none =>
    rw [codegen_emit_instruction_unknown cg idx entry hinfo] at h0
    exact absurd h0 (by decide)
  | some info =>
    by_cases hord : info.is_pseudo = 0
    · exact ⟨_, (codegen_emit_instruction_ordinary cg idx entry info hinfo hord h0).2.1⟩
    · refine ⟨[], ?_⟩
      unfold codegen_emit_instruction
      split
      · simp
      · simp only [hinfo, ne_eq, hord, not_false_eq_true, if_true, List.append_nil]
        split
        · split
          · split <;> rfl
          · rfl
        · rfl

/-- An emission loop that ends without the error flag has only appended to
the relocation table. -/
theorem emit_all_relocations (entries : List InstructionEntry) :
    ∀ (idx : Nat) (cg : CodeGen) (errs : List ErrorReport),
      (emit_all entries idx cg errs).1.has_errors = false →
      ∃ more, (emit_all entries idx cg errs).1.relocations = cg.relocations ++ more := by
  induction entries with
  | nil => intro idx cg errs _; exact ⟨[], by simp [emit_all]⟩
  | cons e rest ih =>
    intro idx cg errs h
    unfold emit_all at h ⊢
    simp only at h ⊢
    by_cases hlt : (codegen_emit_instruction cg idx e).1 < 0
    · rw [if_pos hlt] at h
      have := (emit_all_keeps_errors rest (idx + 1)
        { (codegen_emit_instruction cg idx e).2.1 with has_errors := true }
        (errs ++ (codegen_emit_instruction cg idx e).2.2 ++
          [{ line := e.line, code := ERR_PARSE_UNK_MNEMONIC }])).1 rfl
      rw [this] at h
      cases h
    · rw [if_neg hlt] at h ⊢
      obtain ⟨more, hm⟩ := ih _ _ _ h
      obtain ⟨more1, hm1⟩ := codegen_emit_instruction_relocations cg idx e
        (codegen_emit_instruction_status cg idx e hlt)
      exact ⟨more1 ++ more, by rw [hm, hm1, List.append_assoc]⟩

/-- In a pass two that succeeds, the call of `codegen_emit_instruction` for
record `j` returns `0`, and what it has put into the relocation table is still
there at the end. -/
theorem emit_state_step (p : PassOne) (j : Nat) (e : InstructionEntry)
    (he : p.instructions[j]? = some e)
    (hf : (codegen_emit_records p).1.has_errors = false) :
    (codegen_emit_instruction (emit_state p j) j e).1 = 0 ∧
    ∃ more, (codegen_emit_records p).1.relocations =
      (codegen_emit_instruction (emit_state p j) j e).2.1.relocations ++ more := by
  have hsplit : p.instructions = p.instructions.take j ++ e :: p.instructions.drop (j + 1) := by
    have hj : j < p.instructions.length := by
      rcases Nat.lt_or_ge j p.instructions.length with h | h
      · exact h
      · rw [List.getElem?_eq_none h] at he; cases he
    have hget : p.instructions[j] = e := by
      rw [List.getElem?_eq_getElem hj] at he
      exact Option.some.inj he
    rw [← hget, ← List.drop_eq_getElem_cons hj, List.take_append_drop]
  have hlen : (p.instructions.take j).length = j := by
    have hj : j < p.instructions.length := by
      rcases Nat.lt_or_ge j p.instructions.length with h | h
      · exact h
      · rw [List.getElem?_eq_none h] at he; cases he
    simp; omega
  have hE : codegen_emit_records p =
      emit_all (e :: p.instructions.drop (j + 1)) j (emit_state p j)
        (emit_all (p.instructions.take j) 0
          { code_buffer := [], relocations := [], has_errors := false } []).2 := by
    unfold codegen_emit_records emit_state
    conv_lhs => rw [hsplit]
    rw [emit_all_append, hlen, Nat.zero_add]
  rw [hE] at hf ⊢
  unfold emit_all at hf ⊢
  simp only at hf ⊢
  by_cases hlt : (codegen_emit_instruction (emit_state p j) j e).1 < 0
  · rw [if_pos hlt] at hf
    have := (emit_all_keeps_errors (p.instructions.drop (j + 1)) (j + 1)
      { (codegen_emit_instruction (emit_state p j) j e).2.1 with has_errors := true }
      ((emit_all (p.instructions.take j) 0
          { code_buffer := [], relocations := [], has_errors := false } []).2 ++
        (codegen_emit_instruction (emit_state p j) j e).2.2 ++
        [{ line := e.line, code := ERR_PARSE_UNK_MNEMONIC }])).1 rfl
    rw [this] at hf
    cases hf
  · rw [if_neg hlt] at hf ⊢
    exact ⟨codegen_emit_instruction_status _ _ _ hlt, emit_all_relocations _ _ _ _ hf⟩

/-! ## Statement analysis in two token arrays -/

/-- At an offset of the window the two arrays both end, or hold the same token
up to its line. -/
theorem Window.read {T1 T2 : List Token} {i j : Nat} {ok : Nat → Prop}
    (W : Window T1 T2 i j ok) {k : Nat} (hk : ok k) (x y : Nat) (hx : x = i + k)
    (hy : y = j + k) :
    (T1[x]? = none ∧ T2[y]? = none) ∨
    ∃ a l, T1[x]? = some a ∧ T2[y]? = some { a with line := l } := by
  subst hx hy
  have h := W.agree k hk
  cases h1 : T1[i + k]? with
  | none =>
    rw [h1] at h
    cases h2 : T2[j + k]? with
    | none => exact Or.inl ⟨rfl, rfl⟩
    | some b => rw [h2] at h; simp at h
  | some a =>
    rw [h1] at h
    cases h2 : T2[j + k]? with
    | none => rw [h2] at h; simp at h
    | some b =>
      rw [h2] at h
      simp only [Option.map_some', Option.some.injEq, Token.unline, Token.mk.injEq,
        and_true, true_and] at h
      refine Or.inr ⟨a, b.line, rfl, ?_⟩
      obtain ⟨h3, h4, h5⟩ := h
      cases a; cases b
      simp_all

theorem Window.same_type_test {T1 T2 : List Token} {i j : Nat} {ok : Nat → Prop}
    (W : Window T1 T2 i j ok) {k : Nat} (hk : ok k) (x y : Nat) (hx : x = i + k)
    (hy : y = j + k) (ty : TokenType) :
    token_type_is T1 x ty = token_type_is T2 y ty := by
  have hb := W.bound k hk
  have hx1 : x < 65535 := by omega
  have hy1 : y < 65535 := by omega
  rcases W.read hk x y hx hy with ⟨h1, h2⟩ | ⟨a, l, h1, h2⟩ <;>
    simp [token_type_is, read_token, h1, h2, hx1, hy1]

theorem agree_of_error {α : Type} {e1 e2 : Except Fault α} {P : α → Prop} (f0 : Fault)
    (h1 : e1 = .error f0) (h2 : e2 = .error f0) :
    (∀ f, e1 = .error f → e2 = .error f) ∧ (∀ r, e1 = .ok r → P r) := by
  subst h1 h2
  exact ⟨fun f hf => hf, fun r hr => (by cases hr)⟩

theorem agree_of_ok {α : Type} {e1 e2 : Except Fault α} {P : α → Prop} (r0 : α)
    (h1 : e1 = .ok r0) (hp : P r0) :
    (∀ f, e1 = .error f → e2 = .error f) ∧ (∀ r, e1 = .ok r → P r) := by
  subst h1
  exact ⟨fun f hf => (by cases hf), fun r hr => (by cases hr; exact hp)⟩

theorem Token.ends_line_false {t : Token} (h1 : t.type ≠ TOK_NEWLINE) (h2 : t.type ≠ TOK_EOF) :
    t.ends_line = false := by
  simp [Token.ends_line, h1, h2]

theorem Token.ends_line_of_type {t : Token} {ty : TokenType} (h : t.type = ty)
    (h1 : ty ≠ TOK_NEWLINE) (h2 : ty ≠ TOK_EOF) : t.ends_line = false := by
  subst h
  exact Token.ends_line_false h1 h2

/-- The tail of an operand round reads the same in both arrays of a window. -/
theorem Window.same_operand_suffix {T1 T2 : List Token} {i j : Nat} {ok : Nat → Prop}
    (W : Window T1 T2 i j ok) {k : Nat} (hk1 : ok (k + 1)) (x y : Nat) (hx : x = i + k)
    (hy : y = j + k) (c : Nat) (ops : List Operand) (op : Operand) :
    (∀ f, operand_suffix T1 x c ops op = .error f → operand_suffix T2 y c ops op = .error f) ∧
    (∀ r, operand_suffix T1 x c ops op = .ok r →
      ∃ k1, ok k1 ∧ r.1 = i + k1 ∧ r.2.1 + k = c + k1 ∧
        operand_suffix T2 y c ops op = .ok (j + k1, r.2)) := by
  subst hx hy
  have hb1 := W.bound (k + 1) hk1
  have g1 : i + k + 1 < 65535 := by omega
  have g2 : j + k + 1 < 65535 := by omega
  have g3 : i + k + 1 + 1 < 65535 := by omega
  have g4 : j + k + 1 + 1 < 65535 := by omega
  rcases W.read hk1 (i + k + 1) (j + k + 1) rfl rfl with ⟨h1, h2⟩ | ⟨a1, l1, h1, h2⟩
  · exact agree_of_error Fault.out_of_bounds
      (by simp [operand_suffix, token_type_is, read_token, bind, Except.bind, h1, g1])
      (by simp [operand_suffix, token_type_is, read_token, bind, Except.bind, h2, g2])
  · by_cases hcolon : a1.type = TOK_COLON
    · have hk2 : ok (k + 2) :=
        W.next (k + 1) a1 hk1 h1 (Token.ends_line_of_type hcolon (by decide) (by decide))
      have hb2 := W.bound (k + 2) hk2
      rcases W.read hk2 (i + k + 1 + 1) (j + k + 1 + 1) rfl rfl with ⟨h3, h4⟩ | ⟨a2, l2, h3, h4⟩
      · exact agree_of_error Fault.out_of_bounds
          (by simp [operand_suffix, token_type_is, read_token, bind, Except.bind, h1, g1, g3,
            hcolon, h3])
          (by simp [operand_suffix, token_type_is, read_token, bind, Except.bind, h2, g2, g4,
            hcolon, h4])
      · by_cases hident : a2.type = TOK_IDENTIFIER
        · have hk3 : ok (k + 3) :=
            W.next (k + 2) a2 hk2 h3 (Token.ends_line_of_type hident (by decide) (by decide))
          have hb3 := W.bound (k + 3) hk3
          have g5 : i + k + 1 + 2 < 65535 := by omega
          have g6 : j + k + 1 + 2 < 65535 := by omega
          cases hlex : a2.lexeme with
          | none =>
            exact agree_of_error Fault.null_lexeme
              (by simp [operand_suffix, token_type_is, read_token, token_lexeme, bind,
                Except.bind, pure, Except.pure, h1, g1, g3, hcolon, h3, hident, hlex])
              (by simp [operand_suffix, token_type_is, read_token, token_lexeme, bind,
                Except.bind, pure, Except.pure, h2, g2, g4, hcolon, h4, hident, hlex])
          | some s =>
            rcases W.read hk3 (i + k + 1 + 2) (j + k + 1 + 2) rfl rfl with
              ⟨h5, h6⟩ | ⟨a3, l3, h5, h6⟩
            · exact agree_of_error Fault.out_of_bounds
                (by simp [operand_suffix, token_type_is, read_token, token_lexeme, bind,
                  Except.bind, pure, Except.pure, h1, g1, g3, g5, hcolon, h3, hident, hlex, h5])
                (by simp [operand_suffix, token_type_is, read_token, token_lexeme, bind,
                  Except.bind, pure, Except.pure, h2, g2, g4, g6, hcolon, h4, hident, hlex, h6])
            · by_cases hcomma : a3.type = TOK_COMMA
              · have hk4 : ok (k + 4) :=
                  W.next (k + 3) a3 hk3 h5
                    (Token.ends_line_of_type hcomma (by decide) (by decide))
                refine agree_of_ok (i + k + 1 + 2 + 1, c + 1 + 2 + 1,
                    ops ++ [{ op with name := op.name ++ [58] ++ util_strcpy s }], true)
                  (by simp [operand_suffix, token_type_is, read_token, token_lexeme, bind,
                    Except.bind, pure, Except.pure, h1, g1, g3, g5, hcolon, h3, hident, hlex,
                    h5, hcomma])
                  ⟨k + 4, hk4, by omega, by simp only; omega, ?_⟩
                simp [operand_suffix, token_type_is, read_token, token_lexeme, bind,
                  Except.bind, pure, Except.pure, h2, g2, g4, g6, hcolon, h4, hident, hlex,
                  h6, hcomma]
                omega
              · refine agree_of_ok (i + k + 1 + 2, c + 1 + 2,
                    ops ++ [{ op with name := op.name ++ [58] ++ util_strcpy s }], false)
                  (by simp [operand_suffix, token_type_is, read_token, token_lexeme, bind,
                    Except.bind, pure, Except.pure, h1, g1, g3, g5, hcolon, h3, hident, hlex,
                    h5, hcomma])
                  ⟨k + 3, hk3, by omega, by simp only; omega, ?_⟩
                simp [operand_suffix, token_type_is, read_token, token_lexeme, bind,
                  Except.bind, pure, Except.pure, h2, g2, g4, g6, hcolon, h4, hident, hlex,
                  h6, hcomma]
                omega
        · refine agree_of_ok (i + k + 1, c + 1, ops ++ [op], false)
            (by simp [operand_suffix, token_type_is, read_token, token_lexeme, bind,
              Except.bind, pure, Except.pure, h1, g1, g3, hcolon, h3, hident])
            ⟨k + 1, hk1, by omega, by simp only; omega, ?_⟩
          simp [operand_suffix, token_type_is, read_token, token_lexeme, bind,
            Except.bind, pure, Except.pure, h2, g2, g4, hcolon, h4, hident]
          omega
    · by_cases hcomma : a1.type = TOK_COMMA
      · have hk2 : ok (k + 2) :=
          W.next (k + 1) a1 hk1 h1 (Token.ends_line_of_type hcomma (by decide) (by decide))
        refine agree_of_ok (i + k + 1 + 1, c + 1 + 1, ops ++ [op], true)
          (by simp [operand_suffix, token_type_is, read_token, token_lexeme, bind,
            Except.bind, pure, Except.pure, h1, g1, hcolon, hcomma])
          ⟨k + 2, hk2, by omega, by simp only; omega, ?_⟩
        simp [operand_suffix, token_type_is, read_token, token_lexeme, bind,
          Except.bind, pure, Except.pure, h2, g2, hcolon, hcomma]
        omega
      · refine agree_of_ok (i + k + 1, c + 1, ops ++ [op], false)
          (by simp [operand_suffix, token_type_is, read_token, token_lexeme, bind,
            Except.bind, pure, Except.pure, h1, g1, hcolon, hcomma])
          ⟨k + 1, hk1, by omega, by simp only; omega, ?_⟩
        simp [operand_suffix, token_type_is, read_token, token_lexeme, bind,
          Except.bind, pure, Except.pure, h2, g2, hcolon, hcomma]
        omega

/-- A memory operand is read the same in both arrays of a window. -/
theorem Window.same_memory_operand {T1 T2 : List Token} {i j : Nat} {ok : Nat → Prop}
    (W : Window T1 T2 i j ok) {k : Nat} (hk : ok k) (t : Token) (x y : Nat) (hx : x = i + k)
    (hy : y = j + k) (ht : T1[x]? = some t) (hty : t.type = TOK_LBRACKET) (c : Nat)
    (ops : List Operand) :
    (∀ f, memory_operand T1 x c ops = .error f → memory_operand T2 y c ops = .error f) ∧
    (∀ r, memory_operand T1 x c ops = .ok r →
      ∃ k1, ok k1 ∧ r.1 = i + k1 ∧ r.2.1 + k = c + k1 ∧
        memory_operand T2 y c ops = .ok (j + k1, r.2)) := by
  subst hx hy
  have hk1 : ok (k + 1) :=
    W.next k t hk ht (Token.ends_line_of_type hty (by decide) (by decide))
  have hk2 : ok (k + 2) := W.bracket k t hk ht hty
  have hb2 := W.bound (k + 2) hk2
  have g1 : i + k + 2 < 65535 := by omega
  have g2 : j + k + 2 < 65535 := by omega
  have g3 : i + k + 3 < 65535 := by omega
  have g4 : j + k + 3 < 65535 := by omega
  rcases W.read hk1 (i + k + 1) (j + k + 1) rfl rfl with ⟨h1, h2⟩ | ⟨a1, l1, h1, h2⟩
  · exact agree_of_error Fault.out_of_bounds
      (by simp [memory_operand, read_token, bind, Except.bind, h1])
      (by simp [memory_operand, read_token, bind, Except.bind, h2])
  · rcases W.read hk2 (i + k + 2) (j + k + 2) rfl rfl with ⟨h3, h4⟩ | ⟨a2, l2, h3, h4⟩
    · by_cases hnum : a1.type = TOK_NUMBER
      · exact agree_of_error Fault.out_of_bounds
          (by simp [memory_operand, read_token, bind, Except.bind, pure, Except.pure, h1, h3, hnum])
          (by simp [memory_operand, read_token, bind, Except.bind, pure, Except.pure, h2, h4, hnum])
      · by_cases hident : a1.type = TOK_IDENTIFIER
        · cases hlex : a1.lexeme with
          | none =>
            exact agree_of_error Fault.null_lexeme
              (by simp [memory_operand, read_token, token_lexeme, bind, Except.bind, pure,
                Except.pure, h1, h3, hident, hlex])
              (by simp [memory_operand, read_token, token_lexeme, bind, Except.bind, pure,
                Except.pure, h2, h4, hident, hlex])
          | some s =>
            exact agree_of_error Fault.out_of_bounds
              (by simp [memory_operand, read_token, token_lexeme, bind, Except.bind, pure,
                Except.pure, h1, h3, hident, hlex])
              (by simp [memory_operand, read_token, token_lexeme, bind, Except.bind, pure,
                Except.pure, h2, h4, hident, hlex])
        · exact agree_of_error Fault.out_of_bounds
            (by simp [memory_operand, read_token, token_lexeme, bind, Except.bind, pure,
              Except.pure, h1, h3, hident, hnum])
            (by simp [memory_operand, read_token, token_lexeme, bind, Except.bind, pure,
              Except.pure, h2, h4, hident, hnum])
    · by_cases hnull : a1.type = TOK_IDENTIFIER ∧ a1.lexeme = none
      · exact agree_of_error Fault.null_lexeme
          (by simp [memory_operand, read_token, token_lexeme, bind, Except.bind, pure,
            Except.pure, h1, h3, hnull.1, hnull.2])
          (by simp [memory_operand, read_token, token_lexeme, bind, Except.bind, pure,
            Except.pure, h2, h4, hnull.1, hnull.2])
      · -- the operand, which is the same on both sides
        obtain ⟨op, hop1, hop2⟩ : ∃ op : Operand,
            (∀ (T : List Token) (z : Nat) (a : Token), T[z + 1]? = some a →
              a.type = a1.type → a.lexeme = a1.lexeme → a.int_value = a1.int_value →
              ∀ (a' : Token), T[z + 2]? = some a' → z + 3 < 65535 →
              memory_operand T z c ops =
                (if a'.type = TOK_RBRACKET then
                  match T[z + 3]? with
                  | none => .error Fault.out_of_bounds
                  | some a3 =>
                    if a3.type = TOK_COMMA then .ok (z + 3 + 1, c + 3 + 1, ops ++ [op])
                    else .ok (z + 3, c + 3, ops ++ [op])
                 else if a'.type = TOK_COMMA then .ok (z + 2 + 1, c + 2 + 1, ops ++ [op])
                 else .ok (z + 2, c + 2, ops ++ [op]))) ∧ True := by
          by_cases hnum : a1.type = TOK_NUMBER
          · refine ⟨{ type := OPERAND_MEMORY, value := a1.int_value, name := [] }, ?_, trivial⟩
            intro T z a ha hty1 hlex1 hval1 a' ha' hz
            have hz2 : z + 2 < 65535 := by omega
            by_cases hrb : a'.type = TOK_RBRACKET
            · cases h3' : T[z + 3]? with
              | none =>
                simp [memory_operand, read_token, token_type_is, bind, Except.bind, pure,
                  Except.pure, ha, ha', hty1, hnum, hval1, hrb, h3', hz]
              | some a3 =>
                by_cases hc : a3.type = TOK_COMMA <;>
                  simp [memory_operand, read_token, token_type_is, bind, Except.bind, pure,
                    Except.pure, ha, ha', hty1, hnum, hval1, hrb, h3', hz, hc]
            · by_cases hc : a'.type = TOK_COMMA <;>
                simp [memory_operand, read_token, token_type_is, bind, Except.bind, pure,
                  Except.pure, ha, ha', hty1, hnum, hval1, hrb, hz2, hc]
          · by_cases hident : a1.type = TOK_IDENTIFIER
            · cases hlex : a1.lexeme with
              | none => exact absurd ⟨hident, hlex⟩ hnull
              | some s =>
                refine ⟨{ type := OPERAND_MEMORY, value := 0, name := util_strcpy s }, ?_,
                  trivial⟩
                intro T z a ha hty1 hlex1 hval1 a' ha' hz
                have hz2 : z + 2 < 65535 := by omega
                by_cases hrb : a'.type = TOK_RBRACKET
                · cases h3' : T[z + 3]? with
                  | none =>
                    simp [memory_operand, read_token, token_type_is, token_lexeme, bind,
                      Except.bind, pure, Except.pure, ha, ha', hty1, hident, hlex1, hrb, h3',
                      hz]
                  | some a3 =>
                    by_cases hc : a3.type = TOK_COMMA <;>
                      simp [memory_operand, read_token, token_type_is, token_lexeme, bind,
                        Except.bind, pure, Except.pure, ha, ha', hty1, hident, hlex1, hrb, h3',
                        hz, hc]
                · by_cases hc : a'.type = TOK_COMMA <;>
                    simp [memory_operand, read_token, token_type_is, token_lexeme, bind,
                      Except.bind, pure, Except.pure, ha, ha', hty1, hident, hlex1, hrb, hz2,
                      hc]
            · refine ⟨{ type := OPERAND_MEMORY, value := 0, name := [] }, ?_, trivial⟩
              intro T z a ha hty1 hlex1 hval1 a' ha' hz
              have hz2 : z + 2 < 65535 := by omega
              by_cases hrb : a'.type = TOK_RBRACKET
              · cases h3' : T[z + 3]? with
                | none =>
                  simp [memory_operand, read_token, token_type_is, token_lexeme, bind,
                    Except.bind, pure, Except.pure, ha, ha', hty1, hident, hnum, hrb, h3', hz]
                | some a3 =>
                  by_cases hc : a3.type = TOK_COMMA <;>
                    simp [memory_operand, read_token, token_type_is, token_lexeme, bind,
                      Except.bind, pure, Except.pure, ha, ha', hty1, hident, hnum, hrb, h3',
                      hz, hc]
              · by_cases hc : a'.type = TOK_COMMA <;>
                  simp [memory_operand, read_token, token_type_is, token_lexeme, bind,
                    Except.bind, pure, Except.pure, ha, ha', hty1, hident, hnum, hrb, hz2, hc]
        have e1 := hop1 T1 (i + k) a1 h1 rfl rfl rfl a2 h3 g3
        have e2 := hop1 T2 (j + k) _ h2 rfl rfl rfl _ h4 g4
        simp only at e2
        rw [e1, e2]
        by_cases hrb : a2.type = TOK_RBRACKET
        · have hk3 : ok (k + 3) :=
            W.next (k + 2) a2 hk2 h3 (Token.ends_line_of_type hrb (by decide) (by decide))
          rw [if_pos hrb, if_pos hrb]
          rcases W.read hk3 (i + k + 3) (j + k + 3) rfl rfl with ⟨h5, h6⟩ | ⟨a3, l3, h5, h6⟩
          · rw [h5, h6]
            exact agree_of_error Fault.out_of_bounds rfl rfl
          · rw [h5, h6]
            simp only
            by_cases hc : a3.type = TOK_COMMA
            · have hk4 : ok (k + 4) :=
                W.next (k + 3) a3 hk3 h5 (Token.ends_line_of_type hc (by decide) (by decide))
              rw [if_pos hc, if_pos hc]
              exact agree_of_ok _ rfl ⟨k + 4, hk4, by simp only; omega, by simp only; omega,
                by simp only; congr 2⟩
            · rw [if_neg hc, if_neg hc]
              exact agree_of_ok _ rfl ⟨k + 3, hk3, by simp only; omega, by simp only; omega,
                by simp only; congr 2⟩
        · rw [if_neg hrb, if_neg hrb]
          by_cases hc : a2.type = TOK_COMMA
          · have hk3 : ok (k + 3) :=
              W.next (k + 2) a2 hk2 h3 (Token.ends_line_of_type hc (by decide) (by decide))
            rw [if_pos hc, if_pos hc]
            exact agree_of_ok _ rfl ⟨k + 3, hk3, by simp only; omega, by simp only; omega,
              by simp only; congr 2⟩
          · rw [if_neg hc, if_neg hc]
            exact agree_of_ok _ rfl ⟨k + 2, hk2, by simp only; omega, by simp only; omega,
              by simp only; congr 2⟩

/-- The operand loop reads the same in both arrays of a window, and ends at an
offset of the window. -/
theorem Window.same_parse_operands {T1 T2 : List Token} {i j : Nat} {ok : Nat → Prop}
    (W : Window T1 T2 i j ok) (fuel : Nat) :
    ∀ (k c : Nat) (ops : List Operand), ok k →
      parse_operands fuel T1 (i + k) c ops = parse_operands fuel T2 (j + k) c ops ∧
      ∀ r, parse_operands fuel T1 (i + k) c ops = .ok r → ∃ k1, ok k1 ∧ r.1 + k = c + k1 := by
  induction fuel with
  | zero =>
    intro k c ops hk
    refine ⟨rfl, ?_⟩
    intro r hr
    simp only [parse_operands, Except.ok.injEq] at hr
    subst hr
    exact ⟨k, hk, rfl⟩
  | succ fuel ih =>
    intro k c ops hk
    have hx : i + k = i + k := rfl
    have hy : j + k = j + k := rfl
    have hb := W.bound k hk
    have gx : i + k < 65535 := by omega
    have gy : j + k < 65535 := by omega
    rcases W.read hk (i + k) (j + k) hx hy with ⟨h1, h2⟩ | ⟨a, l, h1, h2⟩
    · refine ⟨?_, ?_⟩
      · simp [parse_operands, read_token, h1, h2, gx, gy]
      · intro r hr
        simp [parse_operands, read_token, h1, gx] at hr
    · by_cases hcond : a.type ≠ TOK_NEWLINE ∧ a.type ≠ TOK_EOF ∧
          ops.length < SEMANTIC_MAX_OPERANDS
      · have hk1 : ok (k + 1) := W.next k a hk h1 (Token.ends_line_false hcond.1 hcond.2.1)
        by_cases hident : a.type = TOK_IDENTIFIER
        · cases hlex : a.lexeme with
          | none =>
            refine ⟨?_, ?_⟩
            · simp [parse_operands, read_token, token_lexeme, h1, h2, gx, gy, hcond, hident, hlex]
            · intro r hr
              simp [parse_operands, read_token, token_lexeme, h1, gx, hcond, hident, hlex] at hr
          | some s =>
            have e1 : parse_operands (fuel + 1) T1 (i + k) c ops =
                match operand_suffix T1 (i + k) c ops (identifier_operand (util_strcpy s)) with
                | .error f => .error f
                | .ok r =>
                  if r.2.2.2 then parse_operands fuel T1 r.1 r.2.1 r.2.2.1
                  else .ok (r.2.1, r.2.2.1) := by
              simp [parse_operands, read_token, token_lexeme, h1, gx, hcond, hident, hlex]
            have e2 : parse_operands (fuel + 1) T2 (j + k) c ops =
                match operand_suffix T2 (j + k) c ops (identifier_operand (util_strcpy s)) with
                | .error f => .error f
                | .ok r =>
                  if r.2.2.2 then parse_operands fuel T2 r.1 r.2.1 r.2.2.1
                  else .ok (r.2.1, r.2.2.1) := by
              simp [parse_operands, read_token, token_lexeme, h2, gy, hcond, hident, hlex]
            rw [e1, e2]
            obtain ⟨he, ho⟩ := W.same_operand_suffix hk1 (i + k) (j + k) hx hy c ops
              (identifier_operand (util_strcpy s))
            cases hs : operand_suffix T1 (i + k) c ops (identifier_operand (util_strcpy s)) with
            | error f =>
              rw [he f hs]
              exact ⟨rfl, fun r hr => by cases hr⟩
            | ok r =>
              obtain ⟨k1, hk1', hr1, hr2, hs2⟩ := ho r hs
              rw [hs2]
              simp only
              by_cases hgo : r.2.2.2 = true
              · rw [if_pos hgo, if_pos hgo, hr1]
                obtain ⟨ih1, ih2⟩ := ih k1 r.2.1 r.2.2.1 hk1'
                refine ⟨ih1, ?_⟩
                intro r' hr'
                obtain ⟨k2, hk2, hr2'⟩ := ih2 r' hr'
                exact ⟨k2, hk2, by omega⟩
              · rw [if_neg hgo, if_neg hgo]
                refine ⟨rfl, ?_⟩
                intro r' hr'
                simp only [Except.ok.injEq] at hr'
                subst hr'
                exact ⟨k1, hk1', hr2⟩
        · by_cases hnum : a.type = TOK_NUMBER
          · have e1 : parse_operands (fuel + 1) T1 (i + k) c ops =
                match operand_suffix T1 (i + k) c ops
                    { type := OPERAND_IMMEDIATE, value := a.int_value, name := [] } with
                | .error f => .error f
                | .ok r =>
                  if r.2.2.2 then parse_operands fuel T1 r.1 r.2.1 r.2.2.1
                  else .ok (r.2.1, r.2.2.1) := by
              simp [parse_operands, read_token, h1, gx, hcond, hident, hnum]
            have e2 : parse_operands (fuel + 1) T2 (j + k) c ops =
                match operand_suffix T2 (j + k) c ops
                    { type := OPERAND_IMMEDIATE, value := a.int_value, name := [] } with
                | .error f => .error f
                | .ok r =>
                  if r.2.2.2 then parse_operands fuel T2 r.1 r.2.1 r.2.2.1
                  else .ok (r.2.1, r.2.2.1) := by
              simp [parse_operands, read_token, h2, gy, hcond, hident, hnum]
            rw [e1, e2]
            obtain ⟨he, ho⟩ := W.same_operand_suffix hk1 (i + k) (j + k) hx hy c ops
              { type := OPERAND_IMMEDIATE, value := a.int_value, name := [] }
            cases hs : operand_suffix T1 (i + k) c ops
                { type := OPERAND_IMMEDIATE, value := a.int_value, name := [] } with
            | error f =>
              rw [he f hs]
              exact ⟨rfl, fun r hr => by cases hr⟩
            | ok r =>
              obtain ⟨k1, hk1', hr1, hr2, hs2⟩ := ho r hs
              rw [hs2]
              simp only
              by_cases hgo : r.2.2.2 = true
              · rw [if_pos hgo, if_pos hgo, hr1]
                obtain ⟨ih1, ih2⟩ := ih k1 r.2.1 r.2.2.1 hk1'
                refine ⟨ih1, ?_⟩
                intro r' hr'
                obtain ⟨k2, hk2, hr2'⟩ := ih2 r' hr'
                exact ⟨k2, hk2, by omega⟩
              · rw [if_neg hgo, if_neg hgo]
                refine ⟨rfl, ?_⟩
                intro r' hr'
                simp only [Except.ok.injEq] at hr'
                subst hr'
                exact ⟨k1, hk1', hr2⟩
          · by_cases hbr : a.type = TOK_LBRACKET
            · have e1 : parse_operands (fuel + 1) T1 (i + k) c ops =
                  match memory_operand T1 (i + k) c ops with
                  | .error f => .error f
                  | .ok r => parse_operands fuel T1 r.1 r.2.1 r.2.2 := by
                simp [parse_operands, read_token, h1, gx, hcond, hident, hnum, hbr]
              have e2 : parse_operands (fuel + 1) T2 (j + k) c ops =
                  match memory_operand T2 (j + k) c ops with
                  | .error f => .error f
                  | .ok r => parse_operands fuel T2 r.1 r.2.1 r.2.2 := by
                simp [parse_operands, read_token, h2, gy, hcond, hident, hnum, hbr]
              rw [e1, e2]
              obtain ⟨he, ho⟩ := W.same_memory_operand hk a (i + k) (j + k) hx hy h1 hbr c ops
              cases hs : memory_operand T1 (i + k) c ops with
              | error f =>
                rw [he f hs]
                exact ⟨rfl, fun r hr => by cases hr⟩
              | ok r =>
                obtain ⟨k1, hk1', hr1, hr2, hs2⟩ := ho r hs
                rw [hs2]
                simp only
                rw [hr1]
                obtain ⟨ih1, ih2⟩ := ih k1 r.2.1 r.2.2 hk1'
                refine ⟨ih1, ?_⟩
                intro r' hr'
                obtain ⟨k2, hk2, hr2'⟩ := ih2 r' hr'
                exact ⟨k2, hk2, by omega⟩
            · refine ⟨?_, ?_⟩
              · simp [parse_operands, read_token, h1, h2, gx, gy, hcond, hident, hnum, hbr]
              · intro r hr
                simp [parse_operands, read_token, h1, gx, hcond, hident, hnum, hbr] at hr
                subst hr
                exact ⟨k, hk, rfl⟩
      · refine ⟨?_, ?_⟩
        · simp [parse_operands, read_token, h1, h2, gx, gy, hcond]
        · intro r hr
          simp [parse_operands, read_token, h1, gx, hcond] at hr
          subst hr
          exact ⟨k, hk, rfl⟩

/-- Closing step for a statement whose operands are read by the operand loop:
`g` builds the record from the operands. -/
theorem Window.finish_operands {T1 T2 : List Token} {i j : Nat} {ok : Nat → Prop}
    (W : Window T1 T2 i j ok) {k m c : Nat} (hk : ok (k + m)) (ops : List Operand)
    (g : List Operand → InstructionEntry)
    (e1 e2 : Except Fault (Option (InstructionEntry × Nat)))
    (h1 : e1 = match parse_operands 4 T1 (i + k + m) (c + m) ops with
               | .error f => .error f
               | .ok r => .ok (some (g r.2, r.1)))
    (h2 : e2 = match parse_operands 4 T2 (j + k + m) (c + m) ops with
               | .error f => .error f
               | .ok r => .ok (some (g r.2, r.1))) :
    e1 = e2 ∧ ∀ e n, e1 = .ok (some (e, n)) → ∃ k1, ok k1 ∧ n + k = c + k1 := by
  obtain ⟨hp, hq⟩ := W.same_parse_operands 4 (k + m) (c + m) ops hk
  have hp' : parse_operands 4 T1 (i + k + m) (c + m) ops =
      parse_operands 4 T2 (j + k + m) (c + m) ops := by
    rw [Nat.add_assoc, Nat.add_assoc]; exact hp
  have hq' : ∀ r, parse_operands 4 T1 (i + k + m) (c + m) ops = .ok r →
      ∃ k1, ok k1 ∧ r.1 + (k + m) = c + m + k1 := by
    rw [Nat.add_assoc]; exact hq
  subst h1 h2
  rw [← hp']
  refine ⟨rfl, ?_⟩
  intro e n hen
  cases hr : parse_operands 4 T1 (i + k + m) (c + m) ops with
  | error f => rw [hr] at hen; cases hen
  | ok r =>
    rw [hr] at hen
    simp only [Except.ok.injEq, Option.some.injEq, Prod.mk.injEq] at hen
    obtain ⟨k1, hk1, hrk⟩ := hq' r hr
    exact ⟨k1, hk1, by omega⟩

/-- The mnemonic and operand part of the analysis reads the same in both
arrays of a window, and ends at an offset of the window. -/
theorem Window.same_analyze_mnemonic {T1 T2 : List Token} {i j : Nat} {ok : Nat → Prop}
    (W : Window T1 T2 i j ok) {k : Nat} (hk : ok k) (c : Nat) (hl : Bool) (lab : CStr) :
    analyze_mnemonic T1 (i + k) c hl lab = analyze_mnemonic T2 (j + k) c hl lab ∧
    ∀ e n, analyze_mnemonic T1 (i + k) c hl lab = .ok (some (e, n)) →
      ∃ k1, ok k1 ∧ n + k = c + k1 := by
  have hb := W.bound k hk
  have gx : i + k < 65535 := by omega
  have gy : j + k < 65535 := by omega
  have gx1 : i + k + 1 < 65535 := by omega
  have gy1 : j + k + 1 < 65535 := by omega
  rcases W.read hk (i + k) (j + k) rfl rfl with ⟨h1, h2⟩ | ⟨a, l, h1, h2⟩
  · refine ⟨?_, ?_⟩
    · simp [analyze_mnemonic, read_token, bind, Except.bind, pure, Except.pure, h1, h2, gx, gy]
    · intro e n hen
      simp [analyze_mnemonic, read_token, bind, Except.bind, pure, Except.pure, h1, gx] at hen
  · by_cases hident : a.type = TOK_IDENTIFIER
    · have hk1 : ok (k + 1) :=
        W.next k a hk h1 (Token.ends_line_of_type hident (by decide) (by decide))
      rcases W.read hk1 (i + k + 1) (j + k + 1) rfl rfl with ⟨h3, h4⟩ | ⟨a1, l1, h3, h4⟩
      · refine ⟨?_, ?_⟩
        · simp [analyze_mnemonic, read_token, token_type_is, bind, Except.bind, pure,
            Except.pure, h1, h2, h3, h4, gx, gy, gx1, gy1, hident]
        · intro e n hen
          simp [analyze_mnemonic, read_token, token_type_is, bind, Except.bind, pure,
            Except.pure, h1, h3, gx, gx1, hident] at hen
      · cases hlex : a.lexeme with
        | none =>
          refine ⟨?_, ?_⟩
          · by_cases hid1 : a1.type = TOK_IDENTIFIER
            · cases hinfo : tables_lookup_instruction a1.lexeme <;>
                simp [analyze_mnemonic, read_token, token_type_is, token_lexeme, bind,
                  Except.bind, pure, Except.pure, h1, h2, h3, h4, gx, gy, gx1, gy1, hident,
                  hid1, hinfo, hlex]
            · simp [analyze_mnemonic, read_token, token_type_is, token_lexeme, bind,
                Except.bind, pure, Except.pure, h1, h2, h3, h4, gx, gy, gx1, gy1, hident,
                hid1, hlex]
          · intro e n hen
            by_cases hid1 : a1.type = TOK_IDENTIFIER
            · cases hinfo : tables_lookup_instruction a1.lexeme <;>
                simp [analyze_mnemonic, read_token, token_type_is, token_lexeme, bind,
                  Except.bind, pure, Except.pure, h1, h3, gx, gx1, hident, hid1, hinfo,
                  hlex] at hen
            · simp [analyze_mnemonic, read_token, token_type_is, token_lexeme, bind,
                Except.bind, pure, Except.pure, h1, h3, gx, gx1, hident, hid1, hlex] at hen
        | some s =>
          by_cases hid1 : a1.type = TOK_IDENTIFIER
          · have hk2 : ok (k + 2) :=
              W.next (k + 1) a1 hk1 h3 (Token.ends_line_of_type hid1 (by decide) (by decide))
            cases hinfo : tables_lookup_instruction a1.lexeme with
            | none =>
              refine W.finish_operands hk1 [] (fun o => mk_entry (util_strcpy s) o hl lab) _ _
                ?_ ?_
              · simp [analyze_mnemonic, read_token, token_type_is, token_lexeme, bind,
                  Except.bind, pure, Except.pure, h1, h3, gx, gx1, hident, hid1, hinfo, hlex]
                cases parse_operands 4 T1 (i + k + 1) (c + 1) [] <;> rfl
              · simp [analyze_mnemonic, read_token, token_type_is, token_lexeme, bind,
                  Except.bind, pure, Except.pure, h2, h4, gy, gy1, hident, hid1, hinfo, hlex]
                cases parse_operands 4 T2 (j + k + 1) (c + 1) [] <;> rfl
            | some info =>
              cases hlex1 : a1.lexeme with
              | none =>
                rw [hlex1] at hinfo
                simp [tables_lookup_instruction] at hinfo
              | some s1 =>
                rw [hlex1] at hinfo
                by_cases hpd : info.type = PSEUDO_PROC ∨ info.type = PSEUDO_DB
                · refine W.finish_operands hk2 []
                    (fun o => mk_entry (util_strcpy s1) o true (util_strcpy s)) _ _ ?_ ?_
                  · simp [analyze_mnemonic, read_token, token_type_is, token_lexeme, bind,
                      Except.bind, pure, Except.pure, h1, h3, gx, gx1, hident, hid1, hinfo,
                      hlex, hlex1, hpd]
                    cases parse_operands 4 T1 (i + k + 2) (c + 2) [] <;> rfl
                  · simp [analyze_mnemonic, read_token, token_type_is, token_lexeme, bind,
                      Except.bind, pure, Except.pure, h2, h4, gy, gy1, hident, hid1, hinfo,
                      hlex, hlex1, hpd]
                    cases parse_operands 4 T2 (j + k + 2) (c + 2) [] <;> rfl
                · refine W.finish_operands hk2
                    [{ type := OPERAND_LABEL, value := 0, name := util_strcpy s }]
                    (fun o => mk_entry (util_strcpy s1) o hl lab) _ _ ?_ ?_
                  · simp [analyze_mnemonic, read_token, token_type_is, token_lexeme, bind,
                      Except.bind, pure, Except.pure, h1, h3, gx, gx1, hident, hid1, hinfo,
                      hlex, hlex1, hpd]
                    cases parse_operands 4 T1 (i + k + 2) (c + 2)
                        [{ type := OPERAND_LABEL, value := 0, name := util_strcpy s }] <;> rfl
                  · simp [analyze_mnemonic, read_token, token_type_is, token_lexeme, bind,
                      Except.bind, pure, Except.pure, h2, h4, gy, gy1, hident, hid1, hinfo,
                      hlex, hlex1, hpd]
                    cases parse_operands 4 T2 (j + k + 2) (c + 2)
                        [{ type := OPERAND_LABEL, value := 0, name := util_strcpy s }] <;> rfl
          · refine W.finish_operands hk1 [] (fun o => mk_entry (util_strcpy s) o hl lab) _ _
              ?_ ?_
            · simp [analyze_mnemonic, read_token, token_type_is, token_lexeme, bind,
                Except.bind, pure, Except.pure, h1, h3, gx, gx1, hident, hid1, hlex]
              cases parse_operands 4 T1 (i + k + 1) (c + 1) [] <;> rfl
            · simp [analyze_mnemonic, read_token, token_type_is, token_lexeme, bind,
                Except.bind, pure, Except.pure, h2, h4, gy, gy1, hident, hid1, hlex]
              cases parse_operands 4 T2 (j + k + 1) (c + 1) [] <;> rfl
    · refine ⟨?_, ?_⟩
      · simp [analyze_mnemonic, read_token, bind, Except.bind, pure, Except.pure, h1, h2, gx, gy,
          hident]
      · intro e n hen
        simp [analyze_mnemonic, read_token, bind, Except.bind, pure, Except.pure, h1, gx,
          hident] at hen

/-- The analysis of a statement reads the same in both arrays of a window:
same outcome, and the tokens it consumes lie in the window. -/
theorem Window.same_analysis {T1 T2 : List Token} {i j : Nat} {ok : Nat → Prop}
    (W : Window T1 T2 i j ok) (h0 : ok 0) :
    semantic_analyze_instruction T1 i = semantic_analyze_instruction T2 j ∧
    ∀ e n, semantic_analyze_instruction T1 i = .ok (some (e, n)) → ok n := by
  have hb := W.bound 0 h0
  have gx1 : i + 1 < 65535 := by omega
  have gy1 : j + 1 < 65535 := by omega
  have gx2 : ¬ (i + 2 ≥ 65535) := by omega
  have gy2 : ¬ (j + 2 ≥ 65535) := by omega
  obtain ⟨hm0, hn0⟩ := W.same_analyze_mnemonic h0 0 false []
  have hm0' : analyze_mnemonic T1 i 0 false [] = analyze_mnemonic T2 j 0 false [] := hm0
  have hn0' : ∀ e n, analyze_mnemonic T1 i 0 false [] = .ok (some (e, n)) → ok n := by
    intro e n hen
    obtain ⟨k1, hk1, hnk⟩ := hn0 e n hen
    have : n = k1 := by omega
    rw [this]; exact hk1
  rcases W.read h0 i j rfl rfl with ⟨h1, h2⟩ | ⟨a, l, h1, h2⟩
  · refine ⟨?_, ?_⟩
    · simp [semantic_analyze_instruction, read_token, bind, Except.bind, h1, h2]
    · intro e n hen
      simp [semantic_analyze_instruction, read_token, bind, Except.bind, h1] at hen
  · by_cases hident : a.type = TOK_IDENTIFIER
    · have hk1 : ok 1 :=
        W.next 0 a h0 h1 (Token.ends_line_of_type hident (by decide) (by decide))
      rcases W.read hk1 (i + 1) (j + 1) rfl rfl with ⟨h3, h4⟩ | ⟨a1, l1, h3, h4⟩
      · refine ⟨?_, ?_⟩
        · simp [semantic_analyze_instruction, read_token, token_type_is, bind, Except.bind,
            h1, h2, h3, h4, hident, gx1, gy1]
        · intro e n hen
          simp [semantic_analyze_instruction, read_token, token_type_is, bind, Except.bind,
            h1, h3, hident, gx1] at hen
      · by_cases hcolon : a1.type = TOK_COLON
        · have hk2 : ok 2 :=
            W.next 1 a1 hk1 h3 (Token.ends_line_of_type hcolon (by decide) (by decide))
          have hm2 := fun lab => (W.same_analyze_mnemonic hk2 2 true lab).1
          have hn2 := fun lab => (W.same_analyze_mnemonic hk2 2 true lab).2
          cases hlex : a.lexeme with
          | none =>
            refine ⟨?_, ?_⟩
            · simp [semantic_analyze_instruction, read_token, token_type_is, token_lexeme, bind,
                Except.bind, pure, Except.pure, h1, h2, h3, h4, hident, gx1, gy1, hcolon, hlex]
            · intro e n hen
              simp [semantic_analyze_instruction, read_token, token_type_is, token_lexeme, bind,
                Except.bind, pure, Except.pure, h1, h3, hident, gx1, hcolon, hlex] at hen
          | some s =>
            rcases W.read hk2 (i + 2) (j + 2) rfl rfl with ⟨h5, h6⟩ | ⟨a2, l2, h5, h6⟩
            · refine ⟨?_, ?_⟩
              · simp [semantic_analyze_instruction, read_token, token_type_is, token_lexeme,
                  bind, Except.bind, pure, Except.pure, h1, h2, h3, h4, h5, h6, hident, gx1,
                  gy1, gx2, gy2, hcolon, hlex]
              · intro e n hen
                simp [semantic_analyze_instruction, read_token, token_type_is, token_lexeme,
                  bind, Except.bind, pure, Except.pure, h1, h3, h5, hident, gx1, gx2, hcolon,
                  hlex] at hen
            · by_cases hend : a2.type = TOK_NEWLINE ∨ a2.type = TOK_EOF
              · refine ⟨?_, ?_⟩
                · simp [semantic_analyze_instruction, read_token, token_type_is, token_lexeme,
                    bind, Except.bind, pure, Except.pure, h1, h2, h3, h4, h5, h6, hident, gx1,
                    gy1, gx2, gy2, hcolon, hlex, hend]
                · intro e n hen
                  simp [semantic_analyze_instruction, read_token, token_type_is, token_lexeme,
                    bind, Except.bind, pure, Except.pure, h1, h3, h5, hident, gx1, gx2, hcolon,
                    hlex, hend] at hen
                  rw [← hen.2]
                  exact hk2
              · have e1 : semantic_analyze_instruction T1 i =
                    analyze_mnemonic T1 (i + 2) 2 true (util_strcpy s) := by
                  simp [semantic_analyze_instruction, read_token, token_type_is, token_lexeme,
                    bind, Except.bind, pure, Except.pure, h1, h3, h5, hident, gx1, gx2, hcolon,
                    hlex, hend]
                have e2 : semantic_analyze_instruction T2 j =
                    analyze_mnemonic T2 (j + 2) 2 true (util_strcpy s) := by
                  simp [semantic_analyze_instruction, read_token, token_type_is, token_lexeme,
                    bind, Except.bind, pure, Except.pure, h2, h4, h6, hident, gy1, gy2, hcolon,
                    hlex, hend]
                rw [e1, e2]
                refine ⟨hm2 (util_strcpy s), ?_⟩
                intro e n hen
                obtain ⟨k1, hk1', hnk⟩ := hn2 (util_strcpy s) e n hen
                have : n = k1 := by omega
                rw [this]; exact hk1'
        · have e1 : semantic_analyze_instruction T1 i = analyze_mnemonic T1 i 0 false [] := by
            simp [semantic_analyze_instruction, read_token, token_type_is, bind, Except.bind,
              pure, Except.pure, h1, h3, hident, gx1, hcolon]
          have e2 : semantic_analyze_instruction T2 j = analyze_mnemonic T2 j 0 false [] := by
            simp [semantic_analyze_instruction, read_token, token_type_is, bind, Except.bind,
              pure, Except.pure, h2, h4, hident, gy1, hcolon]
          rw [e1, e2]
          exact ⟨hm0', hn0'⟩
    · have e1 : semantic_analyze_instruction T1 i = analyze_mnemonic T1 i 0 false [] := by
        simp [semantic_analyze_instruction, read_token, bind, Except.bind, pure, Except.pure,
          h1, hident]
      have e2 : semantic_analyze_instruction T2 j = analyze_mnemonic T2 j 0 false [] := by
        simp [semantic_analyze_instruction, read_token, bind, Except.bind, pure, Except.pure,
          h2, hident]
      rw [e1, e2]
      exact ⟨hm0', hn0'⟩

/-! ## Progress of pass one -/

theorem operand_suffix_consumed {tokens : List Token} {i consumed : Nat} {ops : List Operand}
    {op : Operand} {r : Nat × Nat × List Operand × Bool}
    (h : operand_suffix tokens i consumed ops op = .ok r) : consumed + 1 ≤ r.2.1 := by
  unfold operand_suffix at h
  simp only [bind, Except.bind, pure, Except.pure] at h
  split at h
  · cases h
  · split at h
    · cases h
    · split at h
      · cases h
      · next v hv =>
        have hv2 : consumed + 1 ≤ v.2.2 := by
          split at hv
          · repeat' split at hv
            all_goals (cases hv <;> first | omega | (simp only; omega))
          · cases hv; exact Nat.le_refl _
        repeat' split at h
        all_goals (cases h <;> first | omega | (simp only; omega))

theorem memory_operand_consumed {tokens : List Token} {i consumed : Nat} {ops : List Operand}
    {r : Nat × Nat × List Operand}
    (h : memory_operand tokens i consumed ops = .ok r) : consumed + 2 ≤ r.2.1 := by
  unfold memory_operand at h
  simp only [bind, Except.bind, pure, Except.pure] at h
  repeat' split at h
  all_goals (cases h <;> first | omega | (simp only; omega))

theorem parse_operands_consumed (fuel : Nat) (tokens : List Token) :
    ∀ (i consumed : Nat) (ops : List Operand) (r : Nat × List Operand),
      parse_operands fuel tokens i consumed ops = .ok r → consumed ≤ r.1 := by
  induction fuel with
  | zero =>
    intro i consumed ops r h
    simp only [parse_operands, Except.ok.injEq] at h
    subst h; exact Nat.le_refl _
  | succ fuel ih =>
    intro i consumed ops r h
    unfold parse_operands at h
    split at h
    · split at h
      · cases h
      · next t ht =>
        split at h
        · split at h
          · split at h
            · cases h
            · next lex hlex =>
              split at h
              · cases h
              · next r1 hr1 =>
                have := operand_suffix_consumed hr1
                split at h
                · have := ih _ _ _ _ h; omega
                · cases h; simp only; omega
          · split at h
            · split at h
              · cases h
              · next r1 hr1 =>
                have := operand_suffix_consumed hr1
                split at h
                · have := ih _ _ _ _ h; omega
                · cases h; simp only; omega
            · split at h
              · split at h
                · cases h
                · next r1 hr1 =>
                  have := memory_operand_consumed hr1
                  have := ih _ _ _ _ h; omega
              · cases h; exact Nat.le_refl _
        · cases h; exact Nat.le_refl _
    · cases h; exact Nat.le_refl _

theorem analyze_mnemonic_consumed {tokens : List Token} {i consumed : Nat} {has_label : Bool}
    {label : CStr} {parsed : InstructionEntry} {n : Nat}
    (h : analyze_mnemonic tokens i consumed has_label label = .ok (some (parsed, n))) :
    consumed + 1 ≤ n := by
  unfold analyze_mnemonic at h
  simp only [bind, Except.bind, pure, Except.pure] at h
  repeat' split at h
  all_goals first
    | (cases h; done)
    | (next hp =>
        cases h
        have := parse_operands_consumed _ _ _ _ _ _ hp
        omega)

/-- A successful analysis consumes at least one token. -/
theorem semantic_analyze_instruction_consumed {tokens : List Token} {i : Nat}
    {parsed : InstructionEntry} {n : Nat}
    (h : semantic_analyze_instruction tokens i = .ok (some (parsed, n))) : 1 ≤ n := by
  unfold semantic_analyze_instruction at h
  simp only [bind, Except.bind, pure, Except.pure] at h
  repeat' split at h
  all_goals first
    | (cases h; done)
    | (have hc := analyze_mnemonic_consumed h
       omega)
    | (cases h; omega)

/-- One round of the pass-one loop at a token where analysis faults. -/
theorem pass_one_loop_fault_step (fuel : Nat) (tokens : List Token) (i : Nat) (p : PassOne)
    (errs : List ErrorReport) (t : Token) (f : Fault)
    (h0 : tokens[i]? = some t) (h1 : t.type ≠ TOK_NEWLINE) (h2 : t.type ≠ TOK_EOF)
    (hcount : p.instruction_count < PassOne.max_instructions)
    (ha : semantic_analyze_instruction tokens i = .error f) :
    pass_one_loop (fuel + 1) tokens i p errs = .error f := by
  have hlen : i < tokens.length := by
    rcases Nat.lt_or_ge i tokens.length with h | h
    · exact h
    · rw [List.getElem?_eq_none h] at h0; cases h0
  have hnot : ¬ (p.instruction_count ≥ PassOne.max_instructions) := by omega
  rw [pass_one_loop, if_pos hlen]
  simp only [read_token, h0, h1, h2, or_self, if_false, hnot, ha]

/-- One round of the pass-one loop with the record array full. -/
theorem pass_one_loop_full_step (fuel : Nat) (tokens : List Token) (i : Nat) (p : PassOne)
    (errs : List ErrorReport) (t : Token)
    (h0 : tokens[i]? = some t) (h1 : t.type ≠ TOK_NEWLINE) (h2 : t.type ≠ TOK_EOF)
    (hcount : p.instruction_count ≥ PassOne.max_instructions) :
    pass_one_loop (fuel + 1) tokens i p errs =
      .ok ({ p with has_errors := true },
           errs ++ [{ line := t.line, code := ERR_PARSE_EXPECTED_OP }]) := by
  have hlen : i < tokens.length := by
    rcases Nat.lt_or_ge i tokens.length with h | h
    · exact h
    · rw [List.getElem?_eq_none h] at h0; cases h0
  rw [pass_one_loop, if_pos hlen]
  simp only [read_token, h0, h1, h2, or_self, if_false, hcount, if_true]

/-- The pass-one loop does not depend on its fuel once there is one unit of
it for each token that is left. -/
theorem pass_one_loop_fuel (fuel1 : Nat) (tokens : List Token) :
    ∀ (fuel2 i : Nat) (p : PassOne) (errs : List ErrorReport),
      tokens.length - i ≤ fuel1 → tokens.length - i ≤ fuel2 →
      pass_one_loop fuel1 tokens i p errs = pass_one_loop fuel2 tokens i p errs := by
  induction fuel1 with
  | zero =>
    intro fuel2 i p errs h1 _
    rw [pass_one_loop_done _ _ _ _ _ (by omega), pass_one_loop_done _ _ _ _ _ (by omega)]
  | succ f1 ih =>
    intro fuel2 i p errs h1 h2
    by_cases hi : tokens.length ≤ i
    · rw [pass_one_loop_done _ _ _ _ _ hi, pass_one_loop_done _ _ _ _ _ hi]
    · obtain ⟨f2, rfl⟩ : ∃ f2, fuel2 = f2 + 1 := ⟨fuel2 - 1, by omega⟩
      have hlt : i < tokens.length := by omega
      have h0 : tokens[i]? = some tokens[i] := List.getElem?_eq_getElem hlt
      by_cases hend : tokens[i].type = TOK_NEWLINE ∨ tokens[i].type = TOK_EOF
      · rw [pass_one_loop_line_step f1 _ _ _ _ _ h0 hend,
          pass_one_loop_line_step f2 _ _ _ _ _ h0 hend]
        exact ih _ _ _ _ (by omega) (by omega)
      · have hn1 : tokens[i].type ≠ TOK_NEWLINE := fun h => hend (Or.inl h)
        have hn2 : tokens[i].type ≠ TOK_EOF := fun h => hend (Or.inr h)
        by_cases hcount : p.instruction_count ≥ PassOne.max_instructions
        · rw [pass_one_loop_full_step f1 _ _ _ _ _ h0 hn1 hn2 hcount,
            pass_one_loop_full_step f2 _ _ _ _ _ h0 hn1 hn2 hcount]
        · have hc : p.instruction_count < PassOne.max_instructions := by omega
          cases ha : semantic_analyze_instruction tokens i with
          | error f =>
            rw [pass_one_loop_fault_step f1 _ _ _ _ _ f h0 hn1 hn2 hc ha,
              pass_one_loop_fault_step f2 _ _ _ _ _ f h0 hn1 hn2 hc ha]
          | ok r =>
            cases r with
            | none =>
              rw [pass_one_loop_fail_step f1 _ _ _ _ _ h0 hn1 hn2 hc ha,
                pass_one_loop_fail_step f2 _ _ _ _ _ h0 hn1 hn2 hc ha]
              exact ih _ _ _ _ (by omega) (by omega)
            | some v =>
              obtain ⟨parsed, n⟩ := v
              have hn := semantic_analyze_instruction_consumed ha
              rw [pass_one_loop_record_step f1 _ _ _ _ _ parsed n h0 hn1 hn2 hc ha,
                pass_one_loop_record_step f2 _ _ _ _ _ parsed n h0 hn1 hn2 hc ha]
              exact ih _ _ _ _ (by omega) (by omega)

/-- Adding a record keeps two pass-one contexts alike when the first of them
reports no duplicate label. -/
theorem SameLayout.record {X : List InstructionEntry} {d : InstructionEntry} {p1 p2 : PassOne}
    (h : SameLayout X d p1 p2) (e : InstructionEntry) (herr : (pass_one_record p1 e).2 = []) :
    SameLayout X d (pass_one_record p1 e).1 (pass_one_record p2 e).1 ∧
    (pass_one_record p2 e).2 = [] := by
  obtain ⟨Y1, Y2, hi1, hi2, hY⟩ := h.records
  have hentry : (pass_one_entry p1 e).unline = (pass_one_entry p2 e).unline := by
    simp [pass_one_entry, InstructionEntry.unline, h.address]
  have hrec : ∃ Z1 Z2, p1.instructions ++ [pass_one_entry p1 e] = X ++ d :: Z1 ∧
      p2.instructions ++ [pass_one_entry p2 e] = X ++ Z2 ∧
      Z1.map InstructionEntry.unline = Z2.map InstructionEntry.unline :=
    ⟨Y1 ++ [pass_one_entry p1 e], Y2 ++ [pass_one_entry p2 e], by simp [hi1], by simp [hi2],
      by simp [hY, hentry]⟩
  by_cases hl : e.has_label = true
  · have hl1 : (pass_one_entry p1 e).has_label = true := hl
    have hl2 : (pass_one_entry p2 e).has_label = true := hl
    cases hlook : symtab_lookup p1.symtab e.label with
    | some sym =>
      have := symtab_insert_present p1.symtab e.label SymbolType.SYM_LABEL p1.current_address
        p1.current_line sym hlook
      simp [pass_one_record, hl, pass_one_entry, this] at herr
    | none =>
      have hlook2 : symtab_lookup p2.symtab e.label = none := by
        have := h.symbols e.label
        rw [hlook] at this
        cases h2 : symtab_lookup p2.symtab e.label with
        | none => rfl
        | some s => rw [h2] at this; simp at this
      have hs1 := symtab_lookup_insert_same p1.symtab e.label SymbolType.SYM_LABEL
        p1.current_address p1.current_line h.wf1 hlook
      have hs2 := symtab_lookup_insert_same p2.symtab e.label SymbolType.SYM_LABEL
        p2.current_address p2.current_line h.wf2 hlook2
      have hq1 := fun name => (symtab_insert_lookup p1.symtab
        ⟨e.label, SymbolType.SYM_LABEL, p1.current_address, p1.current_line⟩ h.wf1 name).2
      have hq2 := fun name => (symtab_insert_lookup p2.symtab
        ⟨e.label, SymbolType.SYM_LABEL, p2.current_address, p2.current_line⟩ h.wf2 name).2
      simp only at hq1 hq2
      have e1 : pass_one_record p1 e =
          ({ p1 with
              current_address := (p1.current_address + (pass_one_entry p1 e).length) % 4294967296
              symtab := (symtab_insert p1.symtab e.label SymbolType.SYM_LABEL p1.current_address
                p1.current_line).2
              instructions := p1.instructions ++ [pass_one_entry p1 e] }, []) := by
        simp [pass_one_record, hl, pass_one_entry, hs1.1]
      have e2 : pass_one_record p2 e =
          ({ p2 with
              current_address := (p2.current_address + (pass_one_entry p2 e).length) % 4294967296
              symtab := (symtab_insert p2.symtab e.label SymbolType.SYM_LABEL p2.current_address
                p2.current_line).2
              instructions := p2.instructions ++ [pass_one_entry p2 e] }, []) := by
        simp [pass_one_record, hl, pass_one_entry, hs2.1]
      rw [e1, e2]
      refine ⟨⟨?_, h.flag, hs1.2.1, hs2.2.1, ?_, hrec⟩, rfl⟩
      · simp [pass_one_entry, h.address]
      · intro name
        show (symtab_lookup (symtab_insert p1.symtab e.label SymbolType.SYM_LABEL
            p1.current_address p1.current_line).2 name).map SymbolInfo.place =
          (symtab_lookup (symtab_insert p2.symtab e.label SymbolType.SYM_LABEL
            p2.current_address p2.current_line).2 name).map SymbolInfo.place
        rw [hq1 name, hq2 name]
        have hsym := h.symbols name
        cases hn1 : symtab_lookup p1.symtab name with
        | some s1 =>
          rw [hn1] at hsym
          cases hn2 : symtab_lookup p2.symtab name with
          | some s2 => rw [hn2] at hsym; simpa using hsym
          | none => rw [hn2] at hsym; simp at hsym
        | none =>
          rw [hn1] at hsym
          cases hn2 : symtab_lookup p2.symtab name with
          | some s2 => rw [hn2] at hsym; simp at hsym
          | none =>
            simp only
            split
            · simp [InsertCall.record, SymbolInfo.place, h.address]
            · rfl
  · have hl1 : ¬ (pass_one_entry p1 e).has_label = true := hl
    have hl2 : ¬ (pass_one_entry p2 e).has_label = true := hl
    have e1 : pass_one_record p1 e =
        ({ p1 with
            current_address := (p1.current_address + (pass_one_entry p1 e).length) % 4294967296
            instructions := p1.instructions ++ [pass_one_entry p1 e] }, []) := by
      simp [pass_one_record, hl, pass_one_entry]
    have e2 : pass_one_record p2 e =
        ({ p2 with
            current_address := (p2.current_address + (pass_one_entry p2 e).length) % 4294967296
            instructions := p2.instructions ++ [pass_one_entry p2 e] }, []) := by
      simp [pass_one_record, hl, pass_one_entry]
    rw [e1, e2]
    refine ⟨⟨?_, h.flag, h.wf1, h.wf2, h.symbols, hrec⟩, rfl⟩
    simp [pass_one_entry, h.address]

theorem util_strlen_length (a : CStr) : util_strlen a = (util_strcpy a).length := by
  induction a with
  | nil => rfl
  | cons c cs ih =>
    by_cases hc : c = 0
    · simp [util_strlen, util_strcpy, hc]
    · simp [util_strlen, util_strcpy, hc, ih]

/-- The scan for a `.` passes over a tail that holds none. -/
theorem find_last_dot_tail (pre ext : List Nat) (h : ∀ c ∈ ext, c ≠ 46) :
    ∀ n, n ≤ ext.length →
      find_last_dot (pre ++ ext) (pre.length + n) = find_last_dot (pre ++ ext) pre.length := by
  intro n
  induction n with
  | zero => intro _; rfl
  | succ n ih =>
    intro hn
    have hlt : n < ext.length := by omega
    have hget : (pre ++ ext)[pre.length + n]? = some ext[n] := by
      rw [List.getElem?_append_right (by omega), Nat.add_sub_cancel_left,
        List.getElem?_eq_getElem hlt]
    have hne : ext[n] ≠ 46 := h _ (List.getElem_mem _)
    show find_last_dot (pre ++ ext) (pre.length + n + 1) = _
    rw [find_last_dot, hget, if_neg (by simpa using hne)]
    exact ih (by omega)

/-- The scan for a `.` finds the one that ends the head of the text. -/
theorem find_last_dot_head (stem ext : List Nat) :
    find_last_dot (stem ++ [46] ++ ext) (stem ++ [46]).length = some (stem.length + 1) := by
  have hget : (stem ++ [46] ++ ext)[stem.length]? = some 46 := by
    rw [List.append_assoc, List.getElem?_append_right (le_refl _)]
    simp
  rw [List.length_append, List.length_singleton, find_last_dot, hget, if_pos rfl]

/-- The scan for a `.` in a text that holds none finds nothing. -/
theorem find_last_dot_none (text : List Nat) (h : ∀ c ∈ text, c ≠ 46) :
    ∀ n, find_last_dot text n = none := by
  intro n
  induction n with
  | zero => rfl
  | succ n ih =>
    rw [find_last_dot, if_neg, ih]
    intro hget
    exact h 46 (List.getElem?_mem hget) rfl

/-- What `generate_output_filename` returns: the path up to and including its
last `.` followed by `com`, or the path followed by `.com` when it holds no
`.`. -/
theorem generate_output_filename_spec (path : CStr) :
    (∀ stem ext, util_strcpy path = stem ++ 46 :: ext → (∀ c ∈ ext, c ≠ 46) →
      generate_output_filename (some path) = stem ++ cstr ".com") ∧
    ((∀ c ∈ util_strcpy path, c ≠ 46) →
      generate_output_filename (some path) = util_strcpy path ++ cstr ".com") := by
  constructor
  · intro stem ext hpath hext
    have hsplit : stem ++ 46 :: ext = stem ++ [46] ++ ext := by simp
    have hlen : util_strlen path = (stem ++ [46]).length + ext.length := by
      rw [util_strlen_length, hpath, hsplit, List.length_append]
    unfold generate_output_filename
    simp only
    rw [hlen, hpath, hsplit, find_last_dot_tail _ _ hext _ (le_refl _), find_last_dot_head]
    simp only
    rw [List.append_assoc, List.take_append_eq_append_take]
    simp [cstr]
  · intro hno
    unfold generate_output_filename
    simp only
    rw [find_last_dot_none _ hno]

/-! ## The encoding of operands -/

theorem symbolic_operands_le (ops : List Operand) : symbolic_operands ops ≤ ops.length :=
  List.length_filter_le _ _

/-- The bytes the emitter writes for an operand at a position below eight are
the bytes of the specification. -/
theorem operand_bytes_eq_spec (k : Nat) (o : Operand) (hk : k < 8) :
    operand_bytes k o = spec_operand_bytes k o := by
  have h1 : k % 64 = k := Nat.mod_eq_of_lt (by omega)
  have h2 : k % 8 = k := Nat.mod_eq_of_lt hk
  unfold operand_bytes spec_operand_bytes
  rw [h1, h2]
  by_cases hr : o.type = OPERAND_REGISTER
  · simp [hr]
  · by_cases hi : o.type = OPERAND_IMMEDIATE
    · simp only [hi, if_true]
      by_cases hv : o.value ≤ 0xFF
      · have : o.value % 256 = o.value := Nat.mod_eq_of_lt (by omega)
        simp [hv, this]
      · simp [hv]
    · simp [hr, hi]

theorem encode_operands_eq_spec (ops : List Operand) :
    ∀ k, k + ops.length ≤ 8 → encode_operands ops k = spec_encode_operands ops k := by
  induction ops with
  | nil => intro k _; rfl
  | cons o rest ih =>
    intro k hk
    simp only [List.length_cons] at hk
    rw [encode_operands, spec_encode_operands, operand_bytes_eq_spec k o (by omega),
      ih (k + 1) (by omega)]

theorem operand_size_le (o : Operand) : operand_size o ≤ 2 := by
  unfold operand_size
  repeat' split
  all_goals omega

theorem operand_size_sum_le (ops : List Operand) :
    (ops.map operand_size).sum ≤ 2 * ops.length := by
  induction ops with
  | nil => simp
  | cons o rest ih =>
    have := operand_size_le o
    simp only [List.map_cons, List.sum_cons, List.length_cons]
    omega

/-- One call of the emitter only appends to the buffer, at most the opcode byte
and two bytes for each operand, whatever it returns. -/
theorem codegen_emit_instruction_grows (cg : CodeGen) (idx : Nat) (entry : InstructionEntry) :
    ∃ code, (codegen_emit_instruction cg idx entry).2.1.code_buffer = cg.code_buffer ++ code ∧
      code.length ≤ 1 + 2 * entry.operands.length := by
  unfold codegen_emit_instruction
  split
  · exact ⟨[], by simp, by simp⟩
  · split
    · exact ⟨[], by simp, by simp⟩
    · next info hinfo =>
      split
      · split
        · split
          · split
            · exact ⟨_, rfl, by simp⟩
            · exact ⟨[], by simp, by simp⟩
          · exact ⟨[], by simp, by simp⟩
        · exact ⟨[], by simp, by simp⟩
      · split
        · exact ⟨[], by simp, by simp⟩
        · next code relocs he =>
          obtain ⟨suffix, hs1, hs2⟩ := emit_operands_size _ _ _ _ _ _ _ _ he
          refine ⟨code, rfl, ?_⟩
          have := operand_size_sum_le entry.operands
          rw [hs1, List.length_append, hs2, List.length_singleton]
          omega

/-- The emission loop over records of at most three operands appends at most
seven bytes for each record. -/
theorem emit_all_grows (entries : List InstructionEntry) :
    ∀ (idx : Nat) (cg : CodeGen) (errs : List ErrorReport),
      (∀ e ∈ entries, e.operands.length ≤ 3) →
      (emit_all entries idx cg errs).1.code_size ≤ cg.code_size + 7 * entries.length := by
  induction entries with
  | nil => intro idx cg errs _; simp [emit_all]
  | cons e rest ih =>
    intro idx cg errs hops
    obtain ⟨code, hc1, hc2⟩ := codegen_emit_instruction_grows cg idx e
    have h3 := hops e (List.mem_cons_self _ _)
    have hrest : ∀ x ∈ rest, x.operands.length ≤ 3 :=
      fun x hx => hops x (List.mem_cons_of_mem _ hx)
    have hsz : (codegen_emit_instruction cg idx e).2.1.code_size ≤ cg.code_size + 7 := by
      unfold CodeGen.code_size
      rw [hc1, List.length_append]
      omega
    unfold emit_all
    simp only [List.length_cons]
    split
    · refine le_trans (ih (idx + 1) _ _ hrest) ?_
      show (codegen_emit_instruction cg idx e).2.1.code_size + 7 * rest.length ≤ _
      omega
    · refine le_trans (ih (idx + 1) _ _ hrest) ?_
      omega

/-- The bytes of a list of operands: at most two for each. -/
theorem encode_operands_length_le (ops : List Operand) :
    ∀ (k : Nat), (encode_operands ops k).length ≤ 2 * ops.length := by
  induction ops with
  | nil => intro k; simp [encode_operands]
  | cons o rest ih =>
    intro k
    have h1 := operand_bytes_length k o
    have h2 := operand_size_le o
    have h3 := ih (k + 1)
    simp only [encode_operands, List.length_append, List.length_cons]
    omega

/-- The operand loop of the emitter, run on the first `k` of at most three
operands, has written at most seven bytes with the opcode byte. -/
theorem emit_operands_prefix_length (cs idx : Nat) (ops : List Operand) (k opcode : Nat)
    (relocs : List Relocation) (code : List Nat) (relocs1 : List Relocation)
    (hops : ops.length ≤ 3)
    (h : emit_operands cs idx (ops.take k) 0 [opcode] relocs = (some code, relocs1)) :
    code.length ≤ 7 := by
  obtain ⟨h1, _⟩ := emit_operands_spec _ _ _ _ _ _ _ _ h
  have h2 := encode_operands_length_le (ops.take k) 0
  have h3 : (ops.take k).length ≤ ops.length := by
    rw [List.length_take]
    exact Nat.min_le_right _ _
  rw [h1, List.length_append, List.length_singleton]
  omega

/-- Analysis of a statement `M X` followed by the end of the line, `X` being
an identifier the table knows, other than `PROC` and `DB`: `X` becomes the
mnemonic and `M` a label operand. -/
theorem analyze_known_second (tokens : List Token) (i ln ln1 : Nat) (m x : CStr) (t2 : Token)
    (info : InstructionInfo) (hi : i + 2 < 65535)
    (h0 : tokens[i]? = some { type := TOK_IDENTIFIER, lexeme := some m, line := ln,
                              int_value := 0 })
    (h1 : tokens[i + 1]? = some { type := TOK_IDENTIFIER, lexeme := some x, line := ln1,
                                  int_value := 0 })
    (h2 : tokens[i + 2]? = some t2) (ht2 : t2.type = TOK_NEWLINE ∨ t2.type = TOK_EOF)
    (hx : tables_lookup_instruction (some x) = some info)
    (hproc : info.type ≠ PSEUDO_PROC) (hdb : info.type ≠ PSEUDO_DB) :
    semantic_analyze_instruction tokens i =
      .ok (some (mk_entry (util_strcpy x)
        [{ type := OPERAND_LABEL, value := 0, name := util_strcpy m }] false [], 2)) := by
  have hi0 : i < 65535 := by omega
  have hi1 : i + 1 < 65535 := by omega
  rcases ht2 with h | h <;>
    simp [semantic_analyze_instruction, analyze_mnemonic, parse_operands,
      token_type_is, read_token, token_lexeme, bind, Except.bind, pure, Except.pure, h0, h1, h2,
      hi0, hi1, hi, h, hx, hproc, hdb, SEMANTIC_MAX_OPERANDS]

/-! ## Termination of pass one -/

theorem nofuel_bind {α β : Type} (x : Except Fault α) (f : α → Except Fault β)
    (hx : x ≠ .error Fault.out_of_fuel) (hf : ∀ a, f a ≠ .error Fault.out_of_fuel) :
    (x >>= f) ≠ .error Fault.out_of_fuel := by
  cases x with
  | error e =>
    intro h
    have he : e = Fault.out_of_fuel := by simpa [bind, Except.bind] using h
    exact hx (by rw [he])
  | ok a => exact hf a

theorem nofuel_pure {α : Type} (a : α) :
    (pure a : Except Fault α) ≠ .error Fault.out_of_fuel := by
  intro h
  cases h

theorem nofuel_ok {α : Type} (a : α) :
    (Except.ok a : Except Fault α) ≠ .error Fault.out_of_fuel := by
  intro h
  cases h

theorem read_token_nofuel (tokens : List Token) (i : Nat) :
    read_token tokens i ≠ .error Fault.out_of_fuel := by
  unfold read_token
  split <;> simp

theorem token_lexeme_nofuel (t : Token) : token_lexeme t ≠ .error Fault.out_of_fuel := by
  unfold token_lexeme
  split <;> simp

theorem token_type_is_nofuel (tokens : List Token) (i : Nat) (ty : TokenType) :
    token_type_is tokens i ty ≠ .error Fault.out_of_fuel := by
  unfold token_type_is
  have := read_token_nofuel tokens i
  repeat' split
  all_goals simp_all

theorem operand_suffix_nofuel (tokens : List Token) (i consumed : Nat) (ops : List Operand)
    (op : Operand) : operand_suffix tokens i consumed ops op ≠ .error Fault.out_of_fuel := by
  unfold operand_suffix
  repeat' first
    | exact read_token_nofuel _ _
    | exact token_lexeme_nofuel _
    | exact token_type_is_nofuel _ _ _
    | exact nofuel_pure _
    | exact nofuel_ok _
    | refine nofuel_bind _ _ ?_ (fun _ => ?_)
    | split

theorem memory_operand_nofuel (tokens : List Token) (i consumed : Nat) (ops : List Operand) :
    memory_operand tokens i consumed ops ≠ .error Fault.out_of_fuel := by
  unfold memory_operand
  repeat' first
    | exact read_token_nofuel _ _
    | exact token_lexeme_nofuel _
    | exact token_type_is_nofuel _ _ _
    | exact nofuel_pure _
    | exact nofuel_ok _
    | refine nofuel_bind _ _ ?_ (fun _ => ?_)
    | split

theorem parse_operands_nofuel (fuel : Nat) (tokens : List Token) :
    ∀ (i consumed : Nat) (ops : List Operand),
      parse_operands fuel tokens i consumed ops ≠ .error Fault.out_of_fuel := by
  induction fuel with
  | zero => intro i consumed ops; simp [parse_operands]
  | succ fuel ih =>
    intro i consumed ops
    have h1 := read_token_nofuel tokens i
    unfold parse_operands
    repeat' split
    all_goals first
      | exact ih _ _ _
      | exact nofuel_ok _
      | (intro h
         cases h
         first
           | (exact h1 (by assumption))
           | (exact token_lexeme_nofuel _ (by assumption))
           | (exact operand_suffix_nofuel _ _ _ _ _ (by assumption))
           | (exact memory_operand_nofuel _ _ _ _ (by assumption)))

theorem analyze_mnemonic_nofuel (tokens : List Token) (i consumed : Nat) (has_label : Bool)
    (label : CStr) :
    analyze_mnemonic tokens i consumed has_label label ≠ .error Fault.out_of_fuel := by
  unfold analyze_mnemonic
  repeat' first
    | exact read_token_nofuel _ _
    | exact token_lexeme_nofuel _
    | exact token_type_is_nofuel _ _ _
    | exact parse_operands_nofuel _ _ _ _ _
    | exact nofuel_pure _
    | exact nofuel_ok _
    | refine nofuel_bind _ _ ?_ (fun _ => ?_)
    | split

/-- Statement analysis has no loop that can run out of rounds: where it
stops without a result, it has read outside the token array or a NULL
lexeme. -/
theorem semantic_analyze_instruction_nofuel (tokens : List Token) (i : Nat) :
    semantic_analyze_instruction tokens i ≠ .error Fault.out_of_fuel := by
  unfold semantic_analyze_instruction
  repeat' first
    | exact read_token_nofuel _ _
    | exact token_lexeme_nofuel _
    | exact token_type_is_nofuel _ _ _
    | exact analyze_mnemonic_nofuel _ _ _ _ _
    | exact nofuel_pure _
    | exact nofuel_ok _
    | refine nofuel_bind _ _ ?_ (fun _ => ?_)
    | split

/-- The pass-one loop never uses up as many rounds as there are tokens left. -/
theorem pass_one_loop_enough_fuel (fuel : Nat) (tokens : List Token) :
    ∀ (i : Nat) (p : PassOne) (errs : List ErrorReport), tokens.length - i ≤ fuel →
      pass_one_loop fuel tokens i p errs ≠ .error Fault.out_of_fuel := by
  induction fuel with
  | zero =>
    intro i p errs h
    rw [pass_one_loop_done _ _ _ _ _ (by omega)]
    simp
  | succ f ih =>
    intro i p errs h
    by_cases hi : tokens.length ≤ i
    · rw [pass_one_loop_done _ _ _ _ _ hi]; simp
    · have hlt : i < tokens.length := by omega
      have h0 : tokens[i]? = some tokens[i] := List.getElem?_eq_getElem hlt
      by_cases hend : tokens[i].type = TOK_NEWLINE ∨ tokens[i].type = TOK_EOF
      · rw [pass_one_loop_line_step f _ _ _ _ _ h0 hend]
        exact ih _ _ _ (by omega)
      · have hn1 : tokens[i].type ≠ TOK_NEWLINE := fun h => hend (Or.inl h)
        have hn2 : tokens[i].type ≠ TOK_EOF := fun h => hend (Or.inr h)
        by_cases hcount : p.instruction_count ≥ PassOne.max_instructions
        · rw [pass_one_loop_full_step f _ _ _ _ _ h0 hn1 hn2 hcount]; simp
        · have hc : p.instruction_count < PassOne.max_instructions := by omega
          cases ha : semantic_analyze_instruction tokens i with
          | error g =>
            rw [pass_one_loop_fault_step f _ _ _ _ _ g h0 hn1 hn2 hc ha]
            intro hg
            cases hg
            exact semantic_analyze_instruction_nofuel tokens i ha
          | ok r =>
            cases r with
            | none =>
              rw [pass_one_loop_fail_step f _ _ _ _ _ h0 hn1 hn2 hc ha]
              exact ih _ _ _ (by omega)
            | some v =>
              obtain ⟨parsed, n⟩ := v
              have hn := semantic_analyze_instruction_consumed ha
              rw [pass_one_loop_record_step f _ _ _ _ _ parsed n h0 hn1 hn2 hc ha]
              exact ih _ _ _ (by omega)

theorem ok_bind {α β : Type} {x : Except Fault α} {f : α → Except Fault β} {P : α → Prop}
    {Q : β → Prop} (hx : ∃ a, x = .ok a ∧ P a) (hf : ∀ a, P a → ∃ b, f a = .ok b ∧ Q b) :
    ∃ b, (x >>= f) = .ok b ∧ Q b := by
  obtain ⟨a, ha, hP⟩ := hx
  rw [ha]
  exact hf a hP

theorem ok_pure {α : Type} {P : α → Prop} (a : α) (h : P a) :
    ∃ b, (pure a : Except Fault α) = .ok b ∧ P b :=
  ⟨a, rfl, h⟩

theorem read_token_ok (tokens : List Token) (i : Nat) (hi : i < tokens.length) :
    ∃ t, read_token tokens i = .ok t ∧ tokens[i]? = some t := by
  refine ⟨tokens[i], ?_, List.getElem?_eq_getElem hi⟩
  simp [read_token, List.getElem?_eq_getElem hi]

theorem token_type_is_ok (tokens : List Token) (i : Nat) (ty : TokenType)
    (hi : i < tokens.length) :
    ∃ b, token_type_is tokens i ty = .ok b ∧
      (b = true → ∃ t, tokens[i]? = some t ∧ t.type = ty) := by
  unfold token_type_is
  by_cases h : i < 65535
  · rw [if_pos h]
    simp only [read_token, List.getElem?_eq_getElem hi]
    exact ⟨_, rfl, fun hb => ⟨tokens[i], rfl, by simpa using hb⟩⟩
  · rw [if_neg h]
    exact ⟨false, rfl, fun hb => by cases hb⟩

theorem token_lexeme_ok (t : Token) (h : t.lexeme ≠ none) : ∃ s, token_lexeme t = .ok s ∧ True := by
  unfold token_lexeme
  cases hl : t.lexeme with
  | none => exact absurd hl h
  | some s => exact ⟨_, rfl, trivial⟩

/-- The tail of a round of the operand loop reads inside a readable token
array, and leaves the index inside it. -/
theorem operand_suffix_ok {tokens : List Token} (R : Readable tokens) (i consumed : Nat)
    (ops : List Operand) (op : Operand) (hi : i + 1 < tokens.length) :
    ∃ r, operand_suffix tokens i consumed ops op = .ok r ∧ r.1 < tokens.length := by
  unfold operand_suffix
  refine ok_bind (token_type_is_ok tokens (i + 1) TOK_COLON hi) (fun colon hcolon => ?_)
  refine ok_bind (P := fun m => m = true → ∃ t, tokens[i + 1 + 1]? = some t ∧
    t.type = TOK_IDENTIFIER) ?_ (fun m hm => ?_)
  · split
    · next hc =>
      obtain ⟨t1, ht1, hty1⟩ := hcolon hc.1
      have h2 := R.next _ _ ht1 (by rw [hty1]; decide)
      obtain ⟨t2, hr2, ht2⟩ := read_token_ok tokens (i + 1 + 1) h2
      rw [hr2]
      exact ⟨_, rfl, fun hb => ⟨t2, ht2, by simpa using hb⟩⟩
    · exact ⟨false, rfl, fun hb => by cases hb⟩
  refine ok_bind (P := fun r => r.2.1 < tokens.length) ?_ (fun r hr => ?_)
  · split
    · next hmt =>
      obtain ⟨t2, ht2, hty2⟩ := hm hmt
      have h2 : i + 1 + 1 < tokens.length := by
        rcases Nat.lt_or_ge (i + 1 + 1) tokens.length with h | h
        · exact h
        · rw [List.getElem?_eq_none h] at ht2; cases ht2
      have h3 := R.next _ _ ht2 (by rw [hty2]; decide)
      obtain ⟨t2', hr2, ht2'⟩ := read_token_ok tokens (i + 1 + 1) h2
      rw [hr2]
      have : t2' = t2 := by rw [ht2] at ht2'; cases ht2'; rfl
      subst this
      obtain ⟨s, hs, _⟩ := token_lexeme_ok t2' (R.lexeme _ _ ht2 hty2)
      exact ⟨_, by simp only [bind, Except.bind, hs]; rfl, h3⟩
    · exact ⟨_, rfl, hi⟩
  refine ok_bind (token_type_is_ok tokens r.2.1 TOK_COMMA hr) (fun comma hcomma => ?_)
  split
  · next hc =>
    obtain ⟨t, ht, hty⟩ := hcomma hc
    exact ⟨_, rfl, R.next _ _ ht (by rw [hty]; decide)⟩
  · exact ⟨_, rfl, hr⟩

/-- The round of the operand loop for a `[` reads inside a readable token
array, and leaves the index inside it. -/
theorem memory_operand_ok {tokens : List Token} (R : Readable tokens) (i consumed : Nat)
    (ops : List Operand) (t : Token) (ht : tokens[i]? = some t) (hty : t.type = TOK_LBRACKET) :
    ∃ r, memory_operand tokens i consumed ops = .ok r ∧ r.1 < tokens.length := by
  have h2 := R.bracket i t ht hty
  unfold memory_operand
  refine ok_bind (read_token_ok tokens (i + 1) (by omega)) (fun t1 ht1 => ?_)
  refine ok_bind (P := fun _ => True) ?_ (fun op _ => ?_)
  · split
    · exact ⟨_, rfl, trivial⟩
    · split
      · next hid =>
        obtain ⟨s, hs, _⟩ := token_lexeme_ok t1 (R.lexeme _ _ ht1 hid)
        exact ⟨_, by simp only [bind, Except.bind, hs]; rfl, trivial⟩
      · exact ⟨_, rfl, trivial⟩
  refine ok_bind (read_token_ok tokens (i + 2) h2) (fun t2 ht2 => ?_)
  have h3 : (if t2.type = TOK_RBRACKET then i + 3 else i + 2) < tokens.length := by
    split
    · next hrb => exact R.next _ _ ht2 (by rw [hrb]; decide)
    · exact h2
  refine ok_bind (token_type_is_ok tokens _ TOK_COMMA h3) (fun comma hcomma => ?_)
  split
  · next hc =>
    obtain ⟨t3, ht3, hty3⟩ := hcomma hc
    exact ⟨_, rfl, R.next _ _ ht3 (by rw [hty3]; decide)⟩
  · exact ⟨_, rfl, h3⟩

theorem isOk_iff {α : Type} (x : Except Fault α) : x.isOk = true ↔ ∃ a, x = .ok a := by
  cases x with
  | error e => simp [Except.isOk, Except.toBool]
  | ok a => simp [Except.isOk, Except.toBool]

/-- The operand loop reads inside a readable token array. -/
theorem parse_operands_ok {tokens : List Token} (R : Readable tokens) (fuel : Nat) :
    ∀ (i consumed : Nat) (ops : List Operand), i < tokens.length →
      (parse_operands fuel tokens i consumed ops).isOk = true := by
  induction fuel with
  | zero => intro i consumed ops _; rfl
  | succ fuel ih =>
    intro i consumed ops hi
    obtain ⟨t, hr, ht⟩ := read_token_ok tokens i hi
    unfold parse_operands
    split
    · rw [hr]
      simp only
      split
      · next hc =>
        have h1 : i + 1 < tokens.length := R.next i t ht hc.2.1
        split
        · next hid =>
          obtain ⟨lex, hlex, _⟩ := token_lexeme_ok t (R.lexeme i t ht hid)
          rw [hlex]
          obtain ⟨r, hs, hlt⟩ := operand_suffix_ok R i consumed ops (identifier_operand lex) h1
          simp only
          rw [hs]
          simp only
          split
          · exact ih _ _ _ hlt
          · rfl
        · split
          · obtain ⟨r, hs, hlt⟩ := operand_suffix_ok R i consumed ops
              { type := OPERAND_IMMEDIATE, value := t.int_value, name := [] } h1
            rw [hs]
            simp only
            split
            · exact ih _ _ _ hlt
            · rfl
          · split
            · next hb =>
              obtain ⟨r, hs, hlt⟩ := memory_operand_ok R i consumed ops t ht hb
              rw [hs]
              exact ih _ _ _ hlt
            · rfl
      · rfl
    · rfl

/-- The mnemonic and operand part of statement analysis reads inside a
readable token array. -/
theorem analyze_mnemonic_ok {tokens : List Token} (R : Readable tokens) (i consumed : Nat)
    (has_label : Bool) (label : CStr) (hi : i < tokens.length) :
    (analyze_mnemonic tokens i consumed has_label label).isOk = true := by
  obtain ⟨t, hr, ht⟩ := read_token_ok tokens i hi
  by_cases hg : i < 65535
  · by_cases hid : t.type = TOK_IDENTIFIER
    · have h1 : i + 1 < tokens.length := R.next i t ht (by rw [hid]; decide)
      obtain ⟨lex, hlex, _⟩ := token_lexeme_ok t (R.lexeme i t ht hid)
      obtain ⟨b, hb, hbP⟩ := token_type_is_ok tokens (i + 1) TOK_IDENTIFIER h1
      have hp1 := parse_operands_ok R 4 (i + 1) (consumed + 1) [] h1
      obtain ⟨r1, hr1⟩ := (isOk_iff _).1 hp1
      cases b with
      | false =>
        simp [analyze_mnemonic, bind, Except.bind, pure, Except.pure, hg, hr, hid, hb, hlex, hr1,
          Except.isOk, Except.toBool]
      | true =>
        obtain ⟨t1, ht1, hty1⟩ := hbP rfl
        obtain ⟨t1', hrd1, ht1'⟩ := read_token_ok tokens (i + 1) h1
        have : t1' = t1 := by rw [ht1] at ht1'; cases ht1'; rfl
        subst this
        have h2 : i + 2 < tokens.length := R.next (i + 1) t1' ht1 (by rw [hty1]; decide)
        obtain ⟨lex1, hlex1, _⟩ := token_lexeme_ok t1' (R.lexeme (i + 1) t1' ht1 hty1)
        cases hinfo : tables_lookup_instruction t1'.lexeme with
        | none =>
          simp [analyze_mnemonic, bind, Except.bind, pure, Except.pure, hg, hr, hid, hb, hlex,
            hr1, hrd1, hinfo, Except.isOk, Except.toBool]
        | some info =>
          obtain ⟨r2, hr2⟩ := (isOk_iff _).1 (parse_operands_ok R 4 (i + 2) (consumed + 2) [] h2)
          obtain ⟨r3, hr3⟩ := (isOk_iff _).1 (parse_operands_ok R 4 (i + 2) (consumed + 2)
            [{ type := OPERAND_LABEL, value := 0, name := lex }] h2)
          by_cases hpd : info.type = PSEUDO_PROC ∨ info.type = PSEUDO_DB
          · simp [analyze_mnemonic, bind, Except.bind, pure, Except.pure, hg, hr, hid, hb, hlex,
              hlex1, hrd1, hinfo, hpd, hr2, Except.isOk, Except.toBool]
          · simp [analyze_mnemonic, bind, Except.bind, pure, Except.pure, hg, hr, hid, hb, hlex,
              hlex1, hrd1, hinfo, hpd, hr3, Except.isOk, Except.toBool]
    · simp [analyze_mnemonic, bind, Except.bind, pure, Except.pure, hg, hr, hid, Except.isOk,
        Except.toBool]
  · simp [analyze_mnemonic, bind, Except.bind, pure, Except.pure, hg, Except.isOk,
      Except.toBool]

/-- Statement analysis at an index of a readable token array reads inside the
array: it returns a record or `-1`. -/
theorem semantic_analyze_instruction_ok {tokens : List Token} (R : Readable tokens) (i : Nat)
    (hi : i < tokens.length) : (semantic_analyze_instruction tokens i).isOk = true := by
  obtain ⟨t, hr, ht⟩ := read_token_ok tokens i hi
  have hm0 := analyze_mnemonic_ok R i 0 false [] hi
  obtain ⟨m0, hm0'⟩ := (isOk_iff _).1 hm0
  by_cases hid : t.type = TOK_IDENTIFIER
  · have h1 : i + 1 < tokens.length := R.next i t ht (by rw [hid]; decide)
    obtain ⟨lex, hlex, _⟩ := token_lexeme_ok t (R.lexeme i t ht hid)
    obtain ⟨b, hb, hbP⟩ := token_type_is_ok tokens (i + 1) TOK_COLON h1
    cases b with
    | false =>
      simp [semantic_analyze_instruction, bind, Except.bind, pure, Except.pure, hr, hid, hb,
        hm0', Except.isOk, Except.toBool]
    | true =>
      obtain ⟨t1, ht1, hty1⟩ := hbP rfl
      have h2 : i + 2 < tokens.length := R.next (i + 1) t1 ht1 (by rw [hty1]; decide)
      obtain ⟨t2, hrd2, ht2⟩ := read_token_ok tokens (i + 2) h2
      obtain ⟨m2, hm2⟩ := (isOk_iff _).1 (analyze_mnemonic_ok R (i + 2) 2 true lex h2)
      by_cases hbig : i + 2 ≥ 65535
      · simp [semantic_analyze_instruction, bind, Except.bind, pure, Except.pure, hr, hid, hb,
          hlex, hbig, Except.isOk, Except.toBool]
      · by_cases hend : t2.type = TOK_NEWLINE ∨ t2.type = TOK_EOF
        · simp [semantic_analyze_instruction, bind, Except.bind, pure, Except.pure, hr, hid, hb,
            hlex, hbig, hrd2, hend, Except.isOk, Except.toBool]
        · simp [semantic_analyze_instruction, bind, Except.bind, pure, Except.pure, hr, hid, hb,
            hlex, hbig, hrd2, hend, hm2, Except.isOk, Except.toBool]
  · simp [semantic_analyze_instruction, bind, Except.bind, pure, Except.pure, hr, hid, hm0',
      Except.isOk, Except.toBool]

/-- Pass one on a readable token array returns: from every index the loop
ends with a context and a list of errors. -/
theorem pass_one_loop_ok {tokens : List Token} (R : Readable tokens) (fuel : Nat) :
    ∀ (i : Nat) (p : PassOne) (errs : List ErrorReport), tokens.length - i ≤ fuel →
      ∃ r, pass_one_loop fuel tokens i p errs = .ok r := by
  induction fuel with
  | zero =>
    intro i p errs h
    rw [pass_one_loop_done _ _ _ _ _ (by omega)]
    exact ⟨_, rfl⟩
  | succ f ih =>
    intro i p errs h
    by_cases hi : tokens.length ≤ i
    · rw [pass_one_loop_done _ _ _ _ _ hi]; exact ⟨_, rfl⟩
    · have hlt : i < tokens.length := by omega
      have h0 : tokens[i]? = some tokens[i] := List.getElem?_eq_getElem hlt
      by_cases hend : tokens[i].type = TOK_NEWLINE ∨ tokens[i].type = TOK_EOF
      · rw [pass_one_loop_line_step f _ _ _ _ _ h0 hend]
        exact ih _ _ _ (by omega)
      · have hn1 : tokens[i].type ≠ TOK_NEWLINE := fun h => hend (Or.inl h)
        have hn2 : tokens[i].type ≠ TOK_EOF := fun h => hend (Or.inr h)
        by_cases hcount : p.instruction_count ≥ PassOne.max_instructions
        · rw [pass_one_loop_full_step f _ _ _ _ _ h0 hn1 hn2 hcount]; exact ⟨_, rfl⟩
        · have hc : p.instruction_count < PassOne.max_instructions := by omega
          obtain ⟨r, ha⟩ := (isOk_iff _).1 (semantic_analyze_instruction_ok R i hlt)
          cases r with
          | none =>
            rw [pass_one_loop_fail_step f _ _ _ _ _ h0 hn1 hn2 hc ha]
            exact ih _ _ _ (by omega)
          | some v =>
            obtain ⟨parsed, n⟩ := v
            have hn := semantic_analyze_instruction_consumed ha
            rw [pass_one_loop_record_step f _ _ _ _ _ parsed n h0 hn1 hn2 hc ha]
            exact ih _ _ _ (by omega)

/-- A token array that ends with an end-of-input token, in which every
identifier token has a lexeme and the token before the last is no `[`, is
readable. -/
theorem readable_of_eof_end (ts : List Token) (eof : Token) (heof : eof.type = TOK_EOF)
    (hlex : ∀ t ∈ ts, t.type = TOK_IDENTIFIER → t.lexeme ≠ none)
    (hbr : ∀ t, ts.getLast? = some t → t.type ≠ TOK_LBRACKET) : Readable (ts ++ [eof]) where
  next := by
    intro i t ht hne
    have hlt : i < ts.length := by
      rcases Nat.lt_or_ge i ts.length with h | h
      · exact h
      · rw [List.getElem?_append_right h] at ht
        have : t = eof := by
          cases hk : i - ts.length with
          | zero => rw [hk] at ht; simpa using ht.symm
          | succ k => rw [hk] at ht; simp at ht
        rw [this] at hne
        exact absurd heof hne
    simp only [List.length_append, List.length_singleton]
    omega
  lexeme := by
    intro i t ht hid
    rcases Nat.lt_or_ge i ts.length with h | h
    · rw [List.getElem?_append_left h] at ht
      exact hlex t (List.getElem?_mem ht) hid
    · rw [List.getElem?_append_right h] at ht
      have : t = eof := by
        cases hk : i - ts.length with
        | zero => rw [hk] at ht; simpa using ht.symm
        | succ k => rw [hk] at ht; simp at ht
      rw [this, heof] at hid
      cases hid
  bracket := by
    intro i t ht hty
    have hlt : i < ts.length := by
      rcases Nat.lt_or_ge i ts.length with h | h
      · exact h
      · rw [List.getElem?_append_right h] at ht
        have : t = eof := by
          cases hk : i - ts.length with
          | zero => rw [hk] at ht; simpa using ht.symm
          | succ k => rw [hk] at ht; simp at ht
        rw [this, heof] at hty
        cases hty
    rw [List.getElem?_append_left hlt] at ht
    simp only [List.length_append, List.length_singleton]
    by_contra hcon
    have hi : i = ts.length - 1 := by omega
    have hlast : ts.getLast? = some t := by
      rw [List.getLast?_eq_getElem?, ← hi]
      exact ht
    exact hbr t hlast hty

/-! ## The line counter of pass one -/

theorem line_ends_take_succ (tokens : List Token) (i : Nat) (t : Token)
    (h : tokens[i]? = some t) :
    line_ends (tokens.take (i + 1)) = line_ends (tokens.take i) + (if t.ends_line then 1 else 0) := by
  have hlt : i < tokens.length := by
    rcases Nat.lt_or_ge i tokens.length with h1 | h1
    · exact h1
    · rw [List.getElem?_eq_none h1] at h; cases h
  have hget : tokens[i] = t := by
    rw [List.getElem?_eq_getElem hlt] at h
    exact Option.some.inj h
  rw [List.take_succ, h]
  simp only [line_ends, Option.toList_some, List.filter_append, List.length_append]
  by_cases he : t.ends_line = true
  · simp [he]
  · simp [he]

theorem take_of_length_le (tokens : List Token) (i : Nat) (h : tokens.length ≤ i) :
    tokens.take i = tokens := List.take_of_length_le h

/-- Tokens that do not end a line do not count. -/
theorem line_ends_take_add (tokens : List Token) (i : Nat) :
    ∀ n, (∀ x, x < n → ∀ t, tokens[i + x]? = some t → t.ends_line = false) →
      line_ends (tokens.take (i + n)) = line_ends (tokens.take i) := by
  intro n
  induction n with
  | zero => intro _; rfl
  | succ n ih =>
    intro h
    have h1 := ih (fun x hx t ht => h x (by omega) t ht)
    rcases Nat.lt_or_ge (i + n) tokens.length with hlt | hge
    · have hget : tokens[i + n]? = some tokens[i + n] := List.getElem?_eq_getElem hlt
      have hne := h n (by omega) _ hget
      show line_ends (tokens.take (i + n + 1)) = _
      rw [line_ends_take_succ tokens (i + n) _ hget, hne, h1]
      simp
    · show line_ends (tokens.take (i + n + 1)) = _
      rw [List.take_of_length_le (by omega), ← h1, List.take_of_length_le hge]

/-- The window of the tokens that a statement analysis may consume without
passing the end of its line. -/
theorem window_of_line (tokens : List Token) (i : Nat) (hlen : tokens.length + 3 < 65535)
    (hns : brackets_keep_line tokens) :
    Window tokens tokens i i
      (fun k => i + k + 2 < 65535 ∧
        ∀ x, x < k → ∀ t, tokens[i + x]? = some t → t.ends_line = false) where
  agree := fun _ _ => rfl
  bound := fun k hk => ⟨hk.1, hk.1⟩
  next := by
    intro k t hk ht hend
    have hlt : i + k < tokens.length := by
      rcases Nat.lt_or_ge (i + k) tokens.length with h1 | h1
      · exact h1
      · rw [List.getElem?_eq_none h1] at ht; cases ht
    refine ⟨by omega, ?_⟩
    intro x hx u hu
    by_cases hxk : x = k
    · subst hxk
      rw [ht] at hu
      cases hu
      exact hend
    · exact hk.2 x (by omega) u hu
  bracket := by
    intro k t hk ht hty
    have hlt : i + k < tokens.length := by
      rcases Nat.lt_or_ge (i + k) tokens.length with h1 | h1
      · exact h1
      · rw [List.getElem?_eq_none h1] at ht; cases ht
    refine ⟨by omega, ?_⟩
    intro x hx u hu
    by_cases hxk : x = k
    · subst hxk
      rw [ht] at hu
      cases hu
      exact Token.ends_line_of_type hty (by decide) (by decide)
    · by_cases hxk1 : x = k + 1
      · subst hxk1
        exact hns (i + k) t u ht hty hu
      · exact hk.2 x (by omega) u hu

/-- The tokens a statement analysis consumes do not end a line, when no `[`
is followed by the end of its line. -/
theorem semantic_analyze_instruction_line (tokens : List Token) (i : Nat)
    (hlen : tokens.length + 3 < 65535) (hns : brackets_keep_line tokens)
    (hi : i < tokens.length) (parsed : InstructionEntry) (n : Nat)
    (h : semantic_analyze_instruction tokens i = .ok (some (parsed, n))) :
    ∀ x, x < n → ∀ t, tokens[i + x]? = some t → t.ends_line = false :=
  (((window_of_line tokens i hlen hns).same_analysis
    ⟨by omega, fun x hx => absurd hx (Nat.not_lt_zero x)⟩).2 parsed n h).2

theorem pass_one_record_line (p : PassOne) (parsed : InstructionEntry) :
    (pass_one_record p parsed).1.current_line = p.current_line := by
  unfold pass_one_record
  dsimp only
  split
  · split <;> rfl
  · rfl

/-- A property of the token index and the pass-one context that every kind of
round of the pass-one loop keeps holds, for some index, when the loop ends. -/
theorem pass_one_loop_indexed (tokens : List Token) (I : Nat → PassOne → Prop)
    (h_line : ∀ (i : Nat) (p : PassOne) (t : Token), tokens[i]? = some t →
      (t.type = TOK_NEWLINE ∨ t.type = TOK_EOF) → I i p →
      I (i + 1) { p with current_line := p.current_line + 1 })
    (h_flag : ∀ (i : Nat) (p : PassOne), I i p → I i { p with has_errors := true })
    (h_err : ∀ (i : Nat) (p : PassOne) (t : Token), tokens[i]? = some t →
      t.type ≠ TOK_NEWLINE → t.type ≠ TOK_EOF →
      semantic_analyze_instruction tokens i = .ok none → I i p →
      I (i + 1) { p with has_errors := true })
    (h_rec : ∀ (i : Nat) (p : PassOne) (t : Token) (parsed : InstructionEntry) (n : Nat),
      tokens[i]? = some t → t.type ≠ TOK_NEWLINE → t.type ≠ TOK_EOF →
      p.instruction_count < PassOne.max_instructions →
      semantic_analyze_instruction tokens i = .ok (some (parsed, n)) → I i p →
      I (i + n) (pass_one_record p parsed).1) (fuel : Nat) :
    ∀ (i : Nat) (p : PassOne) (errs : List ErrorReport) (r : PassOne × List ErrorReport),
      pass_one_loop fuel tokens i p errs = .ok r → I i p → ∃ j, I j r.1 := by
  induction fuel with
  | zero =>
    intro i p errs r h hI
    unfold pass_one_loop at h
    split at h
    · cases h
    · cases h; exact ⟨i, hI⟩
  | succ f ih =>
    intro i p errs r h hI
    by_cases hi : tokens.length ≤ i
    · rw [pass_one_loop_done _ _ _ _ _ hi] at h
      cases h
      exact ⟨i, hI⟩
    · have hlt : i < tokens.length := by omega
      have h0 : tokens[i]? = some tokens[i] := List.getElem?_eq_getElem hlt
      by_cases hend : tokens[i].type = TOK_NEWLINE ∨ tokens[i].type = TOK_EOF
      · rw [pass_one_loop_line_step f _ _ _ _ _ h0 hend] at h
        exact ih _ _ _ _ h (h_line i p _ h0 hend hI)
      · have hn1 : tokens[i].type ≠ TOK_NEWLINE := fun h => hend (Or.inl h)
        have hn2 : tokens[i].type ≠ TOK_EOF := fun h => hend (Or.inr h)
        by_cases hcount : p.instruction_count ≥ PassOne.max_instructions
        · rw [pass_one_loop_full_step f _ _ _ _ _ h0 hn1 hn2 hcount] at h
          cases h
          exact ⟨i, h_flag i p hI⟩
        · have hc : p.instruction_count < PassOne.max_instructions := by omega
          cases ha : semantic_analyze_instruction tokens i with
          | error g =>
            rw [pass_one_loop_fault_step f _ _ _ _ _ g h0 hn1 hn2 hc ha] at h
            cases h
          | ok v =>
            cases v with
            | none =>
              rw [pass_one_loop_fail_step f _ _ _ _ _ h0 hn1 hn2 hc ha] at h
              exact ih _ _ _ _ h (h_err i p _ h0 hn1 hn2 ha hI)
            | some v =>
              obtain ⟨parsed, n⟩ := v
              rw [pass_one_loop_record_step f _ _ _ _ _ parsed n h0 hn1 hn2 hc ha] at h
              exact ih _ _ _ _ h (h_rec i p _ parsed n h0 hn1 hn2 hc ha hI)

/-- What the pass-one loop keeps true about lines, when no `[` is followed by
the end of its line: the line counter is one plus the number of end-of-line
tokens before the index, and every record carries one plus the number of
end-of-line tokens before the statement it was analysed from. -/
theorem pass_one_run_lines (tokens : List Token) (hlen : tokens.length + 3 < 65535)
    (hns : brackets_keep_line tokens) (p : PassOne) (errs : List ErrorReport)
    (h : semantic_pass_one_run tokens = .ok (p, errs)) :
    ∀ e ∈ p.instructions, ∃ (j : Nat) (parsed : InstructionEntry) (n : Nat),
      j < tokens.length ∧ semantic_analyze_instruction tokens j = .ok (some (parsed, n)) ∧
      e.line = 1 + line_ends (tokens.take j) ∧ e.label = parsed.label ∧
      e.has_label = parsed.has_label ∧ e.mnemonic = parsed.mnemonic ∧
      e.operands = parsed.operands := by
  have key := pass_one_loop_indexed tokens
    (fun i p => p.current_line = 1 + line_ends (tokens.take i) ∧
      ∀ e ∈ p.instructions, ∃ (j : Nat) (parsed : InstructionEntry) (n : Nat),
        j < tokens.length ∧ semantic_analyze_instruction tokens j = .ok (some (parsed, n)) ∧
        e.line = 1 + line_ends (tokens.take j) ∧ e.label = parsed.label ∧
        e.has_label = parsed.has_label ∧ e.mnemonic = parsed.mnemonic ∧
        e.operands = parsed.operands)
    ?_ ?_ ?_ ?_ tokens.length 0 pass_one_init [] (p, errs) h ?_
  · obtain ⟨j, hj⟩ := key
    exact hj.2
  · intro i p t ht hend hI
    refine ⟨?_, hI.2⟩
    have he : t.ends_line = true := by simpa [Token.ends_line] using hend
    show p.current_line + 1 = _
    rw [line_ends_take_succ tokens i t ht, he, hI.1]
    simp
    omega
  · intro i p hI
    exact hI
  · intro i p t ht hn1 hn2 _ hI
    refine ⟨?_, hI.2⟩
    have he : t.ends_line = false := Token.ends_line_false hn1 hn2
    show p.current_line = _
    rw [line_ends_take_succ tokens i t ht, he, hI.1]
    simp
  · intro i p t parsed n ht hn1 hn2 hc ha hI
    have hlt : i < tokens.length := by
      rcases Nat.lt_or_ge i tokens.length with h1 | h1
      · exact h1
      · rw [List.getElem?_eq_none h1] at ht; cases ht
    have hclean := semantic_analyze_instruction_line tokens i hlen hns hlt parsed n ha
    refine ⟨?_, ?_⟩
    · rw [pass_one_record_line, line_ends_take_add tokens i n hclean]
      exact hI.1
    · intro e he
      rw [pass_one_record_instructions] at he
      rcases List.mem_append.1 he with h1 | h1
      · exact hI.2 e h1
      · have heq : e = pass_one_entry p parsed := by simpa using h1
        subst heq
        exact ⟨i, parsed, n, hlt, ha, hI.1, rfl, rfl, rfl, rfl⟩
  · exact ⟨rfl, fun e he => by cases he⟩

/-! ## Relocation slots -/

/-- The emission loop only appends error reports. -/
theorem emit_all_errors (entries : List InstructionEntry) :
    ∀ (idx : Nat) (cg : CodeGen) (errs : List ErrorReport),
      ∃ more, (emit_all entries idx cg errs).2 = errs ++ more := by
  induction entries with
  | nil => intro idx cg errs; exact ⟨[], by simp [emit_all]⟩
  | cons e rest ih =>
    intro idx cg errs
    unfold emit_all
    simp only
    split
    · obtain ⟨more, hm⟩ := ih (idx + 1)
        { (codegen_emit_instruction cg idx e).2.1 with has_errors := true }
        (errs ++ (codegen_emit_instruction cg idx e).2.2 ++
          [{ line := e.line, code := ERR_PARSE_UNK_MNEMONIC }])
      exact ⟨_, by rw [hm, List.append_assoc, List.append_assoc]⟩
    · obtain ⟨more, hm⟩ := ih (idx + 1) (codegen_emit_instruction cg idx e).2.1
        (errs ++ (codegen_emit_instruction cg idx e).2.2)
      exact ⟨_, by rw [hm, List.append_assoc]⟩

/-- Every relocation of the operands of a record points at two zero bytes
within the bytes of the operands. -/
theorem label_relocations_slot (idx : Nat) (ops : List Operand) :
    ∀ (k pos : Nat), ∀ r ∈ label_relocations idx ops k pos,
      pos ≤ r.offset ∧ (encode_operands ops k)[r.offset - pos]? = some 0 ∧
      (encode_operands ops k)[r.offset - pos + 1]? = some 0 := by
  induction ops with
  | nil => intro k pos r hr; simp [label_relocations] at hr
  | cons o rest ih =>
    intro k pos r hr
    have hlen := operand_bytes_length k o
    simp only [label_relocations, List.mem_append] at hr
    rcases hr with h | h
    · split at h
      · next hlab =>
        simp only [List.mem_singleton] at h
        subst h
        have hb : operand_bytes k o = [0x00, 0x00] := by
          have hni : o.type ≠ OPERAND_IMMEDIATE := by rw [hlab.1]; decide
          have hnr : o.type ≠ OPERAND_REGISTER := by rw [hlab.1]; decide
          simp [operand_bytes, hni, hnr, hlab.1]
        simp [encode_operands, hb]
      · simp at h
    · obtain ⟨h1, h2, h3⟩ := ih (k + 1) (pos + operand_size o) r h
      refine ⟨by omega, ?_, ?_⟩
      · rw [encode_operands, List.getElem?_append_right (by rw [hlen]; omega), hlen]
        rw [show r.offset - pos - operand_size o = r.offset - (pos + operand_size o) by omega]
        exact h2
      · rw [encode_operands, List.getElem?_append_right (by rw [hlen]; omega), hlen]
        rw [show r.offset - pos + 1 - operand_size o = r.offset - (pos + operand_size o) + 1
          by omega]
        exact h3

/-- One call of the emitter that reports no out-of-memory error keeps the
queued relocations in order inside the buffer, each pointing at two zero
bytes. -/
theorem codegen_emit_instruction_slots (cg : CodeGen) (idx : Nat) (entry : InstructionEntry)
    (hno : ∀ x ∈ (codegen_emit_instruction cg idx entry).2.2, x.code ≠ ERR_SYS_OUT_OF_MEM)
    (hs : slots_ok cg.relocations cg.code_buffer.length)
    (hz : ∀ r ∈ cg.relocations, cg.code_buffer[r.offset]? = some 0 ∧
      cg.code_buffer[r.offset + 1]? = some 0) :
    slots_ok (codegen_emit_instruction cg idx entry).2.1.relocations
      (codegen_emit_instruction cg idx entry).2.1.code_buffer.length ∧
    ∀ r ∈ (codegen_emit_instruction cg idx entry).2.1.relocations,
      (codegen_emit_instruction cg idx entry).2.1.code_buffer[r.offset]? = some 0 ∧
      (codegen_emit_instruction cg idx entry).2.1.code_buffer[r.offset + 1]? = some 0 := by
  have hold : ∀ (code : List Nat), ∀ r ∈ cg.relocations,
      (cg.code_buffer ++ code)[r.offset]? = some 0 ∧
      (cg.code_buffer ++ code)[r.offset + 1]? = some 0 := by
    intro code r hr
    have hle := hs.2 r hr
    rw [List.getElem?_append_left (by omega), List.getElem?_append_left (by omega)]
    exact hz r hr
  rcases codegen_emit_instruction_size cg idx entry with hfail | ⟨h0, _, _, hsl⟩
  · -- the call has returned `-1`
    unfold codegen_emit_instruction at hno hfail ⊢
    split
    · next hg =>
      rw [if_pos hg] at hno
      exact absurd rfl (hno _ (List.mem_singleton.2 rfl))
    · next hg =>
      rw [if_neg hg] at hno hfail
      split
      · exact ⟨hs, hz⟩
      · next info hinfo =>
        rw [hinfo] at hno hfail
        simp only at hno hfail
        split
        · next hp =>
          rw [if_pos hp] at hfail
          repeat' split at hfail
          all_goals simp at hfail
        · next hp =>
          rw [if_neg hp] at hno hfail
          split
          · next relocs he =>
            rw [he] at hno
            exact absurd rfl (hno _ (List.mem_singleton.2 rfl))
          · next code relocs he =>
            rw [he] at hfail
            simp at hfail
  · refine ⟨hsl hs, ?_⟩
    cases hinfo : tables_lookup_instruction (some entry.mnemonic) with
    | none =>
      rw [codegen_emit_instruction_unknown cg idx entry hinfo] at h0
      exact absurd h0 (by decide)
    | some info =>
      by_cases hord : info.is_pseudo = 0
      · obtain ⟨hcode, hrel, _⟩ := codegen_emit_instruction_ordinary cg idx entry info hinfo hord h0
        rw [hcode, hrel]
        intro r hr
        rcases List.mem_append.1 hr with h1 | h1
        · exact hold _ r h1
        · obtain ⟨hpos, hb0, hb1⟩ := label_relocations_slot idx entry.operands 0 _ r h1
          unfold CodeGen.code_size at hpos hb0 hb1
          constructor
          · rw [List.getElem?_append_right (by omega),
              show r.offset - cg.code_buffer.length =
                (r.offset - (cg.code_buffer.length + 1)) + 1 by omega,
              List.getElem?_cons_succ]
            exact hb0
          · rw [List.getElem?_append_right (by omega),
              show r.offset + 1 - cg.code_buffer.length =
                (r.offset - (cg.code_buffer.length + 1) + 1) + 1 by omega,
              List.getElem?_cons_succ]
            exact hb1
      · unfold codegen_emit_instruction
        split
        · exact hz
        · rw [hinfo]
          simp only [ne_eq, hord, not_false_eq_true, if_true]
          split
          · split
            · split
              · exact hold _
              · exact hz
            · exact hz
          · exact hz

/-- An emission loop that reports no out-of-memory error keeps the queued
relocations in order inside the buffer, each pointing at two zero bytes. -/
theorem emit_all_slots (entries : List InstructionEntry) :
    ∀ (idx : Nat) (cg : CodeGen) (errs : List ErrorReport),
      (∀ x ∈ (emit_all entries idx cg errs).2, x ∉ errs → x.code ≠ ERR_SYS_OUT_OF_MEM) →
      (∀ x ∈ errs, x.code ≠ ERR_SYS_OUT_OF_MEM) →
      slots_ok cg.relocations cg.code_buffer.length →
      (∀ r ∈ cg.relocations, cg.code_buffer[r.offset]? = some 0 ∧
        cg.code_buffer[r.offset + 1]? = some 0) →
      slots_ok (emit_all entries idx cg errs).1.relocations
        (emit_all entries idx cg errs).1.code_buffer.length ∧
      ∀ r ∈ (emit_all entries idx cg errs).1.relocations,
        (emit_all entries idx cg errs).1.code_buffer[r.offset]? = some 0 ∧
        (emit_all entries idx cg errs).1.code_buffer[r.offset + 1]? = some 0 := by
  induction entries with
  | nil => intro idx cg errs _ _ hs hz; exact ⟨hs, hz⟩
  | cons e rest ih =>
    intro idx cg errs hno herrs hs hz
    have hall : ∀ x ∈ (emit_all (e :: rest) idx cg errs).2, x.code ≠ ERR_SYS_OUT_OF_MEM := by
      intro x hx
      by_cases hin : x ∈ errs
      · exact herrs x hin
      · exact hno x hx hin
    unfold emit_all at hall ⊢
    simp only at hall ⊢
    by_cases hlt : (codegen_emit_instruction cg idx e).1 < 0
    · rw [if_pos hlt] at hall ⊢
      obtain ⟨more, hm⟩ := emit_all_errors rest (idx + 1)
        { (codegen_emit_instruction cg idx e).2.1 with has_errors := true }
        (errs ++ (codegen_emit_instruction cg idx e).2.2 ++
          [{ line := e.line, code := ERR_PARSE_UNK_MNEMONIC }])
      have hstep : ∀ x ∈ (codegen_emit_instruction cg idx e).2.2,
          x.code ≠ ERR_SYS_OUT_OF_MEM := by
        intro x hx
        apply hall x
        rw [hm]
        simp [hx]
      have hpre : ∀ x ∈ errs ++ (codegen_emit_instruction cg idx e).2.2 ++
          [{ line := e.line, code := ERR_PARSE_UNK_MNEMONIC }],
          x.code ≠ ERR_SYS_OUT_OF_MEM := by
        intro x hx
        apply hall x
        rw [hm]
        exact List.mem_append_left _ hx
      obtain ⟨h1, h2⟩ := codegen_emit_instruction_slots cg idx e hstep hs hz
      exact ih _ _ _ (fun x hx _ => hall x hx) hpre h1 h2
    · rw [if_neg hlt] at hall ⊢
      obtain ⟨more, hm⟩ := emit_all_errors rest (idx + 1) (codegen_emit_instruction cg idx e).2.1
        (errs ++ (codegen_emit_instruction cg idx e).2.2)
      have hstep : ∀ x ∈ (codegen_emit_instruction cg idx e).2.2,
          x.code ≠ ERR_SYS_OUT_OF_MEM := by
        intro x hx
        apply hall x
        rw [hm]
        simp [hx]
      have hpre : ∀ x ∈ errs ++ (codegen_emit_instruction cg idx e).2.2,
          x.code ≠ ERR_SYS_OUT_OF_MEM := by
        intro x hx
        apply hall x
        rw [hm]
        exact List.mem_append_left _ hx
      obtain ⟨h1, h2⟩ := codegen_emit_instruction_slots cg idx e hstep hs hz
      exact ih _ _ _ (fun x hx _ => hall x hx) hpre h1 h2

/-! ## A full relocation table -/

/-- Reading behind a prefix reads the rest. -/
theorem getElem?_append_add {α : Type} (pre l : List α) (k : Nat) :
    (pre ++ l)[pre.length + k]? = l[k]? := by
  rw [List.getElem?_append_right (by omega)]
  congr 1
  omega

/-- Analysis of a line `MOV A, B, C`. -/
theorem analyze_three_labels (pre rest : List Token) (ln : Nat)
    (hlen : pre.length + 8 < 65535) :
    semantic_analyze_instruction (pre ++ (three_label_line ln ++ rest)) pre.length =
      .ok (some (mk_entry (cstr "MOV") three_label_operands false [], 6)) := by
  have h0 : (pre ++ (three_label_line ln ++ rest))[pre.length]? = some
      { type := TOK_IDENTIFIER, lexeme := some (cstr "MOV"), line := ln, int_value := 0 } := by
    exact (getElem?_append_add pre _ 0).trans (by simp [three_label_line])
  have h1 : (pre ++ (three_label_line ln ++ rest))[pre.length + 1]? = some
      { type := TOK_IDENTIFIER, lexeme := some (cstr "A"), line := ln, int_value := 0 } := by
    exact (getElem?_append_add pre _ 1).trans (by simp [three_label_line])
  have h2 : (pre ++ (three_label_line ln ++ rest))[pre.length + 1 + 1]? = some
      { type := TOK_COMMA, lexeme := some (cstr ","), line := ln, int_value := 0 } := by
    exact (getElem?_append_add pre _ 2).trans (by simp [three_label_line])
  have h3 : (pre ++ (three_label_line ln ++ rest))[pre.length + 1 + 1 + 1]? = some
      { type := TOK_IDENTIFIER, lexeme := some (cstr "B"), line := ln, int_value := 0 } := by
    exact (getElem?_append_add pre _ 3).trans (by simp [three_label_line])
  have h4 : (pre ++ (three_label_line ln ++ rest))[pre.length + 1 + 1 + 1 + 1]? = some
      { type := TOK_COMMA, lexeme := some (cstr ","), line := ln, int_value := 0 } := by
    exact (getElem?_append_add pre _ 4).trans (by simp [three_label_line])
  have h5 : (pre ++ (three_label_line ln ++ rest))[pre.length + 1 + 1 + 1 + 1 + 1]? = some
      { type := TOK_IDENTIFIER, lexeme := some (cstr "C"), line := ln, int_value := 0 } := by
    exact (getElem?_append_add pre _ 5).trans (by simp [three_label_line])
  have h6 : (pre ++ (three_label_line ln ++ rest))[pre.length + 1 + 1 + 1 + 1 + 1 + 1]? = some
      { type := TOK_NEWLINE, lexeme := some [10], line := ln, int_value := 0 } := by
    exact (getElem?_append_add pre _ 6).trans (by simp [three_label_line])
  have hA : tables_lookup_instruction (some (cstr "A")) = none := by decide
  have hm : util_strcpy (cstr "MOV") = cstr "MOV" := by decide
  have ha : identifier_operand (util_strcpy (cstr "A")) =
      { type := OPERAND_LABEL, value := 0, name := cstr "A" } := by decide
  have hb : identifier_operand (util_strcpy (cstr "B")) =
      { type := OPERAND_LABEL, value := 0, name := cstr "B" } := by decide
  have hc : identifier_operand (util_strcpy (cstr "C")) =
      { type := OPERAND_LABEL, value := 0, name := cstr "C" } := by decide
  have g0 : pre.length < 65535 := by omega
  have g1 : pre.length + 1 < 65535 := by omega
  have g2 : pre.length + 1 + 1 < 65535 := by omega
  have g3 : pre.length + 1 + 1 + 1 < 65535 := by omega
  have g4 : pre.length + 1 + 1 + 1 + 1 < 65535 := by omega
  have g5 : pre.length + 1 + 1 + 1 + 1 + 1 < 65535 := by omega
  have g6 : pre.length + 1 + 1 + 1 + 1 + 1 + 1 < 65535 := by omega
  simp [semantic_analyze_instruction, analyze_mnemonic, parse_operands, operand_suffix,
    token_type_is, read_token, token_lexeme, bind, Except.bind, pure, Except.pure, h0, h1, h2, h3,
    h4, h5, h6, g0, g1, g2, g3, g4, g5, g6, hA, hm, ha, hb, hc, SEMANTIC_MAX_OPERANDS,
    three_label_operands]

/-- Analysis of the line `MOV A, B` at the end of the input. -/
theorem analyze_two_labels (pre : List Token) (ln : Nat) (hlen : pre.length + 8 < 65535) :
    semantic_analyze_instruction (pre ++ two_label_end ln) pre.length =
      .ok (some (mk_entry (cstr "MOV") two_label_operands false [], 4)) := by
  have h0 : (pre ++ two_label_end ln)[pre.length]? = some
      { type := TOK_IDENTIFIER, lexeme := some (cstr "MOV"), line := ln, int_value := 0 } := by
    exact (getElem?_append_add pre _ 0).trans (by simp [two_label_end])
  have h1 : (pre ++ two_label_end ln)[pre.length + 1]? = some
      { type := TOK_IDENTIFIER, lexeme := some (cstr "A"), line := ln, int_value := 0 } := by
    exact (getElem?_append_add pre _ 1).trans (by simp [two_label_end])
  have h2 : (pre ++ two_label_end ln)[pre.length + 1 + 1]? = some
      { type := TOK_COMMA, lexeme := some (cstr ","), line := ln, int_value := 0 } := by
    exact (getElem?_append_add pre _ 2).trans (by simp [two_label_end])
  have h3 : (pre ++ two_label_end ln)[pre.length + 1 + 1 + 1]? = some
      { type := TOK_IDENTIFIER, lexeme := some (cstr "B"), line := ln, int_value := 0 } := by
    exact (getElem?_append_add pre _ 3).trans (by simp [two_label_end])
  have h4 : (pre ++ two_label_end ln)[pre.length + 1 + 1 + 1 + 1]? = some
      { type := TOK_EOF, lexeme := none, line := ln, int_value := 0 } := by
    exact (getElem?_append_add pre _ 4).trans (by simp [two_label_end])
  have hA : tables_lookup_instruction (some (cstr "A")) = none := by decide
  have hm : util_strcpy (cstr "MOV") = cstr "MOV" := by decide
  have ha : identifier_operand (util_strcpy (cstr "A")) =
      { type := OPERAND_LABEL, value := 0, name := cstr "A" } := by decide
  have hb : identifier_operand (util_strcpy (cstr "B")) =
      { type := OPERAND_LABEL, value := 0, name := cstr "B" } := by decide
  have g0 : pre.length < 65535 := by omega
  have g1 : pre.length + 1 < 65535 := by omega
  have g2 : pre.length + 1 + 1 < 65535 := by omega
  have g3 : pre.length + 1 + 1 + 1 < 65535 := by omega
  have g4 : pre.length + 1 + 1 + 1 + 1 < 65535 := by omega
  simp [semantic_analyze_instruction, analyze_mnemonic, parse_operands, operand_suffix,
    token_type_is, read_token, token_lexeme, bind, Except.bind, pure, Except.pure, h0, h1, h2, h3,
    h4, g0, g1, g2, g3, g4, hA, hm, ha, hb, SEMANTIC_MAX_OPERANDS, two_label_operands]

/-- Recording a statement `MOV` without a label: the record and the counters. -/
theorem pass_one_record_mov (p : PassOne) (ops : List Operand)
    (hadr : p.current_address + 3 < 4294967296) :
    pass_one_record p (mk_entry (cstr "MOV") ops false []) =
      ({ p with
          current_address := p.current_address + 3
          instructions := p.instructions ++
            [{ address := p.current_address, length := 3, line := p.current_line,
               mnemonic := cstr "MOV", operands := ops, has_label := false, label := [] }] },
        []) := by
  have hest : ∀ n, estimate_instruction_length (cstr "MOV") n = 3 := fun n => by
    simp [estimate_instruction_length]; decide
  simp [pass_one_record, pass_one_entry, mk_entry, hest, Nat.mod_eq_of_lt hadr]

/-- Pass one over `n` lines `MOV A, B, C` and the line `MOV A, B`: one record
for each line, three bytes reserved for each. -/
theorem pass_one_loop_three_labels : ∀ (n : Nat) (pre : List Token) (ln : Nat) (p : PassOne)
    (errs : List ErrorReport) (fuel : Nat),
    (pre ++ three_label_program n ln).length + 8 < 65535 →
    p.instructions.length + n + 1 ≤ 512 →
    p.current_address + 3 * (n + 1) < 4294967296 →
    (three_label_program n ln).length ≤ fuel →
    pass_one_loop fuel (pre ++ three_label_program n ln) pre.length p errs =
      .ok ({ p with
          instructions := p.instructions ++ three_label_records n p.current_address p.current_line
          current_address := p.current_address + 3 * (n + 1)
          current_line := p.current_line + (n + 1) }, errs) := by
  intro n
  induction n with
  | zero =>
    intro pre ln p errs fuel hlen hcount hadr hfuel
    simp only [three_label_program] at hlen hfuel ⊢
    have hl : (two_label_end ln).length = 5 := rfl
    rw [List.length_append, hl] at hlen
    rw [hl] at hfuel
    obtain ⟨f, rfl⟩ : ∃ f, fuel = f + 1 + 1 := ⟨fuel - 2, by omega⟩
    have h0 : (pre ++ two_label_end ln)[pre.length]? = some
        { type := TOK_IDENTIFIER, lexeme := some (cstr "MOV"), line := ln, int_value := 0 } :=
      (getElem?_append_add pre _ 0).trans (by simp [two_label_end])
    have h4 : (pre ++ two_label_end ln)[pre.length + 4]? = some
        { type := TOK_EOF, lexeme := none, line := ln, int_value := 0 } :=
      (getElem?_append_add pre _ 4).trans (by simp [two_label_end])
    rw [pass_one_loop_record_step _ _ _ _ _ _ _ _ h0 (by simp) (by simp)
      (by simp [PassOne.instruction_count, PassOne.max_instructions]; omega)
      (analyze_two_labels pre ln (by omega))]
    rw [pass_one_record_mov _ _ (by omega)]
    rw [pass_one_loop_line_step _ _ _ _ _ _ h4 (Or.inr rfl)]
    rw [pass_one_loop_done _ _ _ _ _ (by rw [List.length_append, hl])]
    simp [three_label_records]
  | succ n ih =>
    intro pre ln p errs fuel hlen hcount hadr hfuel
    simp only [three_label_program] at hlen hfuel ⊢
    have hl : (three_label_line ln).length = 7 := rfl
    rw [List.length_append, List.length_append, hl] at hlen
    rw [List.length_append, hl] at hfuel
    obtain ⟨f, rfl⟩ : ∃ f, fuel = f + 1 + 1 := ⟨fuel - 2, by omega⟩
    have h0 : (pre ++ (three_label_line ln ++ three_label_program n (ln + 1)))[pre.length]? = some
        { type := TOK_IDENTIFIER, lexeme := some (cstr "MOV"), line := ln, int_value := 0 } :=
      (getElem?_append_add pre _ 0).trans (by simp [three_label_line])
    have h6 : (pre ++ (three_label_line ln ++ three_label_program n (ln + 1)))[pre.length + 6]? =
        some { type := TOK_NEWLINE, lexeme := some [10], line := ln, int_value := 0 } :=
      (getElem?_append_add pre _ 6).trans (by simp [three_label_line])
    rw [pass_one_loop_record_step _ _ _ _ _ _ _ _ h0 (by simp) (by simp)
      (by simp [PassOne.instruction_count, PassOne.max_instructions]; omega)
      (analyze_three_labels pre _ ln (by omega))]
    rw [pass_one_record_mov _ _ (by omega)]
    rw [pass_one_loop_line_step _ _ _ _ _ _ h6 (Or.inl rfl)]
    have hpre : pre.length + 6 + 1 = (pre ++ three_label_line ln).length := by
      rw [List.length_append, hl]
    have htok : pre ++ (three_label_line ln ++ three_label_program n (ln + 1)) =
        (pre ++ three_label_line ln) ++ three_label_program n (ln + 1) := by
      rw [List.append_assoc]
    rw [hpre, htok, ih _ _ _ _ _ (by rw [List.length_append, List.length_append, hl]; omega)
      (by simp; omega) (by simp; omega) (by omega)]
    simp [three_label_records]
    omega

/-- Number of tokens of the program of `n` lines `MOV A, B, C` and the line
`MOV A, B`. -/
theorem three_label_program_length : ∀ (n ln : Nat),
    (three_label_program n ln).length = 7 * n + 5 := by
  intro n
  induction n with
  | zero => intro ln; rfl
  | succ n ih =>
    intro ln
    rw [three_label_program, List.length_append, ih]
    have hl : (three_label_line ln).length = 7 := rfl
    omega

/-- Pass one on the program of `n` lines `MOV A, B, C` and the line `MOV A, B`. -/
theorem semantic_pass_one_three_labels (n : Nat) (hn : n + 1 ≤ 512) :
    semantic_pass_one (three_label_program n 1) =
      .ok (some { pass_one_init with
          instructions := three_label_records n 0 1
          current_address := 3 * (n + 1)
          current_line := 1 + (n + 1) }, []) := by
  have h := pass_one_loop_three_labels n [] 1 pass_one_init [] (three_label_program n 1).length
    (by simp [three_label_program_length]; omega)
    (by simp [pass_one_init]; omega) (by simp [pass_one_init]; omega) (le_refl _)
  simp only [List.nil_append, List.length_nil] at h
  rw [semantic_pass_one, semantic_pass_one_run, h]
  simp [pass_one_init]

/-- Emission of a record `MOV A, B, C` with room in the buffer and in the
relocation table: seven bytes and three relocations. -/
theorem codegen_emit_three_labels (cg : CodeGen) (idx : Nat) (entry : InstructionEntry)
    (hm : entry.mnemonic = cstr "MOV") (hops : entry.operands = three_label_operands)
    (hbuf : cg.code_buffer.length + 15 < 65536) (hroom : cg.relocations.length + 3 ≤ 1000) :
    (codegen_emit_instruction cg idx entry).1 = 0 ∧
    (codegen_emit_instruction cg idx entry).2.2 = [] ∧
    (codegen_emit_instruction cg idx entry).2.1.code_buffer.length = cg.code_buffer.length + 7 ∧
    (codegen_emit_instruction cg idx entry).2.1.relocations.length =
      cg.relocations.length + 3 := by
  have hinfo : tables_lookup_instruction (some entry.mnemonic) =
      some ⟨cstr "MOV", INSTR_MOV, 0x88, 2, 0⟩ := by rw [hm]; decide
  have hsym : symbolic_operands entry.operands = 3 := by rw [hops]; decide
  obtain ⟨h0, h1, _, _, _⟩ := codegen_emit_instruction_ok cg idx entry hbuf
    (by rw [hinfo]; simp) (by rw [hsym]; exact hroom)
  obtain ⟨h2, h3, _⟩ := codegen_emit_instruction_ordinary cg idx entry _ hinfo rfl h0
  refine ⟨h0, h1, ?_, ?_⟩
  · rw [h2, hops]
    have henc : encode_operands three_label_operands 0 = [0, 0, 0, 0, 0, 0] := by decide
    rw [henc]
    simp
  · rw [h3, hops]
    have hA : util_strlen (cstr "A") > 0 := by decide
    have hB : util_strlen (cstr "B") > 0 := by decide
    have hC : util_strlen (cstr "C") > 0 := by decide
    simp [label_relocations, three_label_operands, hA, hB, hC]

/-- Emission of a record `MOV A, B` when one place is left in the relocation
table: the relocation of `A` is queued behind the opcode byte, the relocation
of `B` finds the table full, and the call returns `-1` with the buffer as it
was. -/
theorem codegen_emit_two_labels_full (cg : CodeGen) (idx : Nat) (entry : InstructionEntry)
    (hm : entry.mnemonic = cstr "MOV") (hops : entry.operands = two_label_operands)
    (hbuf : cg.code_buffer.length + 15 < 65536) (hroom : cg.relocations.length = 999) :
    codegen_emit_instruction cg idx entry =
      (-1, { cg with relocations := cg.relocations ++
          [{ offset := cg.code_buffer.length + 1, instruction_index := idx, operand_index := 0,
             symbol_name := cstr "A" }] },
        [{ line := 0, code := ERR_SYS_OUT_OF_MEM }]) := by
  have hinfo : tables_lookup_instruction (some entry.mnemonic) =
      some ⟨cstr "MOV", INSTR_MOV, 0x88, 2, 0⟩ := by rw [hm]; decide
  have hA : util_strlen (cstr "A") > 0 := by decide
  have hB : util_strlen (cstr "B") > 0 := by decide
  have hcA : util_strcpy (cstr "A") = cstr "A" := by decide
  have hg : ¬ (cg.code_size + SEMANTIC_MAX_INSTRUCTION_LEN ≥ CODEGEN_OUTPUT_BUFFER_SIZE) := by
    unfold CodeGen.code_size SEMANTIC_MAX_INSTRUCTION_LEN CODEGEN_OUTPUT_BUFFER_SIZE; omega
  unfold codegen_emit_instruction
  rw [if_neg hg, hinfo, hops]
  simp [emit_operands, two_label_operands, record_relocation, CODEGEN_MAX_RELOCATIONS, hroom,
    hA, hB, hcA, CodeGen.code_size]

/-- Emission of the records of `n` lines `MOV A, B, C` and the line
`MOV A, B`, when the relocation table has room for all but the last operand:
the buffer grows by seven bytes for each of the `n` lines and not for the last
one, the table is full, an out-of-memory error is reported, and the table ends
with a relocation behind the end of the code. -/
theorem emit_all_three_labels : ∀ (n address line idx : Nat) (cg : CodeGen)
    (errs : List ErrorReport),
    cg.code_buffer.length + 7 * n + 15 < 65536 →
    cg.relocations.length + 3 * n = 999 →
    (emit_all (three_label_records n address line) idx cg errs).1.code_buffer.length =
      cg.code_buffer.length + 7 * n ∧
    (emit_all (three_label_records n address line) idx cg errs).1.relocations.length = 1000 ∧
    { offset := cg.code_buffer.length + 7 * n + 1, instruction_index := idx + n,
      operand_index := 0, symbol_name := cstr "A" } ∈
      (emit_all (three_label_records n address line) idx cg errs).1.relocations ∧
    { line := 0, code := ERR_SYS_OUT_OF_MEM } ∈
      (emit_all (three_label_records n address line) idx cg errs).2 := by
  intro n
  induction n with
  | zero =>
    intro address line idx cg errs hbuf hroom
    have h := codegen_emit_two_labels_full cg idx
      { address := address, length := 3, line := line, mnemonic := cstr "MOV",
        operands := two_label_operands, has_label := false, label := [] } rfl rfl
      (by omega) (by omega)
    have hr : cg.relocations.length = 999 := by omega
    simp only [three_label_records, emit_all, h]
    simp [hr]
  | succ n ih =>
    intro address line idx cg errs hbuf hroom
    obtain ⟨h0, h1, h2, h3⟩ := codegen_emit_three_labels cg idx
      { address := address, length := 3, line := line, mnemonic := cstr "MOV",
        operands := three_label_operands, has_label := false, label := [] } rfl rfl
      (by omega) (by omega)
    simp only [three_label_records, emit_all]
    rw [if_neg (by rw [h0]; decide), h1]
    obtain ⟨g1, g2, g3, g4⟩ := ih (address + 3) (line + 1) (idx + 1) _ (errs ++ [])
      (by rw [h2]; omega) (by rw [h3]; omega)
    refine ⟨by rw [g1, h2]; omega, g2, ?_, g4⟩
    have e1 : cg.code_buffer.length + 7 * (n + 1) + 1 =
        (codegen_emit_instruction cg idx
          { address := address, length := 3, line := line, mnemonic := cstr "MOV",
            operands := three_label_operands, has_label := false,
            label := [] }).2.1.code_buffer.length + 7 * n + 1 := by rw [h2]; omega
    have e2 : idx + (n + 1) = idx + 1 + n := by omega
    rw [e1, e2]
    exact g3

/-! ## Identifiers that fit their fields -/

theorem util_strlen_le_length (s : CStr) : util_strlen s ≤ s.length := by
  induction s with
  | nil => simp [util_strlen]
  | cons c cs ih =>
    by_cases hc : c = 0
    · simp [util_strlen, hc]
    · simp [util_strlen, hc]; omega

/-- The copy of the lexeme of an identifier token of a sequence whose
identifiers fit has fewer than 32 bytes. -/
theorem token_lexeme_short {tokens : List Token} (hfit : identifiers_fit tokens) {j : Nat}
    {t : Token} {lex : CStr} (ht : read_token tokens j = .ok t) (hty : t.type = TOK_IDENTIFIER)
    (hlex : token_lexeme t = .ok lex) : lex.length < 32 := by
  have hmem : t ∈ tokens := by
    unfold read_token at ht
    split at ht
    · next t1 h1 => cases ht; exact List.getElem?_mem h1
    · cases ht
  have h := hfit t hmem hty
  unfold token_lexeme at hlex
  split at hlex
  · next s hs =>
    cases hlex
    rw [hs] at h
    rw [← util_strlen_length]
    exact h
  · cases hlex

theorem operand_suffix_names {tokens : List Token} (hfit : identifiers_fit tokens)
    {i consumed : Nat} {ops : List Operand}
    {op : Operand} {r : Nat × Nat × List Operand × Bool}
    (h : operand_suffix tokens i consumed ops op = .ok r)
    (hops : ∀ o ∈ ops, fits NAME_SIZE o.name) (hop : op.name.length < 32) :
    ∀ o ∈ r.2.2.1, fits NAME_SIZE o.name := by
  unfold operand_suffix at h
  simp only [bind, Except.bind, pure, Except.pure] at h
  repeat' split at h
  all_goals try (cases h; done)
  all_goals
    rename_i _ _ _ _ merge h2 _ v1 h1 _ _ _ _
    have hlen : v1.1.name.length < 65 := by
      by_cases hm : merge = true
      · rw [if_pos hm] at h1
        cases ht : read_token tokens (i + 1 + 1) with
        | error f => rw [ht] at h1; cases h1
        | ok t =>
          rw [ht] at h1 h2
          simp only at h1 h2
          have hty : t.type = TOK_IDENTIFIER := by
            split at h2
            · cases h2
              simpa using hm
            · cases h2
              cases hm
          cases hl : token_lexeme t with
          | error f => rw [hl] at h1; cases h1
          | ok lex =>
            rw [hl] at h1
            cases h1
            have := token_lexeme_short hfit ht hty hl
            simp only [List.length_append, List.length_singleton]
            omega
      · rw [if_neg hm] at h1
        cases h1
        simp only
        omega
    cases h
    intro o ho
    rcases List.mem_append.1 ho with ho1 | ho1
    · exact hops o ho1
    · rw [List.mem_singleton.1 ho1]
      have := util_strlen_le_length v1.1.name
      unfold fits NAME_SIZE
      omega

theorem memory_operand_names {tokens : List Token} (hfit : identifiers_fit tokens)
    {i consumed : Nat} {ops : List Operand} {r : Nat × Nat × List Operand}
    (h : memory_operand tokens i consumed ops = .ok r)
    (hops : ∀ o ∈ ops, fits NAME_SIZE o.name) :
    ∀ o ∈ r.2.2, fits NAME_SIZE o.name := by
  unfold memory_operand at h
  simp only [bind, Except.bind, pure, Except.pure] at h
  repeat' split at h
  all_goals try (cases h; done)
  all_goals
    rename_i _ t1 ht1 _ op hop _ _ _ _ _ _ _ _
    have hlen : op.name.length < 32 := by
      split at hop
      · cases hop; simp
      · split at hop
        · next hty =>
          cases hl : token_lexeme t1 with
          | error f => rw [hl] at hop; cases hop
          | ok lex =>
            rw [hl] at hop
            cases hop
            exact token_lexeme_short hfit ht1 hty hl
        · cases hop; simp
    cases h
    intro o ho
    rcases List.mem_append.1 ho with ho1 | ho1
    · exact hops o ho1
    · rw [List.mem_singleton.1 ho1]
      have := util_strlen_le_length op.name
      unfold fits NAME_SIZE
      omega

theorem identifier_operand_name (lex : CStr) :
    (identifier_operand lex).name.length ≤ lex.length := by
  unfold identifier_operand
  split <;> simp

theorem parse_operands_names {tokens : List Token} (hfit : identifiers_fit tokens) (fuel : Nat) :
    ∀ (i consumed : Nat) (ops : List Operand) (r : Nat × List Operand),
      parse_operands fuel tokens i consumed ops = .ok r →
      (∀ o ∈ ops, fits NAME_SIZE o.name) → ∀ o ∈ r.2, fits NAME_SIZE o.name := by
  induction fuel with
  | zero =>
    intro i consumed ops r h hl
    simp only [parse_operands, Except.ok.injEq] at h
    subst h; exact hl
  | succ fuel ih =>
    intro i consumed ops r h hl
    unfold parse_operands at h
    split at h
    · split at h
      · cases h
      · next t ht =>
        split at h
        · next hguard =>
          split at h
          · next hty =>
            split at h
            · cases h
            · next lex hlex =>
              have hshort := token_lexeme_short hfit ht hty hlex
              have hname := identifier_operand_name lex
              split at h
              · cases h
              · next r1 hr1 =>
                have hn := operand_suffix_names hfit hr1 hl (by omega)
                split at h
                · exact ih _ _ _ _ h hn
                · cases h; exact hn
          · split at h
            · split at h
              · cases h
              · next r1 hr1 =>
                have hn := operand_suffix_names hfit hr1 hl (by simp)
                split at h
                · exact ih _ _ _ _ h hn
                · cases h; exact hn
            · split at h
              · split at h
                · cases h
                · next r1 hr1 =>
                  have hn := memory_operand_names hfit hr1 hl
                  exact ih _ _ _ _ h hn
              · cases h; exact hl
        · cases h; exact hl
    · cases h; exact hl

theorem fits_of_length {size : Nat} {s : CStr} (h : s.length < size) : fits size s := by
  have := util_strlen_le_length s
  unfold fits
  omega

theorem token_type_is_true {tokens : List Token} {j : Nat} {ty : TokenType} {t : Token}
    (h : token_type_is tokens j ty = .ok true) (ht : read_token tokens j = .ok t) :
    t.type = ty := by
  unfold token_type_is at h
  split at h
  · rw [ht] at h
    simpa using h
  · cases h

/-- A record that the analysis of the mnemonic and the operands returns, on a
token sequence whose identifiers fit, has its strings inside their fields. -/
theorem analyze_mnemonic_fits {tokens : List Token} (hfit : identifiers_fit tokens)
    {i consumed : Nat} {has_label : Bool}
    {label : CStr} {parsed : InstructionEntry} {n : Nat} (hlabel : fits NAME_SIZE label)
    (h : analyze_mnemonic tokens i consumed has_label label = .ok (some (parsed, n))) :
    parsed.fits_fields := by
  have hcount := analyze_mnemonic_operands h
  have hnil : ∀ o ∈ ([] : List Operand), fits NAME_SIZE o.name := fun o ho => by cases ho
  unfold analyze_mnemonic at h
  simp only [bind, Except.bind, pure, Except.pure] at h
  repeat' split at h
  all_goals try (cases h; done)
  · rename_i _ _ t ht hty _ _ hsec hs _ t1 ht1 _ _ _ _ lex hlex _ lex1 hlex1 _ _ r hr
    have hty1 := token_type_is_true (hs ▸ hsec) ht1
    have h1 := token_lexeme_short hfit ht (by simpa using hty) hlex
    have h2 := token_lexeme_short hfit ht1 hty1 hlex1
    have hn := parse_operands_names hfit 4 _ _ _ _ hr hnil
    cases h
    exact ⟨fits_of_length (by simpa [mk_entry] using h2),
      fits_of_length (by simp only [mk_entry, NAME_SIZE]; omega), hcount, hn⟩
  · rename_i _ _ t ht hty _ _ hsec hs _ t1 ht1 _ _ _ _ lex hlex _ lex1 hlex1 _ _ r hr
    have hty1 := token_type_is_true (hs ▸ hsec) ht1
    have h1 := token_lexeme_short hfit ht (by simpa using hty) hlex
    have h2 := token_lexeme_short hfit ht1 hty1 hlex1
    have hn := parse_operands_names hfit 4 _ _ _ _ hr (by
      intro o ho
      rw [List.mem_singleton.1 ho]
      exact fits_of_length (by simp only [NAME_SIZE]; omega))
    cases h
    exact ⟨fits_of_length (by simpa [mk_entry] using h2), hlabel, hcount, hn⟩
  · rename_i _ _ t ht hty _ _ _ _ _ _ _ _ _ _ lex hlex _ r hr
    have h1 := token_lexeme_short hfit ht (by simpa using hty) hlex
    have hn := parse_operands_names hfit 4 _ _ _ _ hr hnil
    cases h
    exact ⟨fits_of_length (by simpa [mk_entry] using h1), hlabel, hcount, hn⟩
  · rename_i _ _ t ht hty _ _ _ _ _ lex hlex _ r hr
    have h1 := token_lexeme_short hfit ht (by simpa using hty) hlex
    have hn := parse_operands_names hfit 4 _ _ _ _ hr hnil
    cases h
    exact ⟨fits_of_length (by simpa [mk_entry] using h1), hlabel, hcount, hn⟩

/-- A record that the analysis of a statement returns, on a token sequence
whose identifiers fit, has its strings inside their fields and at most three
operands. -/
theorem semantic_analyze_instruction_fits {tokens : List Token} (hfit : identifiers_fit tokens)
    {i : Nat} {parsed : InstructionEntry} {n : Nat}
    (h : semantic_analyze_instruction tokens i = .ok (some (parsed, n))) :
    parsed.fits_fields := by
  unfold semantic_analyze_instruction at h
  simp only [bind, Except.bind, pure, Except.pure] at h
  repeat' split at h
  all_goals try (cases h; done)
  · rename_i _ t ht _ colon hcolon hc _ lex hlex _ _ _ _
    have hty : t.type = TOK_IDENTIFIER := by
      by_contra hne
      rw [if_neg hne, hc] at hcolon
      cases hcolon
    have h1 := token_lexeme_short hfit ht hty hlex
    cases h
    exact ⟨by simp only [mk_entry]; decide,
      fits_of_length (by simp only [mk_entry, NAME_SIZE]; omega),
      by simp [mk_entry], fun o ho => by cases ho⟩
  · rename_i _ t ht _ colon hcolon hc _ lex hlex _ _ _ _
    have hty : t.type = TOK_IDENTIFIER := by
      by_contra hne
      rw [if_neg hne, hc] at hcolon
      cases hcolon
    have h1 := token_lexeme_short hfit ht hty hlex
    exact analyze_mnemonic_fits hfit (fits_of_length (by simp only [NAME_SIZE]; omega)) h
  · exact analyze_mnemonic_fits hfit (by decide) h

/-- On a token sequence whose identifiers fit, every record of a pass-one
context has its strings inside their fields and at most three operands: no
copy of pass one has left its field. -/
theorem pass_one_run_fits (tokens : List Token) (hfit : identifiers_fit tokens) (p : PassOne)
    (errs : List ErrorReport) (h : semantic_pass_one_run tokens = .ok (p, errs)) :
    ∀ e ∈ p.instructions, e.fits_fields := by
  obtain ⟨_, hj⟩ := pass_one_loop_indexed tokens
    (fun _ p => ∀ e ∈ p.instructions, e.fits_fields)
    (fun i p t _ _ hI => hI) (fun i p hI => hI) (fun i p t _ _ _ _ hI => hI)
    (fun i p t parsed n _ _ _ _ ha hI e he => by
      rw [pass_one_record_instructions] at he
      rcases List.mem_append.1 he with h1 | h1
      · exact hI e h1
      · have : e = pass_one_entry p parsed := by simpa using h1
        subst this
        exact (semantic_analyze_instruction_fits hfit ha : parsed.fits_fields))
    tokens.length 0 pass_one_init [] (p, errs) h (fun e he => by cases he)
  exact hj

theorem util_strlen_strcpy (s : CStr) : util_strlen (util_strcpy s) = util_strlen s := by
  rw [util_strlen_length, util_strcpy_idem, ← util_strlen_length]

theorem long_name_length (n : Nat) : util_strlen (long_name n) = n := by
  induction n with
  | zero => rfl
  | succ n ih =>
    have h : long_name (n + 1) = 76 :: long_name n := rfl
    rw [h, util_strlen, if_neg (by decide), ih]

theorem long_name_strcpy (n : Nat) : util_strcpy (long_name n) = long_name n := by
  induction n with
  | zero => rfl
  | succ n ih =>
    have h : long_name (n + 1) = 76 :: long_name n := rfl
    rw [h, util_strcpy, if_neg (by decide), ih]

/-- A token sequence with an identifier of `n ≥ 32` letters does not fit. -/
theorem not_identifiers_fit_of_long {tokens : List Token} (n l : Nat) (hn : 32 ≤ n)
    (h : { type := TOK_IDENTIFIER, lexeme := some (long_name n), line := l, int_value := 0 } ∈
      tokens) : ¬ identifiers_fit tokens := by
  intro hfit
  have h1 := hfit _ h rfl
  simp only [fits, Option.getD_some, long_name_length, MNEMONIC_SIZE] at h1
  omega

/-- The names of the relocations of the operands of a record fit the field
`symbol_name` when the names of the operands fit the field `name`. -/
theorem label_relocations_fit (idx : Nat) (ops : List Operand) :
    ∀ (k pos : Nat), (∀ o ∈ ops, fits NAME_SIZE o.name) →
      ∀ r ∈ label_relocations idx ops k pos, fits NAME_SIZE r.symbol_name := by
  induction ops with
  | nil => intro k pos _ r hr; simp [label_relocations] at hr
  | cons o rest ih =>
    intro k pos hops r hr
    simp only [label_relocations, List.mem_append] at hr
    rcases hr with h | h
    · split at h
      · rw [List.mem_singleton.1 h]
        show util_strlen (util_strcpy o.name) < NAME_SIZE
        rw [util_strlen_strcpy]
        exact hops o (List.mem_cons_self _ _)
      · cases h
    · exact ih _ _ (fun x hx => hops x (List.mem_cons_of_mem _ hx)) r h

/-! ## The properties -/

/-- C1: the program `JMP FOO` / `FOO: RET` goes through the lexer, pass one and
pass two without a reported error; `FOO` is a label at address 3; the emitter
writes `EB 00 00 C3` and queues exactly one relocation, at buffer offset 1;
after patching the image is the four bytes `EB 03 00 C3`, which is what the
driver writes with exit code 0. -/
theorem forward_jump_assembles :
    tokenize (cstr "JMP FOO\nFOO: RET") = some (forward_jump_tokens, []) ∧
    semantic_pass_one forward_jump_tokens = .ok (some forward_jump_pass_one, []) ∧
    symtab_lookup forward_jump_pass_one.symtab (cstr "FOO") =
      some { name := cstr "FOO", type := SymbolType.SYM_LABEL, address := 3, line_defined := 2,
             is_defined := 1 } ∧
    (codegen_emit_records forward_jump_pass_one).1.code_buffer = [0xEB, 0x00, 0x00, 0xC3] ∧
    codegen_pass_two forward_jump_pass_one = (some forward_jump_codegen, []) ∧
    forward_jump_codegen.relocations =
      [{ offset := 1, instruction_index := 0, operand_index := 0, symbol_name := cstr "FOO" }] ∧
    forward_jump_codegen.code_buffer = [0xEB, 0x03, 0x00, 0xC3] ∧
    assemble (cstr "JMP FOO\nFOO: RET") =
      .ok { exit_code := 0, errors := [], output := some [0xEB, 0x03, 0x00, 0xC3] } :=
  ⟨rfl, rfl, rfl, rfl, rfl, rfl, rfl, rfl⟩

/-- C2: whenever pass two succeeds on a pass-one context, every queued
relocation names a symbol of the table, and the two buffer bytes at its offset
are the low byte and the next byte of that symbol's address (absolute,
little-endian, no PC-relative adjustment). -/
theorem relocation_soundness (p : PassOne) (cg : CodeGen) (errs : List ErrorReport)
    (h : codegen_pass_two p = (some cg, errs)) (r : Relocation) (hr : r ∈ cg.relocations) :
    ∃ sym, symtab_lookup p.symtab r.symbol_name = some sym ∧
      cg.code_buffer[r.offset]? = some (sym.address % 256) ∧
      cg.code_buffer[r.offset + 1]? = some ((sym.address / 256) % 256) := by
  obtain ⟨h0, hrel, hbuf, hf, _⟩ := codegen_pass_two_success h
  rw [hrel] at hr
  have hs : slots_ok (codegen_emit_records p).1.relocations
      (codegen_emit_records p).1.code_buffer.length :=
    (emit_all_size p.instructions 0 { code_buffer := [], relocations := [], has_errors := false }
      [] hf).2.2 ⟨List.Pairwise.nil, fun r hr => by cases hr⟩
  obtain ⟨_, _, hslots⟩ := resolve_loop_sound p.symtab _ _ hs h0
  obtain ⟨sym, h1, _, h3, h4⟩ := hslots r hr
  exact ⟨sym, h1, by rw [hbuf]; exact h3, by rw [hbuf]; exact h4⟩

theorem relocation_soundness_witness :
    semantic_pass_one forward_jump_tokens = .ok (some forward_jump_pass_one, []) ∧
    codegen_pass_two forward_jump_pass_one = (some forward_jump_codegen, []) ∧
    ∃ sym, symtab_lookup forward_jump_pass_one.symtab (cstr "FOO") = some sym ∧
      forward_jump_codegen.code_buffer[1]? = some (sym.address % 256) ∧
      forward_jump_codegen.code_buffer[1 + 1]? = some ((sym.address / 256) % 256) :=
  ⟨rfl, rfl,
    relocation_soundness forward_jump_pass_one forward_jump_codegen [] rfl
      { offset := 1, instruction_index := 0, operand_index := 0, symbol_name := cstr "FOO" }
      (List.mem_singleton.2 rfl)⟩

/-- C4: in every successful pass-one result, each record starts where the
record before it ends. -/
theorem consecutive_addresses (tokens : List Token) (p : PassOne) (errs : List ErrorReport)
    (h : semantic_pass_one tokens = .ok (some p, errs)) (i : Nat) (a b : InstructionEntry)
    (ha : p.instructions[i]? = some a) (hb : p.instructions[i + 1]? = some b) :
    b.address = a.address + a.length :=
  addresses_from_consecutive 0 _
    (pass_one_run_layout tokens p errs (semantic_pass_one_success h).1).1 i a b ha hb

theorem consecutive_addresses_witness :
    semantic_pass_one forward_jump_tokens = .ok (some forward_jump_pass_one, []) ∧
    ∃ a b, forward_jump_pass_one.instructions[0]? = some a ∧
      forward_jump_pass_one.instructions[0 + 1]? = some b ∧ a.address = 0 ∧ a.length = 3 ∧
      b.address = a.address + a.length :=
  ⟨rfl,
    { address := 0, length := 3, line := 1, mnemonic := cstr "JMP",
      operands := [{ type := OPERAND_LABEL, value := 0, name := cstr "FOO" }],
      has_label := false, label := [] },
    { address := 3, length := 3, line := 2, mnemonic := cstr "RET", operands := [],
      has_label := true, label := cstr "FOO" }, rfl, rfl, rfl, rfl,
    consecutive_addresses forward_jump_tokens forward_jump_pass_one [] rfl 0 _ _ rfl rfl⟩

/-- C3, as the code has it: when pass one and pass two succeed, the final code
buffer length is the sum of the encoded sizes of the records (no padding to
the reserved length): an emitter call that returns `0` appends exactly the
encoding of its record; and the sum of the length fields is pass one's final
location counter. -/
theorem code_size_is_encoded_size (tokens : List Token) (p : PassOne)
    (errs1 : List ErrorReport) (cg : CodeGen) (errs2 : List ErrorReport)
    (h1 : semantic_pass_one tokens = .ok (some p, errs1))
    (h2 : codegen_pass_two p = (some cg, errs2)) :
    cg.code_buffer.length = (p.instructions.map encoded_size).sum ∧
    (∀ cg0 idx e, (codegen_emit_instruction cg0 idx e).1 = 0 →
      ∃ code, (codegen_emit_instruction cg0 idx e).2.1.code_buffer = cg0.code_buffer ++ code ∧
        code.length = encoded_size e) ∧
    total_length p.instructions = p.current_address := by
  obtain ⟨_, _, hbuf, hf, _⟩ := codegen_pass_two_success h2
  refine ⟨?_, ?_, ?_⟩
  · rw [hbuf, resolve_loop_length]
    have := (emit_all_size p.instructions 0
      { code_buffer := [], relocations := [], has_errors := false } [] hf).2.1
    simpa [codegen_emit_records] using this
  · intro cg0 idx e h0
    rcases codegen_emit_instruction_size cg0 idx e with hm | ⟨_, _, hc, _⟩
    · rw [h0] at hm; cases hm
    · exact hc
  · exact (pass_one_run_layout tokens p errs1 (semantic_pass_one_success h1).1).2.1.symm

theorem code_size_is_encoded_size_witness :
    semantic_pass_one ret_tokens = .ok (some ret_pass_one, []) ∧
    codegen_pass_two ret_pass_one =
      (some { code_buffer := [0xC3], relocations := [], has_errors := false }, []) ∧
    (1 : Nat) = (ret_pass_one.instructions.map encoded_size).sum ∧
    total_length ret_pass_one.instructions = 3 :=
  ⟨rfl, rfl,
    (code_size_is_encoded_size ret_tokens ret_pass_one []
      { code_buffer := [0xC3], relocations := [], has_errors := false } [] rfl rfl).1,
    (code_size_is_encoded_size ret_tokens ret_pass_one []
      { code_buffer := [0xC3], relocations := [], has_errors := false } [] rfl rfl).2.2⟩

/-- C3 fails as stated: for the program `RET` both passes succeed, the record
has length 3 and the location counter ends at 3, but the code buffer holds one
byte. -/
theorem ret_image_is_not_padded :
    ¬ (∀ (tokens : List Token) (p : PassOne) (errs1 : List ErrorReport) (cg : CodeGen)
        (errs2 : List ErrorReport),
        semantic_pass_one tokens = .ok (some p, errs1) →
        codegen_pass_two p = (some cg, errs2) →
        cg.code_buffer.length = total_length p.instructions) := by
  intro h
  have h3 := h ret_tokens ret_pass_one []
    { code_buffer := [0xC3], relocations := [], has_errors := false } [] rfl rfl
  exact absurd h3 (by decide)

/-- C8: for every ordinary mnemonic of the table, the program that consists of
that mnemonic alone is translated without error to the one-byte image holding
its opcode. -/
theorem ordinary_mnemonic_alone (info : InstructionInfo) (hmem : info ∈ g_instruction_table)
    (hp : info.is_pseudo = 0) :
    assemble info.mnemonic = .ok { exit_code := 0, errors := [], output := some [info.opcode] } := by
  simp only [g_instruction_table, List.mem_cons, List.mem_singleton, List.not_mem_nil,
    or_false] at hmem
  rcases hmem with h | h | h | h | h | h | h | h | h | h | h | h | h | h | h | h | h | h | h | h |
    h | h | h | h | h | h | h | h | h | h | h | h | h
  all_goals subst h
  all_goals first
    | rfl
    | exact absurd hp (by decide)

theorem ordinary_mnemonic_alone_witness :
    assemble (cstr "RET") = .ok { exit_code := 0, errors := [], output := some [0xC3] } :=
  ordinary_mnemonic_alone
    { mnemonic := cstr "RET", type := INSTR_RET, opcode := 0xC3, operand_count := 0,
      is_pseudo := 0 } (by decide) rfl

/-- C10, as the code has it: the program `START: MOV` / `JMP START` is
translated without error; `START` is a label at address 0; the two records
have length 3 each; the emitter writes one byte for `MOV` and three for `JMP`,
so the single relocation is queued at buffer offset 2, where `00 00` is
patched, and the image is the four bytes `88 EB 00 00`. -/
theorem start_loop_assembles :
    tokenize (cstr "START: MOV\nJMP START") = some (start_loop_tokens, []) ∧
    semantic_pass_one start_loop_tokens = .ok (some start_loop_pass_one, []) ∧
    symtab_lookup start_loop_pass_one.symtab (cstr "START") =
      some { name := cstr "START", type := SymbolType.SYM_LABEL, address := 0,
             line_defined := 1, is_defined := 1 } ∧
    start_loop_pass_one.instructions.map (fun e => (e.mnemonic, e.length)) =
      [(cstr "MOV", 3), (cstr "JMP", 3)] ∧
    codegen_pass_two start_loop_pass_one = (some start_loop_codegen, []) ∧
    start_loop_codegen.relocations =
      [{ offset := 2, instruction_index := 1, operand_index := 0, symbol_name := cstr "START" }] ∧
    start_loop_codegen.code_buffer = [0x88, 0xEB, 0x00, 0x00] ∧
    assemble (cstr "START: MOV\nJMP START") =
      .ok { exit_code := 0, errors := [], output := some [0x88, 0xEB, 0x00, 0x00] } :=
  ⟨rfl, rfl, rfl, rfl, rfl, rfl, rfl, rfl⟩

/-- C10 fails as stated: the image written for `START: MOV` / `JMP START` is
not 6 bytes long, and the relocation of pass two is not at offset 4. -/
theorem start_loop_image_is_not_six_bytes :
    ¬ ((∃ image, assemble (cstr "START: MOV\nJMP START") =
          .ok { exit_code := 0, errors := [], output := some image } ∧ image.length = 6) ∨
       (∃ cg errs r, codegen_pass_two start_loop_pass_one = (some cg, errs) ∧
          r ∈ cg.relocations ∧ r.offset = 4)) := by
  have e1 : assemble (cstr "START: MOV\nJMP START") =
      .ok { exit_code := 0, errors := [], output := some [0x88, 0xEB, 0x00, 0x00] } := rfl
  have e2 : codegen_pass_two start_loop_pass_one = (some start_loop_codegen, []) := rfl
  rintro (⟨image, h, hl⟩ | ⟨cg, errs, r, h, hr, ho⟩)
  · rw [e1] at h
    cases h
    simp at hl
  · rw [e2] at h
    cases h
    have : r.offset = 2 := by
      have := List.mem_singleton.1 hr
      rw [this]
    omega

/-- C6, where every copy fits: for every token sequence whose identifiers fit
their fields and every successful pass-one result on it whose record
mnemonics are all in the mnemonic table and which holds at most 1000 symbolic
operands, the records have their strings inside their fields, every queued
relocation holds a name that fits `symbol_name`, and pass two fails exactly
when some relocation queued by the emission loop names a symbol that is
absent from the symbol table or not marked defined. The program `JMP NOWHERE`
fails in pass two with exactly one report, the undefined-symbol error 2005,
and no output. In the program `N: NOP` / `JMP N` / `JMP N` with a name `N` of
128 letters the identifiers do not fit: the copy of `N` with its terminator
needs 129 bytes of the 128 of `symbol_name`. -/
theorem pass_two_fails_iff_undefined :
    (∀ (tokens : List Token) (p : PassOne) (errs1 : List ErrorReport),
      identifiers_fit tokens →
      semantic_pass_one tokens = .ok (some p, errs1) →
      (∀ e ∈ p.instructions, tables_lookup_instruction (some e.mnemonic) ≠ none) →
      symbolic_operand_count p.instructions ≤ 1000 →
      (∀ e ∈ p.instructions, e.fits_fields) ∧
      ((codegen_pass_two p).1 = none ↔
        ∃ r ∈ (codegen_emit_records p).1.relocations, undefined_reference p.symtab r)) ∧
    tokenize (cstr "JMP NOWHERE") = some (nowhere_tokens, []) ∧
    semantic_pass_one nowhere_tokens = .ok (some nowhere_pass_one, []) ∧
    codegen_pass_two nowhere_pass_one =
      (none, [{ line := 0, code := ERR_PARSE_UNDEFINED_LBL }]) ∧
    ERR_PARSE_UNDEFINED_LBL = 2005 ∧
    assemble (cstr "JMP NOWHERE") =
      .ok { exit_code := 1, errors := [{ line := 0, code := 2005 }], output := none } ∧
    ¬ identifiers_fit long_label_tokens ∧
    util_strlen (long_name 128) = 128 ∧ ¬ fits NAME_SIZE (long_name 128) := by
  refine ⟨?_, rfl, rfl, rfl, rfl, rfl,
    not_identifiers_fit_of_long 128 1 (by omega) (List.mem_cons_self _ _),
    long_name_length 128, by unfold fits NAME_SIZE; rw [long_name_length]; omega⟩
  intro tokens p errs1 hfit h1 hm hs
  have hrun := (semantic_pass_one_success h1).1
  have hfields := pass_one_run_fits tokens hfit p errs1 hrun
  refine ⟨hfields, ?_⟩
  have hlay := pass_one_run_layout tokens p errs1 hrun
  have hops : ∀ e ∈ p.instructions, e.operands.length ≤ 3 := fun e he => (hfields e he).2.2.1
  have hmax : PassOne.max_instructions = 512 := rfl
  obtain ⟨_, hflag⟩ := emit_all_ok p.instructions 0
    { code_buffer := [], relocations := [], has_errors := false } [] hm hops
    (by simp only [List.length_nil]; omega) (by simp only [List.length_nil]; omega)
  have hflag1 : (codegen_emit_records p).1.has_errors = false := hflag
  have hz := resolve_loop_zero_iff p.symtab (codegen_emit_records p).1.relocations
    (codegen_emit_records p).1.code_buffer
  have hst := resolve_loop_status p.symtab (codegen_emit_records p).1.relocations
    (codegen_emit_records p).1.code_buffer
  unfold codegen_pass_two codegen_resolve_reference
  dsimp only
  constructor
  · intro hnone
    by_contra hno
    have hall : ∀ r ∈ (codegen_emit_records p).1.relocations, ¬ undefined_reference p.symtab r :=
      fun r hr hu => hno ⟨r, hr, hu⟩
    rw [hz.2 hall] at hnone
    simp [hflag1] at hnone
  · rintro ⟨r, hr, hu⟩
    rcases hst with ⟨h0, _⟩ | ⟨hm1, _⟩
    · exact absurd hu (hz.1 h0 r hr)
    · rw [hm1]
      simp

theorem pass_two_fails_iff_undefined_witness :
    identifiers_fit nowhere_tokens ∧
    semantic_pass_one nowhere_tokens = .ok (some nowhere_pass_one, []) ∧
    symbolic_operand_count nowhere_pass_one.instructions = 1 ∧
    ((codegen_pass_two nowhere_pass_one).1 = none ↔
      ∃ r ∈ (codegen_emit_records nowhere_pass_one).1.relocations,
        undefined_reference nowhere_pass_one.symtab r) :=
  ⟨by decide, rfl, rfl, (pass_two_fails_iff_undefined.1 nowhere_tokens nowhere_pass_one []
    (by decide) rfl
    (by intro e he; rw [List.mem_singleton.1 he]; decide) (by decide)).2⟩

/-- C11, as the code has it: a source text that is empty or consists only of
blanks, tabs, carriage returns, newlines and `;` comments, with fewer than
4096 newlines, is lexed without error to its end-of-line tokens and the
end-of-input token; pass one reports no error and records no instruction
(location counter 0, no symbol); pass two reports no error and gives an empty
code buffer (size 0); the output step then rejects the size 0: it reports the
file I/O error 3002, no file is written and the exit code is 1. -/
theorem blank_source_translation (src : List Nat) (hblank : blank_text false src = true)
    (hlines : source_newlines src < MAX_TOKENS) :
    tokenize src = some (newline_tokens 1 (source_newlines src), []) ∧
    (∃ p cg, semantic_pass_one (newline_tokens 1 (source_newlines src)) = .ok (some p, []) ∧
      p.instructions = [] ∧ p.current_address = 0 ∧ symtab_get_symbol_count p.symtab = 0 ∧
      codegen_pass_two p = (some cg, []) ∧ cg.code_buffer = [] ∧ cg.code_size = 0) ∧
    assemble src =
      .ok { exit_code := 1, errors := [{ line := 0, code := ERR_SYS_FILE_IO }],
            output := none } := by
  obtain ⟨hat, hline, _⟩ := lexer_create_at src
  have hb := blank_text_takeWhile src false hblank
  have htok : tokenize src = some (newline_tokens 1 (source_newlines src), []) := by
    have := collect_tokens_blank _ _ (Nat.le_refl _) _ _ MAX_TOKENS [] hat hb hlines
    rw [hline] at this
    simpa [tokenize, source_newlines] using this
  have hlen := newline_tokens_length (source_newlines src) 1
  obtain ⟨p1, hrun, hins, haddr, herr, hsym⟩ :=
    pass_one_loop_blank _ (newline_tokens_type (source_newlines src) 1)
      (newline_tokens 1 (source_newlines src)).length 0 pass_one_init [] (by omega)
  have hins1 : p1.instructions = [] := hins
  have herr1 : p1.has_errors = false := herr
  have hone : semantic_pass_one (newline_tokens 1 (source_newlines src)) =
      .ok (some p1, []) := by
    unfold semantic_pass_one semantic_pass_one_run
    rw [hrun]
    simp [herr1]
  have htwo : codegen_pass_two p1 =
      (some { code_buffer := [], relocations := [], has_errors := false }, []) := by
    simp [codegen_pass_two, codegen_emit_records, codegen_resolve_reference, hins1, emit_all,
      resolve_loop]
  refine ⟨htok, ⟨p1, _, hone, hins1, haddr, hsym, htwo, rfl, rfl⟩, ?_⟩
  unfold assemble
  rw [htok]
  simp only [error_get_count, List.length_nil, gt_iff_lt, Nat.lt_irrefl, if_false]
  unfold translate_tokens
  rw [hone]
  simp only [htwo]
  simp [error_get_count, write_output_file, codegen_get_code_buffer, CodeGen.code_size]

theorem blank_source_translation_witness :
    tokenize (cstr "; only a comment\n\n  \t; end") =
      some (newline_tokens 1 2, []) ∧
    assemble (cstr "; only a comment\n\n  \t; end") =
      .ok { exit_code := 1, errors := [{ line := 0, code := ERR_SYS_FILE_IO }],
            output := none } :=
  ⟨(blank_source_translation (cstr "; only a comment\n\n  \t; end") (by decide)
      (by decide)).1,
    (blank_source_translation (cstr "; only a comment\n\n  \t; end") (by decide)
      (by decide)).2.2⟩

/-- C11 fails as stated: for the empty source text the output step reports an
error and no image is written. -/
theorem empty_source_is_rejected :
    assemble [] =
      .ok { exit_code := 1, errors := [{ line := 0, code := ERR_SYS_FILE_IO }],
            output := none } ∧
    ¬ (∃ t, assemble [] = .ok t ∧ t.errors = [] ∧ t.output = some []) := by
  refine ⟨rfl, ?_⟩
  rintro ⟨t, ht, he, _⟩
  have h : assemble [] = .ok ⟨1, [⟨0, ERR_SYS_FILE_IO⟩], none⟩ := rfl
  rw [h] at ht
  cases ht
  cases he

/-- C12: when the tokens at `i` are an identifier `L`, a colon, and the end of
the line or of the input, `semantic_analyze_instruction` yields the label-only
record with mnemonic `NOP` and no operand; the round of the pass-one loop
appends it at the current location counter (length 3) and goes on after the
colon; a label that is not yet in the table is inserted as a label with the
address of that record and without error; and pass two emits the single byte
`0x90` for the record. The source `L:` is translated to the image `90`. -/
theorem label_only_statement (fuel : Nat) (tokens : List Token) (i : Nat) (l : CStr)
    (t0 t1 t2 : Token) (p : PassOne) (errs : List ErrorReport)
    (h0 : tokens[i]? = some t0) (ht0 : t0.type = TOK_IDENTIFIER) (hl : t0.lexeme = some l)
    (h1 : tokens[i + 1]? = some t1) (ht1 : t1.type = TOK_COLON)
    (h2 : tokens[i + 2]? = some t2) (ht2 : t2.type = TOK_NEWLINE ∨ t2.type = TOK_EOF)
    (hi : i + 1 < 65535) (hcount : p.instruction_count < PassOne.max_instructions)
    (hwf : p.symtab.symbols.WF) :
    semantic_analyze_instruction tokens i =
      .ok (some (mk_entry (cstr "NOP") [] true (util_strcpy l), 2)) ∧
    pass_one_loop (fuel + 1) tokens i p errs =
      pass_one_loop fuel tokens (i + 2)
        (pass_one_record p (mk_entry (cstr "NOP") [] true (util_strcpy l))).1
        (errs ++ (pass_one_record p (mk_entry (cstr "NOP") [] true (util_strcpy l))).2) ∧
    (pass_one_record p (mk_entry (cstr "NOP") [] true (util_strcpy l))).1.instructions =
      p.instructions ++
        [{ address := p.current_address, length := 3, line := p.current_line,
           mnemonic := cstr "NOP", operands := [], has_label := true,
           label := util_strcpy l }] ∧
    (symtab_lookup p.symtab l = none →
      (pass_one_record p (mk_entry (cstr "NOP") [] true (util_strcpy l))).2 = [] ∧
      (pass_one_record p (mk_entry (cstr "NOP") [] true (util_strcpy l))).1.has_errors =
        p.has_errors ∧
      symtab_lookup (pass_one_record p (mk_entry (cstr "NOP") [] true (util_strcpy l))).1.symtab
          l =
        some { name := util_strcpy l, type := SymbolType.SYM_LABEL,
               address := p.current_address, line_defined := p.current_line,
               is_defined := 1 }) ∧
    (∀ (cg : CodeGen) (idx : Nat),
      cg.code_size + SEMANTIC_MAX_INSTRUCTION_LEN < CODEGEN_OUTPUT_BUFFER_SIZE →
      codegen_emit_instruction cg idx
          { address := p.current_address, length := 3, line := p.current_line,
            mnemonic := cstr "NOP", operands := [], has_label := true,
            label := util_strcpy l } =
        (0, { cg with code_buffer := cg.code_buffer ++ [0x90] }, [])) ∧
    assemble (cstr "L:") = .ok { exit_code := 0, errors := [], output := some [0x90] } := by
  have hlt : i < tokens.length := by
    rcases Nat.lt_or_ge i tokens.length with h | h
    · exact h
    · rw [List.getElem?_eq_none h] at h0; cases h0
  have hana : semantic_analyze_instruction tokens i =
      .ok (some (mk_entry (cstr "NOP") [] true (util_strcpy l), 2)) := by
    have h3 : tokens[i + 1 + 1]? = some t2 := h2
    by_cases hbig : i + 2 ≥ 65535
    · rcases ht2 with h | h <;>
        simp [semantic_analyze_instruction, token_type_is, read_token, token_lexeme, bind,
          Except.bind, pure, Except.pure, h0, h1, h3, ht0, ht1, hl, hi, hbig, h]
    · rcases ht2 with h | h <;>
        simp [semantic_analyze_instruction, token_type_is, read_token, token_lexeme, bind,
          Except.bind, pure, Except.pure, h0, h1, h3, ht0, ht1, hl, hi, hbig, h]
  have hlen : estimate_instruction_length (cstr "NOP") 0 = 3 := by decide
  have hrec : (pass_one_record p (mk_entry (cstr "NOP") [] true (util_strcpy l))).1.instructions =
      p.instructions ++
        [{ address := p.current_address, length := 3, line := p.current_line,
           mnemonic := cstr "NOP", operands := [], has_label := true,
           label := util_strcpy l }] := by
    rw [pass_one_record_instructions]
    simp [pass_one_entry, mk_entry, InstructionEntry.operand_count, hlen]
  refine ⟨hana, ?_, hrec, ?_, ?_, rfl⟩
  · have hc : ¬ (p.instruction_count ≥ PassOne.max_instructions) := Nat.not_le.2 hcount
    have hty : ¬ (t0.type = TOK_NEWLINE ∨ t0.type = TOK_EOF) := by rw [ht0]; simp
    simp only [pass_one_loop, hlt, if_true, read_token, h0, hty, if_false, hc, hana]
  · intro hfresh
    have hfresh1 : symtab_lookup p.symtab (util_strcpy l) = none := by
      rw [symtab_lookup_congr p.symtab (util_strcpy_idem l)]; exact hfresh
    obtain ⟨hst, _, hsame, _⟩ := symtab_lookup_insert_same p.symtab (util_strcpy l)
      SymbolType.SYM_LABEL p.current_address p.current_line hwf hfresh1
    have hl2 : symtab_lookup (symtab_insert p.symtab (util_strcpy l) SymbolType.SYM_LABEL
        p.current_address p.current_line).2 l = _ :=
      (symtab_lookup_congr _ (util_strcpy_idem l)).symm.trans hsame
    simp only [pass_one_record, pass_one_entry, mk_entry, hst, if_true, ne_eq,
      not_true_eq_false, if_false]
    refine ⟨trivial, trivial, ?_⟩
    rw [hl2, util_strcpy_idem]
  · intro cg idx hroom
    have hlook : tables_lookup_instruction (some (cstr "NOP")) =
        some { mnemonic := cstr "NOP", type := INSTR_NOP, opcode := 0x90, operand_count := 0,
               is_pseudo := 0 } := by decide
    have hr : ¬ (cg.code_size + SEMANTIC_MAX_INSTRUCTION_LEN ≥ CODEGEN_OUTPUT_BUFFER_SIZE) :=
      Nat.not_le.2 hroom
    simp [codegen_emit_instruction, hr, hlook, emit_operands]

theorem label_only_statement_witness :
    tokenize (cstr "L:") = some (label_only_tokens, []) ∧
    semantic_analyze_instruction label_only_tokens 0 =
      .ok (some (mk_entry (cstr "NOP") [] true (cstr "L"), 2)) ∧
    (pass_one_record pass_one_init (mk_entry (cstr "NOP") [] true (cstr "L"))).1.instructions =
      [{ address := 0, length := 3, line := 1, mnemonic := cstr "NOP", operands := [],
         has_label := true, label := cstr "L" }] ∧
    symtab_lookup (pass_one_record pass_one_init (mk_entry (cstr "NOP") [] true (cstr "L"))).1.symtab
        (cstr "L") =
      some { name := cstr "L", type := SymbolType.SYM_LABEL, address := 0, line_defined := 1,
             is_defined := 1 } :=
  ⟨rfl,
    (label_only_statement 2 label_only_tokens 0 (cstr "L") _ _ _ pass_one_init [] rfl rfl rfl
      rfl rfl rfl (Or.inr rfl) (by decide) (by decide) (symtab_create_WF 256)).1,
    (label_only_statement 2 label_only_tokens 0 (cstr "L") _ _ _ pass_one_init [] rfl rfl rfl
      rfl rfl rfl (Or.inr rfl) (by decide) (by decide) (symtab_create_WF 256)).2.2.1,
    ((label_only_statement 2 label_only_tokens 0 (cstr "L") _ _ _ pass_one_init [] rfl rfl rfl
      rfl rfl rfl (Or.inr rfl) (by decide) (by decide) (symtab_create_WF 256)).2.2.2.1 rfl).2.2⟩

/-- C13, as the code has it: pass one has no origin. In every pass-one run each
record's address is the sum of the lengths of the records before it (origin
0, with or without `ORG`); and when the program starts with the statement
`ORG n`, that statement is recorded at address 0 with length 0 and the
immediate operand `n`, and the record of the statement after it has address 0
as well. For `ORG 256` / `START: RET` the label `START` gets address 0 and the
image is `C3`. -/
theorem org_keeps_origin_zero :
    (∀ (tokens : List Token) (p : PassOne) (errs : List ErrorReport),
      semantic_pass_one_run tokens = .ok (p, errs) →
      (∀ (k : Nat) (e : InstructionEntry), p.instructions[k]? = some e →
        e.address = total_length (p.instructions.take k)) ∧
      (∀ (ln ln1 n : Nat) (s : CStr) (t2 : Token),
        tokens[0]? = some { type := TOK_IDENTIFIER, lexeme := some (cstr "ORG"), line := ln,
                            int_value := 0 } →
        tokens[1]? = some { type := TOK_NUMBER, lexeme := some s, line := ln1,
                            int_value := n } →
        tokens[2]? = some t2 → (t2.type = TOK_NEWLINE ∨ t2.type = TOK_EOF) →
        p.instructions[0]? =
          some { address := 0, length := 0, line := 1, mnemonic := cstr "ORG",
                 operands := [{ type := OPERAND_IMMEDIATE, value := n, name := [] }],
                 has_label := false, label := [] } ∧
        ∀ e, p.instructions[1]? = some e → e.address = 0)) ∧
    tokenize (cstr "ORG 256\nSTART: RET") = some (org_tokens, []) ∧
    semantic_pass_one org_tokens = .ok (some org_pass_one, []) ∧
    symtab_lookup org_pass_one.symtab (cstr "START") =
      some { name := cstr "START", type := SymbolType.SYM_LABEL, address := 0,
             line_defined := 2, is_defined := 1 } ∧
    assemble (cstr "ORG 256\nSTART: RET") =
      .ok { exit_code := 0, errors := [], output := some [0xC3] } := by
  refine ⟨?_, rfl, rfl, rfl, rfl⟩
  intro tokens p errs h
  have hlay := (pass_one_run_layout tokens p errs h).1
  have haddr : ∀ (k : Nat) (e : InstructionEntry), p.instructions[k]? = some e →
      e.address = total_length (p.instructions.take k) := by
    intro k e hk
    simpa using addresses_from_getElem p.instructions 0 hlay k e hk
  refine ⟨haddr, ?_⟩
  intro ln ln1 n s t2 h0 h1 h2 ht2
  have hlen : 2 < tokens.length := by
    rcases Nat.lt_or_ge 2 tokens.length with hl | hl
    · exact hl
    · rw [List.getElem?_eq_none hl] at h2; cases h2
  obtain ⟨f, hf⟩ : ∃ f, tokens.length = f + 1 := ⟨tokens.length - 1, by omega⟩
  have hana := analyze_org_statement tokens 0 ln ln1 n s t2 (by decide) h0 h1 h2 ht2
  have hpos : 0 < tokens.length := by omega
  have hstep : pass_one_loop (f + 1) tokens 0 pass_one_init [] =
      pass_one_loop f tokens 2
        (pass_one_record pass_one_init
          (mk_entry (cstr "ORG") [{ type := OPERAND_IMMEDIATE, value := n, name := [] }]
            false [])).1
        ([] ++ (pass_one_record pass_one_init
          (mk_entry (cstr "ORG") [{ type := OPERAND_IMMEDIATE, value := n, name := [] }]
            false [])).2) := by
    have hc : ¬ (pass_one_init.instruction_count ≥ PassOne.max_instructions) := by decide
    simp only [pass_one_loop, hpos, if_true, read_token, h0, hc, if_false, hana]
    simp
  unfold semantic_pass_one_run at h
  rw [hf, hstep] at h
  obtain ⟨more, hmore⟩ := pass_one_loop_prefix _ _ _ _ _ _ h
  have hfirst : p.instructions[0]? =
      some { address := 0, length := 0, line := 1, mnemonic := cstr "ORG",
             operands := [{ type := OPERAND_IMMEDIATE, value := n, name := [] }],
             has_label := false, label := [] } := by
    have hlen0 : estimate_instruction_length (cstr "ORG") 1 = 0 := by decide
    have : p.instructions = _ := hmore
    rw [this, pass_one_record_instructions]
    simp [pass_one_init, pass_one_entry, mk_entry, InstructionEntry.operand_count, hlen0]
  refine ⟨hfirst, fun e he => ?_⟩
  rw [haddr 1 e he]
  cases hp : p.instructions with
  | nil => rw [hp] at hfirst; simp at hfirst
  | cons x rest =>
    rw [hp] at hfirst
    simp only [List.getElem?_cons_zero, Option.some.injEq] at hfirst
    simp [total_length, hfirst]

theorem org_keeps_origin_zero_witness :
    org_pass_one.instructions[0]? =
      some { address := 0, length := 0, line := 1, mnemonic := cstr "ORG",
             operands := [{ type := OPERAND_IMMEDIATE, value := 256, name := [] }],
             has_label := false, label := [] } ∧
    (∀ e, org_pass_one.instructions[1]? = some e → e.address = 0) ∧
    (∀ (k : Nat) (e : InstructionEntry), org_pass_one.instructions[k]? = some e →
        e.address = total_length (org_pass_one.instructions.take k)) :=
  ⟨((org_keeps_origin_zero.1 org_tokens org_pass_one [] rfl).2 1 1 256 (cstr "256") _
      rfl rfl rfl (Or.inl rfl)).1,
    ((org_keeps_origin_zero.1 org_tokens org_pass_one [] rfl).2 1 1 256 (cstr "256") _
      rfl rfl rfl (Or.inl rfl)).2,
    (org_keeps_origin_zero.1 org_tokens org_pass_one [] rfl).1⟩

/-- C13 fails as stated: in `ORG 256` / `START: RET` the record after the `ORG`
statement, on which `START` is defined, has address 0 and not 256. -/
theorem org_label_is_not_at_origin :
    ¬ (∀ (p : PassOne) (errs : List ErrorReport),
        semantic_pass_one org_tokens = .ok (some p, errs) →
        ∀ (k : Nat) (e : InstructionEntry), 0 < k → p.instructions[k]? = some e →
          e.address = 256 + total_length (p.instructions.take k)) := by
  intro h
  have h1 := h org_pass_one [] rfl 1
    { address := 0, length := 3, line := 2, mnemonic := cstr "RET", operands := [],
      has_label := true, label := cstr "START" } (by decide) rfl
  have h2 : (0 : Nat) = 256 + total_length (List.take 1 org_pass_one.instructions) := h1
  omega

/-- C14: for the lexer of any source text, repeated calls of
`lexer_next_token` never move the read position back; a call that returns a
token other than end-of-input moves it forward; one of the first
`length + 1` calls returns end-of-input; every call after an end-of-input
returns end-of-input again; and the tokens up to the first end-of-input form
a list with exactly one end-of-input token, its last element. -/
theorem lexer_terminates (src : List Nat) :
    (∀ k, (lexer_after k (lexer_create_from_string src)).pos ≤
      (lexer_after (k + 1) (lexer_create_from_string src)).pos) ∧
    (∀ k, (lexer_token k (lexer_create_from_string src)).type ≠ TOK_EOF →
      (lexer_after k (lexer_create_from_string src)).pos <
        (lexer_after (k + 1) (lexer_create_from_string src)).pos) ∧
    (∃ k, k ≤ src.length ∧ (lexer_token k (lexer_create_from_string src)).type = TOK_EOF) ∧
    (∀ k, (lexer_token k (lexer_create_from_string src)).type = TOK_EOF →
      ∀ j, k ≤ j → (lexer_token j (lexer_create_from_string src)).type = TOK_EOF) ∧
    (∃ ts eof, lexer_tokens (src.length + 1) (lexer_create_from_string src) = ts ++ [eof] ∧
      eof.type = TOK_EOF ∧ ∀ t ∈ ts, t.type ≠ TOK_EOF) := by
  have hmono : ∀ k, (lexer_after k (lexer_create_from_string src)).pos ≤
      (lexer_after (k + 1) (lexer_create_from_string src)).pos := by
    intro k
    obtain ⟨pre, text, hat, hline, _⟩ := lexer_after_inv src k
    rw [lexer_after_succ]
    exact (lexer_step_progress hat hline).1
  have hstrict : ∀ k, (lexer_token k (lexer_create_from_string src)).type ≠ TOK_EOF →
      (lexer_after k (lexer_create_from_string src)).pos <
        (lexer_after (k + 1) (lexer_create_from_string src)).pos := by
    intro k hne
    obtain ⟨pre, text, hat, hline, _⟩ := lexer_after_inv src k
    rw [lexer_after_succ]
    exact (lexer_step_progress hat hline).2.1 hne
  refine ⟨hmono, hstrict, ?_, ?_, ?_⟩
  · by_contra hno
    have hall : ∀ k, k ≤ src.length →
        (lexer_token k (lexer_create_from_string src)).type ≠ TOK_EOF :=
      fun k hk he => hno ⟨k, hk, he⟩
    have hpos : ∀ m, m ≤ src.length + 1 →
        m ≤ (lexer_after m (lexer_create_from_string src)).pos := by
      intro m
      induction m with
      | zero => intro _; exact Nat.zero_le _
      | succ m ih =>
        intro hm
        have h1 := ih (by omega)
        have h2 := hstrict m (hall m (by omega))
        omega
    have hlast := hpos (src.length + 1) (Nat.le_refl _)
    obtain ⟨pre, text, hat, _, _, hlen⟩ := lexer_after_inv src (src.length + 1)
    have hp := hat.pos_eq
    have hl := (lexer_create_at src).2.2
    omega
  · intro k he j hkj
    obtain ⟨pre, text, hat, hline, _⟩ := lexer_after_inv src k
    obtain ⟨pre1, hat1⟩ := (lexer_step_progress hat hline).2.2.1 he
    rw [← lexer_after_succ] at hat1
    rcases Nat.eq_or_lt_of_le hkj with rfl | hlt
    · exact he
    · obtain ⟨d, rfl⟩ : ∃ d, j = (k + 1) + d := ⟨j - (k + 1), by omega⟩
      have hend := (lexer_after_end hat1 d).2
      unfold lexer_token at hend ⊢
      rw [lexer_after_add]
      exact hend
  · obtain ⟨hat, hl, hlen⟩ := lexer_create_at src
    have hp := hat.pos_eq
    exact lexer_tokens_shape (src.length + 1) _ _ _ hat (by simpa using hl) (by omega)

theorem lexer_terminates_witness :
    (lexer_after 0 (lexer_create_from_string (cstr "A\n"))).pos <
      (lexer_after 1 (lexer_create_from_string (cstr "A\n"))).pos ∧
    (lexer_token 5 (lexer_create_from_string (cstr "A\n"))).type = TOK_EOF :=
  ⟨(lexer_terminates (cstr "A\n")).2.1 0 (by decide),
    (lexer_terminates (cstr "A\n")).2.2.2.1 2 (by decide) 5 (by decide)⟩

/-- C15: let `d` be a non-empty string of hex-digit characters. If its first
character is a decimal digit, `d` followed by `h` or `H` is read, whatever
follows, as one number token with that spelling and the base-16 value of `d`
modulo `2^32`, without error; `0x` or `0X` followed by `d` (and then no
further hex digit) is read as one number token with that spelling and the same
value, without error; and a non-empty run `d` of decimal digits that is
followed neither by `h` or `H` nor by a hex-digit character (nor, for the run
`0`, by `x` or `X`) is read as one number token with the base-10 value of `d`
modulo `2^32`, without error. A source text that consists of such a literal
gives exactly that token and the end-of-input token. -/
theorem number_literal_tokens (d : List Nat) (hd : d ≠ []) :
    ((∀ c ∈ d, is_hex_char c = true) → is_digit (d.headD 0) = true →
      ∀ h, (h = 104 ∨ h = 72) →
        (∀ (lx : Lexer) (pre tail : List Nat), lx.At pre ((d ++ [h]) ++ tail) →
          lexer_next_token lx =
            ({ type := TOK_NUMBER, lexeme := some (d ++ [h]), line := lx.line,
               int_value := hex_number d % 4294967296 },
              { lx with pos := lx.pos + (d ++ [h]).length }, [])) ∧
        lexer_tokens ((d ++ [h]).length + 1) (lexer_create_from_string (d ++ [h])) =
          [{ type := TOK_NUMBER, lexeme := some (d ++ [h]), line := 1,
             int_value := hex_number d % 4294967296 },
           { type := TOK_EOF, lexeme := none, line := 1, int_value := 0 }] ∧
        lexer_errors ((d ++ [h]).length + 1) (lexer_create_from_string (d ++ [h])) = []) ∧
    ((∀ c ∈ d, is_hex_char c = true) → ∀ x, (x = 120 ∨ x = 88) →
        (∀ (lx : Lexer) (pre tail : List Nat), is_hex_char (tail.headD 0) = false →
          lx.At pre ((48 :: x :: d) ++ tail) →
          lexer_next_token lx =
            ({ type := TOK_NUMBER, lexeme := some (48 :: x :: d), line := lx.line,
               int_value := hex_number d % 4294967296 },
              { lx with pos := lx.pos + (48 :: x :: d).length }, [])) ∧
        lexer_tokens ((48 :: x :: d).length + 1) (lexer_create_from_string (48 :: x :: d)) =
          [{ type := TOK_NUMBER, lexeme := some (48 :: x :: d), line := 1,
             int_value := hex_number d % 4294967296 },
           { type := TOK_EOF, lexeme := none, line := 1, int_value := 0 }] ∧
        lexer_errors ((48 :: x :: d).length + 1) (lexer_create_from_string (48 :: x :: d)) =
          []) ∧
    ((∀ c ∈ d, is_digit c = true) →
        (∀ (lx : Lexer) (pre tail : List Nat), is_hex_char (tail.headD 0) = false →
          tail.headD 0 ≠ 104 → tail.headD 0 ≠ 72 →
          (d = [48] → tail.headD 0 ≠ 120 ∧ tail.headD 0 ≠ 88) →
          lx.At pre (d ++ tail) →
          lexer_next_token lx =
            ({ type := TOK_NUMBER, lexeme := some d, line := lx.line,
               int_value := decimal_number d % 4294967296 },
              { lx with pos := lx.pos + d.length }, [])) ∧
        lexer_tokens (d.length + 1) (lexer_create_from_string d) =
          [{ type := TOK_NUMBER, lexeme := some d, line := 1,
             int_value := decimal_number d % 4294967296 },
           { type := TOK_EOF, lexeme := none, line := 1, int_value := 0 }] ∧
        lexer_errors (d.length + 1) (lexer_create_from_string d) = []) := by
  obtain ⟨c, ds, rfl⟩ : ∃ c ds, d = c :: ds := by
    cases d with
    | nil => exact absurd rfl hd
    | cons c ds => exact ⟨c, ds, rfl⟩
  have hznum : ∀ {x : Nat}, is_hex_char x = true → x ≠ 0 := fun hx => (is_hex_char_not_mark hx).2.2.2.2
  refine ⟨?_, ?_, ?_⟩
  · intro hhex hdig h hh
    have hc : is_digit c = true := hdig
    have hds : ∀ x ∈ ds, is_hex_char x = true := fun x hx => hhex x (List.mem_cons_of_mem _ hx)
    have hscan : ∀ ln tail, scan_token false ln [] ((c :: ds ++ [h]) ++ tail) =
        { token := { type := TOK_NUMBER, lexeme := some (c :: ds ++ [h]), line := ln,
                     int_value := hex_number (c :: ds) % 4294967296 },
          rest := tail, line := ln, errors := [] } := by
      intro ln tail
      have := scan_masm_literal ln [] c h ds tail hc hds hh
      rw [masm_hex_value_eq] at this
      simpa using this
    refine ⟨fun lx pre tail hat => lexer_next_token_at hat (hscan lx.line tail), ?_⟩
    refine lexer_tokens_single (c :: ds ++ [h]) _ [] (by simp) ?_ (by simp) ?_
    · intro x hx
      simp only [List.cons_append, List.mem_cons, List.mem_append, List.mem_singleton,
        List.not_mem_nil, or_false] at hx
      rcases hx with rfl | hx | rfl
      · exact hznum (hhex _ (List.mem_cons_self _ _))
      · exact hznum (hds x hx)
      · rcases hh with rfl | rfl <;> decide
    · have := hscan 1 []
      simpa using this
  · intro hhex x hx
    have hscan : ∀ ln tail, is_hex_char (tail.headD 0) = false →
        scan_token false ln [] ((48 :: x :: c :: ds) ++ tail) =
        { token := { type := TOK_NUMBER, lexeme := some (48 :: x :: c :: ds), line := ln,
                     int_value := hex_number (c :: ds) % 4294967296 },
          rest := tail, line := ln, errors := [] } := by
      intro ln tail ht
      have := scan_hex_literal ln [] x (c :: ds) tail hx (by simp) hhex ht
      rw [masm_hex_value_eq] at this
      simpa using this
    refine ⟨fun lx pre tail ht hat => lexer_next_token_at hat (hscan lx.line tail ht), ?_⟩
    refine lexer_tokens_single (48 :: x :: c :: ds) _ [] (by simp) ?_ (by simp) ?_
    · intro y hy
      rcases List.mem_cons.1 hy with rfl | hy
      · decide
      · rcases List.mem_cons.1 hy with rfl | hy
        · rcases hx with rfl | rfl <;> decide
        · exact hznum (hhex y hy)
    · have := hscan 1 [] (by decide)
      simpa using this
  · intro hdig
    have hc : is_digit c = true := hdig c (List.mem_cons_self _ _)
    have hds : ∀ x ∈ ds, is_hex_char x = true :=
      fun x hx => is_digit_hex (hdig x (List.mem_cons_of_mem _ hx))
    have hval : decimal_value (c :: ds) = decimal_number (c :: ds) % 4294967296 := by
      rw [decimal_value_eq, filter_is_digit_of_forall hdig]
    have hscan : ∀ ln tail, is_hex_char (tail.headD 0) = false →
        tail.headD 0 ≠ 104 → tail.headD 0 ≠ 72 →
        (c :: ds = [48] → tail.headD 0 ≠ 120 ∧ tail.headD 0 ≠ 88) →
        scan_token false ln [] ((c :: ds) ++ tail) =
        { token := { type := TOK_NUMBER, lexeme := some (c :: ds), line := ln,
                     int_value := decimal_number (c :: ds) % 4294967296 },
          rest := tail, line := ln, errors := [] } := by
      intro ln tail ht ht1 ht2 ht3
      have := scan_decimal_run ln [] c ds tail hc hds ht ht1 ht2
        (fun h1 h2 => ht3 (by rw [h1, h2]))
      rw [hval] at this
      simpa using this
    refine ⟨fun lx pre tail ht ht1 ht2 ht3 hat =>
      lexer_next_token_at hat (hscan lx.line tail ht ht1 ht2 ht3), ?_⟩
    refine lexer_tokens_single (c :: ds) _ [] (by simp) ?_ (by simp) ?_
    · intro y hy
      exact (is_digit_first (hdig y hy)).1
    · have := hscan 1 [] (by decide) (by decide) (by decide) (by intro _; decide)
      simpa using this

theorem number_literal_tokens_witness :
    lexer_tokens 4 (lexer_create_from_string (cstr "1Ah")) =
      [{ type := TOK_NUMBER, lexeme := some (cstr "1Ah"), line := 1, int_value := 0x1A },
       { type := TOK_EOF, lexeme := none, line := 1, int_value := 0 }] ∧
    lexer_tokens 7 (lexer_create_from_string (cstr "0x00AB")) =
      [{ type := TOK_NUMBER, lexeme := some (cstr "0x00AB"), line := 1, int_value := 0xAB },
       { type := TOK_EOF, lexeme := none, line := 1, int_value := 0 }] ∧
    lexer_tokens 4 (lexer_create_from_string (cstr "255")) =
      [{ type := TOK_NUMBER, lexeme := some (cstr "255"), line := 1, int_value := 255 },
       { type := TOK_EOF, lexeme := none, line := 1, int_value := 0 }] :=
  ⟨((number_literal_tokens (cstr "1A") (by decide)).1 (by decide) (by decide) 104
      (Or.inl rfl)).2.1,
    ((number_literal_tokens (cstr "00AB") (by decide)).2.1 (by decide) 120 (Or.inl rfl)).2.1,
    ((number_literal_tokens (cstr "255") (by decide)).2.2 (by decide)).2.1⟩

/-- C16, as the code has it: a run of hex-digit characters that starts with a
decimal digit, contains a letter, and is followed neither by `h` or `H` nor by
a further hex-digit character is read without any error as one number token:
its lexeme is the run and its value is the base-10 value of the decimal digits
of the run modulo `2^32`, the letters being passed over. A source text that
consists of such a run gives that token and the end-of-input token, and no
error. -/
theorem hex_letters_in_decimal_run (c : Nat) (ds : List Nat) (hc : is_digit c = true)
    (hds : ∀ x ∈ ds, is_hex_char x = true) (hletter : ∃ x ∈ ds, is_digit x = false) :
    (∀ (lx : Lexer) (pre tail : List Nat), is_hex_char (tail.headD 0) = false →
      tail.headD 0 ≠ 104 → tail.headD 0 ≠ 72 → lx.At pre ((c :: ds) ++ tail) →
      lexer_next_token lx =
        ({ type := TOK_NUMBER, lexeme := some (c :: ds), line := lx.line,
           int_value := decimal_number ((c :: ds).filter is_digit) % 4294967296 },
          { lx with pos := lx.pos + (c :: ds).length }, [])) ∧
    lexer_tokens ((c :: ds).length + 1) (lexer_create_from_string (c :: ds)) =
      [{ type := TOK_NUMBER, lexeme := some (c :: ds), line := 1,
         int_value := decimal_number ((c :: ds).filter is_digit) % 4294967296 },
       { type := TOK_EOF, lexeme := none, line := 1, int_value := 0 }] ∧
    lexer_errors ((c :: ds).length + 1) (lexer_create_from_string (c :: ds)) = [] := by
  have hne : ds ≠ [] := by
    obtain ⟨x, hx, _⟩ := hletter
    exact List.ne_nil_of_mem hx
  have hscan : ∀ ln tail, is_hex_char (tail.headD 0) = false →
      tail.headD 0 ≠ 104 → tail.headD 0 ≠ 72 →
      scan_token false ln [] ((c :: ds) ++ tail) =
      { token := { type := TOK_NUMBER, lexeme := some (c :: ds), line := ln,
                   int_value := decimal_number ((c :: ds).filter is_digit) % 4294967296 },
        rest := tail, line := ln, errors := [] } := by
    intro ln tail ht ht1 ht2
    have := scan_decimal_run ln [] c ds tail hc hds ht ht1 ht2 (fun h => absurd h hne)
    rw [decimal_value_eq] at this
    simpa using this
  refine ⟨fun lx pre tail ht ht1 ht2 hat => lexer_next_token_at hat (hscan lx.line tail ht ht1 ht2),
    ?_⟩
  refine lexer_tokens_single (c :: ds) _ [] (by simp) ?_ (by simp) ?_
  · intro y hy
    rcases List.mem_cons.1 hy with rfl | hy
    · exact (is_digit_first hc).1
    · exact (is_hex_char_not_mark (hds y hy)).2.2.2.2
  · have := hscan 1 [] (by decide) (by decide) (by decide)
    simpa using this

theorem hex_letters_in_decimal_run_witness :
    lexer_tokens 5 (lexer_create_from_string (cstr "12ab")) =
      [{ type := TOK_NUMBER, lexeme := some (cstr "12ab"), line := 1, int_value := 12 },
       { type := TOK_EOF, lexeme := none, line := 1, int_value := 0 }] ∧
    lexer_errors 5 (lexer_create_from_string (cstr "12ab")) = [] :=
  (hex_letters_in_decimal_run 49 (cstr "2ab") (by decide) (by decide)
    ⟨97, by decide, by decide⟩).2

/-- C16 fails as stated: the text `1A` is read as a number token with value 1
and no error is reported. -/
theorem hex_letter_run_reports_no_error :
    lexer_next_token (lexer_create_from_string (cstr "1A")) =
      ({ type := TOK_NUMBER, lexeme := some (cstr "1A"), line := 1, int_value := 1 },
        { lexer_create_from_string (cstr "1A") with pos := 2 }, []) ∧
    lexer_errors 3 (lexer_create_from_string (cstr "1A")) = [] ∧
    ¬ (0 < error_get_count (lexer_errors 3 (lexer_create_from_string (cstr "1A")))) := by
  refine ⟨rfl, rfl, ?_⟩
  decide

/-- C17, as the code has it: of the tokens the lexer of a source text returns,
every token that is not a string carries the line on which it begins, 1 plus
the number of newline characters before its first character (its lexeme is
the text that starts there; the end-of-input token has no text and carries 1
plus the number of newlines before the end); a string token, which begins at
its opening quote, carries the line on which it ends: 1 plus the newlines
before its opening quote plus the newlines inside the string, that is 1 plus
the newlines before the read position after the token. -/
theorem token_line (src : List Nat) (k : Nat) :
    ((lexer_token k (lexer_create_from_string src)).type ≠ TOK_STRING →
      (lexer_token k (lexer_create_from_string src)).line =
        1 + newlines_before (lexer_create_from_string src).buffer
          ((lexer_after (k + 1) (lexer_create_from_string src)).pos -
            ((lexer_token k (lexer_create_from_string src)).lexeme.getD []).length) ∧
      ((lexer_token k (lexer_create_from_string src)).type ≠ TOK_EOF →
        ∃ body, (lexer_token k (lexer_create_from_string src)).lexeme = some body ∧
          buffer_slice (lexer_create_from_string src)
            ((lexer_after (k + 1) (lexer_create_from_string src)).pos - body.length)
            (lexer_after (k + 1) (lexer_create_from_string src)).pos = body)) ∧
    ((lexer_token k (lexer_create_from_string src)).type = TOK_STRING →
      ∃ start q content,
        (lexer_after k (lexer_create_from_string src)).pos ≤ start ∧
        (lexer_create_from_string src).buffer[start]? = some q ∧ (q = 34 ∨ q = 39) ∧
        (lexer_token k (lexer_create_from_string src)).lexeme = some content ∧
        buffer_slice (lexer_create_from_string src) (start + 1) (start + 1 + content.length) =
          content ∧
        (lexer_token k (lexer_create_from_string src)).line =
          1 + newlines_before (lexer_create_from_string src).buffer start + content.count 10 ∧
        (lexer_token k (lexer_create_from_string src)).line =
          1 + newlines_before (lexer_create_from_string src).buffer
            (lexer_after (k + 1) (lexer_create_from_string src)).pos) := by
  obtain ⟨pre, text, hat, hline, hbuf, _⟩ := lexer_after_inv src k
  obtain ⟨skipped, body, rest, htext, hat1, hline1, _, _, hpos, hsk, hparts, _, htok, _⟩ :=
    lexer_step hat hline
  have hsk0 : skipped.count 10 = 0 := count_newline_of_forall hsk
  have hp := hat.2.1
  have hb : (lexer_create_from_string src).buffer = pre ++ skipped ++ body ++ rest := by
    rw [← hbuf, hat.1, htext]
    simp only [List.append_assoc]
  have hstop : (lexer_after (k + 1) (lexer_create_from_string src)).pos =
      pre.length + skipped.length + body.length := by
    rw [lexer_after_succ, hpos, hp]
  have htake : newlines_before (lexer_create_from_string src).buffer
      (pre.length + skipped.length) = pre.count 10 := by
    unfold newlines_before
    rw [hb, List.append_assoc, List.append_assoc, ← List.append_assoc pre,
      ← List.length_append, List.take_left, List.count_append, hsk0]
    rfl
  have htok1 : lexer_token k (lexer_create_from_string src) =
      (scan_token false (lexer_after k (lexer_create_from_string src)).line [] text).token := htok
  refine ⟨fun hns => ?_, fun hs => ?_⟩
  · rw [htok1] at hns ⊢
    by_cases he : (scan_token false (lexer_after k (lexer_create_from_string src)).line []
        text).token.type = TOK_EOF
    · obtain ⟨hbody, _, hl, hlex⟩ := hparts.2.1 he
      subst hbody
      refine ⟨?_, fun hne => absurd he hne⟩
      rw [hlex, hstop, hl, hline]
      simp only [Option.getD_none, List.length_nil, Nat.add_zero, Nat.sub_zero]
      rw [htake]
    · obtain ⟨hlex, _, hl⟩ := hparts.2.2.2 he hns
      constructor
      · rw [hlex, hstop, hl, hline]
        simp only [Option.getD_some, Nat.add_sub_cancel]
        rw [htake]
      · intro _
        refine ⟨body, hlex, ?_⟩
        rw [hstop, Nat.add_sub_cancel]
        have := @buffer_slice_at (lexer_create_from_string src) (pre ++ skipped) body rest
          (by rw [hb]; simp only [List.append_assoc])
        simpa only [List.length_append] using this
  · rw [htok1] at hs ⊢
    obtain ⟨q, content, closing, hbody, hq, hclosing, _, hlex, hl⟩ := hparts.2.2.1 hs
    have hq10 : q ≠ 10 := by rcases hq with h | h <;> omega
    have hc10 : closing.count 10 = 0 := by
      rcases hclosing with h | ⟨h, _⟩
      · rw [h, List.count_cons_of_ne (Ne.symm hq10)]; rfl
      · rw [h]; rfl
    refine ⟨pre.length + skipped.length, q, content, by omega, ?_, hq, hlex, ?_, ?_, ?_⟩
    · rw [hb, hbody, ← List.length_append]
      simp only [List.append_assoc, List.cons_append]
      rw [← List.append_assoc pre skipped]
      rw [List.getElem?_append_right (Nat.le_refl _)]
      simp
    · have := @buffer_slice_at (lexer_create_from_string src) (pre ++ skipped ++ [q]) content
        (closing ++ rest)
        (by rw [hb, hbody]; simp only [List.append_assoc, List.cons_append, List.nil_append])
      simpa only [List.length_append, List.length_singleton] using this
    · rw [hl, hline, htake]
    · rw [hl, hline, hstop]
      have hall : newlines_before (lexer_create_from_string src).buffer
          (pre.length + skipped.length + body.length) =
          pre.count 10 + body.count 10 := by
        unfold newlines_before
        rw [hb, ← List.length_append, ← List.length_append, List.take_left,
          List.count_append, List.count_append, hsk0]
        rfl
      rw [hall, hbody, List.cons_append, List.count_cons_of_ne (Ne.symm hq10),
        List.count_append, hc10]
      omega

theorem token_line_witness :
    (lexer_token 1 (lexer_create_from_string (cstr "A\nB"))).line =
      1 + newlines_before (lexer_create_from_string (cstr "A\nB")).buffer
        ((lexer_after 2 (lexer_create_from_string (cstr "A\nB"))).pos -
          ((lexer_token 1 (lexer_create_from_string (cstr "A\nB"))).lexeme.getD []).length) ∧
    (lexer_token 2 (lexer_create_from_string (cstr "A\nB"))).line = 2 ∧
    (lexer_token 0 (lexer_create_from_string two_line_string)).line =
      1 + newlines_before (lexer_create_from_string two_line_string).buffer
        (lexer_after 1 (lexer_create_from_string two_line_string)).pos :=
  ⟨((token_line (cstr "A\nB") 1).1 (by decide)).1, rfl,
    by
      obtain ⟨start, q, content, _, _, _, _, _, _, h⟩ :=
        (token_line two_line_string 0).2 (by decide)
      exact h⟩

/-- C17 fails as stated: the string token of the text `"a` / `b"` begins at
the first character of line 1 and carries line 2. -/
theorem string_token_line_is_end_line :
    lexer_token 0 (lexer_create_from_string two_line_string) =
      { type := TOK_STRING, lexeme := some [97, 10, 98], line := 2, int_value := 0 } ∧
    (lexer_after 0 (lexer_create_from_string two_line_string)).pos = 0 ∧
    (lexer_create_from_string two_line_string).buffer[0]? = some 34 ∧
    ¬ ((lexer_token 0 (lexer_create_from_string two_line_string)).line =
        1 + newlines_before (lexer_create_from_string two_line_string).buffer 0) := by
  refine ⟨rfl, rfl, rfl, ?_⟩
  decide

/-- C18: for every source text, the tokens the lexer returns are those it
returns for the text in which every invalid character outside comments and
strings is replaced by a space; the other errors are the same and in the same
order; and the lexer reports exactly one invalid-character error for each such
character, so the error count is larger by their number. -/
theorem invalid_characters_skipped (src : List Nat) :
    lexer_tokens (src.length + 1) (lexer_create_from_string src) =
      lexer_tokens (src.length + 1) (lexer_create_from_string (sanitize .code src)) ∧
    (lexer_errors (src.length + 1) (lexer_create_from_string src)).filter
        (fun (e : ErrorReport) => decide (e.code ≠ ERR_LEX_INVALID_CHAR)) =
      lexer_errors (src.length + 1) (lexer_create_from_string (sanitize .code src)) ∧
    ((lexer_errors (src.length + 1) (lexer_create_from_string src)).filter
        (fun (e : ErrorReport) => decide (e.code = ERR_LEX_INVALID_CHAR))).length =
      invalid_count .code src ∧
    error_get_count (lexer_errors (src.length + 1) (lexer_create_from_string src)) =
      error_get_count
          (lexer_errors (src.length + 1) (lexer_create_from_string (sanitize .code src))) +
        invalid_count .code src := by
  obtain ⟨hat, hline, hlen⟩ := lexer_create_at src
  obtain ⟨hat1, hline1, _⟩ := lexer_create_at (sanitize .code src)
  rw [(sanitize_takeWhile src .code).1] at hat1
  have hp := hat.pos_eq
  have hlen1 : (src.takeWhile (fun c => decide (c ≠ 0))).length < src.length + 1 := by
    have : (lexer_create_from_string src).len = (src.takeWhile (fun c => decide (c ≠ 0))).length :=
      rfl
    omega
  obtain ⟨h1, h2, h3⟩ := lexer_tokens_sanitize (src.length + 1) _ _ _ _ _ hat hat1
    (hline1.trans hline.symm) hlen1
  rw [(sanitize_takeWhile src .code).2] at h3
  refine ⟨h1, h2, h3, ?_⟩
  rw [← h2, ← h3]
  unfold error_get_count
  have := List.length_eq_length_filter_add
    (l := lexer_errors (src.length + 1) (lexer_create_from_string src))
    (fun (e : ErrorReport) => decide (e.code ≠ ERR_LEX_INVALID_CHAR))
  rw [this]
  congr 2
  apply List.filter_congr
  intro e _
  simp

/-- C19: after any sequence of `symtab_insert` calls on a fresh table, a
lookup finds a record exactly when the name is byte-for-byte equal to an
inserted name; the record found for a name is the one of its first insertion
(kind, address and defining line of that call, marked defined), so in
particular that of a name inserted once; and the symbol count is the number
of distinct names inserted, as a 32-bit counter. -/
theorem symtab_insert_sequence (cap : Nat) (calls : List InsertCall) :
    (∀ name, (symtab_lookup (symtab_insert_all (symtab_create cap) calls) name).isSome ↔
      ∃ c ∈ calls, util_strcpy c.name = util_strcpy name) ∧
    (∀ before c after, calls = before ++ c :: after →
      (∀ b ∈ before, util_strcpy b.name ≠ util_strcpy c.name) →
      symtab_lookup (symtab_insert_all (symtab_create cap) calls) c.name = some c.record) ∧
    symtab_get_symbol_count (symtab_insert_all (symtab_create cap) calls) =
      (inserted_names calls).toFinset.card % 4294967296 ∧
    ((inserted_names calls).toFinset.card < 4294967296 →
      symtab_get_symbol_count (symtab_insert_all (symtab_create cap) calls) =
        (inserted_names calls).toFinset.card) := by
  have hlook := fun name =>
    (symtab_insert_all_lookup calls (symtab_create cap) (symtab_create_WF cap) name).2
  have hcount := symtab_insert_all_count calls (symtab_create cap) ∅ (symtab_create_WF cap)
    (by intro name; simp [symtab_lookup_create]) (by simp [symtab_get_symbol_count, symtab_create])
  rw [Finset.empty_union] at hcount
  refine ⟨?_, ?_, hcount, fun hlt => ?_⟩
  · intro name
    rw [hlook name, symtab_lookup_create]
    simp
  · intro before c after hcalls hfirst
    rw [hlook c.name, symtab_lookup_create, hcalls]
    have hfind : (before ++ c :: after).find?
        (fun x => decide (util_strcpy x.name = util_strcpy c.name)) = some c := by
      rw [List.find?_append]
      have hnone : before.find? (fun x => decide (util_strcpy x.name = util_strcpy c.name)) =
          none := by
        rw [List.find?_eq_none]
        intro x hx
        simpa using hfirst x hx
      simp [hnone, List.find?]
    simp only [hfind, Option.map_some']
  · rw [hcount, Nat.mod_eq_of_lt hlt]

theorem symtab_insert_sequence_witness :
    symtab_lookup
      (symtab_insert_all (symtab_create 256)
        [⟨cstr "foo", SymbolType.SYM_LABEL, 0, 1⟩, ⟨cstr "bar", SymbolType.SYM_VARIABLE, 3, 2⟩,
         ⟨cstr "foo", SymbolType.SYM_PROCEDURE, 7, 3⟩]) (cstr "bar") =
      some { name := cstr "bar", type := SymbolType.SYM_VARIABLE, address := 3,
             line_defined := 2, is_defined := 1 } ∧
    (symtab_lookup
      (symtab_insert_all (symtab_create 256)
        [⟨cstr "foo", SymbolType.SYM_LABEL, 0, 1⟩, ⟨cstr "bar", SymbolType.SYM_VARIABLE, 3, 2⟩,
         ⟨cstr "foo", SymbolType.SYM_PROCEDURE, 7, 3⟩]) (cstr "FOO")).isSome = false ∧
    symtab_get_symbol_count
      (symtab_insert_all (symtab_create 256)
        [⟨cstr "foo", SymbolType.SYM_LABEL, 0, 1⟩, ⟨cstr "bar", SymbolType.SYM_VARIABLE, 3, 2⟩,
         ⟨cstr "foo", SymbolType.SYM_PROCEDURE, 7, 3⟩]) = 2 :=
  ⟨(symtab_insert_sequence 256
      [⟨cstr "foo", SymbolType.SYM_LABEL, 0, 1⟩, ⟨cstr "bar", SymbolType.SYM_VARIABLE, 3, 2⟩,
       ⟨cstr "foo", SymbolType.SYM_PROCEDURE, 7, 3⟩]).2.1
      [⟨cstr "foo", SymbolType.SYM_LABEL, 0, 1⟩] ⟨cstr "bar", SymbolType.SYM_VARIABLE, 3, 2⟩
      [⟨cstr "foo", SymbolType.SYM_PROCEDURE, 7, 3⟩] rfl (by decide),
    rfl,
    (symtab_insert_sequence 256
      [⟨cstr "foo", SymbolType.SYM_LABEL, 0, 1⟩, ⟨cstr "bar", SymbolType.SYM_VARIABLE, 3, 2⟩,
       ⟨cstr "foo", SymbolType.SYM_PROCEDURE, 7, 3⟩]).2.2.2 (by decide)⟩

/-- C20: `symtab_insert` of a name that the table already holds returns the
status `1`, which is neither `0` nor `-1`, and leaves the table as it was:
the symbol count and the result of every lookup are unchanged. -/
theorem symtab_insert_existing (st : SymbolTable) (name : CStr) (type : SymbolType)
    (address line : Nat) (h : symtab_lookup st name ≠ none) :
    (symtab_insert st name type address line).1 = 1 ∧
    (symtab_insert st name type address line).1 ≠ 0 ∧
    (symtab_insert st name type address line).1 ≠ -1 ∧
    (symtab_insert st name type address line).2 = st ∧
    symtab_get_symbol_count (symtab_insert st name type address line).2 =
      symtab_get_symbol_count st ∧
    ∀ other, symtab_lookup (symtab_insert st name type address line).2 other =
      symtab_lookup st other := by
  cases hl : symtab_lookup st name with
  | none => exact absurd hl h
  | some sym =>
    rw [symtab_insert_present st name type address line sym hl]
    exact ⟨rfl, by simp, by simp, rfl, rfl, fun _ => rfl⟩

theorem symtab_insert_existing_witness :
    symtab_lookup (symtab_insert (symtab_create 256) (cstr "L1") SymbolType.SYM_LABEL 0 1).2
      (cstr "L1") ≠ none ∧
    (symtab_insert (symtab_insert (symtab_create 256) (cstr "L1") SymbolType.SYM_LABEL 0 1).2
      (cstr "L1") SymbolType.SYM_VARIABLE 3 2).1 = 1 ∧
    symtab_lookup
      (symtab_insert (symtab_insert (symtab_create 256) (cstr "L1") SymbolType.SYM_LABEL 0 1).2
        (cstr "L1") SymbolType.SYM_VARIABLE 3 2).2 (cstr "L1") =
      some { name := cstr "L1", type := SymbolType.SYM_LABEL, address := 0, line_defined := 1,
             is_defined := 1 } :=
  ⟨by decide,
    (symtab_insert_existing (symtab_insert (symtab_create 256) (cstr "L1")
      SymbolType.SYM_LABEL 0 1).2 (cstr "L1") SymbolType.SYM_VARIABLE 3 2 (by decide)).1,
    rfl⟩

/-- C21: `symtab_update_address` on a name the table holds returns `0`, and
afterwards the lookup of the name gives the same record with the new address:
kind, defining line, defined flag and stored name are as before; the lookup of
every other name and the symbol count are unchanged. On a name the table does
not hold it returns `-1` and the table is unchanged. -/
theorem symtab_update_address_frame (st : SymbolTable) (name : CStr) (a : Nat)
    (hwf : st.symbols.WF) :
    (∀ info, symtab_lookup st name = some info →
      (symtab_update_address st name a).1 = 0 ∧
      symtab_lookup (symtab_update_address st name a).2 name =
        some { name := info.name, type := info.type, address := a,
               line_defined := info.line_defined, is_defined := info.is_defined } ∧
      (∀ other, util_strcpy other ≠ util_strcpy name →
        symtab_lookup (symtab_update_address st name a).2 other = symtab_lookup st other) ∧
      symtab_get_symbol_count (symtab_update_address st name a).2 =
        symtab_get_symbol_count st ∧
      (symtab_update_address st name a).2.symbols.element_count = st.symbols.element_count ∧
      (symtab_update_address st name a).2.symbols.WF) ∧
    (symtab_lookup st name = none → symtab_update_address st name a = (-1, st)) := by
  constructor
  · intro info hl
    have hl1 : util_ht_lookup st.symbols name = some info := hl
    have hupd : symtab_update_address st name a =
        (0, { st with symbols := util_ht_insert st.symbols name { info with address := a } }) := by
      simp only [symtab_update_address, hl1]
    rw [hupd]
    refine ⟨rfl, ?_, ?_, rfl, ?_, ?_⟩
    · exact util_ht_lookup_insert_same st.symbols name _ hwf
    · intro other hne
      refine util_ht_lookup_insert_other st.symbols name other _ hwf ?_
      intro h0
      exact hne ((util_strcmp_eq_zero_iff name other).1 h0).symm
    · have hc : chain_lookup name
          (st.symbols.buckets.getD (hash_string_djb2 name % st.symbols.bucket_count) []) =
          some info := hl1
      simp only [util_ht_insert, hc]
    · exact util_ht_insert_WF st.symbols name _ hwf
  · intro hl
    have hl1 : util_ht_lookup st.symbols name = none := hl
    simp only [symtab_update_address, hl1]

theorem symtab_update_address_frame_witness :
    (symtab_update_address
        (symtab_insert (symtab_insert (symtab_create 16) (cstr "LABEL") SymbolType.SYM_LABEL
          256 5).2 (cstr "OTHER") SymbolType.SYM_VARIABLE 7 6).2 (cstr "LABEL") 512).1 = 0 ∧
    symtab_lookup
      (symtab_update_address
        (symtab_insert (symtab_insert (symtab_create 16) (cstr "LABEL") SymbolType.SYM_LABEL
          256 5).2 (cstr "OTHER") SymbolType.SYM_VARIABLE 7 6).2 (cstr "LABEL") 512).2
      (cstr "LABEL") =
      some { name := cstr "LABEL", type := SymbolType.SYM_LABEL, address := 512,
             line_defined := 5, is_defined := 1 } ∧
    symtab_lookup
      (symtab_update_address
        (symtab_insert (symtab_insert (symtab_create 16) (cstr "LABEL") SymbolType.SYM_LABEL
          256 5).2 (cstr "OTHER") SymbolType.SYM_VARIABLE 7 6).2 (cstr "LABEL") 512).2
      (cstr "OTHER") =
      some { name := cstr "OTHER", type := SymbolType.SYM_VARIABLE, address := 7,
             line_defined := 6, is_defined := 1 } ∧
    symtab_update_address (symtab_create 16) (cstr "NOTEXIST") 768 = (-1, symtab_create 16) := by
  have hwf : (symtab_insert (symtab_insert (symtab_create 16) (cstr "LABEL")
      SymbolType.SYM_LABEL 256 5).2 (cstr "OTHER") SymbolType.SYM_VARIABLE 7 6).2.symbols.WF :=
    (symtab_insert_lookup _ ⟨cstr "OTHER", SymbolType.SYM_VARIABLE, 7, 6⟩
      (symtab_insert_lookup _ ⟨cstr "LABEL", SymbolType.SYM_LABEL, 256, 5⟩
        (symtab_create_WF 16) []).1 []).1
  have h := (symtab_update_address_frame _ (cstr "LABEL") 512 hwf).1
    { name := cstr "LABEL", type := SymbolType.SYM_LABEL, address := 256, line_defined := 5,
      is_defined := 1 } (by decide)
  refine ⟨h.1, h.2.1, ?_, ?_⟩
  · rw [h.2.2.1 (cstr "OTHER") (by decide)]
    decide
  · exact (symtab_update_address_frame (symtab_create 16) (cstr "NOTEXIST") 768
      (symtab_create_WF 16)).2 (by decide)

/-- C22: `tables_lookup_instruction` is case-insensitive and total in the
table: for every entry `e` and every spelling equal to the mnemonic of `e` up
to ASCII letter case, the lookup returns `e`; no two entries share a mnemonic
up to case (and no entry stands twice in the table), so the lookup of the
mnemonic of the entry at index `i` returns that entry; and for a spelling
that equals no mnemonic of the table up to case, the lookup returns nothing. -/
theorem tables_lookup_case_insensitive :
    (∀ e ∈ g_instruction_table, ∀ s, same_spelling s e.mnemonic = true →
      tables_lookup_instruction (some s) = some e) ∧
    (∀ e1 ∈ g_instruction_table, ∀ e2 ∈ g_instruction_table,
      same_spelling e1.mnemonic e2.mnemonic = true → e1 = e2) ∧
    g_instruction_table.Nodup ∧
    (∀ i e, tables_get_instruction_by_index i = some e →
      tables_lookup_instruction (some e.mnemonic) = some e) ∧
    (∀ s, (∀ e ∈ g_instruction_table, same_spelling s e.mnemonic = false) →
      tables_lookup_instruction (some s) = none) := by
  refine ⟨?_, table_spellings_distinct, by decide, ?_, ?_⟩
  · intro e he s hs
    exact (tables_lookup_some_iff s e).2 ⟨he, hs⟩
  · intro i e hi
    have hmem : e ∈ g_instruction_table := by
      unfold tables_get_instruction_by_index at hi
      split at hi
      · exact absurd hi (by simp)
      · exact List.getElem?_mem hi
    exact (tables_lookup_some_iff e.mnemonic e).2 ⟨hmem, same_spelling_refl _⟩
  · intro s hs
    exact (tables_lookup_none_iff s).2 hs

theorem tables_lookup_case_insensitive_witness :
    tables_lookup_instruction (some (cstr "mov")) =
      some { mnemonic := cstr "MOV", type := INSTR_MOV, opcode := 0x88, operand_count := 2,
             is_pseudo := 0 } ∧
    tables_lookup_instruction (some (cstr "Mov")) = tables_lookup_instruction (some (cstr "MOV")) ∧
    tables_lookup_instruction (some (cstr "NOTEXIST")) = none :=
  ⟨tables_lookup_case_insensitive.1 _ (by decide) (cstr "mov") (by decide),
    (tables_lookup_case_insensitive.1 ⟨cstr "MOV", INSTR_MOV, 0x88, 2, 0⟩ (by decide)
      (cstr "Mov") (by decide)).trans
      (tables_lookup_case_insensitive.1 ⟨cstr "MOV", INSTR_MOV, 0x88, 2, 0⟩ (by decide)
        (cstr "MOV") (by decide)).symm,
    tables_lookup_case_insensitive.2.2.2.2 (cstr "NOTEXIST") (by decide)⟩

/-- C23: `tables_is_pseudo` is three-valued: for every spelling the result is
`-1`, `0` or `1`; it is `-1` exactly when the spelling equals no mnemonic of
the table up to letter case, `1` exactly when it equals one of `SEGMENT`,
`ENDS`, `ASSUME`, `ORG`, `DB`, `PROC`, `ENDP`, `END` up to case, and `0`
exactly when it equals the mnemonic of an ordinary instruction up to case. -/
theorem tables_is_pseudo_three_valued (s : CStr) :
    (tables_is_pseudo (some s) = -1 ∨ tables_is_pseudo (some s) = 0 ∨
      tables_is_pseudo (some s) = 1) ∧
    (tables_is_pseudo (some s) = -1 ↔
      ∀ e ∈ g_instruction_table, same_spelling s e.mnemonic = false) ∧
    (tables_is_pseudo (some s) = 1 ↔ ∃ d ∈ directive_mnemonics, same_spelling s d = true) ∧
    (tables_is_pseudo (some s) = 0 ↔ ∃ m ∈ ordinary_mnemonics, same_spelling s m = true) := by
  cases hl : tables_lookup_instruction (some s) with
  | none =>
    have hnone := (tables_lookup_none_iff s).1 hl
    have hv : tables_is_pseudo (some s) = -1 := by simp [tables_is_pseudo, hl]
    rw [hv]
    refine ⟨Or.inl rfl, ⟨fun _ => hnone, fun _ => rfl⟩, ?_, ?_⟩
    · refine ⟨fun h => absurd h (by decide), ?_⟩
      rintro ⟨d, hd, hsd⟩
      obtain ⟨e, he, hed, _⟩ := directive_mnemonics_in_table d hd
      have := hnone e he
      rw [hed, hsd] at this
      exact absurd this (by simp)
    · refine ⟨fun h => absurd h (by decide), ?_⟩
      rintro ⟨m, hm, hsm⟩
      obtain ⟨e, he, hem, _⟩ := ordinary_mnemonics_in_table m hm
      have := hnone e he
      rw [hem, hsm] at this
      exact absurd this (by simp)
  | some e =>
    obtain ⟨he, hse⟩ := (tables_lookup_some_iff s e).1 hl
    have hv : tables_is_pseudo (some s) = (e.is_pseudo : Int) := by simp [tables_is_pseudo, hl]
    have huniq : ∀ e1 ∈ g_instruction_table, same_spelling s e1.mnemonic = true → e1 = e := by
      intro e1 he1 hs1
      refine table_spellings_distinct e1 he1 e he ?_
      rw [same_spelling_symm] at hs1
      exact same_spelling_trans hs1 hse
    have hnot : ¬ ∀ e1 ∈ g_instruction_table, same_spelling s e1.mnemonic = false := by
      intro h
      have := h e he
      rw [hse] at this
      exact absurd this (by simp)
    rw [hv]
    rcases table_entry_kinds e he with ⟨hp, hd⟩ | ⟨hp, ho⟩
    · rw [hp]
      refine ⟨Or.inr (Or.inr rfl), ⟨fun h => absurd h (by decide), fun h => absurd h hnot⟩,
        ⟨fun _ => ⟨e.mnemonic, hd, hse⟩, fun _ => rfl⟩, ?_⟩
      refine ⟨fun h => absurd h (by decide), ?_⟩
      rintro ⟨m, hm, hsm⟩
      obtain ⟨e1, he1, hem, hp1⟩ := ordinary_mnemonics_in_table m hm
      have := huniq e1 he1 (by rw [hem]; exact hsm)
      rw [this, hp] at hp1
      exact absurd hp1 (by decide)
    · rw [hp]
      refine ⟨Or.inr (Or.inl rfl), ⟨fun h => absurd h (by decide), fun h => absurd h hnot⟩, ?_,
        ⟨fun _ => ⟨e.mnemonic, ho, hse⟩, fun _ => rfl⟩⟩
      refine ⟨fun h => absurd h (by decide), ?_⟩
      rintro ⟨d, hd, hsd⟩
      obtain ⟨e1, he1, hed, hp1⟩ := directive_mnemonics_in_table d hd
      have := huniq e1 he1 (by rw [hed]; exact hsd)
      rw [this, hp] at hp1
      exact absurd hp1 (by decide)

theorem tables_is_pseudo_three_valued_witness :
    tables_is_pseudo (some (cstr "mov")) = 0 ∧ tables_is_pseudo (some (cstr "Segment")) = 1 ∧
    tables_is_pseudo (some (cstr "UNKNOWN")) = -1 :=
  ⟨(tables_is_pseudo_three_valued (cstr "mov")).2.2.2.2 ⟨cstr "MOV", by decide, by decide⟩,
    (tables_is_pseudo_three_valued (cstr "Segment")).2.2.1.2
      ⟨cstr "SEGMENT", by decide, by decide⟩,
    (tables_is_pseudo_three_valued (cstr "UNKNOWN")).2.1.2 (by decide)⟩

/-- C24 on the code: pass one enters the name of `MAIN PROC` and the name of
`BUF DB 65` into the symbol table with the kind label (`SYM_LABEL`), each at
the location counter `0` and line `1`, and reports no error. -/
theorem named_directive_symbol_is_label :
    (∃ p, semantic_pass_one proc_tokens = .ok (some p, []) ∧
      symtab_lookup p.symtab (cstr "MAIN") =
        some { name := cstr "MAIN", type := SymbolType.SYM_LABEL, address := 0,
               line_defined := 1, is_defined := 1 }) ∧
    (∃ p, semantic_pass_one named_db_tokens = .ok (some p, []) ∧
      symtab_lookup p.symtab (cstr "BUF") =
        some { name := cstr "BUF", type := SymbolType.SYM_LABEL, address := 0,
               line_defined := 1, is_defined := 1 }) := by
  refine ⟨⟨_, rfl, ?_⟩, ⟨_, rfl, ?_⟩⟩
  · decide
  · decide

/-- C25 on the code: the source `DB 0x41` is translated to the one-byte image
`41` with a record of length `1`, and the source `db 0x41` is not: pass one
gives its record the length `3`, pass two recognises the directive and emits
no byte for it, and the translation ends with the error `3002` of the empty
image, exit code `1` and no output. -/
theorem lowercase_db_statement :
    assemble (cstr "DB 0x41") = .ok { exit_code := 0, errors := [], output := some [0x41] } ∧
    assemble (cstr "db 0x41") =
      .ok { exit_code := 1, errors := [{ line := 0, code := ERR_SYS_FILE_IO }], output := none } ∧
    (∃ tokens p cg, tokenize (cstr "DB 0x41") = some (tokens, []) ∧
      semantic_pass_one tokens = .ok (some p, []) ∧
      p.instructions.map (fun e => e.length) = [1] ∧
      codegen_pass_two p = (some cg, []) ∧ cg.code_buffer = [0x41]) ∧
    (∃ tokens p cg, tokenize (cstr "db 0x41") = some (tokens, []) ∧
      semantic_pass_one tokens = .ok (some p, []) ∧
      p.instructions.map (fun e => e.length) = [3] ∧
      tables_is_pseudo (some (cstr "db")) = 1 ∧
      codegen_pass_two p = (some cg, []) ∧ cg.code_buffer = []) := by
  refine ⟨by rfl, by rfl, ⟨_, _, _, rfl, rfl, by rfl, rfl, by rfl⟩,
    ⟨_, _, _, rfl, rfl, by rfl, by rfl, rfl, by rfl⟩⟩

/-- C28, as the code has it: pass one reports one error for each token at
which the analysis of a statement fails, and goes on with the next token; it
does not skip to the end of the line. For a line of tokens none of which is an
identifier, followed by the end of the input, it reports exactly one error of
code `2001` per token, in order, at the line of the token, and appends no
record. -/
theorem one_error_per_failed_token (l : List Token) (eof : Token) (heof : eof.type = TOK_EOF)
    (hl : ∀ t ∈ l, t.type ≠ TOK_IDENTIFIER ∧ t.type ≠ TOK_NEWLINE ∧ t.type ≠ TOK_EOF ∧
      t.lexeme ≠ none) :
    ∃ p, semantic_pass_one_run (l ++ [eof]) =
        .ok (p, l.map (fun t => { line := t.line, code := ERR_PARSE_EXPECTED_OP })) ∧
      p.instructions = [] ∧ p.has_errors = decide (l ≠ []) ∧
      semantic_pass_one (l ++ [eof]) =
        .ok (if l = [] then some p else none,
             l.map (fun t => { line := t.line, code := ERR_PARSE_EXPECTED_OP })) := by
  have hrun := pass_one_loop_no_statement eof heof l [] pass_one_init [] (l ++ [eof]).length
    (fun t ht => ⟨(hl t ht).1, (hl t ht).2.1, (hl t ht).2.2.1⟩) (by simp) (by decide)
  have hmap : l.map (fun t => ({ line := if t.lexeme.isSome then t.line
                                          else pass_one_init.current_line,
                                 code := ERR_PARSE_EXPECTED_OP } : ErrorReport)) =
      l.map (fun t => { line := t.line, code := ERR_PARSE_EXPECTED_OP }) := by
    refine List.map_congr_left ?_
    intro t ht
    have := (hl t ht).2.2.2
    cases hlex : t.lexeme with
    | none => exact absurd hlex this
    | some s => simp
  simp only [List.nil_append, List.length_nil, hmap] at hrun
  refine ⟨_, hrun, rfl, ?_, ?_⟩
  · simp [pass_one_init]
  · simp only [semantic_pass_one]
    have hrun1 : semantic_pass_one_run (l ++ [eof]) = _ := hrun
    rw [hrun1]
    by_cases hnil : l = []
    · subst hnil
      simp [pass_one_init]
    · simp [pass_one_init, hnil]

theorem one_error_per_failed_token_witness :
    ∃ p, semantic_pass_one_run two_number_tokens =
        .ok (p, [{ line := 1, code := ERR_PARSE_EXPECTED_OP },
                 { line := 1, code := ERR_PARSE_EXPECTED_OP }]) ∧
      p.instructions = [] ∧ p.has_errors = true ∧
      semantic_pass_one two_number_tokens =
        .ok (none, [{ line := 1, code := ERR_PARSE_EXPECTED_OP },
                    { line := 1, code := ERR_PARSE_EXPECTED_OP }]) :=
  one_error_per_failed_token
    [ { type := TOK_NUMBER, lexeme := some (cstr "5"), line := 1, int_value := 5 },
      { type := TOK_NUMBER, lexeme := some (cstr "5"), line := 1, int_value := 5 } ]
    { type := TOK_EOF, lexeme := none, line := 1, int_value := 0 } rfl (by decide)

/-- C28 fails as stated: the single line `5 5` yields two errors, not one, and
on the line `5 RET` the tokens that follow the failed statement are not
skipped: `RET` is analysed and its record is appended. -/
theorem failed_statement_is_not_skipped :
    semantic_pass_one two_number_tokens =
      .ok (none, [{ line := 1, code := ERR_PARSE_EXPECTED_OP },
                  { line := 1, code := ERR_PARSE_EXPECTED_OP }]) ∧
    ∃ p, semantic_pass_one_run number_ret_tokens =
        .ok (p, [{ line := 1, code := ERR_PARSE_EXPECTED_OP }]) ∧
      p.instructions =
        [ { address := 0, length := 3, line := 1, mnemonic := cstr "RET", operands := [],
            has_label := false, label := [] } ] :=
  ⟨by rfl, _, rfl, by rfl⟩

/-- C29, as the code has it: relocations are queued for label operands only.
When `codegen_emit_instruction` runs for an ordinary instruction whose record
has its strings inside their fields and at most three operands, with room in
the buffer and in the relocation table, it returns `0`, appends the opcode
byte and the bytes of the operands, and appends to the relocation table one
record for each label operand with a non-empty name and nothing else: for a
label or memory operand `k` the two bytes at its position are `00 00`; for a
label operand with a non-empty name exactly one relocation of operand `k` is
queued, with the operand's name and the buffer position of the first of the
two bytes; for a memory operand, symbolic or not, none is queued; and every
name queued fits the field `symbol_name`. And when pass two succeeds on
records of this kind, every relocation queued for a record is in the final
table, with a name that fits, and after the patch step the two bytes at its
offset hold the address of the symbol it names, low byte first. -/
theorem label_operand_relocation :
    (∀ (cg : CodeGen) (idx : Nat) (entry : InstructionEntry) (info : InstructionInfo),
      tables_lookup_instruction (some entry.mnemonic) = some info → info.is_pseudo = 0 →
      cg.code_size + 15 < 65536 → cg.relocations.length + entry.operands.length ≤ 1000 →
      entry.fits_fields →
      (codegen_emit_instruction cg idx entry).1 = 0 ∧
      (codegen_emit_instruction cg idx entry).2.1.code_buffer =
        cg.code_buffer ++ info.opcode :: encode_operands entry.operands 0 ∧
      (codegen_emit_instruction cg idx entry).2.1.relocations =
        cg.relocations ++ label_relocations idx entry.operands 0 (cg.code_size + 1) ∧
      (∀ k o, entry.operands[k]? = some o → o.type = OPERAND_LABEL ∨ o.type = OPERAND_MEMORY →
        (codegen_emit_instruction cg idx entry).2.1.code_buffer[
          cg.code_size + operand_offset entry.operands k]? = some 0 ∧
        (codegen_emit_instruction cg idx entry).2.1.code_buffer[
          cg.code_size + operand_offset entry.operands k + 1]? = some 0 ∧
        (label_relocations idx entry.operands 0 (cg.code_size + 1)).filter
            (fun r => decide (r.operand_index = k)) =
          if o.type = OPERAND_LABEL ∧ util_strlen o.name > 0 then
            [{ offset := cg.code_size + operand_offset entry.operands k,
               instruction_index := idx, operand_index := k,
               symbol_name := util_strcpy o.name }]
          else []) ∧
      ∀ r ∈ label_relocations idx entry.operands 0 (cg.code_size + 1),
        fits NAME_SIZE r.symbol_name) ∧
    (∀ (p : PassOne) (cg : CodeGen) (errs : List ErrorReport),
      codegen_pass_two p = (some cg, errs) → (∀ e ∈ p.instructions, e.fits_fields) →
      ∀ (j : Nat) (e : InstructionEntry) (info : InstructionInfo),
        p.instructions[j]? = some e →
        tables_lookup_instruction (some e.mnemonic) = some info → info.is_pseudo = 0 →
        ∀ r ∈ label_relocations j e.operands 0 ((emit_state p j).code_size + 1),
          r ∈ cg.relocations ∧ fits NAME_SIZE r.symbol_name ∧
          ∃ sym, symtab_lookup p.symtab r.symbol_name = some sym ∧
            cg.code_buffer[r.offset]? = some (sym.address % 256) ∧
            cg.code_buffer[r.offset + 1]? = some ((sym.address / 256) % 256)) := by
  constructor
  · intro cg idx entry info hinfo hord hbuf hroom hfields
    have hsym : cg.relocations.length + symbolic_operands entry.operands ≤ 1000 := by
      have : symbolic_operands entry.operands ≤ entry.operands.length := by
        unfold symbolic_operands
        exact List.length_filter_le _ _
      omega
    have hok := codegen_emit_instruction_ok cg idx entry hbuf (by rw [hinfo]; simp) hsym
    obtain ⟨hcode, hrel, _⟩ := codegen_emit_instruction_ordinary cg idx entry info hinfo hord hok.1
    refine ⟨hok.1, hcode, hrel, ?_,
      label_relocations_fit idx entry.operands 0 (cg.code_size + 1) hfields.2.2.2⟩
    intro k o hk hty
    obtain ⟨hs0, hs1⟩ := encode_operands_slot entry.operands 0 k o hk hty
    have hfil := label_relocations_filter idx entry.operands 0 (cg.code_size + 1) k
    rw [Nat.zero_add, hk] at hfil
    have hpos : cg.code_size + operand_offset entry.operands k =
        cg.code_buffer.length + (1 + ((entry.operands.take k).map operand_size).sum) := rfl
    refine ⟨?_, ?_, ?_⟩
    · rw [hcode, hpos, List.getElem?_append_right (by omega)]
      rw [show cg.code_buffer.length + (1 + ((entry.operands.take k).map operand_size).sum) -
        cg.code_buffer.length = ((entry.operands.take k).map operand_size).sum + 1 by omega]
      rw [List.getElem?_cons_succ]
      exact hs0
    · rw [hcode, hpos, List.getElem?_append_right (by omega)]
      rw [show cg.code_buffer.length + (1 + ((entry.operands.take k).map operand_size).sum) + 1 -
        cg.code_buffer.length = ((entry.operands.take k).map operand_size).sum + 1 + 1 by omega]
      rw [List.getElem?_cons_succ]
      exact hs1
    · rw [hfil]
      simp only [operand_offset, Nat.add_assoc]
  · intro p cg errs h hfields j e info he hinfo hord r hr
    have hfit : fits NAME_SIZE r.symbol_name :=
      label_relocations_fit j e.operands 0 _ (hfields e (List.getElem?_mem he)).2.2.2 r hr
    obtain ⟨h0, hrel, hbuf, hf, _⟩ := codegen_pass_two_success h
    obtain ⟨hst, more, hmore⟩ := emit_state_step p j e he hf
    obtain ⟨_, hrel1, _⟩ := codegen_emit_instruction_ordinary (emit_state p j) j e info hinfo hord hst
    have hmem : r ∈ (codegen_emit_records p).1.relocations := by
      rw [hmore, hrel1]
      exact List.mem_append_left _ (List.mem_append_right _ hr)
    have hs : slots_ok (codegen_emit_records p).1.relocations
        (codegen_emit_records p).1.code_buffer.length :=
      (emit_all_size p.instructions 0
        { code_buffer := [], relocations := [], has_errors := false } [] hf).2.2
          ⟨List.Pairwise.nil, fun r hr => by cases hr⟩
    obtain ⟨_, _, hslots⟩ := resolve_loop_sound p.symtab _ _ hs h0
    obtain ⟨sym, h1, _, h3, h4⟩ := hslots r hmem
    exact ⟨by rw [hrel]; exact hmem, hfit, sym, h1, by rw [hbuf]; exact h3,
      by rw [hbuf]; exact h4⟩

theorem label_operand_relocation_witness :
    (codegen_emit_instruction { code_buffer := [], relocations := [], has_errors := false } 0
      { address := 0, length := 3, line := 1, mnemonic := cstr "JMP",
        operands := [{ type := OPERAND_LABEL, value := 0, name := cstr "FOO" }],
        has_label := false, label := [] }).2.1.relocations =
      [{ offset := 1, instruction_index := 0, operand_index := 0, symbol_name := cstr "FOO" }] ∧
    codegen_pass_two forward_jump_pass_one = (some forward_jump_codegen, []) ∧
    ∃ sym, symtab_lookup forward_jump_pass_one.symtab (cstr "FOO") = some sym ∧
      forward_jump_codegen.code_buffer[1]? = some (sym.address % 256) ∧
      forward_jump_codegen.code_buffer[1 + 1]? = some ((sym.address / 256) % 256) :=
  ⟨(label_operand_relocation.1 { code_buffer := [], relocations := [], has_errors := false } 0
      { address := 0, length := 3, line := 1, mnemonic := cstr "JMP",
        operands := [{ type := OPERAND_LABEL, value := 0, name := cstr "FOO" }],
        has_label := false, label := [] }
      { mnemonic := cstr "JMP", type := INSTR_JMP, opcode := 0xEB, operand_count := 1,
        is_pseudo := 0 } (by decide) rfl (by decide) (by decide) (by decide)).2.2.1,
    rfl,
    (label_operand_relocation.2 forward_jump_pass_one forward_jump_codegen [] rfl (by decide) 0
      { address := 0, length := 3, line := 1, mnemonic := cstr "JMP",
        operands := [{ type := OPERAND_LABEL, value := 0, name := cstr "FOO" }],
        has_label := false, label := [] }
      { mnemonic := cstr "JMP", type := INSTR_JMP, opcode := 0xEB, operand_count := 1,
        is_pseudo := 0 } rfl (by decide) rfl
      { offset := 1, instruction_index := 0, operand_index := 0, symbol_name := cstr "FOO" }
      (by decide)).2.2⟩

/-- C29 fails as stated: in the program `JMP [FOO]` / `FOO: RET` the operand
of `JMP` is a memory operand with the symbolic address `FOO`, whose address is
`3`; pass two succeeds, queues no relocation, and the two bytes of the operand
are still `00 00` after the patch step. -/
theorem symbolic_memory_operand_is_not_patched :
    semantic_pass_one memory_jump_tokens = .ok (some memory_jump_pass_one, []) ∧
    (∃ sym, symtab_lookup memory_jump_pass_one.symtab (cstr "FOO") = some sym ∧
      sym.address = 3) ∧
    codegen_pass_two memory_jump_pass_one =
      (some { code_buffer := [0xEB, 0x00, 0x00, 0xC3], relocations := [], has_errors := false },
       []) := by
  refine ⟨by rfl, ⟨_, by rfl, by rfl⟩, by rfl⟩

/-- C31, as the code has it: when the emission loop of pass two has reported
no out-of-memory error (the relocation table has not overflowed; this is so in
particular whenever pass two succeeds), then at the start of the patch step
every queued relocation `r` has `r.offset + 2 ≤ code_size`, the two-byte slots
of the relocations lie one after the other in the order of the table, so that
no two of them overlap, and each slot holds `00 00`. The patch step is run on
this table and this buffer. -/
theorem relocation_slots_before_patch (p : PassOne)
    (hno : ∀ x ∈ (codegen_emit_records p).2, x.code ≠ ERR_SYS_OUT_OF_MEM) :
    (∀ r ∈ (codegen_emit_records p).1.relocations,
      r.offset + 2 ≤ (codegen_emit_records p).1.code_size) ∧
    (codegen_emit_records p).1.relocations.Pairwise (fun a b => a.offset + 2 ≤ b.offset) ∧
    (∀ r ∈ (codegen_emit_records p).1.relocations,
      (codegen_emit_records p).1.code_buffer[r.offset]? = some 0 ∧
      (codegen_emit_records p).1.code_buffer[r.offset + 1]? = some 0) ∧
    codegen_resolve_reference p (codegen_emit_records p).1 =
      ((resolve_loop p.symtab (codegen_emit_records p).1.relocations
          (codegen_emit_records p).1.code_buffer).1,
       { (codegen_emit_records p).1 with
         code_buffer := (resolve_loop p.symtab (codegen_emit_records p).1.relocations
           (codegen_emit_records p).1.code_buffer).2.1 },
       (resolve_loop p.symtab (codegen_emit_records p).1.relocations
          (codegen_emit_records p).1.code_buffer).2.2) := by
  obtain ⟨h1, h2⟩ := emit_all_slots p.instructions 0
    { code_buffer := [], relocations := [], has_errors := false } []
    (fun x hx _ => hno x hx) (fun x hx => by cases hx)
    ⟨List.Pairwise.nil, fun r hr => by cases hr⟩ (fun r hr => by cases hr)
  exact ⟨h1.2, h1.1, h2, rfl⟩

theorem relocation_slots_before_patch_witness :
    (codegen_emit_records forward_jump_pass_one).2 = [] ∧
    (codegen_emit_records forward_jump_pass_one).1.relocations =
      [{ offset := 1, instruction_index := 0, operand_index := 0, symbol_name := cstr "FOO" }] ∧
    (∀ r ∈ (codegen_emit_records forward_jump_pass_one).1.relocations,
      r.offset + 2 ≤ (codegen_emit_records forward_jump_pass_one).1.code_size) ∧
    (∀ r ∈ (codegen_emit_records forward_jump_pass_one).1.relocations,
      (codegen_emit_records forward_jump_pass_one).1.code_buffer[r.offset]? = some 0 ∧
      (codegen_emit_records forward_jump_pass_one).1.code_buffer[r.offset + 1]? = some 0) :=
  ⟨by rfl, by rfl,
    (relocation_slots_before_patch forward_jump_pass_one (by decide)).1,
    (relocation_slots_before_patch forward_jump_pass_one (by decide)).2.2.1⟩

/-- C31 does not hold when the relocation table overflows. The program of 333
lines `MOV A, B, C` and a last line `MOV A, B` passes pass one with 334
records. Emission fills 999 places of the table with the first 333 records;
for the last record the relocation of `A` takes the last place, with offset
2332, the relocation of `B` is refused, and the record is given up before its
bytes are counted. The patch step then runs on a table whose last relocation
has `r.offset + 2 = 2334` while `code_size` is 2331. -/
theorem full_relocation_table_leaves_open_slot :
    semantic_pass_one (three_label_program 333 1) = .ok (some three_label_pass_one, []) ∧
    (codegen_emit_records three_label_pass_one).1.code_size = 2331 ∧
    (codegen_emit_records three_label_pass_one).1.relocations.length = 1000 ∧
    { line := 0, code := ERR_SYS_OUT_OF_MEM } ∈ (codegen_emit_records three_label_pass_one).2 ∧
    ∃ r ∈ (codegen_emit_records three_label_pass_one).1.relocations,
      r.offset = 2332 ∧ ¬ (r.offset + 2 ≤ (codegen_emit_records three_label_pass_one).1.code_size) := by
  have e : codegen_emit_records three_label_pass_one =
      emit_all (three_label_records 333 0 1) 0
        { code_buffer := [], relocations := [], has_errors := false } [] := rfl
  obtain ⟨h1, h2, h3, h4⟩ := emit_all_three_labels 333 0 1 0
    { code_buffer := [], relocations := [], has_errors := false } [] (by simp) (by simp)
  simp only [List.length_nil, Nat.zero_add, Nat.reduceMul, Nat.reduceAdd] at h1 h3
  rw [e]
  refine ⟨semantic_pass_one_three_labels 333 (by omega), h1, h2, h4, _, h3, rfl, ?_⟩
  unfold CodeGen.code_size
  rw [h1]
  show ¬ (2332 + 2 ≤ 2331)
  omega

/-- C32: pass one terminates because every round of its loop moves the token
index forward: a successful statement analysis consumes at least one token, a
failed one moves the index by exactly one. So the loop never uses up as many
rounds as there are tokens (the model's fuel), on any token sequence, and more
fuel does not change its result. On every token sequence that ends with an
end-of-input token, in which the identifier tokens have lexemes and no `[`
stands right before the final token (so that no read leaves the array),
`semantic_pass_one` returns, with a context or with NULL, and its errors. -/
theorem semantic_pass_one_terminates :
    (∀ (tokens : List Token) (i : Nat) (parsed : InstructionEntry) (n : Nat),
      semantic_analyze_instruction tokens i = .ok (some (parsed, n)) → 1 ≤ n) ∧
    (∀ (fuel : Nat) (tokens : List Token) (i : Nat) (p : PassOne) (errs : List ErrorReport)
        (t : Token), tokens[i]? = some t → t.type ≠ TOK_NEWLINE → t.type ≠ TOK_EOF →
      p.instruction_count < PassOne.max_instructions →
      semantic_analyze_instruction tokens i = .ok none →
      pass_one_loop (fuel + 1) tokens i p errs =
        pass_one_loop fuel tokens (i + 1) { p with has_errors := true }
          (errs ++ [{ line := if t.lexeme.isSome then t.line else p.current_line,
                      code := ERR_PARSE_EXPECTED_OP }])) ∧
    (∀ (tokens : List Token) (fuel : Nat), tokens.length ≤ fuel →
      pass_one_loop fuel tokens 0 pass_one_init [] = semantic_pass_one_run tokens) ∧
    (∀ (tokens : List Token), semantic_pass_one tokens ≠ .error Fault.out_of_fuel) ∧
    (∀ (ts : List Token) (eof : Token), eof.type = TOK_EOF →
      (∀ t ∈ ts, t.type = TOK_IDENTIFIER → t.lexeme ≠ none) →
      (∀ t, ts.getLast? = some t → t.type ≠ TOK_LBRACKET) →
      ∃ r, semantic_pass_one (ts ++ [eof]) = .ok r) := by
  refine ⟨?_, ?_, ?_, ?_, ?_⟩
  · intro tokens i parsed n h
    exact semantic_analyze_instruction_consumed h
  · intro fuel tokens i p errs t h0 h1 h2 hc ha
    exact pass_one_loop_fail_step fuel tokens i p errs t h0 h1 h2 hc ha
  · intro tokens fuel hf
    exact pass_one_loop_fuel fuel tokens tokens.length 0 pass_one_init [] (by omega) (by omega)
  · intro tokens h
    have hrun := pass_one_loop_enough_fuel tokens.length tokens 0 pass_one_init [] (by omega)
    unfold semantic_pass_one semantic_pass_one_run at h
    split at h
    · next f hf =>
      cases h
      exact hrun hf
    · split at h <;> cases h
  · intro ts eof heof hlex hbr
    have R := readable_of_eof_end ts eof heof hlex hbr
    obtain ⟨r, hr⟩ := pass_one_loop_ok R (ts ++ [eof]).length 0 pass_one_init [] (by omega)
    unfold semantic_pass_one semantic_pass_one_run
    rw [hr]
    simp only
    split
    · exact ⟨_, rfl⟩
    · exact ⟨_, rfl⟩

theorem semantic_pass_one_terminates_witness :
    semantic_analyze_instruction forward_jump_tokens 0 =
      .ok (some (mk_entry (cstr "JMP")
        [{ type := OPERAND_LABEL, value := 0, name := cstr "FOO" }] false [], 2)) ∧
    1 ≤ 2 ∧
    pass_one_loop 100 forward_jump_tokens 0 pass_one_init [] =
      semantic_pass_one_run forward_jump_tokens ∧
    ∃ r, semantic_pass_one (forward_jump_tokens.dropLast ++
      [{ type := TOK_EOF, lexeme := none, line := 2, int_value := 0 }]) = .ok r :=
  ⟨by rfl,
    semantic_pass_one_terminates.1 forward_jump_tokens 0 _ 2 (by rfl),
    semantic_pass_one_terminates.2.2.1 forward_jump_tokens 100 (by decide),
    semantic_pass_one_terminates.2.2.2.2 forward_jump_tokens.dropLast
      { type := TOK_EOF, lexeme := none, line := 2, int_value := 0 } rfl (by decide)
      (by decide)⟩

/-- C33 on the code: the length pass one assigns to a record
(`estimate_instruction_length`) is the length table of the specification for
every mnemonic, but the public `semantic_get_instruction_length` is not: it
agrees with pass one for every mnemonic other than `PROC`, `ENDP` and `END`,
and for these three it returns `3` where pass one assigns `0`. -/
theorem length_query_misses_three_directives :
    (∀ m n, estimate_instruction_length m n = spec_instruction_length m) ∧
    (∀ m tys n, semantic_get_instruction_length m tys n =
      if util_strcpy m ∈ [cstr "PROC", cstr "ENDP", cstr "END"] then 3
      else estimate_instruction_length m n) ∧
    semantic_get_instruction_length (cstr "PROC") [] 0 = 3 ∧
    estimate_instruction_length (cstr "PROC") 0 = 0 ∧
    semantic_get_instruction_length (cstr "ENDP") [] 0 = 3 ∧
    estimate_instruction_length (cstr "ENDP") 0 = 0 ∧
    semantic_get_instruction_length (cstr "END") [] 0 = 3 ∧
    estimate_instruction_length (cstr "END") 0 = 0 := by
  have hcmp : ∀ (m : CStr) (s : String), util_strcpy (cstr s) = cstr s →
      (util_strcmp m (cstr s) = 0 ↔ util_strcpy m = cstr s) := by
    intro m s hs
    rw [util_strcmp_eq_zero_iff, hs]
  refine ⟨?_, ?_, by decide, by decide, by decide, by decide, by decide, by decide⟩
  · intro m n
    unfold estimate_instruction_length spec_instruction_length
    simp only [hcmp m "DB" (by decide), hcmp m "ORG" (by decide), hcmp m "SEGMENT" (by decide),
      hcmp m "ENDS" (by decide), hcmp m "PROC" (by decide), hcmp m "ENDP" (by decide),
      hcmp m "END" (by decide), List.mem_cons, List.mem_singleton, List.not_mem_nil, or_false]
    repeat' split
    all_goals first | rfl | simp_all
  · intro m tys n
    unfold estimate_instruction_length semantic_get_instruction_length
    simp only [hcmp m "DB" (by decide), hcmp m "ORG" (by decide), hcmp m "SEGMENT" (by decide),
      hcmp m "ENDS" (by decide), hcmp m "PROC" (by decide), hcmp m "ENDP" (by decide),
      hcmp m "END" (by decide), List.mem_cons, List.mem_singleton, List.not_mem_nil, or_false]
    by_cases h1 : util_strcpy m = cstr "DB"
    · rw [h1]; decide
    by_cases h2 : util_strcpy m = cstr "ORG"
    · rw [h2]; decide
    by_cases h3 : util_strcpy m = cstr "SEGMENT"
    · rw [h3]; decide
    by_cases h4 : util_strcpy m = cstr "ENDS"
    · rw [h4]; decide
    by_cases h5 : util_strcpy m = cstr "PROC"
    · rw [h5]; decide
    by_cases h6 : util_strcpy m = cstr "ENDP"
    · rw [h6]; decide
    by_cases h7 : util_strcpy m = cstr "END"
    · rw [h7]; decide
    simp [h1, h2, h3, h4, h5, h6, h7]

/-- C34 on the code: `generate_output_filename` cuts the path after its last
`.`, wherever that `.` stands. `prog.asm` gives `prog.com` and `prog` gives
`prog.com`, but `./prog`, whose file name has no extension, gives `.com`
instead of `./prog.com`, and `out.d/prog` gives `out.com`. -/
theorem default_output_name_cuts_at_last_dot :
    generate_output_filename (some (cstr "prog.asm")) = cstr "prog.com" ∧
    generate_output_filename (some (cstr "prog")) = cstr "prog.com" ∧
    generate_output_filename (some (cstr "./prog")) = cstr ".com" ∧
    generate_output_filename (some (cstr "out.d/prog")) = cstr "out.com" ∧
    generate_output_filename (some (cstr "./prog")) ≠ cstr "./prog.com" := by
  decide

/-- C35, where every copy fits: for every token sequence whose identifiers fit
their fields, every record of an ordinary instruction that pass one has
produced has its strings inside their fields and at most three operands, and
`codegen_emit_instruction` (with room in the buffer and in the relocation
table) returns `0` and appends the opcode byte of the mnemonic and then the
bytes of the operands in order as the specification gives them: for a
register operand at position `k` the one byte `0xC0 | (k mod 8)`, which is
`0xC0 + k` with `k < 3` whatever the register, and for an immediate operand
of value `v` the byte `v` if `v ≤ 0xFF` and otherwise the two bytes
`v mod 256`, `(v / 256) mod 256`. In the line `MOV A, B, N` with a name `N`
of 129 letters the identifiers do not fit, and at an operand position beyond
the seventh the byte the emitter computes for a register, `0xC0 | (k & 0x3F)`,
is not the byte of the specification: at position 16 it is `D0`, not `C0`. -/
theorem register_and_immediate_encoding :
    (∀ (tokens : List Token) (p : PassOne) (errs : List ErrorReport),
      identifiers_fit tokens → semantic_pass_one_run tokens = .ok (p, errs) →
      ∀ (e : InstructionEntry), e ∈ p.instructions → ∀ (info : InstructionInfo),
      tables_lookup_instruction (some e.mnemonic) = some info → info.is_pseudo = 0 →
      ∀ (cg : CodeGen) (idx : Nat), cg.code_size + 15 < 65536 →
      cg.relocations.length + e.operands.length ≤ 1000 →
      e.fits_fields ∧
      (codegen_emit_instruction cg idx e).1 = 0 ∧
      (codegen_emit_instruction cg idx e).2.1.code_buffer =
        cg.code_buffer ++ info.opcode :: spec_encode_operands e.operands 0 ∧
      ∀ k o, e.operands[k]? = some o →
        (o.type = OPERAND_REGISTER →
          spec_operand_bytes k o = [0xC0 ||| (k % 8)] ∧ 0xC0 ||| (k % 8) = 0xC0 + k ∧ k < 3) ∧
        (o.type = OPERAND_IMMEDIATE →
          spec_operand_bytes k o =
            if o.value ≤ 0xFF then [o.value] else [o.value % 256, (o.value / 256) % 256])) ∧
    ¬ identifiers_fit long_operand_tokens ∧
    ¬ fits NAME_SIZE (long_name 129) ∧
    operand_bytes 16 { type := OPERAND_REGISTER, value := 0, name := [] } = [0xD0] ∧
    spec_operand_bytes 16 { type := OPERAND_REGISTER, value := 0, name := [] } = [0xC0] := by
  refine ⟨?_, not_identifiers_fit_of_long 129 1 (by omega) (by simp [long_operand_tokens]),
    by unfold fits NAME_SIZE; rw [long_name_length]; omega, by decide, by decide⟩
  intro tokens p errs hfit hrun e he info hinfo hord cg idx hbuf hroom
  have hfields := pass_one_run_fits tokens hfit p errs hrun e he
  have hops : e.operands.length ≤ 3 := hfields.2.2.1
  have hsym := symbolic_operands_le e.operands
  have h0 := (codegen_emit_instruction_ok cg idx e hbuf (by rw [hinfo]; simp) (by omega)).1
  obtain ⟨hcode, _, _⟩ := codegen_emit_instruction_ordinary cg idx e info hinfo hord h0
  refine ⟨hfields, h0, ?_, ?_⟩
  · rw [hcode, encode_operands_eq_spec e.operands 0 (by omega)]
  · intro k o hk
    have hlt : k < e.operands.length := by
      rcases Nat.lt_or_ge k e.operands.length with h | h
      · exact h
      · rw [List.getElem?_eq_none h] at hk; cases hk
    have hk3 : k < 3 := by omega
    refine ⟨fun hr => ⟨by simp [spec_operand_bytes, hr], ?_, hk3⟩, fun hi => ?_⟩
    · interval_cases k <;> decide
    · have hnr : o.type ≠ OPERAND_REGISTER := by rw [hi]; decide
      simp [spec_operand_bytes, hi]

theorem register_and_immediate_encoding_witness :
    identifiers_fit mov_ax_300_tokens ∧
    semantic_pass_one_run mov_ax_300_tokens = .ok (mov_ax_300_pass_one, []) ∧
    (codegen_emit_instruction codegen_init 0 mov_ax_300_record).1 = 0 ∧
    (codegen_emit_instruction codegen_init 0 mov_ax_300_record).2.1.code_buffer =
      [] ++ 0x88 :: spec_encode_operands mov_ax_300_record.operands 0 ∧
    spec_encode_operands mov_ax_300_record.operands 0 = [0xC0, 0x2C, 0x01] :=
  ⟨by decide, by rfl,
    (register_and_immediate_encoding.1 mov_ax_300_tokens mov_ax_300_pass_one [] (by decide)
      (by rfl) mov_ax_300_record (by decide) ⟨cstr "MOV", INSTR_MOV, 0x88, 2, 0⟩ (by decide)
      (by rfl) codegen_init 0 (by decide) (by decide)).2.1,
    (register_and_immediate_encoding.1 mov_ax_300_tokens mov_ax_300_pass_one [] (by decide)
      (by rfl) mov_ax_300_record (by decide) ⟨cstr "MOV", INSTR_MOV, 0x88, 2, 0⟩ (by decide)
      (by rfl) codegen_init 0 (by decide) (by decide)).2.2.1,
    by decide⟩

/-- C36 on the code: when a statement begins with two identifiers and the
second equals, up to letter case, any mnemonic of the table other than `PROC`
and `DB` (a directive or an ordinary instruction), analysis takes the second
identifier as the mnemonic and the first as a label operand. So `JMP loop`
yields a record with the mnemonic `loop` and the label operand `JMP`, where
`JMP target` yields the mnemonic `JMP` and the label operand `target`; and
the program `loop: NOP` / `JMP loop` is rejected with the undefined-label
error `2005`, where `target: NOP` / `JMP target` is translated. -/
theorem second_identifier_taken_as_mnemonic :
    (∀ (tokens : List Token) (i ln ln1 : Nat) (m x : CStr) (t2 : Token) (info : InstructionInfo),
      i + 2 < 65535 →
      tokens[i]? = some { type := TOK_IDENTIFIER, lexeme := some m, line := ln,
                          int_value := 0 } →
      tokens[i + 1]? = some { type := TOK_IDENTIFIER, lexeme := some x, line := ln1,
                              int_value := 0 } →
      tokens[i + 2]? = some t2 → (t2.type = TOK_NEWLINE ∨ t2.type = TOK_EOF) →
      tables_lookup_instruction (some x) = some info →
      info.type ≠ PSEUDO_PROC → info.type ≠ PSEUDO_DB →
      semantic_analyze_instruction tokens i =
        .ok (some (mk_entry (util_strcpy x)
          [{ type := OPERAND_LABEL, value := 0, name := util_strcpy m }] false [], 2))) ∧
    tokenize (cstr "JMP loop") = some (jmp_loop_tokens, []) ∧
    semantic_analyze_instruction jmp_loop_tokens 0 =
      .ok (some (mk_entry (cstr "loop")
        [{ type := OPERAND_LABEL, value := 0, name := cstr "JMP" }] false [], 2)) ∧
    semantic_analyze_instruction jmp_target_tokens 0 =
      .ok (some (mk_entry (cstr "JMP")
        [{ type := OPERAND_LABEL, value := 0, name := cstr "target" }] false [], 2)) ∧
    assemble (cstr "loop: NOP\nJMP loop") =
      .ok { exit_code := 1, errors := [{ line := 0, code := ERR_PARSE_UNDEFINED_LBL }],
            output := none } ∧
    assemble (cstr "target: NOP\nJMP target") =
      .ok { exit_code := 0, errors := [], output := some [0x90, 0xEB, 0x00, 0x00] } := by
  refine ⟨?_, by rfl, by rfl, by rfl, by rfl, by rfl⟩
  intro tokens i ln ln1 m x t2 info hi h0 h1 h2 ht2 hx hproc hdb
  exact analyze_known_second tokens i ln ln1 m x t2 info hi h0 h1 h2 ht2 hx hproc hdb

theorem second_identifier_taken_as_mnemonic_witness :
    tables_lookup_instruction (some (cstr "loop")) =
      some { mnemonic := cstr "LOOP", type := INSTR_LOOP, opcode := 0xE2, operand_count := 1,
             is_pseudo := 0 } ∧
    semantic_analyze_instruction jmp_loop_tokens 0 =
      .ok (some (mk_entry (util_strcpy (cstr "loop"))
        [{ type := OPERAND_LABEL, value := 0, name := util_strcpy (cstr "JMP") }] false [], 2)) :=
  ⟨by decide,
    second_identifier_taken_as_mnemonic.1 jmp_loop_tokens 0 1 1 (cstr "JMP") (cstr "loop")
      { type := TOK_EOF, lexeme := none, line := 1, int_value := 0 }
      { mnemonic := cstr "LOOP", type := INSTR_LOOP, opcode := 0xE2, operand_count := 1,
        is_pseudo := 0 } (by decide) (by rfl) (by rfl) (by rfl) (Or.inr rfl) (by decide)
      (by decide) (by decide)⟩

/-- C37, as the code has it: `codegen_emit_instruction` never compares the
bytes it appends with the reserved length of the record: its result does not
depend on the `length` field at all. For a record of an ordinary instruction,
with room in the buffer and in the relocation table, it returns `0` and
appends the opcode byte and the bytes of all the operands, one plus the sizes
of the operands in number, however many were reserved. -/
theorem emitter_ignores_reserved_length (cg : CodeGen) (idx : Nat) (e : InstructionEntry)
    (info : InstructionInfo) (hinfo : tables_lookup_instruction (some e.mnemonic) = some info)
    (hord : info.is_pseudo = 0) (hbuf : cg.code_size + 15 < 65536)
    (hroom : cg.relocations.length + e.operands.length ≤ 1000) :
    (∀ len, codegen_emit_instruction cg idx { e with length := len } =
      codegen_emit_instruction cg idx e) ∧
    (codegen_emit_instruction cg idx e).1 = 0 ∧
    (codegen_emit_instruction cg idx e).2.1.code_buffer =
      cg.code_buffer ++ info.opcode :: encode_operands e.operands 0 ∧
    (codegen_emit_instruction cg idx e).2.1.code_size =
      cg.code_size + 1 + (e.operands.map operand_size).sum := by
  have hsym := symbolic_operands_le e.operands
  have h0 := (codegen_emit_instruction_ok cg idx e hbuf (by rw [hinfo]; simp) (by omega)).1
  obtain ⟨hcode, _, _⟩ := codegen_emit_instruction_ordinary cg idx e info hinfo hord h0
  refine ⟨fun len => rfl, h0, hcode, ?_⟩
  have hlen : ∀ (ops : List Operand) (k : Nat),
      (encode_operands ops k).length = (ops.map operand_size).sum := by
    intro ops
    induction ops with
    | nil => intro k; rfl
    | cons o rest ih =>
      intro k
      simp only [encode_operands, List.length_append, operand_bytes_length, ih, List.map_cons,
        List.sum_cons]
  unfold CodeGen.code_size
  rw [hcode, List.length_append, List.length_cons, hlen]
  omega

theorem emitter_ignores_reserved_length_witness :
    add_wide_record.length = 3 ∧
    (codegen_emit_instruction codegen_init 0 add_wide_record).1 = 0 ∧
    (codegen_emit_instruction codegen_init 0 add_wide_record).2.1.code_buffer =
      [] ++ 0x04 :: encode_operands add_wide_record.operands 0 ∧
    (codegen_emit_instruction codegen_init 0 add_wide_record).2.1.code_size =
      0 + 1 + (add_wide_record.operands.map operand_size).sum ∧
    (add_wide_record.operands.map operand_size).sum = 4 :=
  ⟨rfl,
    (emitter_ignores_reserved_length codegen_init 0 add_wide_record
      ⟨cstr "ADD", INSTR_ADD, 0x04, 2, 0⟩ (by decide) (by rfl) (by decide) (by decide)).2.1,
    (emitter_ignores_reserved_length codegen_init 0 add_wide_record
      ⟨cstr "ADD", INSTR_ADD, 0x04, 2, 0⟩ (by decide) (by rfl) (by decide) (by decide)).2.2.1,
    (emitter_ignores_reserved_length codegen_init 0 add_wide_record
      ⟨cstr "ADD", INSTR_ADD, 0x04, 2, 0⟩ (by decide) (by rfl) (by decide) (by decide)).2.2.2,
    by decide⟩

/-- C37 fails as stated: for `ADD 0x100, 0x200` pass one reserves three bytes,
and `codegen_emit_instruction` does not fail: it returns `0` and appends the
five bytes `04 00 01 00 02`; the translation succeeds with this image. -/
theorem wide_add_emits_five_bytes :
    (∃ p, (tokenize (cstr "ADD 0x100, 0x200")).map
        (fun r => semantic_pass_one r.1) = some (.ok (some p, [])) ∧
      p.instructions = [add_wide_record]) ∧
    codegen_emit_instruction codegen_init 0 add_wide_record =
      (0, { code_buffer := [0x04, 0x00, 0x01, 0x00, 0x02], relocations := [],
            has_errors := false }, []) ∧
    assemble (cstr "ADD 0x100, 0x200") =
      .ok { exit_code := 0, errors := [], output := some [0x04, 0x00, 0x01, 0x00, 0x02] } := by
  refine ⟨⟨_, by rfl, by rfl⟩, by rfl, by rfl⟩

/-- C38, as the code has it: the defining line that pass one stores for a label
is the line of the record, which is the value of pass one's own line counter
and not the line field of a token. For every token sequence (of fewer than
65532 tokens, in which no `[` is immediately followed by an end-of-line
token) on which pass one succeeds, and every labelled record, the symbol of
the label carries the line and the address of the record, and that line is
one plus the number of `NEWLINE` and `EOF` tokens before the statement the
record was analysed from; it is the line field of the first token of the
statement when the line fields of the tokens count the end-of-line tokens in
the same way. -/
theorem label_line_is_line_counter (tokens : List Token) (p : PassOne)
    (errs : List ErrorReport) (hlen : tokens.length + 3 < 65535)
    (hns : brackets_keep_line tokens)
    (hrun : semantic_pass_one tokens = .ok (some p, errs))
    (e : InstructionEntry) (he : e ∈ p.instructions) (hl : e.has_label = true) :
    ∃ (sym : SymbolInfo) (j : Nat) (parsed : InstructionEntry) (n : Nat),
      symtab_lookup p.symtab e.label = some sym ∧ sym.line_defined = e.line ∧
      sym.address = e.address ∧ j < tokens.length ∧
      semantic_analyze_instruction tokens j = .ok (some (parsed, n)) ∧
      parsed.has_label = true ∧ parsed.label = e.label ∧
      sym.line_defined = 1 + line_ends (tokens.take j) ∧
      (lines_counted tokens → ∀ t, tokens[j]? = some t → sym.line_defined = t.line) := by
  obtain ⟨hrun1, hflag⟩ := semantic_pass_one_success hrun
  have hsym := (pass_one_run_symbols tokens p errs hrun1).2 hflag e he hl
  obtain ⟨j, parsed, n, hj, ha, hline, hlab, hhas, _, _⟩ :=
    pass_one_run_lines tokens hlen hns p errs hrun1 e he
  refine ⟨label_symbol e, j, parsed, n, hsym, rfl, rfl, hj, ha, ?_, hlab.symm, hline, ?_⟩
  · rw [← hhas]; exact hl
  · intro hcount t ht
    show e.line = t.line
    rw [hline, hcount j t ht]

theorem label_line_is_line_counter_witness :
    ∃ (sym : SymbolInfo) (j : Nat) (parsed : InstructionEntry) (n : Nat),
      symtab_lookup forward_jump_pass_one.symtab (cstr "FOO") = some sym ∧
      sym.line_defined = 2 ∧ sym.address = 3 ∧ j < forward_jump_tokens.length ∧
      semantic_analyze_instruction forward_jump_tokens j = .ok (some (parsed, n)) ∧
      parsed.has_label = true ∧ parsed.label = cstr "FOO" ∧
      sym.line_defined = 1 + line_ends (forward_jump_tokens.take j) ∧
      (lines_counted forward_jump_tokens →
        ∀ t, forward_jump_tokens[j]? = some t → sym.line_defined = t.line) :=
  label_line_is_line_counter forward_jump_tokens forward_jump_pass_one [] (by decide)
    (by
      intro i t t1 ht hty
      have hmem : t ∈ forward_jump_tokens := List.getElem?_mem ht
      have hall : ∀ x ∈ forward_jump_tokens, x.type ≠ TOK_LBRACKET := by decide
      exact absurd hty (hall t hmem))
    (by rfl)
    { address := 3, length := 3, line := 2, mnemonic := cstr "RET", operands := [],
      has_label := true, label := cstr "FOO" }
    (by decide) rfl

/-- C38 fails as stated: for the token sequence `L` `:` `RET` followed by the
end of the input, with the line field `7` in every token, pass one succeeds
and stores the defining line `1` for `L`, not the line `7` of the identifier
token. -/
theorem label_line_is_not_token_line :
    ∃ p sym, semantic_pass_one line_seven_tokens = .ok (some p, []) ∧
      line_seven_tokens[0]? =
        some { type := TOK_IDENTIFIER, lexeme := some (cstr "L"), line := 7, int_value := 0 } ∧
      symtab_lookup p.symtab (cstr "L") = some sym ∧ sym.line_defined = 1 :=
  ⟨_, _, by rfl, by rfl, by rfl, by rfl⟩

/-- C39 on the code: the source `MOV [` is lexed into three tokens, `MOV`, `[`
and the end of the input, so `token_count` is `3`. The analysis of the
statement takes the `[` at index `1` as a memory operand and reads the two
tokens after it without a test: index `2`, the end of the input, and index
`3`, which is `token_count`. The read at index `3` lies outside the token
sequence, and with it `semantic_analyze_instruction`, `semantic_pass_one` and
the translation leave defined behaviour. -/
theorem open_bracket_reads_past_end :
    tokenize (cstr "MOV [") = some (open_bracket_tokens, []) ∧
    open_bracket_tokens.length = 3 ∧
    read_token open_bracket_tokens 2 =
      .ok { type := TOK_EOF, lexeme := none, line := 1, int_value := 0 } ∧
    read_token open_bracket_tokens 3 = .error Fault.out_of_bounds ∧
    memory_operand open_bracket_tokens 1 1 [] = .error Fault.out_of_bounds ∧
    semantic_analyze_instruction open_bracket_tokens 0 = .error Fault.out_of_bounds ∧
    semantic_pass_one open_bracket_tokens = .error Fault.out_of_bounds ∧
    assemble (cstr "MOV [") = .error Fault.out_of_bounds := by
  refine ⟨by rfl, by rfl, by rfl, by rfl, by rfl, by rfl, by rfl, by rfl⟩

/-- C40, where every copy fits: for a record with at most three operands
`codegen_emit_instruction` only appends to the buffer, and at most seven
bytes, whatever it returns; so when its guard `code_size + 15 < 65536` has let
it pass, the buffer still holds fewer than 65536 bytes afterwards. Wherever
the operand loop stands, after the first `k` operands, it has written at most
seven bytes with the opcode byte, so that under the guard the next write index
is below 65536, also in a call that is given up. And for every run of pass one
on a token sequence whose identifiers fit their fields, which has at most 512
records, each with its strings inside their fields and at most three
operands, the emission loop reaches record `j` with at most `7 * j` bytes in
the buffer, so the guard of the buffer-overflow branch is false at every
record, and the buffer ends with at most 3584 bytes. In the line
`MOV A, B, N` with a name `N` of 129 letters the identifiers do not fit; and
the bound of seven bytes rests on the three operands: for a record with four
memory operands the emitter appends nine bytes. -/
theorem buffer_overflow_branch_is_dead :
    (∀ (cg : CodeGen) (idx : Nat) (e : InstructionEntry), e.operands.length ≤ 3 →
      (∃ code, (codegen_emit_instruction cg idx e).2.1.code_buffer = cg.code_buffer ++ code ∧
        code.length ≤ 7) ∧
      (cg.code_size + SEMANTIC_MAX_INSTRUCTION_LEN < CODEGEN_OUTPUT_BUFFER_SIZE →
        (codegen_emit_instruction cg idx e).2.1.code_size < CODEGEN_OUTPUT_BUFFER_SIZE)) ∧
    (∀ (cg : CodeGen) (idx : Nat) (e : InstructionEntry) (k opcode : Nat) (code : List Nat)
        (relocs : List Relocation), e.operands.length ≤ 3 →
      cg.code_size + SEMANTIC_MAX_INSTRUCTION_LEN < CODEGEN_OUTPUT_BUFFER_SIZE →
      emit_operands cg.code_size idx (e.operands.take k) 0 [opcode] cg.relocations =
        (some code, relocs) →
      code.length ≤ 7 ∧ cg.code_size + code.length + 1 < CODEGEN_OUTPUT_BUFFER_SIZE) ∧
    (∀ (tokens : List Token) (p : PassOne) (errs : List ErrorReport),
      identifiers_fit tokens → semantic_pass_one_run tokens = .ok (p, errs) →
      p.instructions.length ≤ 512 ∧
      (∀ e ∈ p.instructions, e.fits_fields ∧ e.operands.length ≤ 3) ∧
      (∀ j e, p.instructions[j]? = some e →
        (emit_state p j).code_size ≤ 7 * j ∧
        ¬ ((emit_state p j).code_size + SEMANTIC_MAX_INSTRUCTION_LEN ≥
            CODEGEN_OUTPUT_BUFFER_SIZE)) ∧
      (codegen_emit_records p).1.code_size ≤ 3584) ∧
    ¬ identifiers_fit long_operand_tokens ∧
    ¬ fits NAME_SIZE (long_name 129) ∧
    (codegen_emit_instruction codegen_init 0 four_memory_record).1 = 0 ∧
    (codegen_emit_instruction codegen_init 0 four_memory_record).2.1.code_buffer =
      [0x88, 0, 0, 0, 0, 0, 0, 0, 0] := by
  refine ⟨?_, ?_, ?_,
    not_identifiers_fit_of_long 129 1 (by omega) (by simp [long_operand_tokens]),
    by unfold fits NAME_SIZE; rw [long_name_length]; omega, by decide, by decide⟩
  · intro cg idx e hops
    obtain ⟨code, hc1, hc2⟩ := codegen_emit_instruction_grows cg idx e
    refine ⟨⟨code, hc1, by omega⟩, ?_⟩
    intro hg
    unfold SEMANTIC_MAX_INSTRUCTION_LEN CODEGEN_OUTPUT_BUFFER_SIZE at hg
    unfold CODEGEN_OUTPUT_BUFFER_SIZE
    unfold CodeGen.code_size at hg ⊢
    rw [hc1, List.length_append]
    omega
  · intro cg idx e k opcode code relocs hops hg h
    have hlen := emit_operands_prefix_length _ _ _ _ _ _ _ _ hops h
    unfold SEMANTIC_MAX_INSTRUCTION_LEN CODEGEN_OUTPUT_BUFFER_SIZE at hg
    unfold CODEGEN_OUTPUT_BUFFER_SIZE
    exact ⟨hlen, by omega⟩
  · intro tokens p errs hfit hrun
    have hcount : p.instructions.length ≤ 512 := (pass_one_run_layout tokens p errs hrun).2.2.2
    have hfields := pass_one_run_fits tokens hfit p errs hrun
    have hops : ∀ e ∈ p.instructions, e.operands.length ≤ 3 :=
      fun e he => (hfields e he).2.2.1
    refine ⟨hcount, fun e he => ⟨hfields e he, hops e he⟩, ?_, ?_⟩
    · intro j e he
      have hj : j < p.instructions.length := by
        rcases Nat.lt_or_ge j p.instructions.length with h | h
        · exact h
        · rw [List.getElem?_eq_none h] at he; cases he
      have hsz := emit_all_grows (p.instructions.take j) 0
        { code_buffer := [], relocations := [], has_errors := false } []
        (fun x hx => hops x (List.mem_of_mem_take hx))
      rw [List.length_take, Nat.min_eq_left (by omega)] at hsz
      have hsz1 : (emit_state p j).code_size ≤ 7 * j := by
        unfold emit_state
        simpa [CodeGen.code_size] using hsz
      refine ⟨hsz1, ?_⟩
      unfold SEMANTIC_MAX_INSTRUCTION_LEN CODEGEN_OUTPUT_BUFFER_SIZE
      omega
    · have hsz := emit_all_grows p.instructions 0
        { code_buffer := [], relocations := [], has_errors := false } [] hops
      have hsz1 : (codegen_emit_records p).1.code_size ≤ 7 * p.instructions.length := by
        unfold codegen_emit_records
        simpa [CodeGen.code_size] using hsz
      omega

theorem buffer_overflow_branch_is_dead_witness :
    identifiers_fit mov_ax_300_tokens ∧
    semantic_pass_one_run mov_ax_300_tokens = .ok (mov_ax_300_pass_one, []) ∧
    (emit_state mov_ax_300_pass_one 0).code_size ≤ 7 * 0 ∧
    ¬ ((emit_state mov_ax_300_pass_one 0).code_size + SEMANTIC_MAX_INSTRUCTION_LEN ≥
        CODEGEN_OUTPUT_BUFFER_SIZE) ∧
    (codegen_emit_records mov_ax_300_pass_one).1.code_size ≤ 3584 ∧
    (codegen_emit_instruction codegen_init 0 mov_ax_300_record).2.1.code_size <
      CODEGEN_OUTPUT_BUFFER_SIZE ∧
    emit_operands 0 0 (mov_ax_300_record.operands.take 1) 0 [0x88] [] = (some [0x88, 0xC0], []) ∧
    ([0x88, 0xC0] : List Nat).length ≤ 7 :=
  ⟨by decide, by rfl,
    ((buffer_overflow_branch_is_dead.2.2.1 mov_ax_300_tokens mov_ax_300_pass_one [] (by decide)
      (by rfl)).2.2.1
      0 mov_ax_300_record (by rfl)).1,
    ((buffer_overflow_branch_is_dead.2.2.1 mov_ax_300_tokens mov_ax_300_pass_one [] (by decide)
      (by rfl)).2.2.1
      0 mov_ax_300_record (by rfl)).2,
    (buffer_overflow_branch_is_dead.2.2.1 mov_ax_300_tokens mov_ax_300_pass_one [] (by decide)
      (by rfl)).2.2.2,
    (buffer_overflow_branch_is_dead.1 codegen_init 0 mov_ax_300_record (by decide)).2
      (by decide),
    by rfl,
    (buffer_overflow_branch_is_dead.2.1 codegen_init 0 mov_ax_300_record 1 0x88 [0x88, 0xC0] []
      (by decide) (by decide) (by rfl)).1⟩

end Subas
